import Mathlib

/-!
# SLQ solver (ocs2_slq, SLQ_BASE.h): shallow embedding and verified properties

Scalars (`scalar_t`, C++ `double`) are embedded as an arbitrary linearly ordered
field `α` (exact arithmetic); fixed-size Eigen matrices are Mathlib matrices over
`Fin`; `std::vector` is `List`; an exception is an `Except String` error.
-/

open Matrix

namespace SLQ

variable {α : Type} [LinearOrderedField α]

/-! ## Eigen helpers -/

/-- Eigen `v.head(k)`: the first `k` entries of a vector (Eigen requires `k ≤ m`; an
index past the end reads as 0 here). -/
def head {m : Nat} (k : Nat) (v : Fin m → α) : Fin k → α :=
  fun r => if h : r.val < m then v ⟨r.val, h⟩ else 0

/-- Eigen `A.topRows(k)`: the first `k` rows of a matrix (Eigen requires `k ≤ m`; a row
past the end reads as 0 here). -/
def topRows {m n : Nat} (k : Nat) (A : Matrix (Fin m) (Fin n) α) :
    Matrix (Fin k) (Fin n) α :=
  fun r c => if h : r.val < m then A ⟨r.val, h⟩ c else 0

/-- Eigen `A.leftCols(k) = B`: overwrite the first `k` columns of `A` with `B`. -/
def setLeftCols {m : Nat} (k : Nat) (A : Matrix (Fin m) (Fin m) α)
    (B : Matrix (Fin m) (Fin k) α) : Matrix (Fin m) (Fin m) α :=
  fun r c => if h : c.val < k then B r ⟨c.val, h⟩ else A r c

/-- Exact inverse of a square matrix (`A.inverse()`, and `A.ldlt().solve(Identity)`),
computed as adjugate over determinant. -/
def inverse {n : Nat} (A : Matrix (Fin n) (Fin n) α) : Matrix (Fin n) (Fin n) α :=
  (A.det)⁻¹ • A.adjugate

/-- Interface of `Eigen::SelfAdjointEigenSolver`: the eigenvalues and the matrix whose
columns are the eigenvectors of its argument. The solver is a library routine outside
the repository and is taken as a parameter. -/
structure SelfAdjointEigenSolver (α : Type) (n : Nat) where
  eigenvalues : Matrix (Fin n) (Fin n) α → Fin n → α
  eigenvectors : Matrix (Fin n) (Fin n) α → Matrix (Fin n) (Fin n) α

/-- The body of `makePSD` on a square matrix: clamp every negative eigenvalue to `1e-6`
and reassemble, or symmetrize when no eigenvalue is negative. -/
def makePSDSquare {n : Nat} (eig : SelfAdjointEigenSolver α n)
    (squareMatrix : Matrix (Fin n) (Fin n) α) : Bool × Matrix (Fin n) (Fin n) α :=
  let lambda0 := eig.eigenvalues squareMatrix
  let hasNegativeEigenValue := (List.finRange n).any (fun j => decide (lambda0 j < 0))
  let lambda : Fin n → α := fun j => if lambda0 j < 0 then 1 / 1000000 else lambda0 j
  if hasNegativeEigenValue then
    (true, eig.eigenvectors squareMatrix * Matrix.diagonal lambda
            * inverse (eig.eigenvectors squareMatrix))
  else
    (false, (1 / 2 : α) • (squareMatrix + squareMatrixᵀ))

/-- `SLQ_BASE::makePSD`: throws for a non-square matrix; otherwise repairs the matrix and
returns whether a negative eigenvalue was found. -/
def makePSD (eig : (n : Nat) → SelfAdjointEigenSolver α n) {r c : Nat}
    (squareMatrix : Matrix (Fin r) (Fin c) α) :
    Except String (Bool × Matrix (Fin r) (Fin c) α) :=
  if h : r = c then
    let res := makePSDSquare (eig r) (squareMatrix.submatrix id (Fin.cast h))
    .ok (res.1, res.2.submatrix id (Fin.cast h.symm))
  else
    .error "Not a square matrix: makePSD() method is for square matrix."

/-! ## Settings and LQ data -/

/-- The fields of `SLQ_Settings` read by the embedded functions. -/
structure SLQ_Settings (α : Type) where
  useMakePSD_ : Bool
  useRiccatiSolver_ : Bool
  checkNumericalStability_ : Bool
  stateConstraintPenaltyCoeff_ : α
  stateConstraintPenaltyBase_ : α
  maxNumIterationsSLQ_ : Nat
  minRelCostGSLQP_ : α
  minAbsConstraint1ISE_ : α
  minRelConstraint1ISE_ : α
  constraintStepSize_ : α
  noStateConstraints_ : Bool

/-- What the dynamics-derivative, constraint and cost objects return at one sample
(time, state, input); `n = STATE_DIM`, `m = INPUT_DIM`. -/
structure ModelEvaluation (α : Type) (n m : Nat) where
  flowMapDerivativeState : Matrix (Fin n) (Fin n) α
  flowMapDerivativeInput : Matrix (Fin n) (Fin m) α
  numStateInputConstraint : Nat
  constraint1 : Fin m → α
  constraint1DerivativesState : Matrix (Fin m) (Fin n) α
  constraint1DerivativesControl : Matrix (Fin m) (Fin m) α
  numStateOnlyConstraint : Nat
  constraint2 : Fin m → α
  constraint2DerivativesState : Matrix (Fin m) (Fin n) α
  intermediateCost : α
  intermediateCostDerivativeState : Fin n → α
  intermediateCostSecondDerivativeState : Matrix (Fin n) (Fin n) α
  intermediateCostDerivativeInput : Fin m → α
  intermediateCostSecondDerivativeInput : Matrix (Fin m) (Fin m) α
  intermediateCostDerivativeInputState : Matrix (Fin m) (Fin n) α
  numStateOnlyFinalConstraint : Nat
  finalConstraint2 : Fin m → α
  finalConstraint2DerivativesState : Matrix (Fin m) (Fin n) α
  terminalCost : α
  terminalCostDerivativeState : Fin n → α
  terminalCostSecondDerivativeState : Matrix (Fin n) (Fin n) α

/-- The entries `[i][k]` of the per-sample stocks written by `approximateLQWorker`. -/
structure LQSample (α : Type) (n m : Nat) where
  Am : Matrix (Fin n) (Fin n) α
  Bm : Matrix (Fin n) (Fin m) α
  nc1 : Nat
  Ev : Fin m → α
  Cm : Matrix (Fin m) (Fin n) α
  Dm : Matrix (Fin m) (Fin m) α
  nc2 : Nat
  Hv : Fin m → α
  Fm : Matrix (Fin m) (Fin n) α
  q : α
  Qv : Fin n → α
  Qm : Matrix (Fin n) (Fin n) α
  Rv : Fin m → α
  Rm : Matrix (Fin m) (Fin m) α
  RmInverse : Matrix (Fin m) (Fin m) α
  Pm : Matrix (Fin m) (Fin n) α
  DmDager : Matrix (Fin m) (Fin m) α
  EvProjected : Fin m → α
  CmProjected : Matrix (Fin m) (Fin n) α
  DmProjected : Matrix (Fin m) (Fin m) α
  AmConstrained : Matrix (Fin n) (Fin n) α
  QmConstrained : Matrix (Fin n) (Fin n) α
  QvConstrained : Fin n → α
  RmConstrained : Matrix (Fin m) (Fin m) α
  BmConstrained : Matrix (Fin n) (Fin m) α
  PmConstrained : Matrix (Fin m) (Fin n) α
  RvConstrained : Fin m → α

/-- The entries `[i][ke]` of the per-event stocks written by `approximateLQWorker`. -/
structure LQFinal (α : Type) (n m : Nat) where
  nc2Final : Nat
  HvFinal : Fin m → α
  FmFinal : Matrix (Fin m) (Fin n) α
  qFinal : α
  QvFinal : Fin n → α
  QmFinal : Matrix (Fin n) (Fin n) α

/-- The penalty weight `stateConstraintPenaltyCoeff_ * pow(stateConstraintPenaltyBase_, iteration_)`. -/
def stateConstraintPenalty (settings : SLQ_Settings α) (iteration_ : Nat) : α :=
  settings.stateConstraintPenaltyCoeff_ * settings.stateConstraintPenaltyBase_ ^ iteration_

/-- Lines 1057-1119 of `approximateLQWorker` without the two range checks: linearised
dynamics, constraint counts and values, and the quadratic cost approximation. A getter that
is not called (its count is zero) leaves the old stock entry in place. -/
def approximateLQWorker_evaluate {n m : Nat} (d : ModelEvaluation α n m) (s : LQSample α n m) :
    LQSample α n m :=
  -- linearize system dynamics
  let s := { s with Am := d.flowMapDerivativeState, Bm := d.flowMapDerivativeInput }
  -- constraint type 1
  let s := { s with nc1 := d.numStateInputConstraint }
  let s := { s with
    Ev := if s.nc1 > 0 then d.constraint1 else s.Ev,
    Cm := if s.nc1 > 0 then d.constraint1DerivativesState else s.Cm,
    Dm := if s.nc1 > 0 then d.constraint1DerivativesControl else s.Dm }
  -- constraint type 2
  let s := { s with nc2 := d.numStateOnlyConstraint }
  let s := { s with
    Hv := if s.nc2 > 0 then d.constraint2 else s.Hv,
    Fm := if s.nc2 > 0 then d.constraint2DerivativesState else s.Fm }
  -- quadratic approximation to the cost function
  { s with q := d.intermediateCost, Qv := d.intermediateCostDerivativeState,
           Qm := d.intermediateCostSecondDerivativeState,
           Rv := d.intermediateCostDerivativeInput,
           Rm := d.intermediateCostSecondDerivativeInput,
           RmInverse := inverse d.intermediateCostSecondDerivativeInput,
           Pm := d.intermediateCostDerivativeInputState }

/-- Lines 1125-1133 of `approximateLQWorker`: the type-2 penalty on `q`, `Qv`, `Qm`. -/
def approximateLQWorker_penalty {n m : Nat} (settings : SLQ_Settings α) (iteration_ : Nat)
    (s : LQSample α n m) : LQSample α n m :=
  let stateConstraintPenalty := stateConstraintPenalty settings iteration_
  let nc2 := s.nc2
  if nc2 > 0 then
    { s with
      q := s.q + 1 / 2 * stateConstraintPenalty
            * Matrix.dotProduct (head nc2 s.Hv) (head nc2 s.Hv),
      Qv := s.Qv + stateConstraintPenalty
            • (Matrix.mulVec (topRows nc2 s.Fm)ᵀ (head nc2 s.Hv)),
      Qm := s.Qm + stateConstraintPenalty
            • ((topRows nc2 s.Fm)ᵀ * topRows nc2 s.Fm) }
  else s

/-- Lines 1135-1192 of `approximateLQWorker`: the type-1 projection. The rank check of the
source only prints a warning. -/
def approximateLQWorker_projection {n m : Nat} (settings : SLQ_Settings α)
    (s : LQSample α n m) : LQSample α n m :=
  let nc1 := s.nc1
  if nc1 = 0 then
    let s := { s with DmDager := 0, EvProjected := 0, CmProjected := 0, DmProjected := 0 }
    let s := { s with AmConstrained := s.Am, QmConstrained := s.Qm, QvConstrained := s.Qv }
    if settings.useRiccatiSolver_ = true then
      { s with RmConstrained := s.Rm }
    else
      { s with BmConstrained := s.Bm, PmConstrained := s.Pm, RvConstrained := s.Rv }
  else
    let Cm := topRows nc1 s.Cm
    let Dm := topRows nc1 s.Dm
    let Ev := head nc1 s.Ev
    let RmProjected := inverse (Dm * s.RmInverse * Dmᵀ)
    let DmDager := s.RmInverse * Dmᵀ * RmProjected
    let s := { s with DmDager := setLeftCols nc1 s.DmDager DmDager,
                      EvProjected := Matrix.mulVec DmDager Ev,
                      CmProjected := DmDager * Cm,
                      DmProjected := DmDager * Dm }
    let DmNullSpaceProjection : Matrix (Fin m) (Fin m) α := 1 - s.DmProjected
    let PmTransDmDagerCm := s.Pmᵀ * s.CmProjected
    let s := { s with AmConstrained := s.Am - s.Bm * s.CmProjected,
                      QmConstrained :=
                        s.Qm + Cmᵀ * RmProjected * Cm - PmTransDmDagerCm - PmTransDmDagerCmᵀ,
                      QvConstrained := s.Qv - Matrix.mulVec s.CmProjectedᵀ s.Rv }
    if settings.useRiccatiSolver_ = true then
      { s with RmConstrained := DmNullSpaceProjectionᵀ * s.Rm * DmNullSpaceProjection }
    else
      { s with BmConstrained := s.Bm * DmNullSpaceProjection,
               PmConstrained := DmNullSpaceProjectionᵀ * s.Pm,
               RvConstrained := Matrix.mulVec DmNullSpaceProjectionᵀ s.Rv }

/-- Lines 1206-1232 of `approximateLQWorker` for the event entry `ke`, without the range
check: final type-2 constraint, terminal cost and the type-2 penalty. -/
def approximateLQWorker_event {n m : Nat} (settings : SLQ_Settings α) (iteration_ : Nat)
    (d : ModelEvaluation α n m) (f : LQFinal α n m) : LQFinal α n m :=
  let stateConstraintPenalty := stateConstraintPenalty settings iteration_
  let f := { f with nc2Final := d.numStateOnlyFinalConstraint }
  -- if final constraint type 2 is active
  let f := { f with
    HvFinal := if f.nc2Final > 0 then d.finalConstraint2 else f.HvFinal,
    FmFinal := if f.nc2Final > 0 then d.finalConstraint2DerivativesState else f.FmFinal }
  -- final cost
  let f := { f with qFinal := d.terminalCost, QvFinal := d.terminalCostDerivativeState,
                    QmFinal := d.terminalCostSecondDerivativeState }
  -- final constraint type 2 coefficients
  let nc2 := f.nc2Final
  if nc2 > 0 then
    { f with
      qFinal := f.qFinal + 1 / 2 * stateConstraintPenalty
                  * Matrix.dotProduct (head nc2 f.HvFinal) (head nc2 f.HvFinal),
      QvFinal := f.QvFinal + stateConstraintPenalty
                  • (Matrix.mulVec (topRows nc2 f.FmFinal)ᵀ (head nc2 f.HvFinal)),
      QmFinal := f.QmFinal + stateConstraintPenalty
                  • ((topRows nc2 f.FmFinal)ᵀ * topRows nc2 f.FmFinal) }
  else f

/-- Lines 1194-1196 of `approximateLQWorker`: the optional PSD repair of `QmConstrained`. -/
def approximateLQWorker_repair {n m : Nat} (eig : (n : Nat) → SelfAdjointEigenSolver α n)
    (settings : SLQ_Settings α) (s : LQSample α n m) : Except String (LQSample α n m) :=
  if settings.useMakePSD_ = true then
    (makePSD eig s.QmConstrained).map (fun res => { s with QmConstrained := res.2 })
  else .ok s

/-- Lines 1198-1240 of `approximateLQWorker`: the loop over the event markers of the
partition. Only the first event `ke` with marker `k+1` is processed (the `break` of the
source); `fs` is the partition's per-event stock. -/
def approximateLQWorker_events {n m : Nat} (eig : (n : Nat) → SelfAdjointEigenSolver α n)
    (settings : SLQ_Settings α) (iteration_ : Nat)
    (nominalEventsPastTheEndIndeces : List Nat) (k : Nat)
    (d : ModelEvaluation α n m) (fs : List (LQFinal α n m)) :
    Except String (List (LQFinal α n m)) :=
  match nominalEventsPastTheEndIndeces.findIdx? (fun e => e == k + 1) with
  | none => .ok fs
  | some ke =>
    match fs[ke]? with
    | none => .error "event stock index out of range"
    | some f =>
      if d.numStateOnlyFinalConstraint > m then
        .error "Number of active final type-2 constraints should be less-equal to the number of input dimension."
      else
        let f := approximateLQWorker_event settings iteration_ d f
        -- making sure that Qm remains PSD
        if settings.useMakePSD_ = true then
          (makePSD eig f.QmFinal).map (fun res => fs.set ke { f with QmFinal := res.2 })
        else .ok (fs.set ke f)

/-- `SLQ_BASE::approximateLQWorker` at sample `k` of a partition whose event markers are
`nominalEventsPastTheEndIndeces`: `d` is what the model objects return at the sample, `s` the
sample's stock entry, `fs` the partition's per-event stock. -/
def approximateLQWorker {n m : Nat} (eig : (n : Nat) → SelfAdjointEigenSolver α n)
    (settings : SLQ_Settings α) (iteration_ : Nat)
    (nominalEventsPastTheEndIndeces : List Nat) (k : Nat)
    (d : ModelEvaluation α n m) (s : LQSample α n m) (fs : List (LQFinal α n m)) :
    Except String (LQSample α n m × List (LQFinal α n m)) :=
  if d.numStateInputConstraint > m then
    .error "Number of active type-1 constraints should be less-equal to the number of input dimension."
  else if d.numStateOnlyConstraint > m then
    .error "Number of active type-2 constraints should be less-equal to the number of input dimension."
  else
    let s := approximateLQWorker_evaluate d s
    let s := approximateLQWorker_penalty settings iteration_ s
    let s := approximateLQWorker_projection settings s
    (approximateLQWorker_repair eig settings s).bind fun s =>
    (approximateLQWorker_events eig settings iteration_ nominalEventsPastTheEndIndeces k d fs).bind
      fun fs => .ok (s, fs)

/-- An eigen-solver that is exact on diagonal matrices: the eigenvalues are the diagonal
entries and the eigenvectors the unit vectors. It is used to evaluate the code on concrete
diagonal inputs. -/
def diagonalEigenSolver (n : Nat) : SelfAdjointEigenSolver α n :=
  ⟨fun M j => M j j, fun _ => 1⟩

/-! ## The type-2 penalty as the specification words it

`rho = penaltyCoeff * penaltyBase ^ iteration`, `H` the residual, `F` its Jacobian, and only
the first `nc2` entries (rows) are active. -/

/-- Specification: the increment `1/2 * rho * H^T H` of the cost value. -/
def spec_penaltyValue {m : Nat} (rho : α) (nc2 : Nat) (H : Fin m → α) : α :=
  1 / 2 * rho * ∑ j : Fin m, if j.val < nc2 then H j * H j else 0

/-- Specification: the increment `rho * F^T H` of the cost gradient. -/
def spec_penaltyGradient {n m : Nat} (rho : α) (nc2 : Nat) (F : Matrix (Fin m) (Fin n) α)
    (H : Fin m → α) : Fin n → α :=
  fun a => rho * ∑ j : Fin m, if j.val < nc2 then F j a * H j else 0

/-- Specification: the increment `rho * F^T F` of the cost Hessian. -/
def spec_penaltyHessian {n m : Nat} (rho : α) (nc2 : Nat) (F : Matrix (Fin m) (Fin n) α) :
    Matrix (Fin n) (Fin n) α :=
  fun a b => rho * ∑ j : Fin m, if j.val < nc2 then F j a * F j b else 0

/-! ## Concrete inputs used to evaluate `approximateLQWorker` -/

/-- A model evaluation whose every output is zero. -/
def zeroModel (α : Type) [LinearOrderedField α] (n m : Nat) : ModelEvaluation α n m :=
  ⟨0, 0, 0, 0, 0, 0, 0, 0, 0, 0, 0, 0, 0, 0, 0, 0, 0, 0, 0, 0, 0⟩

/-- A sample stock entry filled with zeros. -/
def zeroSample (α : Type) [LinearOrderedField α] (n m : Nat) : LQSample α n m :=
  ⟨0, 0, 0, 0, 0, 0, 0, 0, 0, 0, 0, 0, 0, 0, 0, 0, 0, 0, 0, 0, 0, 0, 0, 0, 0, 0, 0⟩

/-- An event stock entry filled with zeros. -/
def zeroFinal (α : Type) [LinearOrderedField α] (n m : Nat) : LQFinal α n m :=
  ⟨0, 0, 0, 0, 0, 0⟩

/-- Settings with the PSD repair switched on, the Riccati solver in use, and penalty
weight `coeff * base ^ iteration = 2 * 3 ^ iteration`. -/
def psdSettings : SLQ_Settings ℚ :=
  { useMakePSD_ := true, useRiccatiSolver_ := true, checkNumericalStability_ := false,
    stateConstraintPenaltyCoeff_ := 2, stateConstraintPenaltyBase_ := 3,
    maxNumIterationsSLQ_ := 10, minRelCostGSLQP_ := 1 / 1000,
    minAbsConstraint1ISE_ := 1 / 1000, minRelConstraint1ISE_ := 1 / 1000,
    constraintStepSize_ := 1, noStateConstraints_ := false }

/-- A one-state, one-input sample without active constraints whose state-cost Hessian is
the indefinite `[-1]`. -/
def indefiniteModel : ModelEvaluation ℚ 1 1 :=
  { zeroModel ℚ 1 1 with
    intermediateCostSecondDerivativeState := fun _ _ => -1,
    intermediateCostSecondDerivativeInput := fun _ _ => 1 }

/-- A one-state, one-input sample with one active type-2 constraint: residual `H = [2]`,
Jacobian `F = [3]`, and zero cost. -/
def penaltyModel : ModelEvaluation ℚ 1 1 :=
  { zeroModel ℚ 1 1 with
    numStateOnlyConstraint := 1,
    constraint2 := fun _ => 2,
    constraint2DerivativesState := fun _ _ => 3,
    intermediateCostSecondDerivativeInput := fun _ _ => 1 }

/-- The symmetric indefinite matrix `diag(-1, 2)`. -/
def indefiniteDiagonal : Matrix (Fin 2) (Fin 2) ℚ :=
  Matrix.diagonal (fun j => if j = 0 then -1 else 2)

/-! ## Controllers and `rewindOptimizer` -/

/-- `controller_t`: time stamps, feedback gains, feedforward inputs and feedforward
increments of one partition. -/
structure Controller (α : Type) (n m : Nat) where
  time_ : List α
  k_ : List (Matrix (Fin m) (Fin n) α)
  uff_ : List (Fin m → α)
  deltaUff_ : List (Fin m → α)

/-- `controller_t::clear()`: the controller with no samples. -/
def Controller.clear {n m : Nat} : Controller α n m := ⟨[], [], [], []⟩

/-- `controller_t::empty()`: no time stamp is stored. -/
def Controller.empty {n m : Nat} (c : Controller α n m) : Bool := c.time_.isEmpty

/-- The members of `SLQ_BASE` that `rewindOptimizer` reads and writes. -/
structure RewindState (α : Type) (n m : Nat) where
  numPartitions_ : Nat
  rewindCounter_ : Nat
  nominalControllersStock_ : List (Controller α n m)
  SmFinalStock_ : List (Matrix (Fin n) (Fin n) α)
  SvFinalStock_ : List (Fin n → α)
  SveFinalStock_ : List (Fin n → α)
  sFinalStock_ : List α
  xFinalStock_ : List (Fin n → α)

/-- `stock[i].swap(stock[j])` on a `std::vector` (an index past the end leaves it as is). -/
def swapAt {β : Type} (l : List β) (i j : Nat) : List β :=
  match l[i]?, l[j]? with
  | some a, some b => (l.set i b).set j a
  | _, _ => l

/-- `stock[i] = stock[j]` on a `std::vector` (an index past the end leaves it as is). -/
def assignAt {β : Type} (l : List β) (i j : Nat) : List β :=
  match l[j]? with
  | some b => l.set i b
  | none => l

/-- The body of the loop of `rewindOptimizer` for partition `i`. -/
def rewindOptimizer_step {n m : Nat} (firstIndex preservedLength : Nat)
    (st : RewindState α n m) (i : Nat) : RewindState α n m :=
  if i < preservedLength then
    { st with
      nominalControllersStock_ := swapAt st.nominalControllersStock_ i (firstIndex + i),
      SmFinalStock_ := assignAt st.SmFinalStock_ i (firstIndex + i),
      SvFinalStock_ := assignAt st.SvFinalStock_ i (firstIndex + i),
      SveFinalStock_ := assignAt st.SveFinalStock_ i (firstIndex + i),
      sFinalStock_ := assignAt st.sFinalStock_ i (firstIndex + i),
      xFinalStock_ := assignAt st.xFinalStock_ i (firstIndex + i) }
  else
    { st with
      nominalControllersStock_ := st.nominalControllersStock_.set i Controller.clear,
      SmFinalStock_ := st.SmFinalStock_.set i 0,
      SvFinalStock_ := st.SvFinalStock_.set i 0,
      SveFinalStock_ := st.SveFinalStock_.set i 0,
      sFinalStock_ := st.sFinalStock_.set i 0,
      xFinalStock_ := st.xFinalStock_.set i 0 }

/-- `SLQ_BASE::rewindOptimizer`. The counter `rewindCounter_` is an `unsigned long long`. -/
def rewindOptimizer {n m : Nat} (firstIndex : Nat) (st : RewindState α n m) :
    Except String (RewindState α n m) :=
  -- No rewind is needed
  if firstIndex = 0 then .ok st
  else
    let st := { st with rewindCounter_ := (st.rewindCounter_ + firstIndex) % 2 ^ 64 }
    if firstIndex > st.numPartitions_ then
      .error "Index for rewinding is greater than the current size."
    else
      let preservedLength := st.numPartitions_ - firstIndex
      .ok ((List.range st.numPartitions_).foldl
            (rewindOptimizer_step firstIndex preservedLength) st)

/-! ## The main loop of `run` -/

/-- The performance members that `runInit` or one `runIteration` leaves behind. Both
routines are taken as given through these values. -/
structure Performance (α : Type) where
  nominalTotalCost_ : α
  nominalConstraint1ISE_ : α
  nominalConstraint2ISE_ : α
  learningRateStar_ : α

/-- The members and locals that the main loop of `run` reads and writes. -/
structure RunState (α : Type) where
  iteration_ : Nat
  nominalTotalCost_ : α
  nominalConstraint1ISE_ : α
  nominalConstraint2ISE_ : α
  learningRateStar_ : α
  iterationCost_ : List α
  iterationISE1_ : List α
  iterationISE2_ : List α
  relCost : α
  relConstraint1ISE : α
  isLearningRateStarZero : Bool
  isCostFunctionConverged : Bool
  isConstraint1Satisfied : Bool
  isOptimizationConverged : Bool
  isInitInternalControllerEmpty : Bool

/-- Lines 3305-3352 of `run`: the state in which the main loop is entered.
`nominalControllersStock_` is the controller stock after truncation, `outcome 0` what
`runInit` leaves in the members. The locals `relCost` and `relConstraint1ISE` are
uninitialised in the source; they are written before they are read and start as 0 here. -/
def run_init {n m : Nat} (nominalControllersStock_ : List (Controller α n m))
    (outcome : Nat → Performance α) : RunState α :=
  -- check if after the truncation the internal controller is empty
  let isInitInternalControllerEmpty :=
    nominalControllersStock_.foldl (fun b controller => b || controller.empty) false
  { iteration_ := 0,
    nominalTotalCost_ := (outcome 0).nominalTotalCost_,
    nominalConstraint1ISE_ := (outcome 0).nominalConstraint1ISE_,
    nominalConstraint2ISE_ := (outcome 0).nominalConstraint2ISE_,
    learningRateStar_ := (outcome 0).learningRateStar_,
    iterationCost_ := [(outcome 0).nominalTotalCost_],
    iterationISE1_ := [(outcome 0).nominalConstraint1ISE_],
    iterationISE2_ := [(outcome 0).nominalConstraint2ISE_],
    relCost := 0,
    relConstraint1ISE := 0,
    isLearningRateStarZero := false,
    isCostFunctionConverged := false,
    isConstraint1Satisfied := false,
    isOptimizationConverged := false,
    isInitInternalControllerEmpty := isInitInternalControllerEmpty }

/-- Lines 3357-3380 of `run`: one pass of the main loop. `outcome j` is what the call of
`runIteration` made with `iteration_ = j` leaves in the members. -/
def run_body (settings : SLQ_Settings α) (outcome : Nat → Performance α)
    (st : RunState α) : RunState α :=
  -- increment iteration counter
  let iteration_ := st.iteration_ + 1
  let costCashed := st.nominalTotalCost_
  let constraint1ISECashed := st.nominalConstraint1ISE_
  -- run the an iteration of the SLQ algorithm and update the member variables
  let p := outcome iteration_
  -- loop break variables
  let relCost := abs (p.nominalTotalCost_ - costCashed)
  let relConstraint1ISE := abs (p.nominalConstraint1ISE_ - constraint1ISECashed)
  let isConstraint1Satisfied :=
    decide (p.nominalConstraint1ISE_ ≤ settings.minAbsConstraint1ISE_)
      || decide (relConstraint1ISE ≤ settings.minRelConstraint1ISE_)
  let isLearningRateStarZero :=
    decide (p.learningRateStar_ = 0) && !st.isInitInternalControllerEmpty
  let isCostFunctionConverged :=
    decide (relCost ≤ settings.minRelCostGSLQP_) || isLearningRateStarZero
  let isOptimizationConverged :=
    (isCostFunctionConverged == true) && (isConstraint1Satisfied == true)
  { iteration_ := iteration_,
    nominalTotalCost_ := p.nominalTotalCost_,
    nominalConstraint1ISE_ := p.nominalConstraint1ISE_,
    nominalConstraint2ISE_ := p.nominalConstraint2ISE_,
    learningRateStar_ := p.learningRateStar_,
    iterationCost_ := st.iterationCost_ ++ [p.nominalTotalCost_],
    iterationISE1_ := st.iterationISE1_ ++ [p.nominalConstraint1ISE_],
    iterationISE2_ := st.iterationISE2_ ++ [p.nominalConstraint2ISE_],
    relCost := relCost,
    relConstraint1ISE := relConstraint1ISE,
    isLearningRateStarZero := isLearningRateStarZero,
    isCostFunctionConverged := isCostFunctionConverged,
    isConstraint1Satisfied := isConstraint1Satisfied,
    isOptimizationConverged := isOptimizationConverged,
    isInitInternalControllerEmpty := false }

/-- The `while` loop of `run` (lines 3355-3382), unrolled at most `fuel` times. -/
def run_while (settings : SLQ_Settings α) (outcome : Nat → Performance α) :
    Nat → RunState α → RunState α
  | 0, st => st
  | fuel + 1, st =>
    if st.iteration_ + 1 < settings.maxNumIterationsSLQ_ ∧ st.isOptimizationConverged = false then
      run_while settings outcome fuel (run_body settings outcome st)
    else st

/-- The part of `run` from line 3305 to the end of the main loop. The loop makes fewer than
`maxNumIterationsSLQ_` passes, so that many unrollings are enough. -/
def run_loop {n m : Nat} (settings : SLQ_Settings α)
    (nominalControllersStock_ : List (Controller α n m))
    (outcome : Nat → Performance α) : RunState α :=
  run_while settings outcome settings.maxNumIterationsSLQ_
    (run_init nominalControllersStock_ outcome)

/-- `SLQ_BASE::getNumIterations`. -/
def getNumIterations (st : RunState α) : Nat := st.iteration_

/-! ## `calculateConstraintISE` -/

/-- The running values of `calculateConstraintISE`. -/
structure ISEState (α : Type) where
  constraintISE : α
  maxConstraintNorm : α
  currentSquaredNormError : α
  nextSquaredNormError : α

/-- The expression `nc > 0 ? Ev.head(nc).squaredNorm() : 0.0` of `calculateConstraintISE`. -/
def squaredNormError {m : Nat} (nc : Nat) (Ev : Fin m → α) : α :=
  if nc > 0 then Matrix.dotProduct (head nc Ev) (head nc Ev) else 0

/-- The body of the inner loop of `calculateConstraintISE` for sample `k` of a partition
with time stamps `time`, active-constraint counts `nc` and residuals `Ev`. -/
def calculateConstraintISE_body {m : Nat} (time : List α) (nc : List Nat)
    (Ev : List (Fin m → α)) (st : ISEState α) (k : Nat) : ISEState α :=
  let currentSquaredNormError :=
    if k = 0 then squaredNormError (nc.getD 0 0) (Ev.getD 0 0)
    else st.nextSquaredNormError
  let maxConstraintNorm :=
    if st.maxConstraintNorm < currentSquaredNormError then currentSquaredNormError
    else st.maxConstraintNorm
  let nextSquaredNormError := squaredNormError (nc.getD (k + 1) 0) (Ev.getD (k + 1) 0)
  { constraintISE := st.constraintISE
      + 1 / 2 * (currentSquaredNormError + nextSquaredNormError)
          * (time.getD (k + 1) 0 - time.getD k 0),
    maxConstraintNorm := maxConstraintNorm,
    currentSquaredNormError := currentSquaredNormError,
    nextSquaredNormError := nextSquaredNormError }

/-- The body of the outer loop of `calculateConstraintISE` for one partition: the inner
loop runs over every `k` with `k + 1 < time.size()`. -/
def calculateConstraintISE_partition {m : Nat} (time : List α) (nc : List Nat)
    (Ev : List (Fin m → α)) (st : ISEState α) : ISEState α :=
  let st := { st with currentSquaredNormError := 0, nextSquaredNormError := 0 }
  (List.range (time.length - 1)).foldl (calculateConstraintISE_body time nc Ev) st

/-- `SLQ_BASE::calculateConstraintISE`: returns the pair of the returned value
`sqrt(maxConstraintNorm)` and the output argument `constraintISE`. The square root is the
library function and is taken as a parameter. -/
def calculateConstraintISE {m : Nat} (sqrt : α → α) (numPartitions_ : Nat)
    (timeTrajectoriesStock : List (List α)) (nc1TrajectoriesStock : List (List Nat))
    (EvTrajectoriesStock : List (List (Fin m → α))) : α × α :=
  let st := (List.range numPartitions_).foldl
    (fun st i => calculateConstraintISE_partition (timeTrajectoriesStock.getD i [])
      (nc1TrajectoriesStock.getD i []) (EvTrajectoriesStock.getD i []) st)
    (⟨0, 0, 0, 0⟩ : ISEState α)
  (sqrt st.maxConstraintNorm, st.constraintISE)

/-! ## The constraint ISE as the specification words it -/

/-- Specification: the squared Euclidean norm of the first `nc` entries of a residual. -/
def spec_squaredNorm {m : Nat} (nc : Nat) (Ev : Fin m → α) : α :=
  ∑ j : Fin m, if j.val < nc then Ev j * Ev j else 0

/-- Specification: the trapezoidal integral of the squared residual norm over one
partition; a partition with fewer than two samples has no term. -/
def spec_partitionISE {m : Nat} (time : List α) (nc : List Nat) (Ev : List (Fin m → α)) : α :=
  ∑ k in Finset.range (time.length - 1),
    1 / 2 * (spec_squaredNorm (nc.getD k 0) (Ev.getD k 0)
              + spec_squaredNorm (nc.getD (k + 1) 0) (Ev.getD (k + 1) 0))
      * (time.getD (k + 1) 0 - time.getD k 0)

/-- Specification: the constraint ISE, the sum of the partitions' integrals. -/
def spec_constraintISE {m : Nat} (numPartitions_ : Nat)
    (timeTrajectoriesStock : List (List α)) (nc1TrajectoriesStock : List (List Nat))
    (EvTrajectoriesStock : List (List (Fin m → α))) : α :=
  ∑ i in Finset.range numPartitions_,
    spec_partitionISE (timeTrajectoriesStock.getD i []) (nc1TrajectoriesStock.getD i [])
      (EvTrajectoriesStock.getD i [])

/-! ## The state-triggered rollout of one partition -/

/-- What one call `integrate(x0, t0, finalTime, stateTrajectory, timeTrajectory, ...)` of the
event-detecting integrator does: the samples it appends, and the event id it throws when a
guard surface is crossed (`none` when it runs to the end). -/
structure IntegratorResult (α X : Type) where
  states : List X
  times : List α
  eventID : Option Nat

/-- The objects outside the repository that `rolloutStateTriggeredWorker` calls: the
integrator with its event handler (whose internal state is `σ`), the dynamics' jump map,
input and guard surfaces, and the constant `week_epsilon`. -/
structure StateTriggeredModel (α X U σ : Type) where
  setController : σ → Nat → Option α → List α → σ
  integrate : σ → X → α → α → σ × IntegratorResult α X
  computeJumpMap : α → X → X
  computeInput : α → X → U
  computeGuardSurfaces : α → X → List α
  getGuardSurfacesValues : σ → List α
  week_epsilon : α

/-- The variables of `rolloutStateTriggeredWorker`, with the record of the calls made to the
jump map, to the integrator and to the logic machine's `push_back`. -/
structure StateTriggeredRun (α X U σ : Type) where
  sigma : σ
  t0 : α
  x0 : X
  timeTrajectory : List α
  stateTrajectory : List X
  inputTrajectory : List U
  eventsPastTheEndIndeces : List Nat
  eventTimes : List α
  subsystemID : List Nat
  guardSurfacesValues : List α
  hybridLlogicRulesMachine : List (Nat × α × Nat)
  computeJumpMapCalls : List (α × X)
  integrateCalls : List (X × α × α)

/-- Lines 282-291 of `rolloutStateTriggeredWorker`: the initially active subsystem is the
last guard surface with a negative value, or 0. -/
def initialActiveSubsystem (initGuardSurfacesValue : List α) : Nat :=
  (List.range initGuardSurfacesValue.length).foldl
    (fun activeSubsystem i =>
      if initGuardSurfacesValue.getD i 0 < 0 then i else activeSubsystem) 0

/-- One pass of the `while` loop of `rolloutStateTriggeredWorker` (lines 298-316): integrate,
and on a thrown event id record the marker, apply the jump map and record the event. `back()`
of an empty trajectory is undefined in the source and is an error here. -/
def rolloutStateTriggeredWorker_pass {X U σ : Type} (M : StateTriggeredModel α X U σ)
    (partitionIndex : Nat) (finalTime : α) (st : StateTriggeredRun α X U σ) :
    Except String (StateTriggeredRun α X U σ) :=
  -- integrate controlled system
  let res := M.integrate st.sigma st.x0 st.t0 finalTime
  let stateTrajectory := st.stateTrajectory ++ res.2.states
  let timeTrajectory := st.timeTrajectory ++ res.2.times
  let st := { st with sigma := res.1, stateTrajectory := stateTrajectory,
                      timeTrajectory := timeTrajectory,
                      integrateCalls := st.integrateCalls ++ [(st.x0, st.t0, finalTime)] }
  match timeTrajectory.getLast?, stateTrajectory.getLast? with
  | some tBack, some xBack =>
    match res.2.eventID with
    | some eventID =>
      .ok { st with
        eventsPastTheEndIndeces := st.eventsPastTheEndIndeces ++ [timeTrajectory.length],
        x0 := M.computeJumpMap tBack xBack,
        computeJumpMapCalls := st.computeJumpMapCalls ++ [(tBack, xBack)],
        eventTimes := st.eventTimes ++ [tBack],
        subsystemID := st.subsystemID ++ [eventID],
        hybridLlogicRulesMachine := st.hybridLlogicRulesMachine ++ [(partitionIndex, tBack, eventID)],
        t0 := tBack }
    | none => .ok { st with t0 := tBack }
  | _, _ => .error "back() of an empty trajectory"

/-- The `while` loop of `rolloutStateTriggeredWorker` (line 296), unrolled at most `fuel`
times; running out of unrollings is an error. -/
def rolloutStateTriggeredWorker_while {X U σ : Type} (M : StateTriggeredModel α X U σ)
    (partitionIndex : Nat) (finalTime : α) :
    Nat → StateTriggeredRun α X U σ → Except String (StateTriggeredRun α X U σ)
  | 0, st =>
    if st.t0 < finalTime - M.week_epsilon then .error "out of fuel" else .ok st
  | fuel + 1, st =>
    if st.t0 < finalTime - M.week_epsilon then
      (rolloutStateTriggeredWorker_pass M partitionIndex finalTime st).bind
        (rolloutStateTriggeredWorker_while M partitionIndex finalTime fuel)
    else .ok st

/-- `SLQ_BASE::rolloutStateTriggeredWorker`. The result holds the output trajectories, the
updated `eventTimes`, `subsystemID`, `guardSurfacesValues` and logic machine, and the
returned state `stateTrajectory.back()`. -/
def rolloutStateTriggeredWorker {X U σ : Type} (M : StateTriggeredModel α X U σ) (fuel : Nat)
    (sigma : σ) (partitionIndex : Nat) (initTime : α) (initState : X) (finalTime : α)
    (controllerEmpty : Bool) (eventTimes : List α) (subsystemID : List Nat)
    (guardSurfacesValues : List α) (hybridLlogicRulesMachine : List (Nat × α × Nat)) :
    Except String (X × StateTriggeredRun α X U σ) :=
  if initTime > finalTime then
    .error "Initial time should be less-equal to final time."
  else if eventTimes.isEmpty = false ∧ guardSurfacesValues.isEmpty = true then
    .error "Since the event times array is not empty, the last update of the guard functions value should be provided."
  else
    -- initialize the model and set controller
    let sigma :=
      if controllerEmpty = false then
        M.setController sigma partitionIndex eventTimes.getLast? guardSurfacesValues
      else sigma
    -- initial values of the guard surfaces
    let subsystemID :=
      if subsystemID.isEmpty = true then
        subsystemID ++ [initialActiveSubsystem (M.computeGuardSurfaces initTime initState)]
      else subsystemID
    let st : StateTriggeredRun α X U σ :=
      { sigma := sigma, t0 := initTime, x0 := initState,
        timeTrajectory := [], stateTrajectory := [], inputTrajectory := [],
        eventsPastTheEndIndeces := [], eventTimes := eventTimes, subsystemID := subsystemID,
        guardSurfacesValues := guardSurfacesValues,
        hybridLlogicRulesMachine := hybridLlogicRulesMachine,
        computeJumpMapCalls := [], integrateCalls := [] }
    (rolloutStateTriggeredWorker_while M partitionIndex finalTime fuel st).bind fun st =>
    -- compute control input trajectory and concatenate to inputTrajectory
    let inputTrajectory :=
      (st.timeTrajectory.zip st.stateTrajectory).map (fun p => M.computeInput p.1 p.2)
    -- get the guardSurfacesValues
    let st := { st with inputTrajectory := inputTrajectory,
                        guardSurfacesValues := M.getGuardSurfacesValues st.sigma }
    match st.stateTrajectory.getLast? with
    | some xBack => .ok (xBack, st)
    | none => .error "back() of an empty trajectory"

/-! ## The time-triggered rollout -/

/-- The objects outside the repository that the time-triggered rollout calls. The logic
rules machine gives, per partition, the number of events and of event counters and the
switching and event times; `findActiveIntervalIndex` is the lookup function of the core
library (its last argument is the optional tolerance); `integrate` appends the returned
states and time stamps to the trajectories, and `getSystemOperatingTrajectories` appends
time stamps, states and inputs; either may throw. The first argument of the last four is
the partition for which the model was initialised. -/
structure TimeTriggeredModel (α : Type) (n m : Nat) where
  getNumEvents : Nat → Nat
  getNumEventCounters : Nat → Nat
  getSwitchingTimes : Nat → List α
  getEventTimes : Nat → List α
  findActiveIntervalIndex : List α → α → Nat → Option α → Int
  integrate : Nat → Controller α n m → (Fin n → α) → α → α →
    Except String (List (Fin n → α) × List α)
  computeInput : Nat → Controller α n m → α → (Fin n → α) → (Fin m → α)
  computeJumpMap : Nat → α → (Fin n → α) → (Fin n → α)
  getSystemOperatingTrajectories : Nat → (Fin n → α) → α → α →
    Except String (List α × List (Fin n → α) × List (Fin m → α))
  week_epsilon : α
  limit_epsilon : α

/-- The output trajectories of one partition. -/
structure PartitionTrajectory (α : Type) (n m : Nat) where
  timeTrajectory : List α
  eventsPastTheEndIndeces : List Nat
  stateTrajectory : List (Fin n → α)
  inputTrajectory : List (Fin m → α)

/-- The variables of the loop of `rolloutTimeTriggeredWorker`. -/
structure TimeTriggeredRun (α : Type) (n m : Nat) where
  beginState : Fin n → α
  k_u : Nat
  trajectory : PartitionTrajectory α n m

/-- `k - 1` on `size_t`. -/
def sizeMinusOne (k : Nat) : Nat := (k + (2 ^ 64 - 1)) % 2 ^ 64

/-- Conversion of an `int` to `size_t`. -/
def toSize (k : Int) : Nat := (k % 2 ^ 64).toNat

/-- `v[i]` on a `std::vector`; an index past the end is undefined in the source and is an
error here. -/
def indexAt {β : Type} (v : List β) (i : Nat) : Except String β :=
  match v[i]? with
  | some b => .ok b
  | none => .error "index past the end"

/-- Lines 477-494 of `rolloutTimeTriggeredWorker`: simulate one subsystem over
`[beginTime, endTime]`, with the controller or, when it is empty, with the operating
trajectories. -/
def rolloutTimeTriggeredWorker_simulate {n m : Nat} (E : TimeTriggeredModel α n m)
    (partitionIndex : Nat) (controller : Controller α n m) (st : TimeTriggeredRun α n m)
    (beginTime endTime : α) : Except String (TimeTriggeredRun α n m) :=
  if controller.empty = false then
    -- integrate controlled system
    (E.integrate partitionIndex controller st.beginState beginTime endTime).map fun r =>
      let stateTrajectory := st.trajectory.stateTrajectory ++ r.1
      let timeTrajectory := st.trajectory.timeTrajectory ++ r.2
      -- compute control input trajectory and concatenate to inputTrajectory
      let inputTrajectory := st.trajectory.inputTrajectory
        ++ ((timeTrajectory.zip stateTrajectory).drop st.k_u).map
            (fun p => E.computeInput partitionIndex controller p.1 p.2)
      { st with
        k_u := max st.k_u timeTrajectory.length,
        trajectory := { st.trajectory with
          stateTrajectory := stateTrajectory, timeTrajectory := timeTrajectory,
          inputTrajectory := inputTrajectory } }
  else
    -- get operating trajectories
    (E.getSystemOperatingTrajectories partitionIndex st.beginState beginTime endTime).map
      fun r =>
      { st with
        trajectory := { st.trajectory with
          timeTrajectory := st.trajectory.timeTrajectory ++ r.1,
          stateTrajectory := st.trajectory.stateTrajectory ++ r.2.1,
          inputTrajectory := st.trajectory.inputTrajectory ++ r.2.2 } }

/-- Lines 496-499 of `rolloutTimeTriggeredWorker`: at the end of a subsystem that is not the
last, record the event marker and apply the jump map. -/
def rolloutTimeTriggeredWorker_jump {n m : Nat} (E : TimeTriggeredModel α n m)
    (partitionIndex : Nat) (finalItr : Nat) (st : TimeTriggeredRun α n m) (i : Nat) :
    Except String (TimeTriggeredRun α n m) :=
  if i < finalItr then
    match st.trajectory.timeTrajectory.getLast?, st.trajectory.stateTrajectory.getLast? with
    | some tBack, some xBack =>
      .ok { st with
        beginState := E.computeJumpMap partitionIndex tBack xBack,
        trajectory := { st.trajectory with
          eventsPastTheEndIndeces := st.trajectory.eventsPastTheEndIndeces
            ++ [st.trajectory.stateTrajectory.length] } }
    | _, _ => .error "back() of an empty trajectory"
  else .ok st

/-- The body of the loop of `rolloutTimeTriggeredWorker` (lines 474-499) for subsystem `i`. -/
def rolloutTimeTriggeredWorker_pass {n m : Nat} (E : TimeTriggeredModel α n m)
    (partitionIndex : Nat) (controller : Controller α n m) (switchingTimes : List α)
    (beginItr finalItr : Nat) (initTime finalTime : α) (st : TimeTriggeredRun α n m)
    (i : Nat) : Except String (TimeTriggeredRun α n m) :=
  (if i = beginItr then .ok initTime else indexAt switchingTimes i).bind fun beginTime =>
  (if i = finalItr then .ok finalTime else indexAt switchingTimes (i + 1)).bind fun endTime =>
  (rolloutTimeTriggeredWorker_simulate E partitionIndex controller st beginTime endTime).bind
    fun st =>
  rolloutTimeTriggeredWorker_jump E partitionIndex finalItr st i

/-- The loop `for (i = beginItr; i <= finalItr; i++)` of `rolloutTimeTriggeredWorker`:
`count` passes starting at subsystem `i`. -/
def rolloutTimeTriggeredWorker_loop {n m : Nat} (E : TimeTriggeredModel α n m)
    (partitionIndex : Nat) (controller : Controller α n m) (switchingTimes : List α)
    (beginItr finalItr : Nat) (initTime finalTime : α) :
    Nat → Nat → TimeTriggeredRun α n m → Except String (TimeTriggeredRun α n m)
  | 0, _, st => .ok st
  | count + 1, i, st =>
    (rolloutTimeTriggeredWorker_pass E partitionIndex controller switchingTimes beginItr
      finalItr initTime finalTime st i).bind
      (rolloutTimeTriggeredWorker_loop E partitionIndex controller switchingTimes beginItr
        finalItr initTime finalTime count (i + 1))

/-- `SLQ_BASE::rolloutTimeTriggeredWorker`: returns the state handed to the next partition
and the partition's trajectories. `initActivePartition_` and `finalActivePartition_` are the
solver's members. -/
def rolloutTimeTriggeredWorker {n m : Nat} (E : TimeTriggeredModel α n m)
    (initActivePartition_ finalActivePartition_ : Nat)
    (partitionIndex : Nat) (initTime : α) (initState : Fin n → α) (finalTime : α)
    (controller : Controller α n m) :
    Except String ((Fin n → α) × PartitionTrajectory α n m) :=
  if initTime > finalTime then
    .error "Initial time should be less-equal to final time."
  else
    let numEvents := E.getNumEvents partitionIndex
    let numSubsystems := E.getNumEventCounters partitionIndex
    let switchingTimes := E.getSwitchingTimes partitionIndex
    -- index of the first subsystem
    let beginItr :=
      if partitionIndex = initActivePartition_ then
        toSize (E.findActiveIntervalIndex switchingTimes initTime 0 none)
      else 0
    -- index of the last subsystem
    let finalItr :=
      if partitionIndex = finalActivePartition_ then
        toSize (E.findActiveIntervalIndex switchingTimes finalTime
          (sizeMinusOne numSubsystems) none)
      else sizeMinusOne numSubsystems
    (rolloutTimeTriggeredWorker_loop E partitionIndex controller switchingTimes beginItr
      finalItr initTime finalTime (finalItr + 1 - beginItr) beginItr
      ⟨initState, 0, ⟨[], [], [], []⟩⟩).bind fun st =>
    -- If an event has happened at the final time push it to the eventsPastTheEndIndeces
    let eventAtFinalTime :=
      decide (numEvents > finalItr) &&
        (match (E.getEventTimes partitionIndex)[finalItr]? with
         | some t => decide (t < finalTime + E.limit_epsilon)
         | none => false)
    if eventAtFinalTime = true then
      match st.trajectory.timeTrajectory.getLast?, st.trajectory.stateTrajectory.getLast? with
      | some tBack, some xBack =>
        .ok (E.computeJumpMap partitionIndex tBack xBack,
          { st.trajectory with
            eventsPastTheEndIndeces := st.trajectory.eventsPastTheEndIndeces
              ++ [st.trajectory.stateTrajectory.length] })
      | _, _ => .error "back() of an empty trajectory"
    else
      match st.trajectory.stateTrajectory.getLast? with
      | some xBack => .ok (xBack, st.trajectory)
      | none => .error "back() of an empty trajectory"

/-- `SLQ_BASE::findActivePartitionIndex`. -/
def findActivePartitionIndex {n m : Nat} (E : TimeTriggeredModel α n m)
    (partitioningTimes : List α) (time : α) (ceilingFunction : Bool) : Except String Nat :=
  let activeSubsystemIndex :=
    if ceilingFunction = true then E.findActiveIntervalIndex partitioningTimes time 0 none
    else E.findActiveIntervalIndex partitioningTimes time 0 (some (-E.week_epsilon))
  if activeSubsystemIndex < 0 then
    .error "Given time is less than the start time (i.e. givenTime < partitioningTimes.front())"
  else if toSize activeSubsystemIndex = sizeMinusOne partitioningTimes.length then
    .error "Given time is greater than the final time (i.e. partitioningTimes.back() < givenTime)"
  else .ok (toSize activeSubsystemIndex)

/-- The variables of the loop of `rolloutTrajectory`; `stock` holds the trajectories of
the partitions processed so far. -/
structure RolloutRun (α : Type) (n m : Nat) where
  t0 : α
  x0 : Fin n → α
  numSteps : Nat
  stock : List (PartitionTrajectory α n m)

/-- The body of the loop of `rolloutTrajectory` (lines 554-584) for partition `i`. -/
def rolloutTrajectory_pass {n m : Nat} (E : TimeTriggeredModel α n m)
    (initActivePartition_ finalActivePartition_ : Nat) (blockwiseMovingHorizon_ : Bool)
    (finalTime : α) (partitioningTimes : List α) (controllersStock : List (Controller α n m))
    (initActivePartition finalActivePartition : Nat) (st : RolloutRun α n m) (i : Nat) :
    Except String (RolloutRun α n m) :=
  -- for subsystems before the initial time
  if i < initActivePartition ∨ i > finalActivePartition then
    .ok { st with stock := st.stock ++ [⟨[], [], [], []⟩] }
  else
    -- final time
    (if i ≠ finalActivePartition then indexAt partitioningTimes (i + 1)
      else .ok finalTime).bind fun tf =>
    (indexAt controllersStock i).bind fun controllerTemp =>
    (if blockwiseMovingHorizon_ = false ∧ controllerTemp.empty = true ∧ i > 0 then
      (indexAt controllersStock (i - 1)).map fun previous =>
        if previous.empty = false then previous else controllerTemp
      else .ok controllerTemp).bind fun controllerTemp =>
    -- call rollout worker for the partition 'i'
    (rolloutTimeTriggeredWorker E initActivePartition_ finalActivePartition_ i st.t0 st.x0 tf
      controllerTemp).bind fun r =>
    -- reset the initial time
    match r.2.timeTrajectory.getLast? with
    | some tBack =>
      .ok { t0 := tBack, x0 := r.1,
            -- total number of steps
            numSteps := st.numSteps + r.2.timeTrajectory.length,
            stock := st.stock ++ [r.2] }
    | none => .error "back() of an empty trajectory"

/-- The loop `for (i = 0; i < numPartitions; i++)` of `rolloutTrajectory`: `count` passes
starting at partition `i`. -/
def rolloutTrajectory_loop {n m : Nat} (E : TimeTriggeredModel α n m)
    (initActivePartition_ finalActivePartition_ : Nat) (blockwiseMovingHorizon_ : Bool)
    (finalTime : α) (partitioningTimes : List α) (controllersStock : List (Controller α n m))
    (initActivePartition finalActivePartition : Nat) :
    Nat → Nat → RolloutRun α n m → Except String (RolloutRun α n m)
  | 0, _, st => .ok st
  | count + 1, i, st =>
    (rolloutTrajectory_pass E initActivePartition_ finalActivePartition_
      blockwiseMovingHorizon_ finalTime partitioningTimes controllersStock
      initActivePartition finalActivePartition st i).bind
      (rolloutTrajectory_loop E initActivePartition_ finalActivePartition_
        blockwiseMovingHorizon_ finalTime partitioningTimes controllersStock
        initActivePartition finalActivePartition count (i + 1))

/-- `SLQ_BASE::rolloutTrajectory`: returns the average time step and the trajectories of all
partitions. The final test `x0 != x0` of the source detects a NaN state; exact scalars have
none. -/
def rolloutTrajectory {n m : Nat} (E : TimeTriggeredModel α n m)
    (initActivePartition_ finalActivePartition_ : Nat) (blockwiseMovingHorizon_ : Bool)
    (initTime : α) (initState : Fin n → α) (finalTime : α)
    (partitioningTimes : List α) (controllersStock : List (Controller α n m)) :
    Except String (α × List (PartitionTrajectory α n m)) :=
  let numPartitions := sizeMinusOne partitioningTimes.length
  if controllersStock.length ≠ numPartitions then
    .error "controllersStock has less controllers then the number of subsystems"
  else
    -- finding the active subsystem index at initTime
    (findActivePartitionIndex E partitioningTimes initTime true).bind fun initActivePartition =>
    -- finding the active subsystem index at finalTime
    (findActivePartitionIndex E partitioningTimes finalTime true).bind
      fun finalActivePartition =>
    (rolloutTrajectory_loop E initActivePartition_ finalActivePartition_
      blockwiseMovingHorizon_ finalTime partitioningTimes controllersStock
      initActivePartition finalActivePartition numPartitions 0
      ⟨initTime, initState, 0, []⟩).bind fun st =>
    -- average time step
    .ok ((finalTime - initTime) / (st.numSteps : α), st.stock)

/-! ## The rollout's assumptions and result as the specification words them -/

/-- Specification: a sample list appended over `[a, b]` has as many states (and inputs) as
time stamps, and its time stamps are non-decreasing, begin at `a` and end at `b`. -/
def spec_spans (ts : List α) (a b : α) : Prop :=
  ts.head? = some a ∧ ts.getLast? = some b ∧ ts.Chain' (fun s t => s ≤ t)

/-- Specification: every integrator call that returns appends such a sample list. -/
def spec_integratorContract {n m : Nat} (E : TimeTriggeredModel α n m) : Prop :=
  ∀ p c x a b xs ts, E.integrate p c x a b = .ok (xs, ts) →
    xs.length = ts.length ∧ spec_spans ts a b

/-- Specification: every operating-trajectory call that returns appends such a sample
list. -/
def spec_operatingContract {n m : Nat} (E : TimeTriggeredModel α n m) : Prop :=
  ∀ p x a b ts xs us, E.getSystemOperatingTrajectories p x a b = .ok (ts, xs, us) →
    xs.length = ts.length ∧ us.length = ts.length ∧ spec_spans ts a b

/-- Specification: the trajectories of an active partition are a non-empty sample sequence
with equal-length time, state and input arrays and non-decreasing time stamps. -/
def spec_sampleSequence {n m : Nat} (tr : PartitionTrajectory α n m) : Prop :=
  tr.timeTrajectory ≠ [] ∧
  tr.stateTrajectory.length = tr.timeTrajectory.length ∧
  tr.inputTrajectory.length = tr.timeTrajectory.length ∧
  tr.timeTrajectory.Chain' (fun s t => s ≤ t)

/-- Specification: what the rollout returns for partition `i`, given the active range
`[ia, fa]` and the trajectories `previous` of partition `i - 1`: empty trajectories outside
the active range; inside it a sample sequence that starts at `initTime` in the first active
partition and at the previous partition's last time stamp in a later one, and that ends at
`finalTime` in the last active partition. -/
def spec_partitionResult {n m : Nat} (initTime finalTime : α) (ia fa : Nat)
    (previous : Option (PartitionTrajectory α n m)) (i : Nat)
    (tr : PartitionTrajectory α n m) : Prop :=
  ((i < ia ∨ fa < i) → tr = ⟨[], [], [], []⟩) ∧
  (ia ≤ i → i ≤ fa →
    spec_sampleSequence tr ∧
    (i = ia → tr.timeTrajectory.head? = some initTime) ∧
    (ia < i → ∃ prev, previous = some prev ∧
      prev.timeTrajectory.getLast? = tr.timeTrajectory.head?) ∧
    (i = fa → tr.timeTrajectory.getLast? = some finalTime))

/-! ## Loop invariants of the time-triggered rollout -/

/-- The invariant of the loop of `rolloutTimeTriggeredWorker` before the pass for
subsystem `i`. -/
def workerInvariant {n m : Nat} (controller : Controller α n m) (switchingTimes : List α)
    (beginItr : Nat) (initTime : α) (i : Nat) (st : TimeTriggeredRun α n m) : Prop :=
  st.trajectory.stateTrajectory.length = st.trajectory.timeTrajectory.length ∧
  st.trajectory.inputTrajectory.length = st.trajectory.timeTrajectory.length ∧
  (controller.empty = false → st.k_u = st.trajectory.timeTrajectory.length) ∧
  st.trajectory.timeTrajectory.Chain' (fun s t => s ≤ t) ∧
  (i = beginItr → st.trajectory.timeTrajectory = []) ∧
  (i ≠ beginItr → st.trajectory.timeTrajectory.head? = some initTime ∧
    ∃ t, switchingTimes[i]? = some t ∧ st.trajectory.timeTrajectory.getLast? = some t)

/-- What holds after the pass for the last subsystem. -/
def workerFinal {n m : Nat} (initTime finalTime : α) (st : TimeTriggeredRun α n m) : Prop :=
  st.trajectory.stateTrajectory.length = st.trajectory.timeTrajectory.length ∧
  st.trajectory.inputTrajectory.length = st.trajectory.timeTrajectory.length ∧
  st.trajectory.timeTrajectory.Chain' (fun s t => s ≤ t) ∧
  st.trajectory.timeTrajectory.head? = some initTime ∧
  st.trajectory.timeTrajectory.getLast? = some finalTime

/-- The invariant of the loop of `rolloutTrajectory` before the pass for partition `k`. -/
def rolloutInvariant {n m : Nat} (initTime finalTime : α) (ia fa : Nat) (k : Nat)
    (st : RolloutRun α n m) : Prop :=
  st.stock.length = k ∧
  (∀ i, i < k → ∃ tr, st.stock[i]? = some tr ∧
    spec_partitionResult initTime finalTime ia fa st.stock[i - 1]? i tr) ∧
  (k ≤ ia → st.t0 = initTime) ∧
  (ia < k → k ≤ fa + 1 →
    ∃ prev, st.stock[k - 1]? = some prev ∧ prev.timeTrajectory.getLast? = some st.t0)

/-! ## Loops over `std::vector`s -/

/-- The loop `for (i = i0; i < i0 + count; i++) body(i)`, where the body may throw. -/
def forRange {σ : Type} (body : Nat → σ → Except String σ) :
    Nat → Nat → σ → Except String σ
  | 0, _, st => .ok st
  | count + 1, i, st => (body i st).bind (forRange body count (i + 1))

/-- The assignment `v[i] = f(v[i])` on a `std::vector`; an index past the end is undefined
in the source and is an error here. -/
def updateAt {β : Type} (v : List β) (i : Nat) (f : β → Except String β) :
    Except String (List β) :=
  match v[i]? with
  | some x => (f x).bind fun y => .ok (v.set i y)
  | none => .error "index past the end"

/-- `std::vector::resize(k)` with `d` the value-initialised element. -/
def resize {β : Type} (v : List β) (k : Nat) (d : β) : List β :=
  v.take k ++ List.replicate (k - v.length) d

/-- `a[i].swap(b[i])` on two `std::vector`s; an index past the end of either is undefined
in the source and is an error here. -/
def swapStocks {β : Type} (i : Nat) (st : List β × List β) : Except String (List β × List β) :=
  match st.1[i]?, st.2[i]? with
  | some x, some y => .ok (st.1.set i y, st.2.set i x)
  | _, _ => .error "index past the end"

/-! ## `truncateConterller` and `runExit` -/

/-- What `run` needs besides the rollout model: `interpolateInput times data t` is
`LinearInterpolation::interpolate` on feedforward inputs together with
`getGreatestLessTimeStampIndex()`, `interpolateGain times data t index` interpolates the
gains with the index found before, and `updateLogicRules` is the adjustment of the
controllers stock made by the logic rules machine. None of them is part of the solver. -/
structure RunModel (α : Type) (n m : Nat) extends TimeTriggeredModel α n m where
  interpolateInput : List α → List (Fin m → α) → α → (Fin m → α) × Nat
  interpolateGain : List α → List (Matrix (Fin m) (Fin n) α) → α → Nat →
    Matrix (Fin m) (Fin n) α
  updateLogicRules : List α → List (Controller α n m) → List (Controller α n m)

/-- The reference arguments of `truncateConterller` when it returns. -/
structure Truncation (α : Type) (n m : Nat) where
  controllersStock : List (Controller α n m)
  initActivePartition : Nat
  deletedcontrollersStock : List (Controller α n m)

/-- Lines 2752-2771 of `truncateConterller`: the first `greatestLessTimeStampIndex + 1`
samples of the active controller `c` are copied into the deleted controller `d`, and the
first `greatestLessTimeStampIndex` time stamps, inputs and gains of `c` are erased. Reading
a sample past the end is undefined in the source and is an error here. -/
def truncateConterller_erase {n m : Nat} (greatestLessTimeStampIndex : Nat)
    (c d : Controller α n m) : Except String (Controller α n m × Controller α n m) :=
  if greatestLessTimeStampIndex < c.time_.length ∧ greatestLessTimeStampIndex < c.uff_.length
      ∧ greatestLessTimeStampIndex < c.k_.length then
    .ok ({ c with
            time_ := c.time_.drop greatestLessTimeStampIndex,
            uff_ := c.uff_.drop greatestLessTimeStampIndex,
            k_ := c.k_.drop greatestLessTimeStampIndex },
         { d with
            time_ := c.time_.take (greatestLessTimeStampIndex + 1),
            uff_ := c.uff_.take (greatestLessTimeStampIndex + 1),
            k_ := c.k_.take (greatestLessTimeStampIndex + 1) })
  else .error "index past the end"

/-- Lines 2774-2776 of `truncateConterller`: the first sample is overwritten. -/
def truncateConterller_first {n m : Nat} (initTime : α) (uffInit : Fin m → α)
    (kInit : Matrix (Fin m) (Fin n) α) (c : Controller α n m) :
    Except String (Controller α n m) :=
  if 0 < c.time_.length ∧ 0 < c.uff_.length ∧ 0 < c.k_.length then
    .ok { c with
          time_ := c.time_.set 0 initTime,
          uff_ := c.uff_.set 0 uffInit,
          k_ := c.k_.set 0 kInit }
  else .error "index past the end"

/-- `SLQ_BASE::truncateConterller`; `numPartitions_` is the member it reads. The deleted
stock is resized and cleared first, so its previous content does not matter. -/
def truncateConterller {n m : Nat} (R : RunModel α n m) (numPartitions_ : Nat)
    (partitioningTimes : List α) (initTime : α)
    (controllersStock : List (Controller α n m)) : Except String (Truncation α n m) :=
  let deletedcontrollersStock : List (Controller α n m) :=
    List.replicate numPartitions_ Controller.clear
  -- finding the active subsystem index at initTime_
  (findActivePartitionIndex R.toTimeTriggeredModel partitioningTimes initTime true).bind
    fun initActivePartition =>
  -- saving the deleting part and clearing controllersStock
  (forRange swapStocks initActivePartition 0
    (deletedcontrollersStock, controllersStock)).bind fun s =>
  (indexAt s.2 initActivePartition).bind fun c =>
  if c.time_.isEmpty = true then .ok ⟨s.2, initActivePartition, s.1⟩
  else
    -- interpolating uff
    let uffInit := (R.interpolateInput c.time_ c.uff_ initTime).1
    let greatestLessTimeStampIndex := (R.interpolateInput c.time_ c.uff_ initTime).2
    -- interpolating k
    let kInit := R.interpolateGain c.time_ c.k_ initTime greatestLessTimeStampIndex
    -- deleting the controller in the active subsystem for the subsystems before initTime
    (if greatestLessTimeStampIndex > 0 then
      (indexAt s.1 initActivePartition).bind fun d =>
      (truncateConterller_erase greatestLessTimeStampIndex c d).bind fun r =>
      .ok (r.1, s.1.set initActivePartition r.2)
     else .ok (c, s.1)).bind fun r =>
    (truncateConterller_first initTime uffInit kInit r.1).bind fun c1 =>
    .ok ⟨s.2.set initActivePartition c1, initActivePartition, r.2⟩

/-- Lines 3219-3228 of `runExit`: after the swap the active partition holds the deleted
part `d`, and the samples of the optimised controller `c` are pushed back onto it. -/
def runExit_append {n m : Nat} (c d : Controller α n m) : Except String (Controller α n m) :=
  if c.time_.length ≤ c.uff_.length ∧ c.time_.length ≤ c.k_.length then
    .ok { d with
          time_ := d.time_ ++ c.time_,
          uff_ := d.uff_ ++ c.uff_.take c.time_.length,
          k_ := d.k_ ++ c.k_.take c.time_.length }
  else .error "index past the end"

/-- `SLQ_BASE::runExit`: returns `nominalControllersStock_` and
`deletedcontrollersStock_`. -/
def runExit {n m : Nat} (initActivePartition_ : Nat)
    (nominalControllersStock_ deletedcontrollersStock_ : List (Controller α n m)) :
    Except String (List (Controller α n m) × List (Controller α n m)) :=
  -- add the deleted parts of the controller
  (forRange swapStocks initActivePartition_ 0
    (nominalControllersStock_, deletedcontrollersStock_)).bind fun s =>
  (indexAt s.2 initActivePartition_).bind fun d =>
  if d.time_.isEmpty = false then
    (indexAt s.1 initActivePartition_).bind fun c =>
    (runExit_append c d).bind fun c1 =>
    .ok (s.1.set initActivePartition_ c1, s.2.set initActivePartition_ c)
  else .ok s

/-! ## The beginning of `run` -/

/-- The members of `SLQ_BASE` read and written by the beginning of `run`. -/
structure SolverState (α : Type) (n m : Nat) where
  numPartitions_ : Nat
  partitioningTimes_ : List α
  nominalControllersStock_ : List (Controller α n m)
  deletedcontrollersStock_ : List (Controller α n m)
  initialControllerDesignStock_ : List Bool
  initActivePartition_ : Nat
  finalActivePartition_ : Nat
  constraintStepSize_ : α

/-- `SLQ_BASE::setupOptimizer`, restricted to the members of `SolverState`. -/
def setupOptimizer {n m : Nat} (numPartitions : Nat) (st : SolverState α n m) :
    Except String (SolverState α n m) :=
  if numPartitions = 0 then .error "Number of partitions cannot be zero!"
  else
    .ok { st with
          nominalControllersStock_ :=
            resize st.nominalControllersStock_ numPartitions Controller.clear,
          initialControllerDesignStock_ :=
            resize st.initialControllerDesignStock_ numPartitions false }

/-- Lines 3266-3273 of `run`: update `numPartitions_` if it has been changed, and update
`partitioningTimes_`. -/
def run_partitions {n m : Nat} (st : SolverState α n m) (partitioningTimes : List α) :
    Except String (SolverState α n m) :=
  (if (st.numPartitions_ + 1) % 2 ^ 64 ≠ partitioningTimes.length then
    setupOptimizer (sizeMinusOne partitioningTimes.length)
      { st with numPartitions_ := sizeMinusOne partitioningTimes.length,
                partitioningTimes_ := partitioningTimes }
   else .ok st).bind fun st1 =>
  .ok { st1 with partitioningTimes_ := partitioningTimes }

/-- Lines 3275-3286 of `run`: use the input controller if it is not empty, otherwise the
internal controller. -/
def run_controllers {n m : Nat} (st : SolverState α n m)
    (controllersStock : List (Controller α n m)) : Except String (SolverState α n m) :=
  if controllersStock.isEmpty = false then
    if controllersStock.length ≠ st.numPartitions_ then
      .error "controllersStock has less controllers than the number of partitions."
    else .ok { st with nominalControllersStock_ := controllersStock }
  else
    if st.nominalControllersStock_.length ≠ st.numPartitions_ then
      .error "The internal controller is not compatible with the number of partitions."
    else .ok st

/-- Lines 3295-3319 of `run`: the logic rules adjust the controllers, the controllers are
truncated at `initTime`, and the final active partition is found. -/
def run_truncate {n m : Nat} (R : RunModel α n m) (st : SolverState α n m)
    (initTime finalTime : α) : Except String (SolverState α n m) :=
  let adjusted := R.updateLogicRules st.partitioningTimes_ st.nominalControllersStock_
  -- finding the initial active partition index and truncating the controller
  (truncateConterller R st.numPartitions_ st.partitioningTimes_ initTime adjusted).bind
    fun t =>
  -- the final active partition index.
  (findActivePartitionIndex R.toTimeTriggeredModel st.partitioningTimes_ finalTime true).bind
    fun finalActivePartition =>
  .ok { st with
        nominalControllersStock_ := t.controllersStock,
        initActivePartition_ := t.initActivePartition,
        deletedcontrollersStock_ := t.deletedcontrollersStock,
        finalActivePartition_ := finalActivePartition }

/-- Lines 3266-3319 of `run` with an initial controller: the state in which the first
rollout is made. -/
def run_setup {n m : Nat} (R : RunModel α n m) (st : SolverState α n m)
    (initTime finalTime : α) (partitioningTimes : List α)
    (controllersStock : List (Controller α n m)) : Except String (SolverState α n m) :=
  (run_partitions st partitioningTimes).bind fun st1 =>
  (run_controllers st1 controllersStock).bind fun st2 =>
  run_truncate R st2 initTime finalTime

/-- The local `noInitialController` of `run` without an initial controller: one empty
controller per partition. For an empty schedule the requested size `size() - 1` wraps
around and the constructor of `std::vector` throws. -/
def noInitialController {n m : Nat} (partitioningTimes : List α) :
    Except String (List (Controller α n m)) :=
  if partitioningTimes.length = 0 then .error "cannot create std::vector larger than max_size()"
  else .ok (List.replicate (sizeMinusOne partitioningTimes.length) Controller.clear)

/-- The controllers that `run` without an initial controller (lines 3235-3245) has
selected when line 3286 of the `run` it calls is passed. -/
def run_withoutController_selected {n m : Nat} (st : SolverState α n m)
    (partitioningTimes : List α) : Except String (SolverState α n m) :=
  (noInitialController partitioningTimes).bind fun controllersStock =>
  (run_partitions st partitioningTimes).bind fun st1 =>
  run_controllers st1 controllersStock

/-- `SLQ_BASE::run` without an initial controller, up to the first rollout. -/
def run_withoutController_setup {n m : Nat} (R : RunModel α n m) (st : SolverState α n m)
    (initTime finalTime : α) (partitioningTimes : List α) :
    Except String (SolverState α n m) :=
  (noInitialController partitioningTimes).bind fun controllersStock =>
  run_setup R st initTime finalTime partitioningTimes controllersStock

/-! ## `calculateController` and the design flags of `run` -/

/-- Lines 1255-1261 of `calculateController`: the controller of a partition gets the time
stamps `SsTime` of the Riccati solution, and its gains, inputs and increments are resized
to as many entries. -/
def calculateController_resized {n m : Nat} (SsTime : List α) (c : Controller α n m) :
    Controller α n m :=
  { time_ := SsTime, k_ := resize c.k_ SsTime.length 0, uff_ := resize c.uff_ SsTime.length 0,
    deltaUff_ := resize c.deltaUff_ SsTime.length 0 }

/-- The body of the loop of `calculateController` for partition `i`. The virtual
`calculatePartitionController` fills the gains and inputs of the partition from the member
`constraintStepSize_`, its first argument here; `SsTimeTrajectoryStock_` holds the time
stamps of the Riccati solution. -/
def calculateController_pass {n m : Nat} (settings : SLQ_Settings α)
    (calculatePartitionController : α → Nat → Controller α n m → Controller α n m)
    (SsTimeTrajectoryStock_ : List (List α)) (i : Nat) (st : SolverState α n m) :
    Except String (SolverState α n m) :=
  if i < st.initActivePartition_ ∨ i > st.finalActivePartition_ then
    (updateAt st.nominalControllersStock_ i fun _ => .ok Controller.clear).bind fun stock =>
    .ok { st with nominalControllersStock_ := stock }
  else
    (indexAt SsTimeTrajectoryStock_ i).bind fun SsTime =>
    (indexAt st.nominalControllersStock_ i).bind fun c =>
    let N := SsTime.length
    let resized := calculateController_resized SsTime c
    -- if the partition is not active
    if N = 0 then
      .ok { st with nominalControllersStock_ := st.nominalControllersStock_.set i resized }
    else
      -- current partition update
      (indexAt st.initialControllerDesignStock_ i).bind fun initialControllerDesign =>
      let constraintStepSize_ :=
        if initialControllerDesign = true then 0 else settings.constraintStepSize_
      .ok { st with
            constraintStepSize_ := constraintStepSize_,
            nominalControllersStock_ := st.nominalControllersStock_.set i
              (calculatePartitionController constraintStepSize_ i resized) }

/-- `SLQ_BASE::calculateController`. -/
def calculateController {n m : Nat} (settings : SLQ_Settings α)
    (calculatePartitionController : α → Nat → Controller α n m → Controller α n m)
    (SsTimeTrajectoryStock_ : List (List α)) (st : SolverState α n m) :
    Except String (SolverState α n m) :=
  forRange (calculateController_pass settings calculatePartitionController
    SsTimeTrajectoryStock_) st.numPartitions_ 0 st

/-- Lines 3331-3333 of `run`: mark the partitions for which no controller is set. -/
def run_markDesign {n m : Nat} (st : SolverState α n m) : Except String (SolverState α n m) :=
  forRange (fun i (s : SolverState α n m) =>
    (indexAt s.nominalControllersStock_ i).bind fun c =>
    (updateAt s.initialControllerDesignStock_ i fun _ =>
      .ok (if c.empty = true then true else false)).bind fun flags =>
    .ok { s with initialControllerDesignStock_ := flags }) st.numPartitions_ 0 st

/-- Lines 3338-3340 of `run`: after iteration zero always allow feedforward policy
update. -/
def run_clearDesign {n m : Nat} (st : SolverState α n m) : Except String (SolverState α n m) :=
  forRange (fun i (s : SolverState α n m) =>
    (updateAt s.initialControllerDesignStock_ i fun _ => .ok false).bind fun flags =>
    .ok { s with initialControllerDesignStock_ := flags }) st.numPartitions_ 0 st

/-- The controller design at the end of `runInit` and of `runIteration`: the controller is
calculated only with the Riccati solver. `SsTimeTrajectoryStock_` is what
`solveSequentialRiccatiEquations` has left. -/
def runInit_design {n m : Nat} (settings : SLQ_Settings α)
    (calculatePartitionController : α → Nat → Controller α n m → Controller α n m)
    (SsTimeTrajectoryStock_ : List (List α)) (st : SolverState α n m) :
    Except String (SolverState α n m) :=
  if settings.useRiccatiSolver_ = true then
    calculateController settings calculatePartitionController SsTimeTrajectoryStock_ st
  else .ok st

/-- The controller designs of `run` (lines 3331-3382) from the first rollout to the end of
main-loop pass `passes`: the marks are set, `runInit` designs the controller, the marks are
cleared, and each pass of the main loop searches along the controller (`lineSearch j`
replaces the controllers stock in pass `j`) and designs the controller anew from the
Riccati solution `SsTimeTrajectoryStock j`. -/
def run_design {n m : Nat} (settings : SLQ_Settings α)
    (calculatePartitionController : α → Nat → Controller α n m → Controller α n m)
    (SsTimeTrajectoryStock : Nat → List (List α))
    (lineSearch : Nat → List (Controller α n m) → List (Controller α n m))
    (passes : Nat) (st : SolverState α n m) : Except String (SolverState α n m) :=
  (run_markDesign st).bind fun st1 =>
  (runInit_design settings calculatePartitionController (SsTimeTrajectoryStock 0) st1).bind
    fun st2 =>
  (run_clearDesign st2).bind fun st3 =>
  forRange (fun j (s : SolverState α n m) =>
    runInit_design settings calculatePartitionController (SsTimeTrajectoryStock j)
      { s with nominalControllersStock_ := lineSearch j s.nominalControllersStock_ })
    passes 1 st3

/-- Lines 2489-2494 of `findActivePartitionIndex`: the index returned by the interval
lookup. -/
def findActivePartitionIndex_lookup {n m : Nat} (E : TimeTriggeredModel α n m)
    (partitioningTimes : List α) (time : α) (ceilingFunction : Bool) : Int :=
  if ceilingFunction = true then E.findActiveIntervalIndex partitioningTimes time 0 none
  else E.findActiveIntervalIndex partitioningTimes time 0 (some (-E.week_epsilon))

/-! ## `calculateConstraintsWorker` and `calculateRolloutConstraints` -/

/-- The output arguments of `calculateConstraintsWorker` for one partition. -/
structure ConstraintTrajectory (α : Type) (m : Nat) where
  nc1Trajectory : List Nat
  EvTrajectory : List (Fin m → α)
  nc2Trajectory : List Nat
  HvTrajectory : List (Fin m → α)
  nc2Finals : List Nat
  HvFinals : List (Fin m → α)

/-- The variables of the loop of `calculateConstraintsWorker`: the outputs and the event
markers from the iterator `eventsPastTheEndItr` to the end. -/
structure ConstraintsRun (α : Type) (m : Nat) where
  out : ConstraintTrajectory α m
  eventsPastTheEndItr : List Nat

/-- The body of the loop of `calculateConstraintsWorker` for sample `k`;
`systemConstraints t x u` is what the constraint object of the partition returns after
`setCurrentStateAndControl(t, x, u)`. -/
def calculateConstraintsWorker_pass {n m : Nat}
    (systemConstraints : α → (Fin n → α) → (Fin m → α) → ModelEvaluation α n m)
    (timeTrajectory : List α) (stateTrajectory : List (Fin n → α))
    (inputTrajectory : List (Fin m → α)) (k : Nat) (st : ConstraintsRun α m) :
    Except String (ConstraintsRun α m) :=
  -- set data
  (indexAt timeTrajectory k).bind fun t =>
  (indexAt stateTrajectory k).bind fun x =>
  (indexAt inputTrajectory k).bind fun u =>
  let d := systemConstraints t x u
  -- constraint 1 type
  if d.numStateInputConstraint > m then
    .error "Number of active type-1 constraints should be less-equal to the number of input dimension."
  -- constraint type 2
  else if d.numStateOnlyConstraint > m then
    .error "Number of active type-2 constraints should be less-equal to the number of input dimension."
  else
    let out : ConstraintTrajectory α m :=
      { st.out with
        nc1Trajectory := st.out.nc1Trajectory.set k d.numStateInputConstraint,
        EvTrajectory := st.out.EvTrajectory.set k d.constraint1,
        nc2Trajectory := st.out.nc2Trajectory.set k d.numStateOnlyConstraint,
        HvTrajectory := st.out.HvTrajectory.set k d.constraint2 }
    -- switching time state-constrinats
    match st.eventsPastTheEndItr with
    | [] => .ok ⟨out, []⟩
    | e :: rest =>
      if k + 1 = e then
        if d.numStateOnlyFinalConstraint > m then
          .error "Number of active type-2 constraints at final time should be less-equal to the number of input dimension."
        else
          .ok ⟨{ out with
                  nc2Finals := out.nc2Finals ++ [d.numStateOnlyFinalConstraint],
                  HvFinals := out.HvFinals ++ [d.finalConstraint2] }, rest⟩
      else .ok ⟨out, e :: rest⟩

/-- `SLQ_BASE::calculateConstraintsWorker`; `out` holds the output arguments as they come
in. -/
def calculateConstraintsWorker {n m : Nat}
    (systemConstraints : α → (Fin n → α) → (Fin m → α) → ModelEvaluation α n m)
    (timeTrajectory : List α) (eventsPastTheEndIndeces : List Nat)
    (stateTrajectory : List (Fin n → α)) (inputTrajectory : List (Fin m → α))
    (out : ConstraintTrajectory α m) : Except String (ConstraintTrajectory α m) :=
  let N := timeTrajectory.length
  let out0 : ConstraintTrajectory α m :=
    { nc1Trajectory := resize out.nc1Trajectory N 0,
      EvTrajectory := resize out.EvTrajectory N 0,
      nc2Trajectory := resize out.nc2Trajectory N 0,
      HvTrajectory := resize out.HvTrajectory N 0,
      nc2Finals := [],
      HvFinals := [] }
  (forRange (calculateConstraintsWorker_pass systemConstraints timeTrajectory stateTrajectory
    inputTrajectory) N 0 ⟨out0, eventsPastTheEndIndeces⟩).bind fun st => .ok st.out

/-- `SLQ_BASE::calculateRolloutConstraints`; `systemConstraints i` is the constraint object
initialised for partition `i`, and the six output stocks are kept as one stock of
`ConstraintTrajectory`. -/
def calculateRolloutConstraints {n m : Nat}
    (systemConstraints : Nat → α → (Fin n → α) → (Fin m → α) → ModelEvaluation α n m)
    (numPartitions_ : Nat) (trajectories : List (PartitionTrajectory α n m))
    (outStock : List (ConstraintTrajectory α m)) :
    Except String (List (ConstraintTrajectory α m)) :=
  forRange (fun i (stock : List (ConstraintTrajectory α m)) =>
    (indexAt trajectories i).bind fun tr =>
    (indexAt stock i).bind fun out =>
    (calculateConstraintsWorker (systemConstraints i) tr.timeTrajectory
      tr.eventsPastTheEndIndeces tr.stateTrajectory tr.inputTrajectory out).bind fun r =>
    .ok (stock.set i r))
    numPartitions_ 0 (resize outStock numPartitions_ ⟨[], [], [], [], [], []⟩)

/-- Specification: a sample is over-constrained when its number of active type-1
constraints, its number of active type-2 constraints, or (at an event marker) its number of
active final type-2 constraints exceeds `INPUT_DIM = m`. -/
def spec_overConstrained {n m : Nat} (d : ModelEvaluation α n m) (atEventMarker : Prop) :
    Prop :=
  d.numStateInputConstraint > m ∨ d.numStateOnlyConstraint > m ∨
    (atEventMarker ∧ d.numStateOnlyFinalConstraint > m)

/-- The invariant of the loop of `calculateConstraintsWorker` before sample `k` of `N`: the
iterator stands at the first marker greater than `k`, and every count stored so far is at
most `m`. -/
def constraintsInvariant {m : Nat} (N : Nat) (eventsPastTheEndIndeces : List Nat) (k : Nat)
    (st : ConstraintsRun α m) : Prop :=
  st.eventsPastTheEndItr = eventsPastTheEndIndeces.filter (fun e => decide (k < e)) ∧
  st.out.nc1Trajectory.length = N ∧ st.out.nc2Trajectory.length = N ∧
  (∀ j v, j < k → st.out.nc1Trajectory[j]? = some v → v ≤ m) ∧
  (∀ j v, j < k → st.out.nc2Trajectory[j]? = some v → v ≤ m) ∧
  (∀ v, v ∈ st.out.nc2Finals → v ≤ m)

/-! ## `calculateCostWorker` and `calculateRolloutCost` -/

/-- The variables of the loop of `calculateCostWorker`. -/
structure CostRun (α : Type) where
  totalCost : α
  prevIntermediateCost : α
  currIntermediateCost : α
  eventsPastTheEndItr : List Nat

/-- The body of the loop of `calculateCostWorker` for sample `k`; `costFunctions t x u` is
what the cost object of the partition returns after `setCurrentStateAndControl(t, x, u)`. -/
def calculateCostWorker_pass {n m : Nat}
    (costFunctions : α → (Fin n → α) → (Fin m → α) → ModelEvaluation α n m)
    (timeTrajectory : List α) (stateTrajectory : List (Fin n → α))
    (inputTrajectory : List (Fin m → α)) (k : Nat) (st : CostRun α) :
    Except String (CostRun α) :=
  let prevIntermediateCost :=
    if k > 0 then st.currIntermediateCost else st.prevIntermediateCost
  -- feed state and control to cost function
  (indexAt timeTrajectory k).bind fun t =>
  (indexAt stateTrajectory k).bind fun x =>
  (indexAt inputTrajectory k).bind fun u =>
  let d := costFunctions t x u
  -- getIntermediateCost intermediate cost for next time step
  let currIntermediateCost := d.intermediateCost
  (if k > 0 then
    (indexAt timeTrajectory (k - 1)).bind fun tPrev =>
      .ok (st.totalCost + 1 / 2 * (prevIntermediateCost + currIntermediateCost) * (t - tPrev))
   else .ok st.totalCost).bind fun totalCost =>
  -- terminal cost at switching times
  match st.eventsPastTheEndItr with
  | [] => .ok ⟨totalCost, prevIntermediateCost, currIntermediateCost, []⟩
  | e :: rest =>
    if k + 1 = e then
      .ok ⟨totalCost + d.terminalCost, prevIntermediateCost, currIntermediateCost, rest⟩
    else .ok ⟨totalCost, prevIntermediateCost, currIntermediateCost, e :: rest⟩

/-- `SLQ_BASE::calculateCostWorker`. -/
def calculateCostWorker {n m : Nat}
    (costFunctions : α → (Fin n → α) → (Fin m → α) → ModelEvaluation α n m)
    (timeTrajectory : List α) (eventsPastTheEndIndeces : List Nat)
    (stateTrajectory : List (Fin n → α)) (inputTrajectory : List (Fin m → α)) :
    Except String α :=
  (forRange (calculateCostWorker_pass costFunctions timeTrajectory stateTrajectory
    inputTrajectory) timeTrajectory.length 0 ⟨0, 0, 0, eventsPastTheEndIndeces⟩).bind
    fun st => .ok st.totalCost

/-- `SLQ_BASE::calculateRolloutCost` without constraint terms; `costFunctions i` is the cost
object initialised for partition `i`, and `heuristicsFunctions i t x u` the terminal cost of
the heuristics function initialised for partition `i`. -/
def calculateRolloutCost {n m : Nat}
    (costFunctions : Nat → α → (Fin n → α) → (Fin m → α) → ModelEvaluation α n m)
    (heuristicsFunctions : Nat → α → (Fin n → α) → (Fin m → α) → α)
    (numPartitions_ finalActivePartition_ : Nat)
    (trajectories : List (PartitionTrajectory α n m)) : Except String α :=
  (forRange (fun i (totalCost : α) =>
    (indexAt trajectories i).bind fun tr =>
    (calculateCostWorker (costFunctions i) tr.timeTrajectory tr.eventsPastTheEndIndeces
      tr.stateTrajectory tr.inputTrajectory).bind fun cost =>
    .ok (totalCost + cost)) numPartitions_ 0 0).bind fun totalCost =>
  -- calculate the Heuristics function at the final time
  (indexAt trajectories finalActivePartition_).bind fun tr =>
  match tr.timeTrajectory.getLast?, tr.stateTrajectory.getLast?,
      tr.inputTrajectory.getLast? with
  | some t, some x, some u =>
    .ok (totalCost + heuristicsFunctions finalActivePartition_ t x u)
  | _, _, _ => .error "back() of an empty trajectory"

/-- `SLQ_BASE::calculateRolloutCost` with the penalty of the type-2 constraints (the
overload with `constraint2ISE`). -/
def calculateRolloutCost_constrained {n m : Nat} (settings : SLQ_Settings α)
    (iteration_ : Nat)
    (costFunctions : Nat → α → (Fin n → α) → (Fin m → α) → ModelEvaluation α n m)
    (heuristicsFunctions : Nat → α → (Fin n → α) → (Fin m → α) → α)
    (numPartitions_ finalActivePartition_ : Nat)
    (trajectories : List (PartitionTrajectory α n m)) (constraint2ISE : α)
    (constraints : List (ConstraintTrajectory α m)) : Except String α :=
  (calculateRolloutCost costFunctions heuristicsFunctions numPartitions_
    finalActivePartition_ trajectories).bind fun totalCost =>
  let stateConstraintPenalty := stateConstraintPenalty settings iteration_
  -- ISE of type-2 constraint
  let totalCost := totalCost + 1 / 2 * stateConstraintPenalty * constraint2ISE
  -- final constraint type 2
  if settings.noStateConstraints_ = false then
    forRange (fun i (total : α) =>
      (indexAt constraints i).bind fun c =>
      forRange (fun k (total : α) =>
        (indexAt c.nc2Finals k).bind fun nc2Final =>
        (indexAt c.HvFinals k).bind fun HvFinal =>
        .ok (total + 1 / 2 * stateConstraintPenalty
          * Matrix.dotProduct (head nc2Final HvFinal) (head nc2Final HvFinal)))
        c.nc2Finals.length 0 total) numPartitions_ 0 totalCost
  else .ok totalCost

/-! ## `lineSearchWorker` -/

/-- What `lineSearchWorker` needs besides the rollout model: the constraint and cost
objects (`systemConstraints i t x u` and `costFunctions i t x u` are what they return for
partition `i` after `setCurrentStateAndControl(t, x, u)`), the terminal cost of the
heuristics function, the library square root, and `scalarMax`, the value of
`std::numeric_limits<scalar_t>::max()`: the largest finite scalar. -/
structure LineSearchModel (α : Type) (n m : Nat) extends TimeTriggeredModel α n m where
  systemConstraints : Nat → α → (Fin n → α) → (Fin m → α) → ModelEvaluation α n m
  costFunctions : Nat → α → (Fin n → α) → (Fin m → α) → ModelEvaluation α n m
  heuristicsFunctions : Nat → α → (Fin n → α) → (Fin m → α) → α
  sqrt : α → α
  scalarMax : α

/-- The members of `SLQ_BASE` that `lineSearchWorker` reads. -/
structure LineSearchMembers (α : Type) (n : Nat) where
  numPartitions_ : Nat
  initTime_ : α
  initState_ : Fin n → α
  finalTime_ : α
  partitioningTimes_ : List α
  lsComputeISEs_ : Bool
  iteration_ : Nat
  initActivePartition_ : Nat
  finalActivePartition_ : Nat
  blockwiseMovingHorizon_ : Bool

/-- The reference arguments of `lineSearchWorker`. The four trajectory stocks are kept as
one stock; `none` stands for stocks that a rollout which threw has left partly written. -/
structure LineSearchOutput (α : Type) (n m : Nat) where
  lsTotalCost : α
  lsConstraint1ISE : α
  lsConstraint1MaxNorm : α
  lsConstraint2ISE : α
  lsConstraint2MaxNorm : α
  lsControllersStock : List (Controller α n m)
  lsTrajectoriesStock : Option (List (PartitionTrajectory α n m))

/-- The inner loop of lines 1468-1470 of `lineSearchWorker` for one controller:
`uff_[k] += learningRate * deltaUff_[k]` for every time stamp `k`. -/
def lineSearchWorker_increment {n m : Nat} (learningRate : α) (c : Controller α n m) :
    Except String (Controller α n m) :=
  (forRange (fun k (uff : List (Fin m → α)) =>
    updateAt uff k fun u =>
      (indexAt c.deltaUff_ k).bind fun deltaUff => .ok (u + learningRate • deltaUff))
    c.time_.length 0 c.uff_).bind fun uff => .ok { c with uff_ := uff }

/-- Lines 1467-1470 of `lineSearchWorker`: modifying uff by local increments. -/
def lineSearchWorker_controllers {n m : Nat} (learningRate : α) (numPartitions_ : Nat)
    (lsControllersStock : List (Controller α n m)) :
    Except String (List (Controller α n m)) :=
  forRange (fun i (stock : List (Controller α n m)) =>
    updateAt stock i (lineSearchWorker_increment learningRate)) numPartitions_ 0
    lsControllersStock

/-- Lines 1482-1504 of `lineSearchWorker`: the rollout constraints and their ISEs, or zeros
when `lsComputeISEs_` is off. Returns the outputs and the local constraint stocks. -/
def lineSearchWorker_constraints {n m : Nat} (L : LineSearchModel α n m)
    (M : LineSearchMembers α n) (trajectories : List (PartitionTrajectory α n m))
    (out : LineSearchOutput α n m) :
    Except String (LineSearchOutput α n m × List (ConstraintTrajectory α m)) :=
  let locals : List (ConstraintTrajectory α m) :=
    List.replicate M.numPartitions_ ⟨[], [], [], [], [], []⟩
  if M.lsComputeISEs_ = true then
    -- calculate rollout constraints
    (calculateRolloutConstraints L.systemConstraints M.numPartitions_ trajectories
      locals).bind fun cs =>
    -- calculate constraint type-1 ISE and maximum norm
    let r1 := calculateConstraintISE L.sqrt M.numPartitions_
      (trajectories.map fun tr => tr.timeTrajectory) (cs.map fun c => c.nc1Trajectory)
      (cs.map fun c => c.EvTrajectory)
    -- calculates type-2 constraint ISE and maximum norm
    let r2 := calculateConstraintISE L.sqrt M.numPartitions_
      (trajectories.map fun tr => tr.timeTrajectory) (cs.map fun c => c.nc2Trajectory)
      (cs.map fun c => c.HvTrajectory)
    .ok ({ out with lsConstraint1MaxNorm := r1.1, lsConstraint1ISE := r1.2,
                    lsConstraint2MaxNorm := r2.1, lsConstraint2ISE := r2.2 }, cs)
  else
    .ok ({ out with lsConstraint1ISE := 0, lsConstraint1MaxNorm := 0,
                    lsConstraint2ISE := 0, lsConstraint2MaxNorm := 0 }, locals)

/-- Lines 1506-1511 of `lineSearchWorker`: calculate rollout cost. -/
def lineSearchWorker_cost {n m : Nat} (L : LineSearchModel α n m) (settings : SLQ_Settings α)
    (M : LineSearchMembers α n) (trajectories : List (PartitionTrajectory α n m))
    (out : LineSearchOutput α n m) (constraints : List (ConstraintTrajectory α m)) :
    Except String α :=
  calculateRolloutCost_constrained settings M.iteration_ L.costFunctions
    L.heuristicsFunctions M.numPartitions_ M.finalActivePartition_ trajectories
    out.lsConstraint2ISE constraints

/-- The `try` block of `lineSearchWorker` (lines 1472-1530) for the controllers
`lsControllersStock` after the increment: the outputs when no statement throws, and the
exception otherwise. -/
def lineSearchWorker_try {n m : Nat} (L : LineSearchModel α n m) (settings : SLQ_Settings α)
    (M : LineSearchMembers α n) (out : LineSearchOutput α n m) :
    Except String (LineSearchOutput α n m) :=
  -- perform a rollout
  (rolloutTrajectory L.toTimeTriggeredModel M.initActivePartition_ M.finalActivePartition_
    M.blockwiseMovingHorizon_ M.initTime_ M.initState_ M.finalTime_ M.partitioningTimes_
    out.lsControllersStock).bind fun r =>
  (lineSearchWorker_constraints L M r.2 { out with lsTrajectoriesStock := some r.2 }).bind
    fun oc =>
  (lineSearchWorker_cost L settings M r.2 oc.1 oc.2).bind fun lsTotalCost =>
  .ok { oc.1 with lsTotalCost := lsTotalCost }

/-- `SLQ_BASE::lineSearchWorker`; `ls` holds the reference arguments as they come in. The
`catch` clause keeps what the `try` block has written before the exception and sets
`lsTotalCost` to `std::numeric_limits<scalar_t>::max()`. An access past the end of a vector
inside the `try` block counts as an exception, as everywhere in this development. -/
def lineSearchWorker {n m : Nat} (L : LineSearchModel α n m) (settings : SLQ_Settings α)
    (M : LineSearchMembers α n) (learningRate : α) (ls : LineSearchOutput α n m) :
    Except String (LineSearchOutput α n m) :=
  -- modifying uff by local increments
  (lineSearchWorker_controllers learningRate M.numPartitions_ ls.lsControllersStock).bind
    fun stock =>
  let out : LineSearchOutput α n m := { ls with lsControllersStock := stock }
  match rolloutTrajectory L.toTimeTriggeredModel M.initActivePartition_
      M.finalActivePartition_ M.blockwiseMovingHorizon_ M.initTime_ M.initState_ M.finalTime_
      M.partitioningTimes_ stock with
  | .error _ => .ok { out with lsTotalCost := L.scalarMax, lsTrajectoriesStock := none }
  | .ok r =>
    match lineSearchWorker_constraints L M r.2 { out with lsTrajectoriesStock := some r.2 } with
    | .error _ => .ok { out with lsTotalCost := L.scalarMax, lsTrajectoriesStock := some r.2 }
    | .ok oc =>
      match lineSearchWorker_cost L settings M r.2 oc.1 oc.2 with
      | .error _ => .ok { oc.1 with lsTotalCost := L.scalarMax }
      | .ok lsTotalCost => .ok { oc.1 with lsTotalCost := lsTotalCost }

/-- Specification: the controller `c1` is the controller `c` after
`uff[k] <- uff[k] + alpha * deltaUff[k]` for every time index `k`: the time stamps, the
gains and the increments are those of `c`, and so are the inputs past the time stamps. -/
def spec_incremented {n m : Nat} (learningRate : α) (c c1 : Controller α n m) : Prop :=
  c1.time_ = c.time_ ∧ c1.k_ = c.k_ ∧ c1.deltaUff_ = c.deltaUff_ ∧
  c1.uff_.length = c.uff_.length ∧
  (∀ k u deltaUff, k < c.time_.length → c.uff_[k]? = some u →
    c.deltaUff_[k]? = some deltaUff → c1.uff_[k]? = some (u + learningRate • deltaUff)) ∧
  (∀ k, c.time_.length ≤ k → c1.uff_[k]? = c.uff_[k]?)

/-! ## `MultipleShootingSolver::takeStep`

A `vector_t` is a list of scalars and a `vector_array_t` a list of vectors. -/

/-- The fields of `multiple_shooting::Settings` read by `takeStep`. -/
structure MultipleShootingSettings (α : Type) where
  alpha_decay : α
  alpha_min : α
  gamma_c : α
  g_max : α
  g_min : α
  armijoFactor : α

/-- The fields of `PerformanceIndex` read by `takeStep`. -/
structure PerformanceIndex (α : Type) where
  merit : α
  stateEqConstraintISE : α
  stateInputEqConstraintISE : α
  inequalityConstraintISE : α

/-- The values of `multiple_shooting::StepInfo::StepType` written by `takeStep`, and
`UNKNOWN` for a step type that has not been written. -/
inductive StepType where
  | UNKNOWN
  | CONSTRAINT
  | DUAL
  | COST
  | ZERO
  deriving DecidableEq

/-- `multiple_shooting::StepInfo`. -/
structure StepInfo (α : Type) where
  stepType : StepType
  stepSize : α
  dx_norm : α
  du_norm : α
  performanceAfterStep : PerformanceIndex α
  totalConstraintViolationAfterStep : α

/-- The fields of `OcpSubproblemSolution` read by `takeStep`. -/
structure OcpSubproblemSolution (α : Type) where
  deltaXSol : List (List α)
  deltaUSol : List (List α)
  armijoDescentMetric : α

/-- `MultipleShootingSolver::trajectoryNorm`; the square root is the library function. -/
def trajectoryNorm (sqrt : α → α) (v : List (List α)) : α :=
  sqrt (v.foldl (fun norm vi => norm + (vi.map fun a => a * a).sum) 0)

/-- `MultipleShootingSolver::totalConstraintViolation`. -/
def totalConstraintViolation (sqrt : α → α) (performance : PerformanceIndex α) : α :=
  sqrt (performance.stateEqConstraintISE + performance.stateInputEqConstraintISE
    + performance.inequalityConstraintISE)

/-- The Eigen expression `v + alpha * dv` on vectors of one size (on vectors of different
sizes, as on trajectories of different lengths, the expression is undefined; the common
entries are taken here). -/
def addScaled (v : List α) (alpha : α) (dv : List α) : List α :=
  List.zipWith (fun a b => a + alpha * b) v dv

/-- What one pass of the loop of `takeStep` computes for the step size `alpha`. -/
structure StepTrial (α : Type) where
  xNew : List (List α)
  uNew : List (List α)
  performanceNew : PerformanceIndex α
  newConstraintViolation : α
  stepType : StepType
  stepAccepted : Bool

/-- Lines 573-589 of `takeStep`: step acceptance and the recorded step type. -/
def takeStep_accept (settings : MultipleShootingSettings α) (baseline : PerformanceIndex α)
    (baselineConstraintViolation armijoDescentMetric alpha : α)
    (performanceNew : PerformanceIndex α) (newConstraintViolation : α) : StepType × Bool :=
  if newConstraintViolation > settings.g_max then
    -- High constraint violation. Only accept decrease in constraints.
    (StepType.CONSTRAINT,
      decide (newConstraintViolation < (1 - settings.gamma_c) * baselineConstraintViolation))
  else if newConstraintViolation < settings.g_min
      ∧ baselineConstraintViolation < settings.g_min ∧ armijoDescentMetric < 0 then
    -- With low violation and having a descent direction, require the armijo condition.
    (StepType.COST,
      decide (performanceNew.merit
        < baseline.merit + settings.armijoFactor * alpha * armijoDescentMetric))
  else
    -- Medium violation: either merit or constraints decrease
    (StepType.DUAL,
      decide (performanceNew.merit
          < baseline.merit - settings.gamma_c * baselineConstraintViolation)
        || decide (newConstraintViolation
          < (1 - settings.gamma_c) * baselineConstraintViolation))

/-- Lines 556-589 of `takeStep` for the step size `alpha`. `uNew` is created with `u.size()`
empty vectors, and an entry whose `du[i]` is empty is never assigned, so it is the empty
vector in every pass; `computePerformance xNew uNew` is the member function for the fixed
time discretization and initial state. -/
def takeStep_trial (sqrt : α → α)
    (computePerformance : List (List α) → List (List α) → PerformanceIndex α)
    (settings : MultipleShootingSettings α) (baseline : PerformanceIndex α)
    (subproblemSolution : OcpSubproblemSolution α) (x u : List (List α)) (alpha : α) :
    StepTrial α :=
  -- Compute step
  let uNew := List.zipWith
    (fun ui dui => if dui.length > 0 then addScaled ui alpha dui else [])
    u subproblemSolution.deltaUSol
  let xNew := List.zipWith (fun xi dxi => addScaled xi alpha dxi) x
    subproblemSolution.deltaXSol
  -- Compute cost and constraints
  let performanceNew := computePerformance xNew uNew
  let newConstraintViolation := totalConstraintViolation sqrt performanceNew
  let accept := takeStep_accept settings baseline (totalConstraintViolation sqrt baseline)
    subproblemSolution.armijoDescentMetric alpha performanceNew newConstraintViolation
  ⟨xNew, uNew, performanceNew, newConstraintViolation, accept.1, accept.2⟩

/-- What `takeStep` returns: the step info and the reference arguments `x` and `u`. -/
structure StepOutcome (α : Type) where
  stepInfo : StepInfo α
  x : List (List α)
  u : List (List α)

/-- Lines 602-611 of `takeStep`: the outcome when the trial with step size `alpha` is
accepted. -/
def takeStep_accepted (sqrt : α → α) (subproblemSolution : OcpSubproblemSolution α)
    (trial : StepTrial α) (alpha : α) : StepOutcome α :=
  ⟨{ stepType := trial.stepType, stepSize := alpha,
     dx_norm := alpha * trajectoryNorm sqrt subproblemSolution.deltaXSol,
     du_norm := alpha * trajectoryNorm sqrt subproblemSolution.deltaUSol,
     performanceAfterStep := trial.performanceNew,
     totalConstraintViolationAfterStep := trial.newConstraintViolation },
   trial.xNew, trial.uNew⟩

/-- Lines 615-628 of `takeStep`: alpha_min reached, no step is taken. -/
def takeStep_zero (sqrt : α → α) (baseline : PerformanceIndex α) (x u : List (List α)) :
    StepOutcome α :=
  ⟨{ stepType := StepType.ZERO, stepSize := 0, dx_norm := 0, du_norm := 0,
     performanceAfterStep := baseline,
     totalConstraintViolationAfterStep := totalConstraintViolation sqrt baseline }, x, u⟩

/-- The `do ... while (alpha >= alpha_min)` loop of `takeStep` entered with step size
`alpha`, followed by lines 615-628; at most `fuel` passes are made, and `none` is returned
when they do not suffice. -/
def takeStep_loop (sqrt : α → α)
    (computePerformance : List (List α) → List (List α) → PerformanceIndex α)
    (settings : MultipleShootingSettings α) (baseline : PerformanceIndex α)
    (subproblemSolution : OcpSubproblemSolution α) (x u : List (List α)) :
    Nat → α → Option (StepOutcome α)
  | 0, _ => none
  | fuel + 1, alpha =>
    if (takeStep_trial sqrt computePerformance settings baseline subproblemSolution
        x u alpha).stepAccepted = true then
      -- Return if step accepted
      some (takeStep_accepted sqrt subproblemSolution
        (takeStep_trial sqrt computePerformance settings baseline subproblemSolution
          x u alpha) alpha)
    else
      -- Try smaller step
      if alpha * settings.alpha_decay ≥ settings.alpha_min then
        takeStep_loop sqrt computePerformance settings baseline subproblemSolution x u fuel
          (alpha * settings.alpha_decay)
      else some (takeStep_zero sqrt baseline x u)

/-- `MultipleShootingSolver::takeStep` with at most `fuel` passes of its loop. -/
def takeStep (sqrt : α → α)
    (computePerformance : List (List α) → List (List α) → PerformanceIndex α)
    (settings : MultipleShootingSettings α) (baseline : PerformanceIndex α)
    (subproblemSolution : OcpSubproblemSolution α) (x u : List (List α)) (fuel : Nat) :
    Option (StepOutcome α) :=
  takeStep_loop sqrt computePerformance settings baseline subproblemSolution x u fuel 1

/-- The members of the solver at the moment `rewindOptimizer(firstIndex)` ends, whether it
returns or throws: the statement `rewindCounter_ += firstIndex` precedes the size check, so
the counter is already increased when the exception leaves the function. -/
def rewindOptimizer_members {n m : Nat} (firstIndex : Nat) (st : RewindState α n m) :
    RewindState α n m :=
  if firstIndex = 0 then st
  else
    let st := { st with rewindCounter_ := (st.rewindCounter_ + firstIndex) % 2 ^ 64 }
    if firstIndex > st.numPartitions_ then st
    else
      let preservedLength := st.numPartitions_ - firstIndex
      (List.range st.numPartitions_).foldl (rewindOptimizer_step firstIndex preservedLength) st

/-- `getRewindCounter()`. -/
def getRewindCounter {n m : Nat} (st : RewindState α n m) : Nat := st.rewindCounter_

/-- Successive calls `rewindOptimizer(k)`, one for each `k` of the list; the first throw ends
the sequence. -/
def rewindOptimizer_sequence {n m : Nat} :
    List Nat → RewindState α n m → Except String (RewindState α n m)
  | [], st => .ok st
  | k :: ks, st => (rewindOptimizer k st).bind (rewindOptimizer_sequence ks)

/-- Specification: the four arrays of a controller have the same length. -/
def spec_aligned {n m : Nat} (c : Controller α n m) : Prop :=
  c.k_.length = c.time_.length ∧ c.uff_.length = c.time_.length ∧
  c.deltaUff_.length = c.time_.length

/-- Specification: the gains and the inputs of a controller are as many as its time
stamps. -/
def spec_alignedInputs {n m : Nat} (c : Controller α n m) : Prop :=
  c.k_.length = c.time_.length ∧ c.uff_.length = c.time_.length

/-- Specification: the intermediate cost at sample `k` of a partition. -/
def spec_intermediateCost {n m : Nat}
    (costFunctions : α → (Fin n → α) → (Fin m → α) → ModelEvaluation α n m)
    (timeTrajectory : List α) (stateTrajectory : List (Fin n → α))
    (inputTrajectory : List (Fin m → α)) (k : Nat) : α :=
  (costFunctions (timeTrajectory.getD k 0) (stateTrajectory.getD k 0)
    (inputTrajectory.getD k 0)).intermediateCost

/-- Specification: the terminal cost at sample `k` of a partition. -/
def spec_terminalCost {n m : Nat}
    (costFunctions : α → (Fin n → α) → (Fin m → α) → ModelEvaluation α n m)
    (timeTrajectory : List α) (stateTrajectory : List (Fin n → α))
    (inputTrajectory : List (Fin m → α)) (k : Nat) : α :=
  (costFunctions (timeTrajectory.getD k 0) (stateTrajectory.getD k 0)
    (inputTrajectory.getD k 0)).terminalCost

/-- Specification: the trapezoidal integral of the intermediate cost over the first `N`
samples, `sum_{k=1}^{N-1} 1/2 * (c[k-1] + c[k]) * (t[k] - t[k-1])`. -/
def spec_trapezoid {n m : Nat}
    (costFunctions : α → (Fin n → α) → (Fin m → α) → ModelEvaluation α n m)
    (timeTrajectory : List α) (stateTrajectory : List (Fin n → α))
    (inputTrajectory : List (Fin m → α)) (N : Nat) : α :=
  (Finset.range (N - 1)).sum fun k =>
    1 / 2 * (spec_intermediateCost costFunctions timeTrajectory stateTrajectory
        inputTrajectory k
      + spec_intermediateCost costFunctions timeTrajectory stateTrajectory
        inputTrajectory (k + 1))
    * (timeTrajectory.getD (k + 1) 0 - timeTrajectory.getD k 0)

/-- Specification: the sum of the terminal costs, one for each marker `e` of the list,
evaluated at sample `e - 1`. -/
def spec_terminalSum {n m : Nat}
    (costFunctions : α → (Fin n → α) → (Fin m → α) → ModelEvaluation α n m)
    (timeTrajectory : List α) (stateTrajectory : List (Fin n → α))
    (inputTrajectory : List (Fin m → α)) (events : List Nat) : α :=
  (events.map fun e => spec_terminalCost costFunctions timeTrajectory stateTrajectory
    inputTrajectory (e - 1)).sum

/-- The invariant of the loop of `calculateCostWorker` before sample `k`: the iterator stands
at the first marker greater than `k`, the cost is the integral over the samples before `k`
plus the terminal costs of the markers passed, and the current intermediate cost is that of
sample `k - 1`. -/
def costInvariant {n m : Nat}
    (costFunctions : α → (Fin n → α) → (Fin m → α) → ModelEvaluation α n m)
    (timeTrajectory : List α) (stateTrajectory : List (Fin n → α))
    (inputTrajectory : List (Fin m → α)) (events : List Nat) (k : Nat) (st : CostRun α) :
    Prop :=
  st.eventsPastTheEndItr = events.filter (fun e => decide (k < e)) ∧
  st.totalCost + spec_terminalSum costFunctions timeTrajectory stateTrajectory inputTrajectory
      st.eventsPastTheEndItr
    = spec_trapezoid costFunctions timeTrajectory stateTrajectory inputTrajectory k
      + spec_terminalSum costFunctions timeTrajectory stateTrajectory inputTrajectory events ∧
  (0 < k → st.currIntermediateCost
    = spec_intermediateCost costFunctions timeTrajectory stateTrajectory inputTrajectory (k - 1))

/-- A cost object with intermediate cost 0 and terminal cost 1 at every sample. -/
def unitTerminalCost : ℚ → (Fin 1 → ℚ) → (Fin 1 → ℚ) → ModelEvaluation ℚ 1 1 :=
  fun _ _ _ => { zeroModel ℚ 1 1 with terminalCost := 1 }

/-- A cost object with intermediate cost `t` and terminal cost 1 at time `t`. -/
def rampCost : ℚ → (Fin 1 → ℚ) → (Fin 1 → ℚ) → ModelEvaluation ℚ 1 1 :=
  fun t _ _ => { zeroModel ℚ 1 1 with intermediateCost := t, terminalCost := 1 }

/-- Lines 435-438 of `rolloutTimeTriggeredWorker`: index of the first subsystem. -/
def rolloutTimeTriggeredWorker_beginItr {n m : Nat} (E : TimeTriggeredModel α n m)
    (initActivePartition_ partitionIndex : Nat) (initTime : α) : Nat :=
  if partitionIndex = initActivePartition_ then
    toSize (E.findActiveIntervalIndex (E.getSwitchingTimes partitionIndex) initTime 0 none)
  else 0

/-- Lines 439-442 of `rolloutTimeTriggeredWorker`: index of the last subsystem. -/
def rolloutTimeTriggeredWorker_finalItr {n m : Nat} (E : TimeTriggeredModel α n m)
    (finalActivePartition_ partitionIndex : Nat) (finalTime : α) : Nat :=
  if partitionIndex = finalActivePartition_ then
    toSize (E.findActiveIntervalIndex (E.getSwitchingTimes partitionIndex) finalTime
      (sizeMinusOne (E.getNumEventCounters partitionIndex)) none)
  else sizeMinusOne (E.getNumEventCounters partitionIndex)

/-- Lines 506-507 of `rolloutTimeTriggeredWorker`: whether an event has happened at the final
time. -/
def rolloutTimeTriggeredWorker_eventAtFinalTime {n m : Nat} (E : TimeTriggeredModel α n m)
    (partitionIndex finalItr : Nat) (finalTime : α) : Bool :=
  decide (E.getNumEvents partitionIndex > finalItr) &&
    (match (E.getEventTimes partitionIndex)[finalItr]? with
     | some t => decide (t < finalTime + E.limit_epsilon)
     | none => false)

/-- Specification: every integration call and every operating-trajectory call that returns
appends at least one state. -/
def spec_appendsSample {n m : Nat} (E : TimeTriggeredModel α n m) : Prop :=
  (∀ p c x a b xs ts, E.integrate p c x a b = .ok (xs, ts) → xs ≠ []) ∧
  (∀ p x a b ts xs us, E.getSystemOperatingTrajectories p x a b = .ok (ts, xs, us) → xs ≠ [])

/-- The invariant of the event markers before the pass for subsystem `i` of the loop of
`rolloutTimeTriggeredWorker`. -/
def markersInvariant {n m : Nat} (beginItr i : Nat) (st : TimeTriggeredRun α n m) : Prop :=
  st.trajectory.eventsPastTheEndIndeces.Pairwise (fun a b => a < b) ∧
  (∀ e, e ∈ st.trajectory.eventsPastTheEndIndeces →
    1 ≤ e ∧ e ≤ st.trajectory.stateTrajectory.length) ∧
  st.trajectory.eventsPastTheEndIndeces.length + beginItr = i

/-- The event markers after the pass for the last subsystem `finalItr`. -/
def markersFinal {n m : Nat} (beginItr finalItr : Nat) (st : TimeTriggeredRun α n m) : Prop :=
  st.trajectory.eventsPastTheEndIndeces.Pairwise (fun a b => a < b) ∧
  (∀ e, e ∈ st.trajectory.eventsPastTheEndIndeces →
    1 ≤ e ∧ e < st.trajectory.stateTrajectory.length) ∧
  st.trajectory.eventsPastTheEndIndeces.length + beginItr = finalItr

/-! ## The rollout workers as calls on their reference arguments

The exception of a call carries the reference arguments as they are when it leaves the
function. -/

/-- The body of the loop of `rolloutTimeTriggeredWorker` for subsystem `i`, with the variables
at a throw (a throwing integrator or operating-trajectory call is taken to have appended
nothing). -/
def rolloutTimeTriggeredWorker_pass_call {n m : Nat} (E : TimeTriggeredModel α n m)
    (partitionIndex : Nat) (controller : Controller α n m) (switchingTimes : List α)
    (beginItr finalItr : Nat) (initTime finalTime : α) (st : TimeTriggeredRun α n m)
    (i : Nat) : Except (String × TimeTriggeredRun α n m) (TimeTriggeredRun α n m) :=
  ((if i = beginItr then .ok initTime else indexAt switchingTimes i).mapError
    fun e => (e, st)).bind fun beginTime =>
  ((if i = finalItr then .ok finalTime else indexAt switchingTimes (i + 1)).mapError
    fun e => (e, st)).bind fun endTime =>
  ((rolloutTimeTriggeredWorker_simulate E partitionIndex controller st beginTime
    endTime).mapError fun e => (e, st)).bind fun st1 =>
  (rolloutTimeTriggeredWorker_jump E partitionIndex finalItr st1 i).mapError fun e => (e, st1)

/-- The loop of `rolloutTimeTriggeredWorker`, with the variables at a throw. -/
def rolloutTimeTriggeredWorker_loop_call {n m : Nat} (E : TimeTriggeredModel α n m)
    (partitionIndex : Nat) (controller : Controller α n m) (switchingTimes : List α)
    (beginItr finalItr : Nat) (initTime finalTime : α) :
    Nat → Nat → TimeTriggeredRun α n m →
      Except (String × TimeTriggeredRun α n m) (TimeTriggeredRun α n m)
  | 0, _, st => .ok st
  | count + 1, i, st =>
    (rolloutTimeTriggeredWorker_pass_call E partitionIndex controller switchingTimes beginItr
      finalItr initTime finalTime st i).bind
      (rolloutTimeTriggeredWorker_loop_call E partitionIndex controller switchingTimes beginItr
        finalItr initTime finalTime count (i + 1))

/-- Lines 427-516 of `rolloutTimeTriggeredWorker`, the part after the check of the times: it
clears the reference arguments before it writes them. -/
def rolloutTimeTriggeredWorker_rollout {n m : Nat} (E : TimeTriggeredModel α n m)
    (initActivePartition_ finalActivePartition_ : Nat)
    (partitionIndex : Nat) (initTime : α) (initState : Fin n → α) (finalTime : α)
    (controller : Controller α n m) :
    Except (String × PartitionTrajectory α n m) ((Fin n → α) × PartitionTrajectory α n m) :=
  let switchingTimes := E.getSwitchingTimes partitionIndex
  -- index of the first subsystem
  let beginItr :=
    rolloutTimeTriggeredWorker_beginItr E initActivePartition_ partitionIndex initTime
  -- index of the last subsystem
  let finalItr :=
    rolloutTimeTriggeredWorker_finalItr E finalActivePartition_ partitionIndex finalTime
  -- clearing the output trajectories
  let cleared : PartitionTrajectory α n m := ⟨[], [], [], []⟩
  ((rolloutTimeTriggeredWorker_loop_call E partitionIndex controller switchingTimes beginItr
    finalItr initTime finalTime (finalItr + 1 - beginItr) beginItr
    ⟨initState, 0, cleared⟩).mapError fun p => (p.1, p.2.trajectory)).bind fun st =>
  -- If an event has happened at the final time push it to the eventsPastTheEndIndeces
  if rolloutTimeTriggeredWorker_eventAtFinalTime E partitionIndex finalItr finalTime
      = true then
    match st.trajectory.timeTrajectory.getLast?, st.trajectory.stateTrajectory.getLast? with
    | some tBack, some xBack =>
      .ok (E.computeJumpMap partitionIndex tBack xBack,
        { st.trajectory with
          eventsPastTheEndIndeces := st.trajectory.eventsPastTheEndIndeces
            ++ [st.trajectory.stateTrajectory.length] })
    | _, _ => .error ("back() of an empty trajectory", st.trajectory)
  else
    match st.trajectory.stateTrajectory.getLast? with
    | some xBack => .ok (xBack, st.trajectory)
    | none => .error ("back() of an empty trajectory", st.trajectory)

/-- `SLQ_BASE::rolloutTimeTriggeredWorker` called on the reference arguments `out`
(`timeTrajectory`, `eventsPastTheEndIndeces`, `stateTrajectory`, `inputTrajectory`): returns
the state and the arguments, or throws with the arguments as they are at the throw. -/
def rolloutTimeTriggeredWorker_call {n m : Nat} (E : TimeTriggeredModel α n m)
    (initActivePartition_ finalActivePartition_ : Nat)
    (partitionIndex : Nat) (initTime : α) (initState : Fin n → α) (finalTime : α)
    (controller : Controller α n m) (out : PartitionTrajectory α n m) :
    Except (String × PartitionTrajectory α n m) ((Fin n → α) × PartitionTrajectory α n m) :=
  if initTime > finalTime then
    .error ("Initial time should be less-equal to final time.", out)
  else
    rolloutTimeTriggeredWorker_rollout E initActivePartition_ finalActivePartition_
      partitionIndex initTime initState finalTime controller

/-- The reference arguments of `rolloutStateTriggeredWorker`. -/
structure StateTriggeredArguments (α X U : Type) where
  timeTrajectory : List α
  eventsPastTheEndIndeces : List Nat
  stateTrajectory : List X
  inputTrajectory : List U
  eventTimes : List α
  subsystemID : List Nat
  guardSurfacesValues : List α
  hybridLlogicRulesMachine : List (Nat × α × Nat)

/-- The reference arguments among the variables of `rolloutStateTriggeredWorker`. -/
def StateTriggeredRun.arguments {X U σ : Type} (st : StateTriggeredRun α X U σ) :
    StateTriggeredArguments α X U :=
  { timeTrajectory := st.timeTrajectory,
    eventsPastTheEndIndeces := st.eventsPastTheEndIndeces,
    stateTrajectory := st.stateTrajectory, inputTrajectory := st.inputTrajectory,
    eventTimes := st.eventTimes, subsystemID := st.subsystemID,
    guardSurfacesValues := st.guardSurfacesValues,
    hybridLlogicRulesMachine := st.hybridLlogicRulesMachine }

/-- One pass of the `while` loop of `rolloutStateTriggeredWorker`, with the variables at a
throw. -/
def rolloutStateTriggeredWorker_pass_call {X U σ : Type} (M : StateTriggeredModel α X U σ)
    (partitionIndex : Nat) (finalTime : α) (st : StateTriggeredRun α X U σ) :
    Except (String × StateTriggeredRun α X U σ) (StateTriggeredRun α X U σ) :=
  -- integrate controlled system
  let res := M.integrate st.sigma st.x0 st.t0 finalTime
  let stateTrajectory := st.stateTrajectory ++ res.2.states
  let timeTrajectory := st.timeTrajectory ++ res.2.times
  let st := { st with sigma := res.1, stateTrajectory := stateTrajectory,
                      timeTrajectory := timeTrajectory,
                      integrateCalls := st.integrateCalls ++ [(st.x0, st.t0, finalTime)] }
  match timeTrajectory.getLast?, stateTrajectory.getLast? with
  | some tBack, some xBack =>
    match res.2.eventID with
    | some eventID =>
      .ok { st with
        eventsPastTheEndIndeces := st.eventsPastTheEndIndeces ++ [timeTrajectory.length],
        x0 := M.computeJumpMap tBack xBack,
        computeJumpMapCalls := st.computeJumpMapCalls ++ [(tBack, xBack)],
        eventTimes := st.eventTimes ++ [tBack],
        subsystemID := st.subsystemID ++ [eventID],
        hybridLlogicRulesMachine := st.hybridLlogicRulesMachine ++ [(partitionIndex, tBack, eventID)],
        t0 := tBack }
    | none => .ok { st with t0 := tBack }
  | _, _ => .error ("back() of an empty trajectory", st)

/-- The `while` loop of `rolloutStateTriggeredWorker`, with the variables at a throw. -/
def rolloutStateTriggeredWorker_while_call {X U σ : Type} (M : StateTriggeredModel α X U σ)
    (partitionIndex : Nat) (finalTime : α) :
    Nat → StateTriggeredRun α X U σ →
      Except (String × StateTriggeredRun α X U σ) (StateTriggeredRun α X U σ)
  | 0, st =>
    if st.t0 < finalTime - M.week_epsilon then .error ("out of fuel", st) else .ok st
  | fuel + 1, st =>
    if st.t0 < finalTime - M.week_epsilon then
      (rolloutStateTriggeredWorker_pass_call M partitionIndex finalTime st).bind
        (rolloutStateTriggeredWorker_while_call M partitionIndex finalTime fuel)
    else .ok st

/-- Lines 246-319 of `rolloutStateTriggeredWorker`, the part after the check of the
times. -/
def rolloutStateTriggeredWorker_rollout {X U σ : Type} (M : StateTriggeredModel α X U σ)
    (fuel : Nat) (sigma : σ) (partitionIndex : Nat) (initTime : α) (initState : X)
    (finalTime : α) (controllerEmpty : Bool) (args : StateTriggeredArguments α X U) :
    Except (String × StateTriggeredArguments α X U) (X × StateTriggeredArguments α X U) :=
  if args.eventTimes.isEmpty = false ∧ args.guardSurfacesValues.isEmpty = true then
    .error ("Since the event times array is not empty, the last update of the guard functions value should be provided.", args)
  else
    -- initialize the model and set controller
    let sigma :=
      if controllerEmpty = false then
        M.setController sigma partitionIndex args.eventTimes.getLast? args.guardSurfacesValues
      else sigma
    -- initial values of the guard surfaces
    let subsystemID :=
      if args.subsystemID.isEmpty = true then
        args.subsystemID ++ [initialActiveSubsystem (M.computeGuardSurfaces initTime initState)]
      else args.subsystemID
    -- clearing the output trajectories
    let st : StateTriggeredRun α X U σ :=
      { sigma := sigma, t0 := initTime, x0 := initState,
        timeTrajectory := [], stateTrajectory := [], inputTrajectory := [],
        eventsPastTheEndIndeces := [], eventTimes := args.eventTimes,
        subsystemID := subsystemID, guardSurfacesValues := args.guardSurfacesValues,
        hybridLlogicRulesMachine := args.hybridLlogicRulesMachine,
        computeJumpMapCalls := [], integrateCalls := [] }
    ((rolloutStateTriggeredWorker_while_call M partitionIndex finalTime fuel st).mapError
      fun p => (p.1, p.2.arguments)).bind fun st =>
    -- compute control input trajectory and concatenate to inputTrajectory
    let inputTrajectory :=
      (st.timeTrajectory.zip st.stateTrajectory).map (fun p => M.computeInput p.1 p.2)
    -- get the guardSurfacesValues
    let st := { st with inputTrajectory := inputTrajectory,
                        guardSurfacesValues := M.getGuardSurfacesValues st.sigma }
    match st.stateTrajectory.getLast? with
    | some xBack => .ok (xBack, st.arguments)
    | none => .error ("back() of an empty trajectory", st.arguments)

/-- `SLQ_BASE::rolloutStateTriggeredWorker` called on the reference arguments `args`:
returns the state and the arguments, or throws with the arguments as they are at the
throw. -/
def rolloutStateTriggeredWorker_call {X U σ : Type} (M : StateTriggeredModel α X U σ)
    (fuel : Nat) (sigma : σ) (partitionIndex : Nat) (initTime : α) (initState : X)
    (finalTime : α) (controllerEmpty : Bool) (args : StateTriggeredArguments α X U) :
    Except (String × StateTriggeredArguments α X U) (X × StateTriggeredArguments α X U) :=
  if initTime > finalTime then
    .error ("Initial time should be less-equal to final time.", args)
  else
    rolloutStateTriggeredWorker_rollout M fuel sigma partitionIndex initTime initState
      finalTime controllerEmpty args

/-! ## Time normalization of the Riccati workers -/

/-- Lines 1573-1585 of `solveRiccatiEquationsWorker`: the scaling factor and the normalized
start and final time of the Riccati equation of a partition; returns
`(scalingFactor, startNormalizedTime, finalNormalizedTime)`. -/
def solveRiccatiEquationsWorker_normalizedTimes (partitioningTimes_ : List α)
    (initActivePartition_ finalActivePartition_ : Nat) (initTime_ finalTime_ : α)
    (partitionIndex : Nat) : Except String (α × α × α) :=
  (indexAt partitioningTimes_ partitionIndex).bind fun ti =>
  (indexAt partitioningTimes_ (partitionIndex + 1)).bind fun tf =>
  let scalingFactor := ti - tf
  -- Normalized start and final time and index for Riccati equation
  let finalNormalizedTime :=
    if partitionIndex = initActivePartition_ then (initTime_ - tf) / scalingFactor else 1
  let startNormalizedTime :=
    if partitionIndex = finalActivePartition_ then (finalTime_ - tf) / scalingFactor else 0
  .ok (scalingFactor, startNormalizedTime, finalNormalizedTime)

/-- Lines 1646-1655 of `solveRiccatiEquationsWorker`: denormalizing time; `SsTime` is
`SsTimeTrajectoryStock_[partitionIndex]` before the call and the result is its value after
the loop. -/
def solveRiccatiEquationsWorker_denormalize (partitioningTimes_ : List α)
    (partitionIndex : Nat) (SsNormalizedTime SsTime : List α) : Except String (List α) :=
  (indexAt partitioningTimes_ partitionIndex).bind fun ti =>
  (indexAt partitioningTimes_ (partitionIndex + 1)).bind fun tf =>
  let scalingFactor := ti - tf
  let NS := SsNormalizedTime.length
  forRange (fun k (SsTime : List α) =>
    (indexAt SsNormalizedTime (NS - 1 - k)).bind fun s =>
    updateAt SsTime k fun _ => .ok (scalingFactor * s + tf)) NS 0 (resize SsTime NS 0)

/-- Lines 1702-1710 of `solveRiccatiEquationsForNominalTimeWorker`: the normalized time array
of the nominal time stamps; `SsNormalizedTime` is
`SsNormalizedTimeTrajectoryStock_[partitionIndex]` before the call. -/
def solveRiccatiEquationsForNominalTimeWorker_normalize (partitioningTimes_ : List α)
    (partitionIndex : Nat) (nominalTimeTrajectory SsNormalizedTime : List α) :
    Except String (List α) :=
  (indexAt partitioningTimes_ partitionIndex).bind fun ti =>
  (indexAt partitioningTimes_ (partitionIndex + 1)).bind fun tf =>
  let N := nominalTimeTrajectory.length
  let scalingFactor := ti - tf
  forRange (fun k (SsNormalizedTime : List α) =>
    (indexAt nominalTimeTrajectory k).bind fun t =>
    updateAt SsNormalizedTime (N - 1 - k) fun _ => .ok ((t - tf) / scalingFactor)) N 0
    (resize SsNormalizedTime N 0)

/-- Specification: the normalized time `s(t) = (t - t_{i+1}) / (t_i - t_{i+1})` of the
partition `[ti, tf]`. -/
def spec_normalize (ti tf t : α) : α := (t - tf) / (ti - tf)

/-- Specification: the denormalization `t(s) = (t_i - t_{i+1}) * s + t_{i+1}`. -/
def spec_denormalize (ti tf s : α) : α := (ti - tf) * s + tf

/-! ## `fullRiccatiBackwardSweepWorker` -/

/-- The data of a partition that the backward sweep reads. `hamiltonianStep k deltaT Sm1`
is the value of lines 2250-2262 (the Hamiltonian built from the stocks at sample `k`,
integrated over `deltaT` from `Sm[k+1] = Sm1`); `incrementSv k h Sm Sv1` and
`incrementSve k h Sm Sve1` are the values of `integrateIncrement` in lines 2281-2284, whose
matrices `_Gm`, `_Gv`, `_Gve` are built from the stocks at sample `k` and from `Sm[k] = Sm`
(through `LmFunc_` and `LmConstrainedFunc_`). -/
structure SweepModel (α : Type) (n : Nat) where
  nominalTimeTrajectory : List α
  nominalEventsPastTheEndIndeces : List Nat
  qTrajectory : List α
  qFinalStock : List α
  QvFinalStock : List (Fin n → α)
  QmFinalStock : List (Matrix (Fin n) (Fin n) α)
  hamiltonianStep : Nat → α → Matrix (Fin n) (Fin n) α → Matrix (Fin n) (Fin n) α
  incrementSv : Nat → α → Matrix (Fin n) (Fin n) α → (Fin n → α) → (Fin n → α)
  incrementSve : Nat → α → Matrix (Fin n) (Fin n) α → (Fin n → α) → (Fin n → α)

/-- The Riccati stocks of the partition and the event counter of the sweep. -/
structure SweepRun (α : Type) (n : Nat) where
  SmTrajectory : List (Matrix (Fin n) (Fin n) α)
  SvTrajectory : List (Fin n → α)
  SveTrajectory : List (Fin n → α)
  sTrajectory : List α
  remainingEvents : Nat

/-- The body of the loop `for (int k = N-2; k >= 0; k--)` of
`fullRiccatiBackwardSweepWorker` (lines 2232-2296) in its pass number `j`, that is for
`k = N - 2 - j`. The controller that the pass writes is left out. -/
def fullRiccatiBackwardSweepWorker_pass {n : Nat} (P : SweepModel α n) (N j : Nat)
    (st : SweepRun α n) : Except String (SweepRun α n) :=
  let k := N - 2 - j
  -- check if an event is detected.
  (if st.remainingEvents > 0 then
    (indexAt P.nominalEventsPastTheEndIndeces (st.remainingEvents - 1)).bind fun e =>
      .ok (decide (k + 1 = e))
   else .ok false).bind fun eventDetected =>
  let remainingEvents :=
    if eventDetected = true then st.remainingEvents - 1 else st.remainingEvents
  (indexAt P.nominalTimeTrajectory k).bind fun tk =>
  (indexAt P.nominalTimeTrajectory (k + 1)).bind fun tk1 =>
  let deltaT := tk - tk1
  (indexAt st.SmTrajectory (k + 1)).bind fun Sm1 =>
  (indexAt st.SvTrajectory (k + 1)).bind fun Sv1 =>
  (indexAt st.SveTrajectory (k + 1)).bind fun Sve1 =>
  (indexAt st.sTrajectory (k + 1)).bind fun s1 =>
  if eventDetected = true then
    (indexAt P.QmFinalStock remainingEvents).bind fun QmFinal =>
    (indexAt P.QvFinalStock remainingEvents).bind fun QvFinal =>
    (indexAt P.qFinalStock remainingEvents).bind fun qFinal =>
    (updateAt st.SmTrajectory k fun _ => .ok (Sm1 + QmFinal)).bind fun Sm =>
    (updateAt st.SvTrajectory k fun _ => .ok (Sv1 + QvFinal)).bind fun Sv =>
    (updateAt st.SveTrajectory k fun _ => .ok Sve1).bind fun Sve =>
    (updateAt st.sTrajectory k fun _ => .ok (s1 + qFinal)).bind fun s =>
    .ok ⟨Sm, Sv, Sve, s, remainingEvents⟩
  else
    (indexAt P.qTrajectory k).bind fun q =>
    let Smk := P.hamiltonianStep k deltaT Sm1
    (updateAt st.SmTrajectory k fun _ => .ok Smk).bind fun Sm =>
    (updateAt st.SvTrajectory k fun _ => .ok (P.incrementSv k (-deltaT) Smk Sv1)).bind
      fun Sv =>
    (updateAt st.SveTrajectory k fun _ => .ok (P.incrementSve k (-deltaT) Smk Sve1)).bind
      fun Sve =>
    (updateAt st.sTrajectory k fun _ => .ok (s1 - deltaT * q)).bind fun s =>
    .ok ⟨Sm, Sv, Sve, s, remainingEvents⟩

/-- `SLQ_BASE::fullRiccatiBackwardSweepWorker`, restricted to the Riccati stocks of the
partition: `stocks` holds their contents before the call. -/
def fullRiccatiBackwardSweepWorker {n : Nat} (P : SweepModel α n)
    (SmFinal : Matrix (Fin n) (Fin n) α) (SvFinal SveFinal : Fin n → α) (sFinal : α)
    (stocks : SweepRun α n) : Except String (SweepRun α n) :=
  let N := P.nominalTimeTrajectory.length
  -- Riccati parameters
  (updateAt (resize stocks.SmTrajectory N 0) (N - 1) fun _ => .ok SmFinal).bind fun Sm =>
  (updateAt (resize stocks.SvTrajectory N 0) (N - 1) fun _ => .ok SvFinal).bind fun Sv =>
  (updateAt (resize stocks.SveTrajectory N 0) (N - 1) fun _ => .ok SveFinal).bind fun Sve =>
  (updateAt (resize stocks.sTrajectory N 0) (N - 1) fun _ => .ok sFinal).bind fun s =>
  let remainingEvents := P.nominalEventsPastTheEndIndeces.length
  forRange (fullRiccatiBackwardSweepWorker_pass P N) (N - 1) 0
    ⟨Sm, Sv, Sve, s, remainingEvents⟩

/-- Specification: the value scalar at sample 0 when every event's terminal cost is applied
once: `sFinal`, plus `(t[k+1] - t[k]) * q[k]` for every step `k` with `k + 1` not an event
marker, plus `qFinal[j]` for every marker. -/
def spec_sweepValue {n : Nat} (P : SweepModel α n) (sFinal : α) : α :=
  sFinal
  + (Finset.range (P.nominalTimeTrajectory.length - 1)).sum (fun k =>
      if k + 1 ∈ P.nominalEventsPastTheEndIndeces then 0
      else (P.nominalTimeTrajectory.getD (k + 1) 0 - P.nominalTimeTrajectory.getD k 0)
        * P.qTrajectory.getD k 0)
  + (Finset.range P.nominalEventsPastTheEndIndeces.length).sum (fun j =>
      P.qFinalStock.getD j 0)

/-! ## `calculateControllerWorker` and the type-1 projection -/

/-- Eigen `A.leftCols(k)` read as a value: the first `k` columns of a matrix (a column past
the end reads as 0 here). -/
def leftCols {m : Nat} (k : Nat) (A : Matrix (Fin m) (Fin m) α) : Matrix (Fin m) (Fin k) α :=
  fun r c => if h : c.val < m then A r ⟨c.val, h⟩ else 0

/-- The values that `calculateControllerWorker` interpolates at the time of sample `[i][k]`
(lines 1345-1355), and the Riccati solution of the sample. -/
structure ControllerSample (α : Type) (n m : Nat) where
  nominalState : Fin n → α
  nominalInput : Fin m → α
  Bm : Matrix (Fin n) (Fin m) α
  Pm : Matrix (Fin m) (Fin n) α
  Rv : Fin m → α
  RmInverse : Matrix (Fin m) (Fin m) α
  EvProjected : Fin m → α
  CmProjected : Matrix (Fin m) (Fin n) α
  DmProjected : Matrix (Fin m) (Fin m) α
  Sm : Matrix (Fin n) (Fin n) α
  Sv : Fin n → α
  Sve : Fin n → α

/-- Lines 1357-1366 of `calculateControllerWorker`: the feedback gain `k_[k]`, the
feedforward input `uff_[k]` and the increment `deltaUff_[k]` (the stability check that
follows only prints). -/
def calculateControllerWorker {n m : Nat} (constraintStepSize_ : α)
    (d : ControllerSample α n m) :
    Matrix (Fin m) (Fin n) α × (Fin m → α) × (Fin m → α) :=
  let Lm := d.RmInverse * (d.Pm + d.Bmᵀ * d.Sm)
  let Lv := Matrix.mulVec d.RmInverse (d.Rv + Matrix.mulVec d.Bmᵀ d.Sv)
  let Lve := Matrix.mulVec d.RmInverse (Matrix.mulVec d.Bmᵀ d.Sve)
  let DmNullProjection : Matrix (Fin m) (Fin m) α := 1 - d.DmProjected
  let k_ := -DmNullProjection * Lm - d.CmProjected
  let uff_ := d.nominalInput - Matrix.mulVec k_ d.nominalState
    - constraintStepSize_ • (Matrix.mulVec DmNullProjection Lve + d.EvProjected)
  let deltaUff_ := Matrix.mulVec (-DmNullProjection) Lv
  (k_, uff_, deltaUff_)

/-- Specification: a symmetric positive definite matrix. -/
def spec_positiveDefinite {m : Nat} (M : Matrix (Fin m) (Fin m) α) : Prop :=
  Mᵀ = M ∧ ∀ x : Fin m → α, x ≠ 0 → 0 < Matrix.dotProduct x (Matrix.mulVec M x)

/-- Specification: a matrix of full row rank (no non-trivial combination of its rows
vanishes). -/
def spec_fullRowRank {k m : Nat} (D : Matrix (Fin k) (Fin m) α) : Prop :=
  ∀ y : Fin k → α, Matrix.mulVec Dᵀ y = 0 → y = 0

/-- The invariant of the loop of `fullRiccatiBackwardSweepWorker` before its pass number `j`,
that is when the samples `N - 1 - j, .., N - 1` are written: the markers below the event
counter are at most `N - 1 - j`, the others are greater, and the value scalar of sample
`N - 1 - j` is `sFinal` plus the flow steps that are not events plus the terminal costs of the
markers passed. -/
def sweepInvariant {n : Nat} (P : SweepModel α n) (sFinal : α) (j : Nat)
    (st : SweepRun α n) : Prop :=
  st.SmTrajectory.length = P.nominalTimeTrajectory.length ∧
  st.SvTrajectory.length = P.nominalTimeTrajectory.length ∧
  st.SveTrajectory.length = P.nominalTimeTrajectory.length ∧
  st.sTrajectory.length = P.nominalTimeTrajectory.length ∧
  st.remainingEvents ≤ P.nominalEventsPastTheEndIndeces.length ∧
  (∀ i e, i < st.remainingEvents → P.nominalEventsPastTheEndIndeces[i]? = some e →
    e ≤ P.nominalTimeTrajectory.length - 1 - j) ∧
  (∀ i e, st.remainingEvents ≤ i → P.nominalEventsPastTheEndIndeces[i]? = some e →
    P.nominalTimeTrajectory.length - 1 - j < e) ∧
  st.sTrajectory[P.nominalTimeTrajectory.length - 1 - j]? = some (sFinal
    + (Finset.Ico (P.nominalTimeTrajectory.length - 1 - j)
        (P.nominalTimeTrajectory.length - 1)).sum (fun k =>
        if k + 1 ∈ P.nominalEventsPastTheEndIndeces then 0
        else (P.nominalTimeTrajectory.getD (k + 1) 0 - P.nominalTimeTrajectory.getD k 0)
          * P.qTrajectory.getD k 0)
    + (Finset.Ico st.remainingEvents P.nominalEventsPastTheEndIndeces.length).sum (fun i =>
        P.qFinalStock.getD i 0))

/-- Three partitions of a one-state, one-input solver with final-boundary scalars
`10, 20, 30` and controllers holding one time stamp `1, 2, 3` each. -/
def rewindExample : RewindState ℚ 1 1 :=
  { numPartitions_ := 3, rewindCounter_ := 0,
    nominalControllersStock_ :=
      [⟨[1], [0], [0], [0]⟩, ⟨[2], [0], [0], [0]⟩, ⟨[3], [0], [0], [0]⟩],
    SmFinalStock_ := [1, 2, 3], SvFinalStock_ := [1, 2, 3], SveFinalStock_ := [1, 2, 3],
    sFinalStock_ := [10, 20, 30], xFinalStock_ := [1, 2, 3] }

/-- Cost 10 after `runInit` and cost 5 after every `runIteration`, with zero constraint
ISE and a line search that always selects learning rate 0. -/
def stalledOutcome : Nat → Performance ℚ :=
  fun j => if j = 0 then ⟨10, 0, 0, 0⟩ else ⟨5, 0, 0, 0⟩

/-- One partition with the two time stamps `0, 1`. -/
def iseTimes (α : Type) [LinearOrderedField α] : List (List α) := [[0, 1]]

/-- No active constraint at the first sample, one at the second. -/
def iseCounts : List (List Nat) := [[0, 1]]

/-- One-dimensional residuals `0` at the first sample and `3` at the second. -/
def iseResiduals (α : Type) [LinearOrderedField α] : List (List (Fin 1 → α)) :=
  [[fun _ => 0, fun _ => 3]]

/-- A scalar system whose integrator (with a call counter as internal state) throws event
id 1 at the middle of the interval on its first call and runs to the end afterwards; the
jump map adds 100 to the state. -/
def crossingModel : StateTriggeredModel ℚ ℚ ℚ Nat :=
  { setController := fun s _ _ _ => s,
    integrate := fun s x t0 tf =>
      if s = 0 then (1, ⟨[x, x + 1], [t0, (t0 + tf) / 2], some 1⟩)
      else (s + 1, ⟨[x, x], [t0, tf], none⟩),
    computeJumpMap := fun _ x => x + 100,
    computeInput := fun _ x => -x,
    computeGuardSurfaces := fun _ _ => [],
    getGuardSurfacesValues := fun _ => [],
    week_epsilon := 1 / 1000 }

/-- A one-state, one-input environment for the time-triggered rollout. Partition `p` is
the single subsystem `[p, p+1]` without events; the interval lookup returns the index of the
interval `(t_i, t_(i+1)]` that holds the time (0 at the first time stamp, -1 before it); the
integrator and the operating trajectories return the two samples at `a` and `b` with the
state held, and throw when `b < a`. -/
def holdModel : TimeTriggeredModel ℚ 1 1 :=
  { getNumEvents := fun _ => 0,
    getNumEventCounters := fun _ => 1,
    getSwitchingTimes := fun p => [(p : ℚ), (p : ℚ) + 1],
    getEventTimes := fun _ => [],
    findActiveIntervalIndex := fun ts t _ _ =>
      if t < ts.headD 0 then -1 else max 0 (((ts.filter (fun s => s < t)).length : Int) - 1),
    integrate := fun _ _ x a b =>
      if a ≤ b then .ok ([x, x], [a, b]) else .error "integration backwards",
    computeInput := fun _ _ _ _ => 0,
    computeJumpMap := fun _ _ x => x,
    getSystemOperatingTrajectories := fun _ x a b =>
      if a ≤ b then .ok ([a, b], [x, x], [0, 0]) else .error "operating trajectory backwards",
    week_epsilon := 1 / 1000,
    limit_epsilon := 1 / 1000000 }

/-- The environment `holdModel` with an interpolation that holds the last sample not after
the query time (the first sample before all of them) and logic rules that leave the
controllers as they are. -/
def holdRun : RunModel ℚ 1 1 :=
  { holdModel with
    interpolateInput := fun ts data t =>
      (data.getD ((ts.filter (fun s => s ≤ t)).length - 1) 0,
        (ts.filter (fun s => s ≤ t)).length - 1),
    interpolateGain := fun _ data _ j => data.getD j 0,
    updateLogicRules := fun _ stock => stock }

/-- A solver set up for the two partitions `[0, 1]` and `[1, 2]` that holds a controller
with the time stamps `0, 1/2, 1` for the first partition and none for the second. -/
def warmState : SolverState ℚ 1 1 :=
  { numPartitions_ := 2, partitioningTimes_ := [0, 1, 2],
    nominalControllersStock_ :=
      [⟨[0, 1 / 2, 1], [1, 2, 3], [fun _ => 10, fun _ => 20, fun _ => 30],
        [fun _ => 1, fun _ => 1, fun _ => 1]⟩, Controller.clear],
    deletedcontrollersStock_ := [], initialControllerDesignStock_ := [false, false],
    initActivePartition_ := 0, finalActivePartition_ := 1, constraintStepSize_ := 0 }

/-- A controller of the partition `[0, 1]` with three samples. -/
def earlyController : Controller ℚ 1 1 :=
  ⟨[0, 1 / 2, 1], [1, 2, 3], [fun _ => 10, fun _ => 20, fun _ => 30],
    [fun _ => 1, fun _ => 1, fun _ => 1]⟩

/-- A controller of the partition `[1, 2]` with three samples. -/
def lateController : Controller ℚ 1 1 :=
  ⟨[1, 3 / 2, 2], [4, 5, 6], [fun _ => 40, fun _ => 50, fun _ => 60],
    [fun _ => 2, fun _ => 2, fun _ => 2]⟩

/-- An optimised controller of the horizon `[7/4, 2]` with two samples. -/
def optimizedController : Controller ℚ 1 1 :=
  ⟨[7 / 4, 2], [7, 8], [fun _ => 70, fun _ => 80], [fun _ => 0, fun _ => 0]⟩

/-- A partition design that stores the step size it is given as the feedforward input of
every sample. -/
def stepDesign : ℚ → Nat → Controller ℚ 1 1 → Controller ℚ 1 1 :=
  fun step _ c => { c with uff_ := List.replicate c.time_.length (fun _ => step) }

/-- The time stamps of a Riccati solution with two samples in each of two partitions. -/
def twoPartitionTimes : Nat → List (List ℚ) := fun _ => [[0, 1], [1, 2]]

/-- A one-state, one-input sample that reports two active type-1 constraints, one more than
the input dimension. -/
def overConstrainedModel : ModelEvaluation ℚ 1 1 :=
  { zeroModel ℚ 1 1 with numStateInputConstraint := 2 }

/-- The exact value `2^1024`, which is beyond the largest finite double: a cost of this size
is reported as `+infinity` by the floating-point code. -/
def overflowCost : ℚ := 2 ^ 1024

/-- The value of `std::numeric_limits<double>::max()`. -/
def doubleMax : ℚ := 2 ^ 1024 - 2 ^ 971

/-- The environment `holdModel` with an integrator that throws when the first feedforward
input of the controller exceeds 1, no constraints, zero intermediate cost, the heuristics
value `overflowCost`, and `doubleMax` as the largest finite scalar. -/
def divergingModel : LineSearchModel ℚ 1 1 :=
  { holdModel with
    integrate := fun _ c x a b =>
      if (c.uff_.headD 0) 0 ≤ 1 then
        (if a ≤ b then .ok ([x, x], [a, b]) else .error "integration backwards")
      else .error "the rollout diverged",
    systemConstraints := fun _ _ _ _ => zeroModel ℚ 1 1,
    costFunctions := fun _ _ _ _ => zeroModel ℚ 1 1,
    heuristicsFunctions := fun _ _ _ _ => overflowCost,
    sqrt := fun x => x,
    scalarMax := doubleMax }

/-- A solver with the single partition `[0, 1]` that searches without constraint ISEs. -/
def searchMembers : LineSearchMembers ℚ 1 :=
  { numPartitions_ := 1, initTime_ := 0, initState_ := fun _ => 0, finalTime_ := 1,
    partitioningTimes_ := [0, 1], lsComputeISEs_ := false, iteration_ := 0,
    initActivePartition_ := 0, finalActivePartition_ := 0, blockwiseMovingHorizon_ := false }

/-- The arguments of a line search along a controller with one sample, input 0 and
increment 2. -/
def searchArguments : LineSearchOutput ℚ 1 1 :=
  { lsTotalCost := 0, lsConstraint1ISE := 0, lsConstraint1MaxNorm := 0,
    lsConstraint2ISE := 0, lsConstraint2MaxNorm := 0,
    lsControllersStock := [⟨[0], [0], [fun _ => 0], [fun _ => 2]⟩],
    lsTrajectoriesStock := none }

/-- A square root that is exact on 0 and 1 and never negative. -/
def plainSqrt : ℚ → ℚ := fun v => max v 0

/-- Line-search settings: decay 1/2, smallest step 1/10, `gamma_c = 1/10`, `g_max = 2`,
`g_min = 1`, Armijo factor 1/2. -/
def armijoSettings : MultipleShootingSettings ℚ := ⟨1 / 2, 1 / 10, 1 / 10, 2, 1, 1 / 2⟩

/-- A baseline with merit 10 and no constraint violation. -/
def armijoBaseline : PerformanceIndex ℚ := ⟨10, 0, 0, 0⟩

/-- A problem whose merit is 99/10 at every trial point, without constraint violation. -/
def flatPerformance : List (List ℚ) → List (List ℚ) → PerformanceIndex ℚ :=
  fun _ _ => ⟨99 / 10, 0, 0, 0⟩

/-- A problem whose merit is 9 at every trial point, without constraint violation. -/
def descentPerformance : List (List ℚ) → List (List ℚ) → PerformanceIndex ℚ :=
  fun _ _ => ⟨9, 0, 0, 0⟩

/-- A subproblem solution with one state and one input increment and the descent metric
`-1`. -/
def armijoSolution : OcpSubproblemSolution ℚ := ⟨[[1]], [[1]], -1⟩

/-- The environment `holdModel` with two subsystems `[0, 1]` and `[1, 2]` in every partition,
events at the times 1 and 2, and a jump map that adds 1 to the state. -/
def eventModel : TimeTriggeredModel ℚ 1 1 :=
  { holdModel with
    getNumEvents := fun _ => 2,
    getNumEventCounters := fun _ => 2,
    getSwitchingTimes := fun _ => [0, 1, 2],
    getEventTimes := fun _ => [1, 2],
    computeJumpMap := fun _ _ x => x + 1 }

/-- A partition with the three samples at times `0, 1, 2`, unit intermediate cost, an event
between the samples 0 and 1 (marker 1) and an event at the final time (marker 3), with the
terminal costs 10 and 100; the flow steps keep `Sm`, `Sv` and `Sve`. -/
def finalEventSweep : SweepModel ℚ 1 :=
  { nominalTimeTrajectory := [0, 1, 2],
    nominalEventsPastTheEndIndeces := [1, 3],
    qTrajectory := [1, 1, 1],
    qFinalStock := [10, 100],
    QvFinalStock := [fun _ => 10, fun _ => 100],
    QmFinalStock := [fun _ _ => 10, fun _ _ => 100],
    hamiltonianStep := fun _ _ Sm => Sm,
    incrementSv := fun _ _ _ Sv => Sv,
    incrementSve := fun _ _ _ Sve => Sve }

/-- A one-state, two-input sample with one active type-1 constraint `u_0 + 3 x + 5 = 0`
(residual 5, state Jacobian `[3]`, input Jacobian `[1, 0]`) and input-cost Hessian `I`. -/
def constrainedModel : ModelEvaluation ℚ 1 2 :=
  { zeroModel ℚ 1 2 with
    numStateInputConstraint := 1,
    constraint1 := fun j => if j = 0 then 5 else 0,
    constraint1DerivativesState := fun j _ => if j = 0 then 3 else 0,
    constraint1DerivativesControl := fun j c => if j = 0 ∧ c = 0 then 1 else 0,
    intermediateCostSecondDerivativeInput := 1 }

/-! # Theorems -/

/-- A `bind` that returns normally: both steps returned normally. -/
theorem bind_eq_ok {ε β γ : Type} (x : Except ε β) (f : β → Except ε γ) (c : γ)
    (h : x.bind f = .ok c) : ∃ b, x = .ok b ∧ f b = .ok c := by
  cases x with
  | error e => cases h
  | ok b => exact ⟨b, rfl, h⟩

/-! ## `makePSD` and `approximateLQWorker` -/

theorem makePSD_square {n : Nat} (eig : (n : Nat) → SelfAdjointEigenSolver α n)
    (M : Matrix (Fin n) (Fin n) α) :
    makePSD eig M = .ok (makePSDSquare (eig n) M) := by
  simp [makePSD]

theorem approximateLQWorker_repair_eq {n m : Nat}
    (eig : (n : Nat) → SelfAdjointEigenSolver α n)
    (settings : SLQ_Settings α) (s : LQSample α n m) :
    approximateLQWorker_repair eig settings s =
      .ok (if settings.useMakePSD_ = true then
            { s with QmConstrained := (makePSDSquare (eig n) s.QmConstrained).2 }
           else s) := by
  unfold approximateLQWorker_repair
  split
  · rw [makePSD_square]; rfl
  · rfl

/-- The sample entry that `approximateLQWorker` stores, when it does not throw. -/
theorem approximateLQWorker_sample {n m : Nat} (eig : (n : Nat) → SelfAdjointEigenSolver α n)
    (settings : SLQ_Settings α) (iteration_ : Nat) (events : List Nat) (k : Nat)
    (d : ModelEvaluation α n m) (s : LQSample α n m) (fs : List (LQFinal α n m))
    (r : LQSample α n m × List (LQFinal α n m))
    (h : approximateLQWorker eig settings iteration_ events k d s fs = .ok r) :
    d.numStateInputConstraint ≤ m ∧ d.numStateOnlyConstraint ≤ m ∧
    approximateLQWorker_repair eig settings
      (approximateLQWorker_projection settings
        (approximateLQWorker_penalty settings iteration_
          (approximateLQWorker_evaluate d s))) = .ok r.1 ∧
    approximateLQWorker_events eig settings iteration_ events k d fs = .ok r.2 := by
  unfold approximateLQWorker at h
  split at h
  · cases h
  split at h
  · cases h
  rename_i h1 h2
  refine ⟨Nat.le_of_not_gt h1, Nat.le_of_not_gt h2, ?_⟩
  simp only [approximateLQWorker_repair_eq, Except.bind] at h ⊢
  split at h
  · cases h
  · cases h
    rename_i h3
    exact ⟨rfl, h3⟩

theorem approximateLQWorker_penalty_nc1 {n m : Nat} (settings : SLQ_Settings α)
    (iteration_ : Nat) (s : LQSample α n m) :
    (approximateLQWorker_penalty settings iteration_ s).nc1 = s.nc1 := by
  unfold approximateLQWorker_penalty
  simp only
  split <;> rfl

theorem approximateLQWorker_evaluate_nc1 {n m : Nat} (d : ModelEvaluation α n m)
    (s : LQSample α n m) :
    (approximateLQWorker_evaluate d s).nc1 = d.numStateInputConstraint := by
  rfl

/-- What the projection step stores when no type-1 constraint is active. -/
theorem approximateLQWorker_projection_zero {n m : Nat} (settings : SLQ_Settings α)
    (s : LQSample α n m) (h0 : s.nc1 = 0) :
    let p := approximateLQWorker_projection settings s
    p.Am = s.Am ∧ p.Bm = s.Bm ∧ p.Qm = s.Qm ∧ p.Qv = s.Qv ∧ p.Rm = s.Rm ∧ p.Pm = s.Pm ∧
    p.Rv = s.Rv ∧ p.nc1 = 0 ∧
    p.AmConstrained = s.Am ∧ p.QmConstrained = s.Qm ∧ p.QvConstrained = s.Qv ∧
    (settings.useRiccatiSolver_ = true → p.RmConstrained = s.Rm) ∧
    (settings.useRiccatiSolver_ = false →
      p.BmConstrained = s.Bm ∧ p.PmConstrained = s.Pm ∧ p.RvConstrained = s.Rv) ∧
    p.DmDager = 0 ∧ p.EvProjected = 0 ∧ p.CmProjected = 0 ∧ p.DmProjected = 0 := by
  unfold approximateLQWorker_projection
  simp only [h0, if_true]
  cases hr : settings.useRiccatiSolver_ <;> simp

/-- C1 (as amended). When no type-1 constraint is active at a sample, `approximateLQWorker`
stores the raw coefficients as the constrained ones for every solver setting:
`AmConstrained = Am`, `QvConstrained = Qv`, `RmConstrained = Rm` (Riccati solver) or
`BmConstrained = Bm`, `PmConstrained = Pm`, `RvConstrained = Rv` (otherwise), and `DmDager`,
`EvProjected`, `CmProjected`, `DmProjected` are zero. `QmConstrained = Qm` holds when
`useMakePSD_` is off; when it is on, `QmConstrained` is the `makePSD` repair of `Qm`. -/
theorem approximateLQWorker_unconstrained {n m : Nat}
    (eig : (n : Nat) → SelfAdjointEigenSolver α n)
    (settings : SLQ_Settings α) (iteration_ : Nat) (events : List Nat) (k : Nat)
    (d : ModelEvaluation α n m) (s : LQSample α n m) (fs : List (LQFinal α n m))
    (r : LQSample α n m × List (LQFinal α n m))
    (h : approximateLQWorker eig settings iteration_ events k d s fs = .ok r)
    (h0 : d.numStateInputConstraint = 0) :
    r.1.nc1 = 0 ∧
    r.1.Am = d.flowMapDerivativeState ∧ r.1.Bm = d.flowMapDerivativeInput ∧
    r.1.AmConstrained = r.1.Am ∧ r.1.QvConstrained = r.1.Qv ∧
    (settings.useRiccatiSolver_ = true → r.1.RmConstrained = r.1.Rm) ∧
    (settings.useRiccatiSolver_ = false →
      r.1.BmConstrained = r.1.Bm ∧ r.1.PmConstrained = r.1.Pm ∧ r.1.RvConstrained = r.1.Rv) ∧
    r.1.DmDager = 0 ∧ r.1.EvProjected = 0 ∧ r.1.CmProjected = 0 ∧ r.1.DmProjected = 0 ∧
    (settings.useMakePSD_ = false → r.1.QmConstrained = r.1.Qm) ∧
    (settings.useMakePSD_ = true →
      r.1.QmConstrained = (makePSDSquare (eig n) r.1.Qm).2) := by
  obtain ⟨-, -, hs, -⟩ := approximateLQWorker_sample eig settings iteration_ events k d s fs r h
  rw [approximateLQWorker_repair_eq] at hs
  have hs := Except.ok.inj hs
  have hz : (approximateLQWorker_penalty settings iteration_
      (approximateLQWorker_evaluate d s)).nc1 = 0 := by
    rw [approximateLQWorker_penalty_nc1, approximateLQWorker_evaluate_nc1, h0]
  have hp := approximateLQWorker_projection_zero settings _ hz
  simp only at hp
  obtain ⟨pAm, pBm, pQm, pQv, pRm, pPm, pRv, pnc, cAm, cQm, cQv, cRm, cB, z1, z2, z3, z4⟩ := hp
  have eAm : (approximateLQWorker_penalty settings iteration_
      (approximateLQWorker_evaluate d s)).Am = d.flowMapDerivativeState := by
    unfold approximateLQWorker_penalty
    simp only
    split_ifs <;> rfl
  have eBm : (approximateLQWorker_penalty settings iteration_
      (approximateLQWorker_evaluate d s)).Bm = d.flowMapDerivativeInput := by
    unfold approximateLQWorker_penalty
    simp only
    split_ifs <;> rfl
  rw [← hs]
  cases hm : settings.useMakePSD_
  · simp only [Bool.false_eq_true, if_false, false_imp_iff, true_imp_iff, and_true]
    refine ⟨pnc, pAm.trans eAm, pBm.trans eBm, cAm.trans pAm.symm, cQv.trans pQv.symm, ?_, ?_,
      z1, z2, z3, z4, cQm.trans pQm.symm⟩
    · intro hr; rw [cRm hr, pRm]
    · intro hr
      obtain ⟨b1, b2, b3⟩ := cB hr
      exact ⟨b1.trans pBm.symm, b2.trans pPm.symm, b3.trans pRv.symm⟩
  · simp only [if_true, false_imp_iff, true_imp_iff, true_and, Bool.true_eq_false]
    refine ⟨pnc, pAm.trans eAm, pBm.trans eBm, cAm.trans pAm.symm, cQv.trans pQv.symm, ?_, ?_,
      z1, z2, z3, z4, ?_⟩
    · intro hr; rw [cRm hr, pRm]
    · intro hr
      obtain ⟨b1, b2, b3⟩ := cB hr
      exact ⟨b1.trans pBm.symm, b2.trans pPm.symm, b3.trans pRv.symm⟩
    · rw [cQm, pQm]

/-- `approximateLQWorker` returns normally when the active-constraint counts are within the
input dimension and the event stock has an entry for the sample's event. -/
theorem approximateLQWorker_returns {n m : Nat}
    (eig : (n : Nat) → SelfAdjointEigenSolver α n)
    (settings : SLQ_Settings α) (iteration_ : Nat) (events : List Nat) (k : Nat)
    (d : ModelEvaluation α n m) (s : LQSample α n m) (fs : List (LQFinal α n m))
    (h1 : d.numStateInputConstraint ≤ m) (h2 : d.numStateOnlyConstraint ≤ m)
    (h3 : d.numStateOnlyFinalConstraint ≤ m)
    (hev : ∀ ke, events.findIdx? (fun e => e == k + 1) = some ke → ke < fs.length) :
    ∃ r, approximateLQWorker eig settings iteration_ events k d s fs = .ok r := by
  unfold approximateLQWorker
  rw [if_neg (Nat.not_lt.mpr h1), if_neg (Nat.not_lt.mpr h2)]
  simp only [approximateLQWorker_repair_eq, Except.bind]
  unfold approximateLQWorker_events
  cases hf : events.findIdx? (fun e => e == k + 1) with
  | none => exact ⟨_, rfl⟩
  | some ke =>
    have hlt := hev ke hf
    simp only [List.getElem?_eq_getElem hlt, if_neg (Nat.not_lt.mpr h3), makePSD_square]
    by_cases hp : settings.useMakePSD_ = true
    · simp only [hp, if_true, Except.map]; exact ⟨_, rfl⟩
    · simp only [hp, if_false]; exact ⟨_, rfl⟩

theorem approximateLQWorker_unconstrained_witness :
    ∃ r, approximateLQWorker diagonalEigenSolver psdSettings 0 [] 0 indefiniteModel
          (zeroSample ℚ 1 1) [] = .ok r ∧
      indefiniteModel.numStateInputConstraint = 0 ∧ r.1.AmConstrained = r.1.Am := by
  obtain ⟨r, hr⟩ := approximateLQWorker_returns diagonalEigenSolver psdSettings 0 [] 0
    indefiniteModel (zeroSample ℚ 1 1) [] (Nat.zero_le _) (Nat.zero_le _) (Nat.zero_le _)
    (by intro ke h; cases h)
  exact ⟨r, hr, rfl,
    (approximateLQWorker_unconstrained diagonalEigenSolver psdSettings 0 [] 0 indefiniteModel
      (zeroSample ℚ 1 1) [] r hr rfl).2.2.2.1⟩

/-- C1 (as stated) fails: with `useMakePSD_` set and no active type-1 constraint, a sample
whose state-cost Hessian is `[-1]` gets `QmConstrained = [1e-6]`, which differs from `Qm`. -/
theorem approximateLQWorker_unconstrained_counterexample :
    indefiniteModel.numStateInputConstraint = 0 ∧
    ∃ r, approximateLQWorker diagonalEigenSolver psdSettings 0 [] 0 indefiniteModel
          (zeroSample ℚ 1 1) [] = .ok r ∧
      r.1.Qm 0 0 = -1 ∧ r.1.QmConstrained 0 0 = 1 / 1000000 ∧ r.1.QmConstrained ≠ r.1.Qm := by
  refine ⟨rfl, ?_⟩
  obtain ⟨r, hr⟩ := approximateLQWorker_returns diagonalEigenSolver psdSettings 0 [] 0
    indefiniteModel (zeroSample ℚ 1 1) [] (Nat.zero_le _) (Nat.zero_le _) (Nat.zero_le _)
    (by intro ke h; cases h)
  obtain ⟨-, -, hs, -⟩ := approximateLQWorker_sample _ _ _ _ _ _ _ _ r hr
  rw [approximateLQWorker_repair_eq] at hs
  have hs := Except.ok.inj hs
  have hQ : r.1.Qm 0 0 = -1 := by
    rw [← hs]
    simp [psdSettings, approximateLQWorker_projection, approximateLQWorker_penalty,
      approximateLQWorker_evaluate, indefiniteModel, zeroModel]
  have hC : r.1.QmConstrained 0 0 = 1 / 1000000 := by
    rw [← hs]
    simp [psdSettings, approximateLQWorker_projection, approximateLQWorker_penalty,
      approximateLQWorker_evaluate, indefiniteModel, zeroModel, makePSDSquare,
      diagonalEigenSolver, inverse, List.finRange]
  refine ⟨r, hr, hQ, hC, ?_⟩
  intro hEq
  rw [hEq, hQ] at hC
  norm_num at hC

/-! ## The type-2 penalty (C9) -/

theorem sum_first {m : Nat} (k : Nat) (hk : k ≤ m) (g : Fin m → α) :
    (∑ r : Fin k, g (Fin.castLE hk r)) = ∑ j : Fin m, if j.val < k then g j else 0 := by
  let G : Nat → α := fun i => if h : i < m then g ⟨i, h⟩ else 0
  have h1 : (∑ r : Fin k, g (Fin.castLE hk r)) = ∑ r : Fin k, G r.val := by
    apply Finset.sum_congr rfl
    intro r _
    have : r.val < m := lt_of_lt_of_le r.isLt hk
    simp [G, this, Fin.castLE]
  have h2 : (∑ j : Fin m, if j.val < k then g j else 0)
      = ∑ j : Fin m, (fun i => if i < k then G i else 0) j.val := by
    apply Finset.sum_congr rfl
    intro j _
    simp [G]
  rw [h1, h2, Fin.sum_univ_eq_sum_range G k,
    Fin.sum_univ_eq_sum_range (fun i => if i < k then G i else 0) m,
    ← Finset.sum_filter]
  apply Finset.sum_congr _ (fun _ _ => rfl)
  ext i
  simp only [Finset.mem_range, Finset.mem_filter]
  omega

theorem head_eq {m : Nat} (k : Nat) (hk : k ≤ m) (v : Fin m → α) :
    head k v = fun r => v (Fin.castLE hk r) := by
  funext r
  have : r.val < m := lt_of_lt_of_le r.isLt hk
  simp [head, this, Fin.castLE]

theorem topRows_eq {m n : Nat} (k : Nat) (hk : k ≤ m) (A : Matrix (Fin m) (Fin n) α) :
    topRows k A = fun r c => A (Fin.castLE hk r) c := by
  funext r c
  have : r.val < m := lt_of_lt_of_le r.isLt hk
  simp [topRows, this, Fin.castLE]

/-- The code's `H.head(nc2)^T * H.head(nc2)` etc. are the specification's sums. -/
theorem penalty_terms {n m : Nat} (rho : α) (k : Nat) (hk : k ≤ m)
    (F : Matrix (Fin m) (Fin n) α) (H : Fin m → α) :
    1 / 2 * rho * Matrix.dotProduct (head k H) (head k H) = spec_penaltyValue rho k H ∧
    rho • (Matrix.mulVec (topRows k F)ᵀ (head k H)) = spec_penaltyGradient rho k F H ∧
    rho • ((topRows k F)ᵀ * topRows k F) = spec_penaltyHessian rho k F := by
  rw [head_eq k hk, topRows_eq k hk]
  refine ⟨?_, ?_, ?_⟩
  · simp only [spec_penaltyValue, Matrix.dotProduct]
    rw [sum_first k hk (fun j => H j * H j)]
  · funext a
    simp only [spec_penaltyGradient, Matrix.mulVec, Matrix.dotProduct, Matrix.transpose_apply,
      Pi.smul_apply, smul_eq_mul]
    rw [sum_first k hk (fun j => F j a * H j)]
  · funext a b
    simp only [spec_penaltyHessian, Matrix.mul_apply, Matrix.transpose_apply,
      Matrix.smul_apply, smul_eq_mul]
    rw [sum_first k hk (fun j => F j a * F j b)]

theorem spec_penalty_zero {n m : Nat} (rho : α) (F : Matrix (Fin m) (Fin n) α)
    (H : Fin m → α) :
    spec_penaltyValue rho 0 H = 0 ∧ spec_penaltyGradient rho 0 F H = 0 ∧
    spec_penaltyHessian rho 0 F = 0 := by
  refine ⟨?_, ?_, ?_⟩
  · simp [spec_penaltyValue]
  · funext a; simp [spec_penaltyGradient]
  · funext a b; simp [spec_penaltyHessian]

theorem approximateLQWorker_evaluate_cost {n m : Nat} (d : ModelEvaluation α n m)
    (s : LQSample α n m) :
    (approximateLQWorker_evaluate d s).q = d.intermediateCost ∧
    (approximateLQWorker_evaluate d s).Qv = d.intermediateCostDerivativeState ∧
    (approximateLQWorker_evaluate d s).Qm = d.intermediateCostSecondDerivativeState ∧
    (approximateLQWorker_evaluate d s).nc2 = d.numStateOnlyConstraint ∧
    (d.numStateOnlyConstraint > 0 →
      (approximateLQWorker_evaluate d s).Hv = d.constraint2 ∧
      (approximateLQWorker_evaluate d s).Fm = d.constraint2DerivativesState) := by
  refine ⟨rfl, rfl, rfl, rfl, ?_⟩
  intro hpos
  unfold approximateLQWorker_evaluate
  simp only [gt_iff_lt] at hpos
  simp only [gt_iff_lt, hpos, if_true]
  exact ⟨trivial, trivial⟩

theorem approximateLQWorker_penalty_step {n m : Nat} (settings : SLQ_Settings α)
    (iteration_ : Nat) (s : LQSample α n m) (h2 : s.nc2 ≤ m) :
    (approximateLQWorker_penalty settings iteration_ s).q
      = s.q + spec_penaltyValue (stateConstraintPenalty settings iteration_) s.nc2 s.Hv ∧
    (approximateLQWorker_penalty settings iteration_ s).Qv
      = s.Qv + spec_penaltyGradient (stateConstraintPenalty settings iteration_) s.nc2 s.Fm s.Hv ∧
    (approximateLQWorker_penalty settings iteration_ s).Qm
      = s.Qm + spec_penaltyHessian (stateConstraintPenalty settings iteration_) s.nc2 s.Fm := by
  obtain ⟨t1, t2, t3⟩ := penalty_terms (stateConstraintPenalty settings iteration_)
    s.nc2 h2 s.Fm s.Hv
  by_cases hpos : s.nc2 > 0
  · rw [← t1, ← t2, ← t3]
    unfold approximateLQWorker_penalty
    simp only [gt_iff_lt] at hpos
    simp only [gt_iff_lt, hpos, if_true]
    refine ⟨?_, ?_, ?_⟩ <;> first | trivial | rfl
  · have hz : s.nc2 = 0 := by omega
    obtain ⟨z1, z2, z3⟩ := spec_penalty_zero (stateConstraintPenalty settings iteration_)
      s.Fm s.Hv
    rw [hz, z1, z2, z3]
    unfold approximateLQWorker_penalty
    simp [hz]

theorem approximateLQWorker_penalty_cost {n m : Nat} (settings : SLQ_Settings α)
    (iteration_ : Nat) (d : ModelEvaluation α n m) (s : LQSample α n m)
    (h2 : d.numStateOnlyConstraint ≤ m) :
    (approximateLQWorker_penalty settings iteration_ (approximateLQWorker_evaluate d s)).q
      = d.intermediateCost + spec_penaltyValue (stateConstraintPenalty settings iteration_)
          d.numStateOnlyConstraint d.constraint2 ∧
    (approximateLQWorker_penalty settings iteration_ (approximateLQWorker_evaluate d s)).Qv
      = d.intermediateCostDerivativeState
        + spec_penaltyGradient (stateConstraintPenalty settings iteration_)
            d.numStateOnlyConstraint d.constraint2DerivativesState d.constraint2 ∧
    (approximateLQWorker_penalty settings iteration_ (approximateLQWorker_evaluate d s)).Qm
      = d.intermediateCostSecondDerivativeState
        + spec_penaltyHessian (stateConstraintPenalty settings iteration_)
            d.numStateOnlyConstraint d.constraint2DerivativesState := by
  obtain ⟨e1, e2, e3, e4, e5⟩ := approximateLQWorker_evaluate_cost d s
  obtain ⟨p1, p2, p3⟩ := approximateLQWorker_penalty_step settings iteration_
    (approximateLQWorker_evaluate d s) (by rw [e4]; exact h2)
  rw [p1, p2, p3, e1, e2, e3, e4]
  by_cases hpos : d.numStateOnlyConstraint > 0
  · obtain ⟨e6, e7⟩ := e5 hpos
    rw [e6, e7]
    exact ⟨rfl, rfl, rfl⟩
  · have hz : d.numStateOnlyConstraint = 0 := by omega
    rw [hz]
    obtain ⟨z1, z2, z3⟩ := spec_penalty_zero (stateConstraintPenalty settings iteration_)
      d.constraint2DerivativesState d.constraint2
    obtain ⟨y1, y2, y3⟩ := spec_penalty_zero (stateConstraintPenalty settings iteration_)
      (approximateLQWorker_evaluate d s).Fm (approximateLQWorker_evaluate d s).Hv
    rw [z1, z2, z3, y1, y2, y3]
    exact ⟨rfl, rfl, rfl⟩

theorem approximateLQWorker_projection_cost {n m : Nat} (settings : SLQ_Settings α)
    (s : LQSample α n m) :
    (approximateLQWorker_projection settings s).q = s.q ∧
    (approximateLQWorker_projection settings s).Qv = s.Qv ∧
    (approximateLQWorker_projection settings s).Qm = s.Qm := by
  unfold approximateLQWorker_projection
  simp only
  split_ifs <;> exact ⟨rfl, rfl, rfl⟩

theorem approximateLQWorker_event_cost {n m : Nat} (settings : SLQ_Settings α)
    (iteration_ : Nat) (d : ModelEvaluation α n m) (f : LQFinal α n m)
    (h3 : d.numStateOnlyFinalConstraint ≤ m) :
    (approximateLQWorker_event settings iteration_ d f).qFinal
      = d.terminalCost + spec_penaltyValue (stateConstraintPenalty settings iteration_)
          d.numStateOnlyFinalConstraint d.finalConstraint2 ∧
    (approximateLQWorker_event settings iteration_ d f).QvFinal
      = d.terminalCostDerivativeState
        + spec_penaltyGradient (stateConstraintPenalty settings iteration_)
            d.numStateOnlyFinalConstraint d.finalConstraint2DerivativesState
            d.finalConstraint2 ∧
    (approximateLQWorker_event settings iteration_ d f).QmFinal
      = d.terminalCostSecondDerivativeState
        + spec_penaltyHessian (stateConstraintPenalty settings iteration_)
            d.numStateOnlyFinalConstraint d.finalConstraint2DerivativesState := by
  obtain ⟨t1, t2, t3⟩ := penalty_terms (stateConstraintPenalty settings iteration_)
    d.numStateOnlyFinalConstraint h3 d.finalConstraint2DerivativesState d.finalConstraint2
  by_cases hpos : d.numStateOnlyFinalConstraint > 0
  · rw [← t1, ← t2, ← t3]
    unfold approximateLQWorker_event
    simp only [gt_iff_lt] at hpos
    simp only [gt_iff_lt, hpos, if_true]
    refine ⟨?_, ?_, ?_⟩ <;> first | trivial | rfl
  · have hz : d.numStateOnlyFinalConstraint = 0 := by omega
    obtain ⟨z1, z2, z3⟩ := spec_penalty_zero (stateConstraintPenalty settings iteration_)
      d.finalConstraint2DerivativesState d.finalConstraint2
    rw [hz, z1, z2, z3]
    unfold approximateLQWorker_event
    simp [hz]

/-- The event entry that `approximateLQWorker` stores for the first event marked `k+1`. -/
theorem approximateLQWorker_events_entry {n m : Nat}
    (eig : (n : Nat) → SelfAdjointEigenSolver α n)
    (settings : SLQ_Settings α) (iteration_ : Nat) (events : List Nat) (k : Nat)
    (d : ModelEvaluation α n m) (fs fs1 : List (LQFinal α n m)) (ke : Nat)
    (h : approximateLQWorker_events eig settings iteration_ events k d fs = .ok fs1)
    (hke : events.findIdx? (fun e => e == k + 1) = some ke) :
    d.numStateOnlyFinalConstraint ≤ m ∧
    ∃ f, fs[ke]? = some f ∧
      fs1[ke]? = some
        (if settings.useMakePSD_ = true then
          { approximateLQWorker_event settings iteration_ d f with
            QmFinal := (makePSDSquare (eig n)
              (approximateLQWorker_event settings iteration_ d f).QmFinal).2 }
         else approximateLQWorker_event settings iteration_ d f) := by
  unfold approximateLQWorker_events at h
  simp only [hke] at h
  cases hf : fs[ke]? with
  | none => simp only [hf] at h; cases h
  | some f =>
    simp only [hf] at h
    have hlt : ke < fs.length := by
      rcases Nat.lt_or_ge ke fs.length with hl | hl
      · exact hl
      · rw [List.getElem?_eq_none hl] at hf; cases hf
    split_ifs at h with h3 hp
    · rw [makePSD_square] at h
      have h := Except.ok.inj h
      refine ⟨Nat.le_of_not_gt h3, f, rfl, ?_⟩
      rw [← h, if_pos hp]
      simp [hlt]
    · have h := Except.ok.inj h
      refine ⟨Nat.le_of_not_gt h3, f, rfl, ?_⟩
      rw [← h, if_neg hp]
      simp [hlt]

/-- C9. With `rho = stateConstraintPenaltyCoeff_ * stateConstraintPenaltyBase_ ^ iteration`,
`approximateLQWorker` stores `q = cost + 1/2 * rho * H^T H`, `Qv = gradient + rho * F^T H` and
`Qm = Hessian + rho * F^T F`, where only the first `nc2` entries of the type-2 residual `H`
and rows of its Jacobian `F` enter; with `nc2 = 0` the three are the cost model's values
untouched. At the event marked `k+1` the same rule with the final residual and Jacobian
gives `qFinal`, `QvFinal` and `QmFinal` (`QmFinal` then passes through `makePSD` when
`useMakePSD_` is set). -/
theorem approximateLQWorker_type2_penalty {n m : Nat}
    (eig : (n : Nat) → SelfAdjointEigenSolver α n)
    (settings : SLQ_Settings α) (iteration_ : Nat) (events : List Nat) (k : Nat)
    (d : ModelEvaluation α n m) (s : LQSample α n m) (fs : List (LQFinal α n m))
    (r : LQSample α n m × List (LQFinal α n m))
    (h : approximateLQWorker eig settings iteration_ events k d s fs = .ok r) :
    r.1.q = d.intermediateCost
      + spec_penaltyValue
          (settings.stateConstraintPenaltyCoeff_ * settings.stateConstraintPenaltyBase_ ^ iteration_)
          d.numStateOnlyConstraint d.constraint2 ∧
    r.1.Qv = d.intermediateCostDerivativeState
      + spec_penaltyGradient
          (settings.stateConstraintPenaltyCoeff_ * settings.stateConstraintPenaltyBase_ ^ iteration_)
          d.numStateOnlyConstraint d.constraint2DerivativesState d.constraint2 ∧
    r.1.Qm = d.intermediateCostSecondDerivativeState
      + spec_penaltyHessian
          (settings.stateConstraintPenaltyCoeff_ * settings.stateConstraintPenaltyBase_ ^ iteration_)
          d.numStateOnlyConstraint d.constraint2DerivativesState ∧
    (d.numStateOnlyConstraint = 0 →
      r.1.q = d.intermediateCost ∧ r.1.Qv = d.intermediateCostDerivativeState ∧
      r.1.Qm = d.intermediateCostSecondDerivativeState) ∧
    (∀ ke, events.findIdx? (fun e => e == k + 1) = some ke →
      ∃ f, r.2[ke]? = some f ∧
        f.qFinal = d.terminalCost
          + spec_penaltyValue
              (settings.stateConstraintPenaltyCoeff_
                * settings.stateConstraintPenaltyBase_ ^ iteration_)
              d.numStateOnlyFinalConstraint d.finalConstraint2 ∧
        f.QvFinal = d.terminalCostDerivativeState
          + spec_penaltyGradient
              (settings.stateConstraintPenaltyCoeff_
                * settings.stateConstraintPenaltyBase_ ^ iteration_)
              d.numStateOnlyFinalConstraint d.finalConstraint2DerivativesState
              d.finalConstraint2 ∧
        (settings.useMakePSD_ = false →
          f.QmFinal = d.terminalCostSecondDerivativeState
            + spec_penaltyHessian
                (settings.stateConstraintPenaltyCoeff_
                  * settings.stateConstraintPenaltyBase_ ^ iteration_)
                d.numStateOnlyFinalConstraint d.finalConstraint2DerivativesState) ∧
        (settings.useMakePSD_ = true →
          f.QmFinal = (makePSDSquare (eig n) (d.terminalCostSecondDerivativeState
            + spec_penaltyHessian
                (settings.stateConstraintPenaltyCoeff_
                  * settings.stateConstraintPenaltyBase_ ^ iteration_)
                d.numStateOnlyFinalConstraint d.finalConstraint2DerivativesState)).2) ∧
        (d.numStateOnlyFinalConstraint = 0 →
          f.qFinal = d.terminalCost ∧ f.QvFinal = d.terminalCostDerivativeState)) := by
  obtain ⟨-, h2, hs, he⟩ := approximateLQWorker_sample eig settings iteration_ events k d s fs r h
  rw [approximateLQWorker_repair_eq] at hs
  have hs := Except.ok.inj hs
  obtain ⟨c1, c2, c3⟩ := approximateLQWorker_penalty_cost settings iteration_ d s h2
  obtain ⟨p1, p2, p3⟩ := approximateLQWorker_projection_cost settings
    (approximateLQWorker_penalty settings iteration_ (approximateLQWorker_evaluate d s))
  have hq : r.1.q = d.intermediateCost
      + spec_penaltyValue (stateConstraintPenalty settings iteration_)
          d.numStateOnlyConstraint d.constraint2 := by
    rw [← hs, ← c1, ← p1]; split <;> rfl
  have hQv : r.1.Qv = d.intermediateCostDerivativeState
      + spec_penaltyGradient (stateConstraintPenalty settings iteration_)
          d.numStateOnlyConstraint d.constraint2DerivativesState d.constraint2 := by
    rw [← hs, ← c2, ← p2]; split <;> rfl
  have hQm : r.1.Qm = d.intermediateCostSecondDerivativeState
      + spec_penaltyHessian (stateConstraintPenalty settings iteration_)
          d.numStateOnlyConstraint d.constraint2DerivativesState := by
    rw [← hs, ← c3, ← p3]; split <;> rfl
  refine ⟨hq, hQv, hQm, ?_, ?_⟩
  · intro hz
    obtain ⟨z1, z2, z3⟩ := spec_penalty_zero (stateConstraintPenalty settings iteration_)
      d.constraint2DerivativesState d.constraint2
    rw [hq, hQv, hQm, hz, z1, z2, z3]
    simp
  · intro ke hke
    obtain ⟨h3, f, -, hf⟩ :=
      approximateLQWorker_events_entry eig settings iteration_ events k d fs r.2 ke he hke
    obtain ⟨e1, e2, e3⟩ := approximateLQWorker_event_cost settings iteration_ d f h3
    generalize hF : approximateLQWorker_event settings iteration_ d f = F at hf e1 e2 e3
    have g1 : (if settings.useMakePSD_ = true then
        { F with QmFinal := (makePSDSquare (eig n) F.QmFinal).2 } else F).qFinal = F.qFinal := by
      split <;> rfl
    have g2 : (if settings.useMakePSD_ = true then
        { F with QmFinal := (makePSDSquare (eig n) F.QmFinal).2 } else F).QvFinal = F.QvFinal := by
      split <;> rfl
    have g3 : settings.useMakePSD_ = false → (if settings.useMakePSD_ = true then
        { F with QmFinal := (makePSDSquare (eig n) F.QmFinal).2 } else F).QmFinal
          = F.QmFinal := by
      intro hp; rw [hp]; rfl
    have g4 : settings.useMakePSD_ = true → (if settings.useMakePSD_ = true then
        { F with QmFinal := (makePSDSquare (eig n) F.QmFinal).2 } else F).QmFinal
          = (makePSDSquare (eig n) F.QmFinal).2 := by
      intro hp; rw [if_pos hp]
    refine ⟨_, hf, g1.trans e1, g2.trans e2, fun hp => (g3 hp).trans e3,
      fun hp => (g4 hp).trans (by rw [e3]; rfl), ?_⟩
    intro hz
    obtain ⟨z1, z2, z3⟩ := spec_penalty_zero (stateConstraintPenalty settings iteration_)
      d.finalConstraint2DerivativesState d.finalConstraint2
    rw [hz] at e1 e2
    rw [z1] at e1
    rw [z2] at e2
    exact ⟨g1.trans (e1.trans (add_zero _)), g2.trans (e2.trans (add_zero _))⟩

theorem approximateLQWorker_type2_penalty_witness :
    ∃ r, approximateLQWorker diagonalEigenSolver psdSettings 1 [1] 0 penaltyModel
          (zeroSample ℚ 1 1) [zeroFinal ℚ 1 1] = .ok r ∧
      r.1.q = 12 ∧ r.1.Qv 0 = 36 ∧ r.1.Qm 0 0 = 54 := by
  obtain ⟨r, hr⟩ := approximateLQWorker_returns diagonalEigenSolver psdSettings 1 [1] 0
    penaltyModel (zeroSample ℚ 1 1) [zeroFinal ℚ 1 1] (Nat.zero_le _) (le_refl _)
    (Nat.zero_le _) (by
      intro ke h
      have h0 : List.findIdx? (fun e => e == 0 + 1) [1] = some 0 := rfl
      rw [h0] at h
      cases h
      decide)
  obtain ⟨h1, h2, h3, -⟩ := approximateLQWorker_type2_penalty diagonalEigenSolver psdSettings 1
    [1] 0 penaltyModel (zeroSample ℚ 1 1) [zeroFinal ℚ 1 1] r hr
  refine ⟨r, hr, ?_, ?_, ?_⟩
  · rw [h1]; simp [spec_penaltyValue, penaltyModel, zeroModel, psdSettings]; norm_num
  · rw [h2]; simp [spec_penaltyGradient, penaltyModel, zeroModel, psdSettings]; norm_num
  · rw [h3]; simp [spec_penaltyHessian, penaltyModel, zeroModel, psdSettings]; norm_num

/-! ## `makePSD` (C10) -/

theorem inverse_eq_transpose {n : Nat} (V : Matrix (Fin n) (Fin n) α) (hV : Vᵀ * V = 1) :
    inverse V = Vᵀ := by
  have h1 : V⁻¹ = Vᵀ := Matrix.inv_eq_left_inv hV
  rw [← h1, Matrix.inv_def, Ring.inverse_eq_inv']
  rfl

theorem quadratic_form_nonneg {n : Nat} (V : Matrix (Fin n) (Fin n) α) (mu : Fin n → α)
    (hmu : ∀ j, 0 ≤ mu j) (x : Fin n → α) :
    0 ≤ Matrix.dotProduct x (Matrix.mulVec (V * Matrix.diagonal mu * Vᵀ) x) := by
  rw [← Matrix.mulVec_mulVec, ← Matrix.mulVec_mulVec, Matrix.dotProduct_mulVec,
    ← Matrix.mulVec_transpose]
  simp only [Matrix.dotProduct, Matrix.mulVec_diagonal]
  apply Finset.sum_nonneg
  intro j _
  have : (Vᵀ *ᵥ x) j * (mu j * (Vᵀ *ᵥ x) j) = mu j * ((Vᵀ *ᵥ x) j * (Vᵀ *ᵥ x) j) := by ring
  rw [this]
  exact mul_nonneg (hmu j) (mul_self_nonneg _)

theorem hasNegative_iff {n : Nat} (lam : Fin n → α) :
    (List.finRange n).any (fun j => decide (lam j < 0)) = true ↔ ∃ j, lam j < 0 := by
  simp [List.any_eq_true]

/-- C10. Let the eigen-solver return an orthonormal eigen-decomposition of the symmetric
matrix `M` (`V^T V = 1`, `M = V diag(lambda) V^T`). Then `makePSD` returns a symmetric
positive semi-definite matrix; when no eigenvalue is negative it returns `false` and `M`
unchanged; otherwise it returns `true` and a matrix with the same eigenvectors (the columns
of `V`) whose eigenvalues are those of `M` with every negative one replaced by `1e-6`.
`makePSD` throws for a non-square matrix. -/
theorem makePSD_symmetric {n : Nat} (eig : (n : Nat) → SelfAdjointEigenSolver α n)
    (M : Matrix (Fin n) (Fin n) α) (hsym : Mᵀ = M)
    (hV : ((eig n).eigenvectors M)ᵀ * (eig n).eigenvectors M = 1)
    (hM : M = (eig n).eigenvectors M * Matrix.diagonal ((eig n).eigenvalues M)
                * ((eig n).eigenvectors M)ᵀ) :
    (∃ b M1, makePSD eig M = .ok (b, M1) ∧
      M1ᵀ = M1 ∧ (∀ x, 0 ≤ Matrix.dotProduct x (Matrix.mulVec M1 x)) ∧
      ((∀ j, 0 ≤ (eig n).eigenvalues M j) → b = false ∧ M1 = M) ∧
      ((∃ j, (eig n).eigenvalues M j < 0) → b = true ∧
        M1 * (eig n).eigenvectors M = (eig n).eigenvectors M * Matrix.diagonal
          (fun j => if (eig n).eigenvalues M j < 0 then 1 / 1000000
                    else (eig n).eigenvalues M j))) ∧
    (∀ (r c : Nat) (A : Matrix (Fin r) (Fin c) α), r ≠ c → ∃ e, makePSD eig A = .error e) := by
  constructor
  · rw [makePSD_square]
    refine ⟨(makePSDSquare (eig n) M).1, (makePSDSquare (eig n) M).2, rfl, ?_⟩
    generalize hVd : (eig n).eigenvectors M = V at hV hM
    generalize hld : (eig n).eigenvalues M = lam at hM
    have hinv : inverse V = Vᵀ := inverse_eq_transpose V hV
    by_cases hneg : ∃ j, lam j < 0
    · have hflag := (hasNegative_iff lam).mpr hneg
      have hres : makePSDSquare (eig n) M
          = (true, V * Matrix.diagonal
              (fun j => if lam j < 0 then 1 / 1000000 else lam j) * Vᵀ) := by
        unfold makePSDSquare
        simp only [hVd, hld, hflag, if_true, hinv]
      rw [hres]
      have hnn : ∀ j, 0 ≤ (fun j => if lam j < 0 then (1 : α) / 1000000 else lam j) j := by
        intro j
        simp only
        split_ifs with hj
        · positivity
        · exact not_lt.mp hj
      refine ⟨?_, ?_, ?_, ?_⟩
      · simp only [Matrix.transpose_mul, Matrix.transpose_transpose, Matrix.diagonal_transpose,
          Matrix.mul_assoc]
      · intro x
        exact quadratic_form_nonneg V _ hnn x
      · intro hall
        obtain ⟨j, hj⟩ := hneg
        exact absurd (hall j) (not_le.mpr hj)
      · intro _
        refine ⟨rfl, ?_⟩
        simp only
        rw [Matrix.mul_assoc, hV, Matrix.mul_one]
    · have hflag : (List.finRange n).any (fun j => decide (lam j < 0)) = false := by
        rw [Bool.eq_false_iff]
        intro hc
        exact hneg ((hasNegative_iff lam).mp hc)
      have hres : makePSDSquare (eig n) M = (false, M) := by
        unfold makePSDSquare
        simp only [hld, hflag, Bool.false_eq_true, if_false, hsym]
        congr 1
        rw [← two_smul α M, smul_smul]
        norm_num
      rw [hres]
      have hnn : ∀ j, 0 ≤ lam j := fun j => not_lt.mp (fun hj => hneg ⟨j, hj⟩)
      refine ⟨hsym, ?_, fun _ => ⟨rfl, rfl⟩, fun hex => absurd hex hneg⟩
      intro x
      simp only
      rw [hM]
      exact quadratic_form_nonneg V lam hnn x
  · intro r c A hrc
    unfold makePSD
    rw [dif_neg hrc]
    exact ⟨_, rfl⟩

theorem makePSD_symmetric_witness :
    ∃ b M1, makePSD diagonalEigenSolver indefiniteDiagonal = .ok (b, M1) ∧
      M1ᵀ = M1 ∧ (∀ x, 0 ≤ Matrix.dotProduct x (Matrix.mulVec M1 x)) ∧ b = true := by
  have hneg : ∃ j, (diagonalEigenSolver 2).eigenvalues indefiniteDiagonal j < 0 :=
    ⟨0, by simp [diagonalEigenSolver, indefiniteDiagonal]⟩
  obtain ⟨⟨b, M1, h1, h2, h3, -, h5⟩, -⟩ :=
    makePSD_symmetric diagonalEigenSolver indefiniteDiagonal
      (by simp [indefiniteDiagonal])
      (by simp [diagonalEigenSolver])
      (by
        unfold indefiniteDiagonal
        simp [diagonalEigenSolver])
  exact ⟨b, M1, h1, h2, h3, (h5 hneg).1⟩

/-! ## `rewindOptimizer` (C2) -/

/-- A loop over `0 .. N-1` whose pass `i` writes slot `i` (with the old slot `k+i` while
`i < pres`, with `z` afterwards) and touches no slot other than `i` and `k+i` shifts the
list by `k` and fills the tail with `z`. -/
theorem shift_loop {β : Type} (step : List β → Nat → List β) (k pres : Nat) (z : β)
    (hk : 0 < k)
    (hlen : ∀ l i, (step l i).length = l.length)
    (hother : ∀ l i t, t ≠ i → t ≠ k + i → (step l i)[t]? = l[t]?)
    (hlt : ∀ l i, i < pres → k + i < l.length → (step l i)[i]? = l[k + i]?)
    (hge : ∀ l i, pres ≤ i → i < l.length → (step l i)[i]? = some z)
    (l : List β) (hpres : pres + k = l.length) (j : Nat) (hj : j ≤ l.length) :
    ((List.range j).foldl step l).length = l.length ∧
    (∀ i, i < j → i < pres → ((List.range j).foldl step l)[i]? = l[i + k]?) ∧
    (∀ i, i < j → pres ≤ i → ((List.range j).foldl step l)[i]? = some z) ∧
    (∀ i, j + k ≤ i → ((List.range j).foldl step l)[i]? = l[i]?) := by
  induction j with
  | zero =>
    refine ⟨rfl, ?_, ?_, ?_⟩
    · intro i hi; omega
    · intro i hi; omega
    · intro i _; rfl
  | succ j ih =>
    obtain ⟨ih1, ih2, ih3, ih4⟩ := ih (by omega)
    rw [List.range_succ, List.foldl_append]
    simp only [List.foldl_cons, List.foldl_nil]
    generalize hcur : (List.range j).foldl step l = cur at ih1 ih2 ih3 ih4
    refine ⟨by rw [hlen, ih1], ?_, ?_, ?_⟩
    · intro i hi hip
      rcases Nat.lt_or_ge i j with hlt1 | hge1
      · rw [hother cur j i (by omega) (by omega)]
        exact ih2 i hlt1 hip
      · have hij : i = j := by omega
        subst hij
        rw [hlt cur i hip (by omega), ih4 (k + i) (by omega), Nat.add_comm]
    · intro i hi hip
      rcases Nat.lt_or_ge i j with hlt1 | hge1
      · rw [hother cur j i (by omega) (by omega)]
        exact ih3 i hlt1 hip
      · have hij : i = j := by omega
        subst hij
        exact hge cur i hip (by omega)
    · intro i hi
      rw [hother cur j i (by omega) (by omega)]
      exact ih4 i (by omega)

theorem assignAt_length {β : Type} (l : List β) (i j : Nat) :
    (assignAt l i j).length = l.length := by
  unfold assignAt
  split <;> simp

theorem assignAt_other {β : Type} (l : List β) (i j t : Nat) (h : t ≠ i) :
    (assignAt l i j)[t]? = l[t]? := by
  unfold assignAt
  split
  · rw [List.getElem?_set_ne (Ne.symm h)]
  · rfl

theorem assignAt_self {β : Type} (l : List β) (i j : Nat) (hi : i < l.length)
    (hj : j < l.length) : (assignAt l i j)[i]? = l[j]? := by
  unfold assignAt
  rw [List.getElem?_eq_getElem hj]
  simp only
  rw [List.getElem?_set_eq hi]

theorem swapAt_length {β : Type} (l : List β) (i j : Nat) :
    (swapAt l i j).length = l.length := by
  unfold swapAt
  split <;> simp

theorem swapAt_other {β : Type} (l : List β) (i j t : Nat) (h : t ≠ i) (h2 : t ≠ j) :
    (swapAt l i j)[t]? = l[t]? := by
  unfold swapAt
  split
  · rw [List.getElem?_set_ne (Ne.symm h2), List.getElem?_set_ne (Ne.symm h)]
  · rfl

theorem swapAt_self {β : Type} (l : List β) (i j : Nat) (hi : i < l.length)
    (hj : j < l.length) (hij : i ≠ j) : (swapAt l i j)[i]? = l[j]? := by
  unfold swapAt
  rw [List.getElem?_eq_getElem hj, List.getElem?_eq_getElem hi]
  simp only
  rw [List.getElem?_set_ne (Ne.symm hij), List.getElem?_set_eq hi]

/-- The loop of `rewindOptimizer` on a stock that is copied (`stock[i] = stock[k+i]`). -/
theorem assign_loop {β : Type} (k pres : Nat) (z : β) (hk : 0 < k) (l : List β)
    (hpres : pres + k = l.length) :
    (∀ i, i < pres →
      ((List.range l.length).foldl
        (fun acc i => if i < pres then assignAt acc i (k + i) else acc.set i z) l)[i]?
        = l[i + k]?) ∧
    (∀ i, pres ≤ i → i < l.length →
      ((List.range l.length).foldl
        (fun acc i => if i < pres then assignAt acc i (k + i) else acc.set i z) l)[i]?
        = some z) := by
  obtain ⟨-, h2, h3, -⟩ := shift_loop
    (fun acc i => if i < pres then assignAt acc i (k + i) else acc.set i z) k pres z hk
    (by intro l i; simp only; split <;> simp [assignAt_length])
    (by
      intro l i t h1 _
      simp only
      split
      · exact assignAt_other l i (k + i) t h1
      · exact List.getElem?_set_ne (Ne.symm h1))
    (by
      intro l i hi hki
      simp only [hi, if_true]
      exact assignAt_self l i (k + i) (by omega) hki)
    (by
      intro l i hi hil
      simp only [Nat.not_lt.mpr hi, if_false]
      exact List.getElem?_set_eq hil)
    l hpres l.length (le_refl _)
  exact ⟨fun i hi => h2 i (by omega) hi, fun i hi hil => h3 i hil hi⟩

/-- The loop of `rewindOptimizer` on the controller stock (`stock[i].swap(stock[k+i])`). -/
theorem swap_loop {β : Type} (k pres : Nat) (z : β) (hk : 0 < k) (l : List β)
    (hpres : pres + k = l.length) :
    (∀ i, i < pres →
      ((List.range l.length).foldl
        (fun acc i => if i < pres then swapAt acc i (k + i) else acc.set i z) l)[i]?
        = l[i + k]?) ∧
    (∀ i, pres ≤ i → i < l.length →
      ((List.range l.length).foldl
        (fun acc i => if i < pres then swapAt acc i (k + i) else acc.set i z) l)[i]?
        = some z) := by
  obtain ⟨-, h2, h3, -⟩ := shift_loop
    (fun acc i => if i < pres then swapAt acc i (k + i) else acc.set i z) k pres z hk
    (by intro l i; simp only; split <;> simp [swapAt_length])
    (by
      intro l i t h1 h2
      simp only
      split
      · exact swapAt_other l i (k + i) t h1 h2
      · exact List.getElem?_set_ne (Ne.symm h1))
    (by
      intro l i hi hki
      simp only [hi, if_true]
      exact swapAt_self l i (k + i) (by omega) hki (by omega))
    (by
      intro l i hi hil
      simp only [Nat.not_lt.mpr hi, if_false]
      exact List.getElem?_set_eq hil)
    l hpres l.length (le_refl _)
  exact ⟨fun i hi => h2 i (by omega) hi, fun i hi hil => h3 i hil hi⟩

/-- The loop of `rewindOptimizer` acts on each stock separately. -/
theorem rewindOptimizer_loop {n m : Nat} (k pres : Nat) (is : List Nat)
    (st : RewindState α n m) :
    (is.foldl (rewindOptimizer_step k pres) st).nominalControllersStock_
      = is.foldl (fun acc i => if i < pres then swapAt acc i (k + i)
                               else acc.set i Controller.clear) st.nominalControllersStock_ ∧
    (is.foldl (rewindOptimizer_step k pres) st).SmFinalStock_
      = is.foldl (fun acc i => if i < pres then assignAt acc i (k + i) else acc.set i 0)
          st.SmFinalStock_ ∧
    (is.foldl (rewindOptimizer_step k pres) st).SvFinalStock_
      = is.foldl (fun acc i => if i < pres then assignAt acc i (k + i) else acc.set i 0)
          st.SvFinalStock_ ∧
    (is.foldl (rewindOptimizer_step k pres) st).SveFinalStock_
      = is.foldl (fun acc i => if i < pres then assignAt acc i (k + i) else acc.set i 0)
          st.SveFinalStock_ ∧
    (is.foldl (rewindOptimizer_step k pres) st).sFinalStock_
      = is.foldl (fun acc i => if i < pres then assignAt acc i (k + i) else acc.set i 0)
          st.sFinalStock_ ∧
    (is.foldl (rewindOptimizer_step k pres) st).xFinalStock_
      = is.foldl (fun acc i => if i < pres then assignAt acc i (k + i) else acc.set i 0)
          st.xFinalStock_ ∧
    (is.foldl (rewindOptimizer_step k pres) st).numPartitions_ = st.numPartitions_ ∧
    (is.foldl (rewindOptimizer_step k pres) st).rewindCounter_ = st.rewindCounter_ := by
  induction is generalizing st with
  | nil => exact ⟨rfl, rfl, rfl, rfl, rfl, rfl, rfl, rfl⟩
  | cons i is ih =>
    simp only [List.foldl_cons]
    obtain ⟨h1, h2, h3, h4, h5, h6, h7, h8⟩ := ih (rewindOptimizer_step k pres st i)
    rw [h1, h2, h3, h4, h5, h6, h7, h8]
    unfold rewindOptimizer_step
    split <;> exact ⟨rfl, rfl, rfl, rfl, rfl, rfl, rfl, rfl⟩

/-- C2. With `n = numPartitions_` stocks and `0 < k < n`, `rewindOptimizer(k)` returns
normally; afterwards every partition `i < n - k` holds the controller and the cached
final-boundary values (`SmFinal`, `SvFinal`, `SveFinal`, `sFinal`, `xFinal`) that partition
`i + k` held before, every partition `i >= n - k` holds the empty controller and zero
boundary values, and `rewindOptimizer(0)` changes nothing. -/
theorem rewindOptimizer_shift {n m : Nat} (st : RewindState α n m) (k : Nat)
    (hC : st.nominalControllersStock_.length = st.numPartitions_)
    (hSm : st.SmFinalStock_.length = st.numPartitions_)
    (hSv : st.SvFinalStock_.length = st.numPartitions_)
    (hSve : st.SveFinalStock_.length = st.numPartitions_)
    (hs : st.sFinalStock_.length = st.numPartitions_)
    (hx : st.xFinalStock_.length = st.numPartitions_)
    (hk0 : 0 < k) (hkn : k < st.numPartitions_) :
    (∃ st1, rewindOptimizer k st = .ok st1 ∧
      (∀ i, i < st.numPartitions_ - k →
        st1.nominalControllersStock_[i]? = st.nominalControllersStock_[i + k]? ∧
        st1.SmFinalStock_[i]? = st.SmFinalStock_[i + k]? ∧
        st1.SvFinalStock_[i]? = st.SvFinalStock_[i + k]? ∧
        st1.SveFinalStock_[i]? = st.SveFinalStock_[i + k]? ∧
        st1.sFinalStock_[i]? = st.sFinalStock_[i + k]? ∧
        st1.xFinalStock_[i]? = st.xFinalStock_[i + k]?) ∧
      (∀ i, st.numPartitions_ - k ≤ i → i < st.numPartitions_ →
        st1.nominalControllersStock_[i]? = some Controller.clear ∧
        st1.SmFinalStock_[i]? = some 0 ∧
        st1.SvFinalStock_[i]? = some 0 ∧
        st1.SveFinalStock_[i]? = some 0 ∧
        st1.sFinalStock_[i]? = some 0 ∧
        st1.xFinalStock_[i]? = some 0)) ∧
    rewindOptimizer 0 st = .ok st := by
  constructor
  · unfold rewindOptimizer
    rw [if_neg (by omega)]
    simp only
    rw [if_neg (by omega)]
    refine ⟨_, rfl, ?_, ?_⟩
    · intro i hi
      obtain ⟨p1, p2, p3, p4, p5, p6, -, -⟩ := rewindOptimizer_loop k (st.numPartitions_ - k)
        (List.range st.numPartitions_)
        { st with rewindCounter_ := (st.rewindCounter_ + k) % 2 ^ 64 }
      rw [p1, p2, p3, p4, p5, p6]
      simp only
      refine ⟨?_, ?_, ?_, ?_, ?_, ?_⟩
      · have := (swap_loop k (st.numPartitions_ - k) Controller.clear hk0
          st.nominalControllersStock_ (by omega)).1 i hi
        rw [hC] at this; exact this
      · have := (assign_loop k (st.numPartitions_ - k) 0 hk0 st.SmFinalStock_ (by omega)).1 i hi
        rw [hSm] at this; exact this
      · have := (assign_loop k (st.numPartitions_ - k) 0 hk0 st.SvFinalStock_ (by omega)).1 i hi
        rw [hSv] at this; exact this
      · have := (assign_loop k (st.numPartitions_ - k) 0 hk0 st.SveFinalStock_ (by omega)).1 i hi
        rw [hSve] at this; exact this
      · have := (assign_loop k (st.numPartitions_ - k) 0 hk0 st.sFinalStock_ (by omega)).1 i hi
        rw [hs] at this; exact this
      · have := (assign_loop k (st.numPartitions_ - k) 0 hk0 st.xFinalStock_ (by omega)).1 i hi
        rw [hx] at this; exact this
    · intro i hi hin
      obtain ⟨p1, p2, p3, p4, p5, p6, -, -⟩ := rewindOptimizer_loop k (st.numPartitions_ - k)
        (List.range st.numPartitions_)
        { st with rewindCounter_ := (st.rewindCounter_ + k) % 2 ^ 64 }
      rw [p1, p2, p3, p4, p5, p6]
      simp only
      refine ⟨?_, ?_, ?_, ?_, ?_, ?_⟩
      · have := (swap_loop k (st.numPartitions_ - k) Controller.clear hk0
          st.nominalControllersStock_ (by omega)).2 i hi (by omega)
        rw [hC] at this; exact this
      · have := (assign_loop k (st.numPartitions_ - k) 0 hk0 st.SmFinalStock_ (by omega)).2 i hi
          (by omega)
        rw [hSm] at this; exact this
      · have := (assign_loop k (st.numPartitions_ - k) 0 hk0 st.SvFinalStock_ (by omega)).2 i hi
          (by omega)
        rw [hSv] at this; exact this
      · have := (assign_loop k (st.numPartitions_ - k) 0 hk0 st.SveFinalStock_ (by omega)).2 i hi
          (by omega)
        rw [hSve] at this; exact this
      · have := (assign_loop k (st.numPartitions_ - k) 0 hk0 st.sFinalStock_ (by omega)).2 i hi
          (by omega)
        rw [hs] at this; exact this
      · have := (assign_loop k (st.numPartitions_ - k) 0 hk0 st.xFinalStock_ (by omega)).2 i hi
          (by omega)
        rw [hx] at this; exact this
  · rfl

theorem rewindOptimizer_shift_witness :
    ∃ st1, rewindOptimizer 1 rewindExample = .ok st1 ∧
      st1.sFinalStock_[0]? = some 20 ∧ st1.sFinalStock_[1]? = some 30 ∧
      st1.sFinalStock_[2]? = some 0 ∧
      (st1.nominalControllersStock_[0]?).map (fun c => c.time_) = some [2] := by
  obtain ⟨⟨st1, h1, h2, h3⟩, -⟩ := rewindOptimizer_shift rewindExample 1 rfl rfl rfl rfl rfl rfl
    (by decide) (by decide)
  refine ⟨st1, h1, ?_, ?_, ?_, ?_⟩
  · rw [(h2 0 (by decide)).2.2.2.2.1]; rfl
  · rw [(h2 1 (by decide)).2.2.2.2.1]; rfl
  · exact (h3 2 (by decide) (by decide)).2.2.2.2.1
  · rw [(h2 0 (by decide)).1]; rfl

/-! ## The main loop of `run` (C3, C4) -/

theorem run_body_iterate (settings : SLQ_Settings α) (outcome : Nat → Performance α)
    (st : RunState α) (j : Nat) :
    ((run_body settings outcome)^[j] st).iteration_ = st.iteration_ + j ∧
    ((run_body settings outcome)^[j] st).iterationCost_.length
      = st.iterationCost_.length + j := by
  induction j with
  | zero => exact ⟨rfl, rfl⟩
  | succ j ih =>
    rw [Function.iterate_succ_apply']
    obtain ⟨h1, h2⟩ := ih
    constructor
    · show ((run_body settings outcome)^[j] st).iteration_ + 1 = _
      rw [h1]; rfl
    · show (((run_body settings outcome)^[j] st).iterationCost_ ++ [_]).length = _
      rw [List.length_append, h2]; rfl

/-- The `while` loop, given enough unrollings, makes some number `p` of passes: the guard
holds before each of them and fails after the last. -/
theorem run_while_passes (settings : SLQ_Settings α) (outcome : Nat → Performance α)
    (fuel : Nat) (st : RunState α)
    (hfuel : settings.maxNumIterationsSLQ_ ≤ st.iteration_ + 1 + fuel) :
    ∃ p, run_while settings outcome fuel st = (run_body settings outcome)^[p] st ∧
      (∀ j, j < p →
        ((run_body settings outcome)^[j] st).iteration_ + 1 < settings.maxNumIterationsSLQ_ ∧
        ((run_body settings outcome)^[j] st).isOptimizationConverged = false) ∧
      ¬ (((run_body settings outcome)^[p] st).iteration_ + 1 < settings.maxNumIterationsSLQ_ ∧
         ((run_body settings outcome)^[p] st).isOptimizationConverged = false) := by
  induction fuel generalizing st with
  | zero =>
    refine ⟨0, rfl, ?_, ?_⟩
    · intro j hj; omega
    · intro hg
      have := hg.1
      simp only [Function.iterate_zero, id_eq] at this
      omega
  | succ fuel ih =>
    by_cases hg : st.iteration_ + 1 < settings.maxNumIterationsSLQ_
        ∧ st.isOptimizationConverged = false
    · have hstep : run_while settings outcome (fuel + 1) st
          = run_while settings outcome fuel (run_body settings outcome st) := by
        rw [run_while, if_pos hg]
      have hit : (run_body settings outcome st).iteration_ = st.iteration_ + 1 := rfl
      obtain ⟨p, h1, h2, h3⟩ := ih (run_body settings outcome st) (by rw [hit]; omega)
      refine ⟨p + 1, ?_, ?_, ?_⟩
      · rw [hstep, h1, Function.iterate_succ_apply]
      · intro j hj
        cases j with
        | zero => exact hg
        | succ j =>
          rw [Function.iterate_succ_apply]
          exact h2 j (by omega)
      · rw [Function.iterate_succ_apply]
        exact h3
    · refine ⟨0, ?_, ?_, ?_⟩
      · rw [run_while, if_neg hg]; rfl
      · intro j hj; omega
      · exact hg

/-- C4. For every `maxNumIterationsSLQ_` and every sequence of iteration outcomes the main
loop of `run` makes some number `p` of passes (one `runIteration` and one entry of the
iteration log each) with `p <= maxNumIterationsSLQ_ - 1`, and `p = 0` when
`maxNumIterationsSLQ_ <= 1`; every pass increases `iteration_` by one; the convergence flag
is unset after every pass before the last, and the loop stops short of the budget only with
the flag set; `getNumIterations()` is `p`. -/
theorem run_loop_bounded {n m : Nat} (settings : SLQ_Settings α)
    (nominalControllersStock_ : List (Controller α n m)) (outcome : Nat → Performance α) :
    ∃ p, run_loop settings nominalControllersStock_ outcome
        = (run_body settings outcome)^[p] (run_init nominalControllersStock_ outcome) ∧
      getNumIterations (run_loop settings nominalControllersStock_ outcome) = p ∧
      (run_loop settings nominalControllersStock_ outcome).iterationCost_.length = p + 1 ∧
      p ≤ settings.maxNumIterationsSLQ_ - 1 ∧
      (settings.maxNumIterationsSLQ_ ≤ 1 → p = 0) ∧
      getNumIterations (run_loop settings nominalControllersStock_ outcome)
        ≤ max 0 (settings.maxNumIterationsSLQ_ - 1) ∧
      (∀ j, j < p →
        ((run_body settings outcome)^[j]
          (run_init nominalControllersStock_ outcome)).isOptimizationConverged = false) ∧
      (p + 1 < settings.maxNumIterationsSLQ_ →
        (run_loop settings nominalControllersStock_ outcome).isOptimizationConverged = true) ∧
      (∀ st, (run_body settings outcome st).iteration_ = st.iteration_ + 1) := by
  obtain ⟨p, h1, h2, h3⟩ := run_while_passes settings outcome settings.maxNumIterationsSLQ_
    (run_init nominalControllersStock_ outcome) (by omega)
  have hit := fun j => run_body_iterate settings outcome
    (run_init nominalControllersStock_ outcome) j
  have hp : p ≤ settings.maxNumIterationsSLQ_ - 1 := by
    cases p with
    | zero => omega
    | succ q =>
      have := (h2 q (by omega)).1
      rw [(hit q).1] at this
      have h0 : (run_init nominalControllersStock_ outcome).iteration_ = 0 := rfl
      omega
  have hrun : run_loop settings nominalControllersStock_ outcome
      = (run_body settings outcome)^[p] (run_init nominalControllersStock_ outcome) := h1
  have hnum : (run_loop settings nominalControllersStock_ outcome).iteration_ = p := by
    rw [hrun, (hit p).1]
    show 0 + p = p
    omega
  refine ⟨p, hrun, hnum, ?_, hp, ?_, ?_, fun j hj => (h2 j hj).2, ?_, fun _ => rfl⟩
  · rw [hrun, (hit p).2]
    show 1 + p = p + 1
    omega
  · intro hle; omega
  · show (run_loop settings nominalControllersStock_ outcome).iteration_ ≤ _
    rw [hnum]
    exact le_trans hp (le_max_right _ _)
  · intro hlt
    rw [← hrun, hnum] at h3
    cases hflag : (run_loop settings nominalControllersStock_ outcome).isOptimizationConverged
    · exact absurd ⟨hlt, hflag⟩ h3
    · rfl

theorem foldl_or_empty {n m : Nat} (l : List (Controller α n m)) (b : Bool) :
    l.foldl (fun b controller => b || controller.empty) b = true
      ↔ b = true ∨ ∃ c ∈ l, c.empty = true := by
  induction l generalizing b with
  | nil => simp
  | cons c l ih =>
    rw [List.foldl_cons, ih]
    simp only [Bool.or_eq_true, List.mem_cons, exists_eq_or_imp]
    tauto

/-- The state after pass `j + 1` of the main loop of `run`. -/
theorem run_body_state {n m : Nat} (settings : SLQ_Settings α)
    (nominalControllersStock_ : List (Controller α n m)) (outcome : Nat → Performance α)
    (j : Nat) :
    ((run_body settings outcome)^[j]
        (run_init nominalControllersStock_ outcome)).nominalTotalCost_
      = (outcome j).nominalTotalCost_ ∧
    ((run_body settings outcome)^[j]
        (run_init nominalControllersStock_ outcome)).nominalConstraint1ISE_
      = (outcome j).nominalConstraint1ISE_ ∧
    ((run_body settings outcome)^[j]
        (run_init nominalControllersStock_ outcome)).learningRateStar_
      = (outcome j).learningRateStar_ ∧
    ((run_body settings outcome)^[j]
        (run_init nominalControllersStock_ outcome)).iteration_ = j ∧
    (((run_body settings outcome)^[j]
        (run_init nominalControllersStock_ outcome)).isInitInternalControllerEmpty = true
      ↔ j = 0 ∧ ∃ c ∈ nominalControllersStock_, c.empty = true) := by
  cases j with
  | zero =>
    refine ⟨rfl, rfl, rfl, rfl, ?_⟩
    simp only [Function.iterate_zero, id_eq, true_and]
    show nominalControllersStock_.foldl (fun b controller => b || controller.empty) false
      = true ↔ _
    rw [foldl_or_empty]
    simp
  | succ j =>
    rw [Function.iterate_succ_apply']
    have hit := (run_body_iterate settings outcome
      (run_init nominalControllersStock_ outcome) j).1
    have h0 : (run_init nominalControllersStock_ outcome).iteration_ = 0 := rfl
    rw [h0, Nat.zero_add] at hit
    refine ⟨?_, ?_, ?_, ?_, ?_⟩
    · show (outcome (_ + 1)).nominalTotalCost_ = _
      rw [hit]
    · show (outcome (_ + 1)).nominalConstraint1ISE_ = _
      rw [hit]
    · show (outcome (_ + 1)).learningRateStar_ = _
      rw [hit]
    · show _ + 1 = _
      rw [hit]
    · show false = true ↔ _
      simp

/-- C3 (as amended). After pass `j + 1` of the main loop of `run` the loop is declared
converged if and only if (|cost - previous cost| <= `minRelCostGSLQP_`, or the line search
selected learning rate 0 and it is not the first pass of a run whose controller stock had an
empty controller after truncation) and (type-1 ISE <= `minAbsConstraint1ISE_` or
|ISE - previous ISE| <= `minRelConstraint1ISE_`). -/
theorem run_convergence {n m : Nat} (settings : SLQ_Settings α)
    (nominalControllersStock_ : List (Controller α n m)) (outcome : Nat → Performance α)
    (j : Nat) :
    ((run_body settings outcome)^[j + 1]
        (run_init nominalControllersStock_ outcome)).isOptimizationConverged = true
    ↔ ((abs ((outcome (j + 1)).nominalTotalCost_ - (outcome j).nominalTotalCost_)
            ≤ settings.minRelCostGSLQP_
          ∨ ((outcome (j + 1)).learningRateStar_ = 0
              ∧ ¬ (j = 0 ∧ ∃ c ∈ nominalControllersStock_, c.empty = true)))
        ∧ ((outcome (j + 1)).nominalConstraint1ISE_ ≤ settings.minAbsConstraint1ISE_
          ∨ abs ((outcome (j + 1)).nominalConstraint1ISE_ - (outcome j).nominalConstraint1ISE_)
              ≤ settings.minRelConstraint1ISE_)) := by
  obtain ⟨h1, h2, -, h4, h5⟩ := run_body_state settings nominalControllersStock_ outcome j
  rw [Function.iterate_succ_apply']
  generalize hst : (run_body settings outcome)^[j]
    (run_init nominalControllersStock_ outcome) = st at h1 h2 h4 h5
  unfold run_body
  simp only [h1, h2, h4, Bool.and_eq_true, Bool.or_eq_true, decide_eq_true_eq, beq_iff_eq,
    Bool.not_eq_true']
  rw [← h5]
  cases st.isInitInternalControllerEmpty <;> simp

/-- C3 (as stated) fails on the first pass of a run started without a controller: the line
search selects learning rate 0 and the type-1 ISE is 0, so the stated condition holds, but
the cost moved from 10 to 5 and the loop is not declared converged; it makes a second pass. -/
theorem run_convergence_counterexample :
    ((run_body psdSettings stalledOutcome)^[1]
      (run_init [(Controller.clear : Controller ℚ 1 1)] stalledOutcome)).isOptimizationConverged
      = false ∧
    ((abs ((stalledOutcome 1).nominalTotalCost_ - (stalledOutcome 0).nominalTotalCost_)
          ≤ psdSettings.minRelCostGSLQP_
        ∨ (stalledOutcome 1).learningRateStar_ = 0)
      ∧ ((stalledOutcome 1).nominalConstraint1ISE_ ≤ psdSettings.minAbsConstraint1ISE_
        ∨ abs ((stalledOutcome 1).nominalConstraint1ISE_
                - (stalledOutcome 0).nominalConstraint1ISE_)
            ≤ psdSettings.minRelConstraint1ISE_)) ∧
    getNumIterations
      (run_loop psdSettings [(Controller.clear : Controller ℚ 1 1)] stalledOutcome) = 2 := by
  refine ⟨?_, ⟨Or.inr rfl, Or.inl ?_⟩, ?_⟩
  · simp [run_body, run_init, stalledOutcome, psdSettings, Controller.clear, Controller.empty]
    norm_num [abs_le]
  · simp [stalledOutcome, psdSettings]
  · simp [getNumIterations, run_loop, run_while, run_body, run_init, stalledOutcome,
      psdSettings, Controller.clear, Controller.empty]
    norm_num [abs_le]

/-! ## `calculateConstraintISE` (C7, C8) -/

theorem squaredNormError_eq {m : Nat} (nc : Nat) (Ev : Fin m → α) :
    squaredNormError nc Ev = spec_squaredNorm nc Ev := by
  unfold squaredNormError spec_squaredNorm
  by_cases h0 : nc > 0
  · rw [if_pos h0]
    rcases Nat.le_total nc m with hle | hge
    · rw [head_eq nc hle]
      simp only [Matrix.dotProduct]
      exact sum_first nc hle (fun j => Ev j * Ev j)
    · let G : Nat → α := fun i => if h : i < m then Ev ⟨i, h⟩ * Ev ⟨i, h⟩ else 0
      have h1 : Matrix.dotProduct (head nc Ev) (head nc Ev) = ∑ r : Fin nc, G r.val := by
        simp only [Matrix.dotProduct]
        apply Finset.sum_congr rfl
        intro r _
        simp only [head, G]
        split <;> simp
      have h2 : (∑ j : Fin m, if j.val < nc then Ev j * Ev j else 0) = ∑ j : Fin m, G j.val := by
        apply Finset.sum_congr rfl
        intro j _
        have : j.val < nc := lt_of_lt_of_le j.isLt hge
        simp [G, this]
      rw [h1, h2, Fin.sum_univ_eq_sum_range G nc, Fin.sum_univ_eq_sum_range G m]
      symm
      apply Finset.sum_subset
      · intro i hi
        simp only [Finset.mem_range] at hi ⊢
        omega
      · intro i _ hi
        simp only [Finset.mem_range] at hi
        simp [G, hi]
  · have hz : nc = 0 := by omega
    rw [if_neg h0, hz]
    simp

theorem spec_squaredNorm_nonneg {m : Nat} (nc : Nat) (Ev : Fin m → α) :
    0 ≤ spec_squaredNorm nc Ev := by
  unfold spec_squaredNorm
  apply Finset.sum_nonneg
  intro j _
  split
  · exact mul_self_nonneg _
  · exact le_refl _

/-- The inner loop after `j` passes: the integral so far, and the carried squared norm. -/
theorem calculateConstraintISE_inner {m : Nat} (time : List α) (nc : List Nat)
    (Ev : List (Fin m → α)) (st : ISEState α) (j : Nat) :
    ((List.range j).foldl (calculateConstraintISE_body time nc Ev) st).constraintISE
      = st.constraintISE + ∑ k in Finset.range j,
          1 / 2 * (spec_squaredNorm (nc.getD k 0) (Ev.getD k 0)
                    + spec_squaredNorm (nc.getD (k + 1) 0) (Ev.getD (k + 1) 0))
            * (time.getD (k + 1) 0 - time.getD k 0) ∧
    (0 < j →
      ((List.range j).foldl (calculateConstraintISE_body time nc Ev) st).nextSquaredNormError
        = spec_squaredNorm (nc.getD j 0) (Ev.getD j 0)) := by
  induction j with
  | zero => simp
  | succ j ih =>
    obtain ⟨ih1, ih2⟩ := ih
    rw [List.range_succ, List.foldl_append]
    simp only [List.foldl_cons, List.foldl_nil]
    generalize hcur : (List.range j).foldl (calculateConstraintISE_body time nc Ev) st = cur
      at ih1 ih2
    have hc : (if j = 0 then squaredNormError (nc.getD 0 0) (Ev.getD 0 0)
        else cur.nextSquaredNormError) = spec_squaredNorm (nc.getD j 0) (Ev.getD j 0) := by
      by_cases hj : j = 0
      · rw [if_pos hj, hj, squaredNormError_eq]
      · rw [if_neg hj, ih2 (by omega)]
    constructor
    · show cur.constraintISE + 1 / 2 * ((if j = 0 then _ else _) + squaredNormError _ _) * _ = _
      rw [hc, squaredNormError_eq, ih1, Finset.sum_range_succ, add_assoc]
    · intro _
      show squaredNormError _ _ = _
      rw [squaredNormError_eq]

theorem calculateConstraintISE_partition_ise {m : Nat} (time : List α) (nc : List Nat)
    (Ev : List (Fin m → α)) (st : ISEState α) :
    (calculateConstraintISE_partition time nc Ev st).constraintISE
      = st.constraintISE + spec_partitionISE time nc Ev := by
  unfold calculateConstraintISE_partition spec_partitionISE
  exact (calculateConstraintISE_inner time nc Ev _ _).1

theorem calculateConstraintISE_outer {m : Nat} (T : List (List α)) (NC : List (List Nat))
    (EV : List (List (Fin m → α))) (st : ISEState α) (N : Nat) :
    ((List.range N).foldl
      (fun st i => calculateConstraintISE_partition (T.getD i []) (NC.getD i [])
        (EV.getD i []) st) st).constraintISE
      = st.constraintISE + spec_constraintISE N T NC EV := by
  induction N with
  | zero => simp [spec_constraintISE]
  | succ N ih =>
    rw [List.range_succ, List.foldl_append]
    simp only [List.foldl_cons, List.foldl_nil]
    rw [calculateConstraintISE_partition_ise, ih]
    unfold spec_constraintISE
    rw [Finset.sum_range_succ, add_assoc]

theorem spec_partitionISE_nonneg {m : Nat} (time : List α) (nc : List Nat)
    (Ev : List (Fin m → α))
    (hmono : ∀ k, k + 1 < time.length → time.getD k 0 ≤ time.getD (k + 1) 0) :
    0 ≤ spec_partitionISE time nc Ev := by
  unfold spec_partitionISE
  apply Finset.sum_nonneg
  intro k hk
  simp only [Finset.mem_range] at hk
  have ht : 0 ≤ time.getD (k + 1) 0 - time.getD k 0 := sub_nonneg.mpr (hmono k (by omega))
  have he := add_nonneg (spec_squaredNorm_nonneg (nc.getD k 0) (Ev.getD k 0))
    (spec_squaredNorm_nonneg (nc.getD (k + 1) 0) (Ev.getD (k + 1) 0))
  exact mul_nonneg (mul_nonneg (by norm_num) he) ht

/-- C7. `calculateConstraintISE` sets `constraintISE` to the sum over the partitions and
their consecutive samples `k`, `k+1` of `1/2 * (e[k] + e[k+1]) * (t[k+1] - t[k])`, with
`e[k]` the squared norm of the first `nc[k]` residual entries; a partition with fewer than
two samples contributes 0; and the result is non-negative when every partition's time
stamps are non-decreasing. -/
theorem calculateConstraintISE_trapezoid {m : Nat} (sqrt : α → α) (numPartitions_ : Nat)
    (T : List (List α)) (NC : List (List Nat)) (EV : List (List (Fin m → α))) :
    (calculateConstraintISE sqrt numPartitions_ T NC EV).2
      = spec_constraintISE numPartitions_ T NC EV ∧
    (∀ (time : List α) (nc : List Nat) (Ev : List (Fin m → α)),
      time.length < 2 → spec_partitionISE time nc Ev = 0) ∧
    ((∀ i, i < numPartitions_ → ∀ k, k + 1 < (T.getD i []).length →
        (T.getD i []).getD k 0 ≤ (T.getD i []).getD (k + 1) 0) →
      0 ≤ (calculateConstraintISE sqrt numPartitions_ T NC EV).2) := by
  have h1 : (calculateConstraintISE sqrt numPartitions_ T NC EV).2
      = spec_constraintISE numPartitions_ T NC EV := by
    unfold calculateConstraintISE
    simp only
    rw [calculateConstraintISE_outer]
    simp
  refine ⟨h1, ?_, ?_⟩
  · intro time nc Ev hlen
    unfold spec_partitionISE
    have : time.length - 1 = 0 := by omega
    rw [this]
    simp
  · intro hmono
    rw [h1]
    unfold spec_constraintISE
    apply Finset.sum_nonneg
    intro i hi
    simp only [Finset.mem_range] at hi
    exact spec_partitionISE_nonneg _ _ _ (hmono i hi)

theorem calculateConstraintISE_trapezoid_witness :
    (∀ i, i < 1 → ∀ k, k + 1 < ((iseTimes ℚ).getD i []).length →
        ((iseTimes ℚ).getD i []).getD k 0 ≤ ((iseTimes ℚ).getD i []).getD (k + 1) 0) ∧
    0 ≤ (calculateConstraintISE id 1 (iseTimes ℚ) iseCounts (iseResiduals ℚ)).2 ∧
    (calculateConstraintISE id 1 (iseTimes ℚ) iseCounts (iseResiduals ℚ)).2 = 9 / 2 := by
  have hmono : ∀ i, i < 1 → ∀ k, k + 1 < ((iseTimes ℚ).getD i []).length →
      ((iseTimes ℚ).getD i []).getD k 0 ≤ ((iseTimes ℚ).getD i []).getD (k + 1) 0 := by
    intro i hi k hk
    have hi0 : i = 0 := by omega
    subst hi0
    simp only [iseTimes, List.getD_cons_zero, List.length_cons, List.length_nil] at hk ⊢
    have hk0 : k = 0 := by omega
    subst hk0
    simp
  obtain ⟨h1, -, h3⟩ := calculateConstraintISE_trapezoid id 1 (iseTimes ℚ) iseCounts
    (iseResiduals ℚ)
  refine ⟨hmono, h3 hmono, ?_⟩
  rw [h1]
  simp [spec_constraintISE, spec_partitionISE, spec_squaredNorm, iseTimes, iseCounts,
    iseResiduals]
  norm_num

/-- C8 (code defect). On one partition with samples at `t = 0, 1`, no active constraint at
the first and the active residual `[3]` at the second, the largest constraint norm over the
samples is `3`, but `calculateConstraintISE` returns `sqrt 0 = 0`: the running maximum is
updated with the current sample only, so the last sample of a partition never enters it. -/
theorem calculateConstraintISE_maxNorm_misses_last :
    (calculateConstraintISE Real.sqrt 1 (iseTimes ℝ) iseCounts (iseResiduals ℝ)).1 = 0 ∧
    Real.sqrt (spec_squaredNorm 1 (fun _ : Fin 1 => (3 : ℝ))) = 3 := by
  constructor
  · have hr : List.range 1 = [0] := rfl
    simp [calculateConstraintISE, calculateConstraintISE_partition, calculateConstraintISE_body,
      squaredNormError, iseTimes, iseCounts, iseResiduals, hr]
  · have h9 : spec_squaredNorm 1 (fun _ : Fin 1 => (3 : ℝ)) = 3 ^ 2 := by
      simp [spec_squaredNorm]; norm_num
    rw [h9]
    exact Real.sqrt_sq (by norm_num)

/-! ## The state-triggered rollout (C6) -/

theorem rolloutStateTriggeredWorker_while_done {X U σ : Type} (M : StateTriggeredModel α X U σ)
    (partitionIndex : Nat) (finalTime : α) (fuel : Nat) (st : StateTriggeredRun α X U σ)
    (h : ¬ st.t0 < finalTime - M.week_epsilon) :
    rolloutStateTriggeredWorker_while M partitionIndex finalTime fuel st = .ok st := by
  cases fuel with
  | zero => rw [rolloutStateTriggeredWorker_while, if_neg h]
  | succ f => rw [rolloutStateTriggeredWorker_while, if_neg h]

theorem rolloutStateTriggeredWorker_while_step {X U σ : Type}
    (M : StateTriggeredModel α X U σ)
    (partitionIndex : Nat) (finalTime : α) (fuel : Nat) (st st1 : StateTriggeredRun α X U σ)
    (h : st.t0 < finalTime - M.week_epsilon)
    (hp : rolloutStateTriggeredWorker_pass M partitionIndex finalTime st = .ok st1) :
    rolloutStateTriggeredWorker_while M partitionIndex finalTime (fuel + 1) st
      = rolloutStateTriggeredWorker_while M partitionIndex finalTime fuel st1 := by
  rw [rolloutStateTriggeredWorker_while, if_pos h, hp]
  rfl

/-- A pass in which the integrator throws an event id. -/
theorem rolloutStateTriggeredWorker_pass_event {X U σ : Type}
    (M : StateTriggeredModel α X U σ)
    (partitionIndex : Nat) (finalTime : α) (st : StateTriggeredRun α X U σ)
    (sigma1 : σ) (xs ts) (eventID : Nat) (tE : α) (xE : X)
    (hi : M.integrate st.sigma st.x0 st.t0 finalTime = (sigma1, ⟨xs, ts, some eventID⟩))
    (ht : (st.timeTrajectory ++ ts).getLast? = some tE)
    (hx : (st.stateTrajectory ++ xs).getLast? = some xE) :
    rolloutStateTriggeredWorker_pass M partitionIndex finalTime st = .ok
      { st with
        sigma := sigma1,
        stateTrajectory := st.stateTrajectory ++ xs,
        timeTrajectory := st.timeTrajectory ++ ts,
        integrateCalls := st.integrateCalls ++ [(st.x0, st.t0, finalTime)],
        eventsPastTheEndIndeces :=
          st.eventsPastTheEndIndeces ++ [(st.timeTrajectory ++ ts).length],
        x0 := M.computeJumpMap tE xE,
        computeJumpMapCalls := st.computeJumpMapCalls ++ [(tE, xE)],
        eventTimes := st.eventTimes ++ [tE],
        subsystemID := st.subsystemID ++ [eventID],
        hybridLlogicRulesMachine := st.hybridLlogicRulesMachine ++ [(partitionIndex, tE, eventID)],
        t0 := tE } := by
  unfold rolloutStateTriggeredWorker_pass
  simp only [hi, ht, hx]

/-- A pass in which the integrator runs to the end. -/
theorem rolloutStateTriggeredWorker_pass_plain {X U σ : Type}
    (M : StateTriggeredModel α X U σ)
    (partitionIndex : Nat) (finalTime : α) (st : StateTriggeredRun α X U σ)
    (sigma1 : σ) (xs ts) (tE : α) (xE : X)
    (hi : M.integrate st.sigma st.x0 st.t0 finalTime = (sigma1, ⟨xs, ts, none⟩))
    (ht : (st.timeTrajectory ++ ts).getLast? = some tE)
    (hx : (st.stateTrajectory ++ xs).getLast? = some xE) :
    rolloutStateTriggeredWorker_pass M partitionIndex finalTime st = .ok
      { st with
        sigma := sigma1,
        stateTrajectory := st.stateTrajectory ++ xs,
        timeTrajectory := st.timeTrajectory ++ ts,
        integrateCalls := st.integrateCalls ++ [(st.x0, st.t0, finalTime)],
        t0 := tE } := by
  unfold rolloutStateTriggeredWorker_pass
  simp only [hi, ht, hx]

theorem getLast?_append_left {β : Type} (l1 l2 : List β) (x : β)
    (h : l1.getLast? = some x) : ∃ y, (l1 ++ l2).getLast? = some y := by
  have hne : l1 ++ l2 ≠ [] := by
    intro hnil
    have : l1 = [] := (List.append_eq_nil.mp hnil).1
    rw [this] at h
    cases h
  exact ⟨(l1 ++ l2).getLast hne, List.getLast?_eq_getLast _ hne⟩

/-- C6 (as amended). Let the integrator throw exactly one event id: on the first call, after
appending the samples `ts1`, `xs1` that end in `(tE, xE)`; and let the continued call, made
when `tE < finalTime - week_epsilon`, run to the end of the interval. Then, given at least
two unrollings, `rolloutStateTriggeredWorker` returns; `eventsPastTheEndIndeces` is the one
marker `ts1.size()`, the number of samples recorded up to the crossing; the jump map is
evaluated exactly once, at `(tE, xE)`; the continued integration, when there is one, starts
from the jump map's result at `tE`; exactly one event time `tE` is appended; and the event id
is appended to `subsystemID`, after the initial active subsystem when `subsystemID` was empty
on entry. -/
theorem rolloutStateTriggeredWorker_single_event {X U σ : Type}
    (M : StateTriggeredModel α X U σ) (fuel : Nat) (sigma : σ) (partitionIndex : Nat)
    (initTime : α) (initState : X) (finalTime : α) (controllerEmpty : Bool)
    (eventTimes : List α) (subsystemID : List Nat) (guardSurfacesValues : List α)
    (hybridLlogicRulesMachine : List (Nat × α × Nat))
    (sigma1 sigma2 : σ) (xs1 xs2 : List X) (ts1 ts2 : List α) (eventID : Nat)
    (tE : α) (xE : X)
    (hfuel : 2 ≤ fuel)
    (hguard : ¬ (eventTimes.isEmpty = false ∧ guardSurfacesValues.isEmpty = true))
    (hstart : initTime < finalTime - M.week_epsilon)
    (heps : 0 ≤ M.week_epsilon)
    (h1 : M.integrate
        (if controllerEmpty = false then
          M.setController sigma partitionIndex eventTimes.getLast? guardSurfacesValues
         else sigma) initState initTime finalTime = (sigma1, ⟨xs1, ts1, some eventID⟩))
    (hts : ts1.getLast? = some tE) (hxs : xs1.getLast? = some xE)
    (h2 : tE < finalTime - M.week_epsilon →
      M.integrate sigma1 (M.computeJumpMap tE xE) tE finalTime = (sigma2, ⟨xs2, ts2, none⟩) ∧
      ∃ tF, (ts1 ++ ts2).getLast? = some tF ∧ ¬ tF < finalTime - M.week_epsilon) :
    ∃ xRet out,
      rolloutStateTriggeredWorker M fuel sigma partitionIndex initTime initState finalTime
        controllerEmpty eventTimes subsystemID guardSurfacesValues hybridLlogicRulesMachine
        = .ok (xRet, out) ∧
      out.eventsPastTheEndIndeces = [ts1.length] ∧
      out.timeTrajectory.take ts1.length = ts1 ∧
      out.computeJumpMapCalls = [(tE, xE)] ∧
      out.eventTimes = eventTimes ++ [tE] ∧
      out.subsystemID =
        (if subsystemID.isEmpty = true then
          [initialActiveSubsystem (M.computeGuardSurfaces initTime initState)]
         else subsystemID) ++ [eventID] ∧
      out.hybridLlogicRulesMachine = hybridLlogicRulesMachine ++ [(partitionIndex, tE, eventID)] ∧
      (tE < finalTime - M.week_epsilon →
        out.integrateCalls
          = [(initState, initTime, finalTime), (M.computeJumpMap tE xE, tE, finalTime)] ∧
        out.timeTrajectory = ts1 ++ ts2 ∧ out.stateTrajectory = xs1 ++ xs2) ∧
      (¬ tE < finalTime - M.week_epsilon →
        out.integrateCalls = [(initState, initTime, finalTime)] ∧
        out.timeTrajectory = ts1) := by
  obtain ⟨f, rfl⟩ : ∃ f, fuel = f + 2 := ⟨fuel - 2, by omega⟩
  have hT : ¬ initTime > finalTime := by
    intro hgt
    have : finalTime - M.week_epsilon ≤ finalTime := sub_le_self _ heps
    exact absurd (lt_of_lt_of_le hstart this) (not_lt.mpr (le_of_lt hgt))
  unfold rolloutStateTriggeredWorker
  rw [if_neg hT, if_neg hguard]
  simp only
  generalize hsig : (if controllerEmpty = false then
      M.setController sigma partitionIndex eventTimes.getLast? guardSurfacesValues
    else sigma) = sigma0 at h1
  generalize hsub : (if subsystemID.isEmpty = true then
      subsystemID ++ [initialActiveSubsystem (M.computeGuardSurfaces initTime initState)]
    else subsystemID) = sub0
  have hsub2 : (if subsystemID.isEmpty = true then
        [initialActiveSubsystem (M.computeGuardSurfaces initTime initState)]
      else subsystemID) = sub0 := by
    rw [← hsub]
    cases hsid : subsystemID with
    | nil => simp
    | cons a l => simp
  rw [hsub2]
  -- first pass: the crossing
  have hp1 := rolloutStateTriggeredWorker_pass_event M partitionIndex finalTime
    { sigma := sigma0, t0 := initTime, x0 := initState,
      timeTrajectory := [], stateTrajectory := [], inputTrajectory := [],
      eventsPastTheEndIndeces := [], eventTimes := eventTimes, subsystemID := sub0,
      guardSurfacesValues := guardSurfacesValues,
      hybridLlogicRulesMachine := hybridLlogicRulesMachine,
      computeJumpMapCalls := [], integrateCalls := [] }
    sigma1 xs1 ts1 eventID tE xE h1 (by simpa using hts) (by simpa using hxs)
  rw [rolloutStateTriggeredWorker_while_step M partitionIndex finalTime (f + 1) _ _ hstart hp1]
  simp only [List.nil_append]
  by_cases hcont : tE < finalTime - M.week_epsilon
  · -- second pass: the continued integration
    obtain ⟨hi2, tF, htF, hend⟩ := h2 hcont
    obtain ⟨xF, hxF⟩ := getLast?_append_left xs1 xs2 xE hxs
    have hp2 := rolloutStateTriggeredWorker_pass_plain M partitionIndex finalTime
      { sigma := sigma1, t0 := tE, x0 := M.computeJumpMap tE xE,
        timeTrajectory := ts1, stateTrajectory := xs1, inputTrajectory := [],
        eventsPastTheEndIndeces := [ts1.length], eventTimes := eventTimes ++ [tE],
        subsystemID := sub0 ++ [eventID],
        guardSurfacesValues := guardSurfacesValues,
        hybridLlogicRulesMachine := hybridLlogicRulesMachine ++ [(partitionIndex, tE, eventID)],
        computeJumpMapCalls := [(tE, xE)],
        integrateCalls := [(initState, initTime, finalTime)] }
      sigma2 xs2 ts2 tF xF hi2 htF hxF
    rw [rolloutStateTriggeredWorker_while_step M partitionIndex finalTime f _ _ hcont hp2]
    rw [rolloutStateTriggeredWorker_while_done M partitionIndex finalTime f _ hend]
    simp only [Except.bind, hxF]
    refine ⟨_, _, rfl, rfl, ?_, rfl, rfl, rfl, rfl, ?_, ?_⟩
    · simp
    · intro _; exact ⟨rfl, rfl, rfl⟩
    · intro hn; exact absurd hcont hn
  · rw [rolloutStateTriggeredWorker_while_done M partitionIndex finalTime (f + 1) _ hcont]
    simp only [Except.bind, hxs]
    refine ⟨_, _, rfl, rfl, ?_, rfl, rfl, rfl, rfl, ?_, ?_⟩
    · simp
    · intro hc; exact absurd hc hcont
    · intro _; exact ⟨rfl, rfl⟩

theorem rolloutStateTriggeredWorker_single_event_witness :
    ∃ xRet out,
      rolloutStateTriggeredWorker crossingModel 2 0 0 0 0 2 false [] [] [] []
        = .ok (xRet, out) ∧
      out.eventsPastTheEndIndeces = [2] ∧
      out.computeJumpMapCalls = [(1, 1)] ∧
      out.eventTimes = [1] := by
  obtain ⟨xRet, out, h1, h2, -, h4, h5, -⟩ :=
    rolloutStateTriggeredWorker_single_event crossingModel 2 0 0 0 0 2 false [] [] [] []
      1 2 [0, 1] [101, 101] [0, 1] [1, 2] 1 1 1 (le_refl _)
      (by simp) (by norm_num [crossingModel]) (by norm_num [crossingModel])
      (by simp [crossingModel]) rfl rfl
      (by
        intro _
        refine ⟨?_, 2, rfl, ?_⟩
        · simp [crossingModel]; norm_num
        · norm_num [crossingModel])
  exact ⟨xRet, out, h1, h2, h4, h5⟩

/-- C6 (as stated) fails on the first partition of a rollout, where `subsystemID` is empty
on entry: with a single guard crossing the worker appends two subsystem ids, the initial
active subsystem 0 and the event id 1. -/
theorem rolloutStateTriggeredWorker_single_event_counterexample :
    ∃ xRet out,
      rolloutStateTriggeredWorker crossingModel 2 0 0 0 0 2 false [] [] [] []
        = .ok (xRet, out) ∧
      out.eventsPastTheEndIndeces = [2] ∧
      out.subsystemID = [0, 1] ∧
      out.subsystemID.length = ([] : List Nat).length + 2 := by
  have h : rolloutStateTriggeredWorker crossingModel 2 0 0 0 0 2 false [] [] [] []
      = .ok (101,
        { sigma := 2, t0 := 2, x0 := 101,
          timeTrajectory := [0, 1, 1, 2], stateTrajectory := [0, 1, 101, 101],
          inputTrajectory := [0, -1, -101, -101],
          eventsPastTheEndIndeces := [2], eventTimes := [1], subsystemID := [0, 1],
          guardSurfacesValues := [],
          hybridLlogicRulesMachine := [(0, 1, 1)],
          computeJumpMapCalls := [(1, 1)],
          integrateCalls := [(0, 0, 2), (101, 1, 2)] }) := by
    simp [rolloutStateTriggeredWorker, rolloutStateTriggeredWorker_while,
      rolloutStateTriggeredWorker_pass, crossingModel, initialActiveSubsystem, Except.bind]
    norm_num
  exact ⟨_, _, h, rfl, rfl, rfl⟩

/-! ## The time-triggered rollout (C5) -/

/-- Appending a sample list over `[a, b]` to a trajectory that is empty or ends at `a`. -/
theorem spans_append (time ts : List α) (a b : α) (hch : time.Chain' (fun s t => s ≤ t))
    (hts : spec_spans ts a b) (hjoin : time = [] ∨ time.getLast? = some a) :
    (time ++ ts).Chain' (fun s t => s ≤ t) ∧ (time ++ ts).getLast? = some b ∧
    (time ++ ts).head? = (if time = [] then some a else time.head?) := by
  obtain ⟨h1, h2, h3⟩ := hts
  refine ⟨?_, ?_, ?_⟩
  · apply List.Chain'.append hch h3
    intro x hx y hy
    rw [h1] at hy
    rcases hjoin with hnil | hlast
    · rw [hnil] at hx; cases hx
    · rw [hlast] at hx
      cases hx; cases hy
      exact le_refl _
  · rw [List.getLast?_append, h2]; rfl
  · rw [List.head?_append]
    cases time with
    | nil => simp [h1]
    | cons t l => simp

theorem indexAt_ok {β : Type} (v : List β) (i : Nat) (b : β) (h : indexAt v i = .ok b) :
    v[i]? = some b := by
  unfold indexAt at h
  split at h
  · cases h; assumption
  · cases h

theorem rolloutTimeTriggeredWorker_simulate_spec {n m : Nat} (E : TimeTriggeredModel α n m)
    (hInt : spec_integratorContract E) (hOp : spec_operatingContract E)
    (partitionIndex : Nat) (controller : Controller α n m) (st st1 : TimeTriggeredRun α n m)
    (beginTime endTime : α)
    (hs : st.trajectory.stateTrajectory.length = st.trajectory.timeTrajectory.length)
    (hu : st.trajectory.inputTrajectory.length = st.trajectory.timeTrajectory.length)
    (hk : controller.empty = false → st.k_u = st.trajectory.timeTrajectory.length)
    (hch : st.trajectory.timeTrajectory.Chain' (fun s t => s ≤ t))
    (hjoin : st.trajectory.timeTrajectory = []
      ∨ st.trajectory.timeTrajectory.getLast? = some beginTime)
    (h : rolloutTimeTriggeredWorker_simulate E partitionIndex controller st beginTime endTime
      = .ok st1) :
    st1.trajectory.stateTrajectory.length = st1.trajectory.timeTrajectory.length ∧
    st1.trajectory.inputTrajectory.length = st1.trajectory.timeTrajectory.length ∧
    (controller.empty = false → st1.k_u = st1.trajectory.timeTrajectory.length) ∧
    st1.trajectory.timeTrajectory.Chain' (fun s t => s ≤ t) ∧
    st1.trajectory.timeTrajectory.getLast? = some endTime ∧
    st1.trajectory.timeTrajectory.head?
      = (if st.trajectory.timeTrajectory = [] then some beginTime
         else st.trajectory.timeTrajectory.head?) := by
  unfold rolloutTimeTriggeredWorker_simulate at h
  by_cases hc : controller.empty = false
  · rw [if_pos hc] at h
    cases hr : E.integrate partitionIndex controller st.beginState beginTime endTime with
    | error e => rw [hr] at h; cases h
    | ok r =>
      rw [hr] at h
      obtain ⟨xs, ts⟩ := r
      obtain ⟨hlen, hsp⟩ := hInt _ _ _ _ _ _ _ hr
      obtain ⟨a1, a2, a3⟩ := spans_append _ ts beginTime endTime hch hsp hjoin
      have h := Except.ok.inj h
      subst h
      have hku := hk hc
      refine ⟨?_, ?_, ?_, a1, a2, a3⟩
      · simp only [List.length_append, hs, hlen]
      · simp only [List.length_append, List.length_map, List.length_drop, List.length_zip,
          hs, hlen, hu, hku]
        omega
      · intro _
        simp only [List.length_append, hku]
        omega
  · rw [if_neg hc] at h
    cases hr : E.getSystemOperatingTrajectories partitionIndex st.beginState beginTime
        endTime with
    | error e => rw [hr] at h; cases h
    | ok r =>
      rw [hr] at h
      obtain ⟨ts, xs, us⟩ := r
      obtain ⟨o1, o2, o3⟩ := hOp _ _ _ _ _ _ _ hr
      obtain ⟨a1, a2, a3⟩ := spans_append _ ts beginTime endTime hch o3 hjoin
      have h := Except.ok.inj h
      subst h
      refine ⟨?_, ?_, ?_, a1, a2, a3⟩
      · simp only [List.length_append, hs, o1]
      · simp only [List.length_append, hu, o2]
      · intro hc2; exact absurd hc2 hc

theorem rolloutTimeTriggeredWorker_jump_spec {n m : Nat} (E : TimeTriggeredModel α n m)
    (partitionIndex : Nat) (finalItr : Nat) (st st1 : TimeTriggeredRun α n m) (i : Nat)
    (h : rolloutTimeTriggeredWorker_jump E partitionIndex finalItr st i = .ok st1) :
    st1.trajectory.timeTrajectory = st.trajectory.timeTrajectory ∧
    st1.trajectory.stateTrajectory = st.trajectory.stateTrajectory ∧
    st1.trajectory.inputTrajectory = st.trajectory.inputTrajectory ∧
    st1.k_u = st.k_u := by
  unfold rolloutTimeTriggeredWorker_jump at h
  split at h
  · split at h
    · have h := Except.ok.inj h
      subst h
      exact ⟨rfl, rfl, rfl, rfl⟩
    · cases h
  · have h := Except.ok.inj h
    subst h
    exact ⟨rfl, rfl, rfl, rfl⟩

theorem rolloutTimeTriggeredWorker_pass_spec {n m : Nat} (E : TimeTriggeredModel α n m)
    (hInt : spec_integratorContract E) (hOp : spec_operatingContract E)
    (partitionIndex : Nat) (controller : Controller α n m) (switchingTimes : List α)
    (beginItr finalItr : Nat) (initTime finalTime : α) (st st1 : TimeTriggeredRun α n m)
    (i : Nat) (hbi : beginItr ≤ i)
    (hinv : workerInvariant controller switchingTimes beginItr initTime i st)
    (h : rolloutTimeTriggeredWorker_pass E partitionIndex controller switchingTimes beginItr
      finalItr initTime finalTime st i = .ok st1) :
    (i = finalItr → workerFinal initTime finalTime st1) ∧
    (i ≠ finalItr → workerInvariant controller switchingTimes beginItr initTime (i + 1) st1) := by
  obtain ⟨hs, hu, hk, hch, hb0, hb1⟩ := hinv
  unfold rolloutTimeTriggeredWorker_pass at h
  -- the begin time
  cases hbt : (if i = beginItr then Except.ok initTime else indexAt switchingTimes i) with
  | error e => rw [hbt] at h; cases h
  | ok beginTime =>
    rw [hbt] at h
    simp only [Except.bind] at h
    -- the end time
    cases het : (if i = finalItr then Except.ok finalTime
        else indexAt switchingTimes (i + 1)) with
    | error e => rw [het] at h; cases h
    | ok endTime =>
      rw [het] at h
      simp only at h
      cases hsim : rolloutTimeTriggeredWorker_simulate E partitionIndex controller st
          beginTime endTime with
      | error e => rw [hsim] at h; cases h
      | ok st2 =>
        rw [hsim] at h
        simp only at h
        have hjoin : st.trajectory.timeTrajectory = []
            ∨ st.trajectory.timeTrajectory.getLast? = some beginTime := by
          by_cases hib : i = beginItr
          · exact Or.inl (hb0 hib)
          · right
            rw [if_neg hib] at hbt
            obtain ⟨-, t, ht1, ht2⟩ := hb1 hib
            have := indexAt_ok _ _ _ hbt
            rw [ht1] at this
            cases this
            exact ht2
        have hhead : (if st.trajectory.timeTrajectory = [] then some beginTime
            else st.trajectory.timeTrajectory.head?) = some initTime := by
          by_cases hib : i = beginItr
          · rw [if_pos hib] at hbt
            cases hbt
            rw [if_pos (hb0 hib)]
          · obtain ⟨hh, -⟩ := hb1 hib
            have hne : st.trajectory.timeTrajectory ≠ [] := by
              intro hnil; rw [hnil] at hh; cases hh
            rw [if_neg hne, hh]
        obtain ⟨s1, s2, s3, s4, s5, s6⟩ := rolloutTimeTriggeredWorker_simulate_spec E hInt hOp
          partitionIndex controller st st2 beginTime endTime hs hu hk hch hjoin hsim
        obtain ⟨j1, j2, j3, j4⟩ := rolloutTimeTriggeredWorker_jump_spec E partitionIndex
          finalItr st2 st1 i h
        rw [hhead] at s6
        constructor
        · intro hif
          rw [if_pos hif] at het
          cases het
          exact ⟨by rw [j1, j2]; exact s1, by rw [j1, j3]; exact s2, by rw [j1]; exact s4,
            by rw [j1]; exact s6, by rw [j1]; exact s5⟩
        · intro hif
          rw [if_neg hif] at het
          have hidx := indexAt_ok _ _ _ het
          refine ⟨by rw [j1, j2]; exact s1, by rw [j1, j3]; exact s2, ?_, by rw [j1]; exact s4,
            ?_, ?_⟩
          · intro hc; rw [j4, j1]; exact s3 hc
          · intro hc; omega
          · intro _
            exact ⟨by rw [j1]; exact s6, endTime, hidx, by rw [j1]; exact s5⟩

theorem rolloutTimeTriggeredWorker_loop_spec {n m : Nat} (E : TimeTriggeredModel α n m)
    (hInt : spec_integratorContract E) (hOp : spec_operatingContract E)
    (partitionIndex : Nat) (controller : Controller α n m) (switchingTimes : List α)
    (beginItr finalItr : Nat) (initTime finalTime : α) (count : Nat) :
    ∀ (i : Nat) (st st1 : TimeTriggeredRun α n m), beginItr ≤ i → i + count = finalItr →
      workerInvariant controller switchingTimes beginItr initTime i st →
      rolloutTimeTriggeredWorker_loop E partitionIndex controller switchingTimes beginItr
        finalItr initTime finalTime (count + 1) i st = .ok st1 →
      workerFinal initTime finalTime st1 := by
  induction count with
  | zero =>
    intro i st st1 hbi hcnt hinv h
    rw [rolloutTimeTriggeredWorker_loop] at h
    cases hp : rolloutTimeTriggeredWorker_pass E partitionIndex controller switchingTimes
        beginItr finalItr initTime finalTime st i with
    | error e => rw [hp] at h; cases h
    | ok st2 =>
      rw [hp] at h
      simp only [Except.bind, rolloutTimeTriggeredWorker_loop] at h
      have h := Except.ok.inj h
      rw [← h]
      exact (rolloutTimeTriggeredWorker_pass_spec E hInt hOp partitionIndex controller
        switchingTimes beginItr finalItr initTime finalTime st st2 i hbi hinv hp).1 (by omega)
  | succ count ih =>
    intro i st st1 hbi hcnt hinv h
    rw [rolloutTimeTriggeredWorker_loop] at h
    cases hp : rolloutTimeTriggeredWorker_pass E partitionIndex controller switchingTimes
        beginItr finalItr initTime finalTime st i with
    | error e => rw [hp] at h; cases h
    | ok st2 =>
      rw [hp] at h
      simp only [Except.bind] at h
      have hinv2 := (rolloutTimeTriggeredWorker_pass_spec E hInt hOp partitionIndex controller
        switchingTimes beginItr finalItr initTime finalTime st st2 i hbi hinv hp).2 (by omega)
      exact ih (i + 1) st2 st1 (by omega) (by omega) hinv2 h

/-- The trajectories that `rolloutTimeTriggeredWorker` returns are a sample sequence that
starts at its `initTime` and ends at its `finalTime`. -/
theorem rolloutTimeTriggeredWorker_spec {n m : Nat} (E : TimeTriggeredModel α n m)
    (hInt : spec_integratorContract E) (hOp : spec_operatingContract E)
    (initActivePartition_ finalActivePartition_ : Nat)
    (partitionIndex : Nat) (initTime : α) (initState : Fin n → α) (finalTime : α)
    (controller : Controller α n m) (r : (Fin n → α) × PartitionTrajectory α n m)
    (h : rolloutTimeTriggeredWorker E initActivePartition_ finalActivePartition_
      partitionIndex initTime initState finalTime controller = .ok r) :
    spec_sampleSequence r.2 ∧ r.2.timeTrajectory.head? = some initTime ∧
    r.2.timeTrajectory.getLast? = some finalTime := by
  unfold rolloutTimeTriggeredWorker at h
  split at h
  · cases h
  simp only at h
  generalize hb : (if partitionIndex = initActivePartition_ then
      toSize (E.findActiveIntervalIndex (E.getSwitchingTimes partitionIndex) initTime 0 none)
    else 0) = beginItr at h
  generalize hf : (if partitionIndex = finalActivePartition_ then
      toSize (E.findActiveIntervalIndex (E.getSwitchingTimes partitionIndex) finalTime
        (sizeMinusOne (E.getNumEventCounters partitionIndex)) none)
    else sizeMinusOne (E.getNumEventCounters partitionIndex)) = finalItr at h
  cases hloop : rolloutTimeTriggeredWorker_loop E partitionIndex controller
      (E.getSwitchingTimes partitionIndex) beginItr finalItr initTime finalTime
      (finalItr + 1 - beginItr) beginItr ⟨initState, 0, ⟨[], [], [], []⟩⟩ with
  | error e => rw [hloop] at h; cases h
  | ok st =>
    rw [hloop] at h
    simp only [Except.bind] at h
    have hfin : workerFinal initTime finalTime st := by
      cases hcount : finalItr + 1 - beginItr with
      | zero =>
        rw [hcount, rolloutTimeTriggeredWorker_loop] at hloop
        have hst := Except.ok.inj hloop
        rw [← hst] at h
        simp only [List.getLast?_nil] at h
        split at h <;> cases h
      | succ c =>
        rw [hcount] at hloop
        exact rolloutTimeTriggeredWorker_loop_spec E hInt hOp partitionIndex controller
          (E.getSwitchingTimes partitionIndex) beginItr finalItr initTime finalTime c
          beginItr _ st (le_refl _) (by omega)
          ⟨rfl, rfl, fun _ => rfl, List.chain'_nil, fun _ => rfl, fun hne => absurd rfl hne⟩
          hloop
    obtain ⟨f1, f2, f3, f4, f5⟩ := hfin
    have hne : st.trajectory.timeTrajectory ≠ [] := by
      intro hnil; rw [hnil] at f4; cases f4
    split at h
    · split at h
      · have h := Except.ok.inj h
        rw [← h]
        exact ⟨⟨hne, f1, f2, f3⟩, f4, f5⟩
      · cases h
    · split at h
      · have h := Except.ok.inj h
        rw [← h]
        exact ⟨⟨hne, f1, f2, f3⟩, f4, f5⟩
      · cases h

theorem rolloutInvariant_extend {n m : Nat} (initTime finalTime : α) (ia fa k : Nat)
    (st : RolloutRun α n m) (tr : PartitionTrajectory α n m) (t0 : α) (x0 : Fin n → α)
    (numSteps : Nat)
    (hinv : rolloutInvariant initTime finalTime ia fa k st)
    (htr : spec_partitionResult initTime finalTime ia fa st.stock[k - 1]? k tr)
    (h0 : k + 1 ≤ ia → t0 = initTime)
    (h1 : ia < k + 1 → k + 1 ≤ fa + 1 → tr.timeTrajectory.getLast? = some t0) :
    rolloutInvariant initTime finalTime ia fa (k + 1)
      ⟨t0, x0, numSteps, st.stock ++ [tr]⟩ := by
  obtain ⟨hlen, hall, -, -⟩ := hinv
  refine ⟨by simp [hlen], ?_, h0, ?_⟩
  · intro i hi
    rcases Nat.lt_or_ge i k with hlt | hge
    · obtain ⟨tr0, ht0, hspec⟩ := hall i hlt
      refine ⟨tr0, ?_, ?_⟩
      · show (st.stock ++ [tr])[i]? = some tr0
        rw [List.getElem?_append_left (by omega), ht0]
      · show spec_partitionResult initTime finalTime ia fa (st.stock ++ [tr])[i - 1]? i tr0
        rw [List.getElem?_append_left (by omega)]
        exact hspec
    · have hik : i = k := by omega
      subst hik
      refine ⟨tr, ?_, ?_⟩
      · show (st.stock ++ [tr])[i]? = some tr
        rw [← hlen]
        exact List.getElem?_concat_length _ _
      · show spec_partitionResult initTime finalTime ia fa (st.stock ++ [tr])[i - 1]? i tr
        rcases Nat.eq_zero_or_pos i with hz | hpos
        · subst hz
          obtain ⟨p1, p2⟩ := htr
          refine ⟨p1, ?_⟩
          intro ha hb
          obtain ⟨q1, q2, q3, q4⟩ := p2 ha hb
          exact ⟨q1, q2, fun hlt => absurd hlt (by omega), q4⟩
        · rw [List.getElem?_append_left (by omega)]
          exact htr
  · intro ha hb
    refine ⟨tr, ?_, h1 ha hb⟩
    show (st.stock ++ [tr])[k + 1 - 1]? = some tr
    rw [Nat.add_sub_cancel, ← hlen]
    exact List.getElem?_concat_length _ _

theorem rolloutTrajectory_pass_spec {n m : Nat} (E : TimeTriggeredModel α n m)
    (hInt : spec_integratorContract E) (hOp : spec_operatingContract E)
    (initActivePartition_ finalActivePartition_ : Nat) (blockwiseMovingHorizon_ : Bool)
    (initTime finalTime : α) (partitioningTimes : List α)
    (controllersStock : List (Controller α n m)) (ia fa : Nat)
    (st st1 : RolloutRun α n m) (k : Nat)
    (hinv : rolloutInvariant initTime finalTime ia fa k st)
    (h : rolloutTrajectory_pass E initActivePartition_ finalActivePartition_
      blockwiseMovingHorizon_ finalTime partitioningTimes controllersStock ia fa st k
      = .ok st1) :
    rolloutInvariant initTime finalTime ia fa (k + 1) st1 := by
  unfold rolloutTrajectory_pass at h
  by_cases hout : k < ia ∨ k > fa
  · rw [if_pos hout] at h
    have h := Except.ok.inj h
    rw [← h]
    apply rolloutInvariant_extend initTime finalTime ia fa k st _ st.t0 st.x0 st.numSteps hinv
    · exact ⟨fun _ => rfl, fun ha hb => by omega⟩
    · intro hk; exact hinv.2.2.1 (by omega)
    · intro ha hb; omega
  · rw [if_neg hout] at h
    have hact : ia ≤ k ∧ k ≤ fa := by omega
    cases htf : (if k ≠ fa then indexAt partitioningTimes (k + 1)
        else Except.ok finalTime) with
    | error e => rw [htf] at h; cases h
    | ok tf =>
      rw [htf] at h
      simp only [Except.bind] at h
      cases hc1 : indexAt controllersStock k with
      | error e => rw [hc1] at h; cases h
      | ok c1 =>
        rw [hc1] at h
        simp only at h
        cases hc2 : (if blockwiseMovingHorizon_ = false ∧ c1.empty = true ∧ k > 0 then
            Except.map (fun previous => if previous.empty = false then previous else c1)
              (indexAt controllersStock (k - 1))
          else Except.ok c1) with
        | error e => rw [hc2] at h; cases h
        | ok c2 =>
          rw [hc2] at h
          simp only at h
          cases hw : rolloutTimeTriggeredWorker E initActivePartition_ finalActivePartition_ k
              st.t0 st.x0 tf c2 with
          | error e => rw [hw] at h; cases h
          | ok r =>
            rw [hw] at h
            simp only at h
            obtain ⟨w1, w2, w3⟩ := rolloutTimeTriggeredWorker_spec E hInt hOp
              initActivePartition_ finalActivePartition_ k st.t0 st.x0 tf c2 r hw
            rw [w3] at h
            simp only at h
            have h := Except.ok.inj h
            rw [← h]
            apply rolloutInvariant_extend initTime finalTime ia fa k st r.2 tf r.1 _ hinv
            · refine ⟨fun ho => absurd ho (by omega), fun _ _ => ⟨w1, ?_, ?_, ?_⟩⟩
              · intro hk
                rw [w2, hinv.2.2.1 (by omega)]
              · intro hk
                obtain ⟨prev, hp1, hp2⟩ := hinv.2.2.2 hk (by omega)
                exact ⟨prev, hp1, by rw [hp2, w2]⟩
              · intro hk
                have hk2 : ¬ k ≠ fa := fun hne => hne hk
                rw [if_neg hk2] at htf
                have htf := Except.ok.inj htf
                rw [w3, htf]
            · intro hk; omega
            · intro _ _; exact w3

theorem rolloutTrajectory_loop_spec {n m : Nat} (E : TimeTriggeredModel α n m)
    (hInt : spec_integratorContract E) (hOp : spec_operatingContract E)
    (initActivePartition_ finalActivePartition_ : Nat) (blockwiseMovingHorizon_ : Bool)
    (initTime finalTime : α) (partitioningTimes : List α)
    (controllersStock : List (Controller α n m)) (ia fa : Nat) (count : Nat) :
    ∀ (k : Nat) (st st1 : RolloutRun α n m),
      rolloutInvariant initTime finalTime ia fa k st →
      rolloutTrajectory_loop E initActivePartition_ finalActivePartition_
        blockwiseMovingHorizon_ finalTime partitioningTimes controllersStock ia fa count k st
        = .ok st1 →
      rolloutInvariant initTime finalTime ia fa (k + count) st1 := by
  induction count with
  | zero =>
    intro k st st1 hinv h
    rw [rolloutTrajectory_loop] at h
    have h := Except.ok.inj h
    rw [← h]
    exact hinv
  | succ count ih =>
    intro k st st1 hinv h
    rw [rolloutTrajectory_loop] at h
    cases hp : rolloutTrajectory_pass E initActivePartition_ finalActivePartition_
        blockwiseMovingHorizon_ finalTime partitioningTimes controllersStock ia fa st k with
    | error e => rw [hp] at h; cases h
    | ok st2 =>
      rw [hp] at h
      simp only [Except.bind] at h
      have hinv2 := rolloutTrajectory_pass_spec E hInt hOp initActivePartition_
        finalActivePartition_ blockwiseMovingHorizon_ initTime finalTime partitioningTimes
        controllersStock ia fa st st2 k hinv hp
      have := ih (k + 1) st2 st1 hinv2 h
      rw [Nat.add_assoc, Nat.add_comm 1 count] at this
      exact this

/-- C5. Let every integrator call and every operating-trajectory call over `[a, b]` that
returns append equally many states (and inputs) and time stamps, the time stamps
non-decreasing, beginning at `a` and ending at `b`. Then whenever `rolloutTrajectory`
returns, it returns one entry per partition: empty trajectories for every partition outside
`[initActivePartition, finalActivePartition]`, and for every active partition a non-empty
sample sequence with equal-length time, state and input arrays and non-decreasing time
stamps, which starts at `initTime` in the first active partition and at the previous
partition's last time stamp in every later one, and ends at `finalTime` in the final active
partition. -/
theorem rolloutTrajectory_partitions {n m : Nat} (E : TimeTriggeredModel α n m)
    (hInt : spec_integratorContract E) (hOp : spec_operatingContract E)
    (initActivePartition_ finalActivePartition_ : Nat) (blockwiseMovingHorizon_ : Bool)
    (initTime : α) (initState : Fin n → α) (finalTime : α)
    (partitioningTimes : List α) (controllersStock : List (Controller α n m))
    (r : α × List (PartitionTrajectory α n m))
    (h : rolloutTrajectory E initActivePartition_ finalActivePartition_
      blockwiseMovingHorizon_ initTime initState finalTime partitioningTimes controllersStock
      = .ok r) :
    ∃ ia fa,
      findActivePartitionIndex E partitioningTimes initTime true = .ok ia ∧
      findActivePartitionIndex E partitioningTimes finalTime true = .ok fa ∧
      r.2.length = sizeMinusOne partitioningTimes.length ∧
      ∀ i, i < r.2.length → ∃ tr, r.2[i]? = some tr ∧
        ((i < ia ∨ fa < i) → tr = ⟨[], [], [], []⟩) ∧
        (ia ≤ i → i ≤ fa →
          spec_sampleSequence tr ∧
          (i = ia → tr.timeTrajectory.head? = some initTime) ∧
          (ia < i → ∃ prev, r.2[i - 1]? = some prev ∧
            prev.timeTrajectory.getLast? = tr.timeTrajectory.head?) ∧
          (i = fa → tr.timeTrajectory.getLast? = some finalTime)) := by
  unfold rolloutTrajectory at h
  generalize sizeMinusOne partitioningTimes.length = N at h ⊢
  simp only at h
  split at h
  · cases h
  obtain ⟨ia, hia, h⟩ := bind_eq_ok _ _ _ h
  obtain ⟨fa, hfa, h⟩ := bind_eq_ok _ _ _ h
  obtain ⟨st, hloop, h⟩ := bind_eq_ok _ _ _ h
  have h := Except.ok.inj h
  have hinv0 : rolloutInvariant initTime finalTime ia fa 0
      (⟨initTime, initState, 0, []⟩ : RolloutRun α n m) :=
    ⟨rfl, fun i hi => absurd hi (Nat.not_lt_zero i), fun _ => rfl,
      fun ha _ => absurd ha (Nat.not_lt_zero ia)⟩
  obtain ⟨q1, q2, -, -⟩ := rolloutTrajectory_loop_spec E hInt hOp initActivePartition_
    finalActivePartition_ blockwiseMovingHorizon_ initTime finalTime partitioningTimes
    controllersStock ia fa _ 0 _ st hinv0 hloop
  rw [Nat.zero_add] at q1 q2
  rw [← h]
  refine ⟨ia, fa, hia, hfa, q1, ?_⟩
  intro i hi
  obtain ⟨tr, t1, t2, t3⟩ := q2 i (by rw [← q1]; exact hi)
  exact ⟨tr, t1, t2, t3⟩

theorem holdModel_contracts :
    spec_integratorContract holdModel ∧ spec_operatingContract holdModel := by
  constructor
  · intro p c x a b xs ts h
    simp only [holdModel] at h
    split at h
    · rename_i hab
      have h := Except.ok.inj h
      simp only [Prod.mk.injEq] at h
      obtain ⟨rfl, rfl⟩ := h
      exact ⟨rfl, rfl, rfl, by simp [hab]⟩
    · cases h
  · intro p x a b ts xs us h
    simp only [holdModel] at h
    split at h
    · rename_i hab
      have h := Except.ok.inj h
      simp only [Prod.mk.injEq] at h
      obtain ⟨rfl, rfl, rfl⟩ := h
      exact ⟨rfl, rfl, rfl, rfl, by simp [hab]⟩
    · cases h

/-- The rollout of `holdModel` over the schedule `0 < 1 < 2` from time 0 to time 2, without
controllers. -/
theorem holdModel_rollout (x : Fin 1 → ℚ) :
    rolloutTrajectory holdModel 0 1 false 0 x 2 [0, 1, 2]
        [Controller.clear, Controller.clear]
      = .ok (1 / 2, [⟨[0, 1], [], [x, x], [0, 0]⟩, ⟨[1, 2], [], [x, x], [0, 0]⟩]) := by
  have hs3 : sizeMinusOne 3 = 2 := by decide
  have hs1 : sizeMinusOne 1 = 0 := by decide
  have ht0 : toSize 0 = 0 := by decide
  have ht1 : toSize 1 = 1 := by decide
  have hi0 : findActivePartitionIndex holdModel [0, 1, 2] 0 true = .ok 0 := by
    simp [findActivePartitionIndex, holdModel, hs3, ht0]
  have hi2 : findActivePartitionIndex holdModel [0, 1, 2] 2 true = .ok 1 := by
    simp [findActivePartitionIndex, holdModel, hs3]
    norm_num [List.filter, ht1]
  have hw0 : rolloutTimeTriggeredWorker holdModel 0 1 0 0 x 1 Controller.clear
      = .ok (x, ⟨[0, 1], [], [x, x], [0, 0]⟩) := by
    simp [rolloutTimeTriggeredWorker, rolloutTimeTriggeredWorker_loop,
      rolloutTimeTriggeredWorker_pass, rolloutTimeTriggeredWorker_simulate,
      rolloutTimeTriggeredWorker_jump, holdModel, hs1, ht0, Controller.clear, Controller.empty,
      Except.bind, Except.map]
  have hw1 : rolloutTimeTriggeredWorker holdModel 0 1 1 1 x 2 Controller.clear
      = .ok (x, ⟨[1, 2], [], [x, x], [0, 0]⟩) := by
    simp [rolloutTimeTriggeredWorker, rolloutTimeTriggeredWorker_loop,
      rolloutTimeTriggeredWorker_pass, rolloutTimeTriggeredWorker_simulate,
      rolloutTimeTriggeredWorker_jump, holdModel, hs1, ht0, Controller.clear, Controller.empty,
      Except.bind, Except.map, List.filter]
    norm_num [ht0, rolloutTimeTriggeredWorker_loop,
      rolloutTimeTriggeredWorker_pass, rolloutTimeTriggeredWorker_simulate,
      rolloutTimeTriggeredWorker_jump, Except.bind, Except.map, Controller.empty]
  have hce : (Controller.clear : Controller ℚ 1 1).empty = true := rfl
  have hp0 : rolloutTrajectory_pass holdModel 0 1 false 2 [0, 1, 2]
      [Controller.clear, Controller.clear] 0 1 ⟨0, x, 0, []⟩ 0
      = .ok ⟨1, x, 2, [⟨[0, 1], [], [x, x], [0, 0]⟩]⟩ := by
    simp [rolloutTrajectory_pass, indexAt, hce, hw0, Except.bind]
  have hp1 : rolloutTrajectory_pass holdModel 0 1 false 2 [0, 1, 2]
      [Controller.clear, Controller.clear] 0 1 ⟨1, x, 2, [⟨[0, 1], [], [x, x], [0, 0]⟩]⟩ 1
      = .ok ⟨2, x, 4, [⟨[0, 1], [], [x, x], [0, 0]⟩, ⟨[1, 2], [], [x, x], [0, 0]⟩]⟩ := by
    simp [rolloutTrajectory_pass, indexAt, hce, hw1, Except.bind, Except.map]
  unfold rolloutTrajectory
  simp only [List.length_cons, List.length_nil, hs3, hi0, hi2, Except.bind,
    rolloutTrajectory_loop, hp0, hp1]
  norm_num

theorem rolloutTrajectory_partitions_witness :
    spec_integratorContract holdModel ∧ spec_operatingContract holdModel ∧
    ∃ r, rolloutTrajectory holdModel 0 1 false 0 (fun _ => 5) 2 [0, 1, 2]
          [Controller.clear, Controller.clear] = .ok r ∧
      r.2.length = 2 ∧
      ∃ ia fa, ∀ i, i < r.2.length → ∃ tr, r.2[i]? = some tr ∧
        (ia ≤ i → i ≤ fa → spec_sampleSequence tr) := by
  refine ⟨holdModel_contracts.1, holdModel_contracts.2, _, holdModel_rollout (fun _ => 5), rfl, ?_⟩
  obtain ⟨ia, fa, -, -, -, hall⟩ := rolloutTrajectory_partitions holdModel
    holdModel_contracts.1 holdModel_contracts.2 0 1 false 0 (fun _ => 5) 2 [0, 1, 2]
    [Controller.clear, Controller.clear] _ (holdModel_rollout (fun _ => 5))
  refine ⟨ia, fa, ?_⟩
  intro i hi
  obtain ⟨tr, h1, -, h3⟩ := hall i hi
  exact ⟨tr, h1, fun ha hb => (h3 ha hb).1⟩

/-! ## `findActivePartitionIndex` and the times of `run` -/

/-- A `bind` whose first step throws, throws. -/
theorem bind_error_left {ε β γ : Type} (x : Except ε β) (f : β → Except ε γ)
    (h : ∃ e, x = .error e) : ∃ e, x.bind f = .error e := by
  obtain ⟨e, rfl⟩ := h
  exact ⟨e, rfl⟩

/-- A `bind` whose second step always throws, throws. -/
theorem bind_error_right {ε β γ : Type} (x : Except ε β) (f : β → Except ε γ)
    (h : ∀ b, ∃ e, f b = .error e) : ∃ e, x.bind f = .error e := by
  cases x with
  | error e => exact ⟨e, rfl⟩
  | ok b => exact h b

theorem findActivePartitionIndex_eq {n m : Nat} (E : TimeTriggeredModel α n m)
    (partitioningTimes : List α) (time : α) (ceilingFunction : Bool) :
    findActivePartitionIndex E partitioningTimes time ceilingFunction =
      if findActivePartitionIndex_lookup E partitioningTimes time ceilingFunction < 0 then
        .error "Given time is less than the start time (i.e. givenTime < partitioningTimes.front())"
      else if toSize (findActivePartitionIndex_lookup E partitioningTimes time ceilingFunction)
          = sizeMinusOne partitioningTimes.length then
        .error "Given time is greater than the final time (i.e. partitioningTimes.back() < givenTime)"
      else .ok (toSize (findActivePartitionIndex_lookup E partitioningTimes time
        ceilingFunction)) := by
  rfl

/-- For an `int` index and a vector size, the unsigned comparison of line 2502 is the
comparison of the integers. -/
theorem toSize_eq_sizeMinusOne (idx : Int) (len : Nat) (hlen : len < 2 ^ 64)
    (h0 : 0 ≤ idx) (h1 : idx < 2 ^ 31) :
    toSize idx = sizeMinusOne len ↔ idx = (len : Int) - 1 := by
  unfold toSize sizeMinusOne
  omega

theorem toSize_of_nonneg (idx : Int) (h0 : 0 ≤ idx) (h1 : idx < 2 ^ 31) :
    ((toSize idx : Nat) : Int) = idx := by
  unfold toSize
  omega

theorem findActivePartitionIndex_outside {n m : Nat} (E : TimeTriggeredModel α n m)
    (partitioningTimes : List α) (time : α) (ceilingFunction : Bool)
    (hlen : partitioningTimes.length < 2 ^ 64)
    (hint : -2 ^ 31 ≤ findActivePartitionIndex_lookup E partitioningTimes time ceilingFunction
      ∧ findActivePartitionIndex_lookup E partitioningTimes time ceilingFunction < 2 ^ 31) :
    (∃ e, findActivePartitionIndex E partitioningTimes time ceilingFunction = .error e) ↔
      (findActivePartitionIndex_lookup E partitioningTimes time ceilingFunction < 0 ∨
        findActivePartitionIndex_lookup E partitioningTimes time ceilingFunction
          = (partitioningTimes.length : Int) - 1) := by
  rw [findActivePartitionIndex_eq]
  generalize findActivePartitionIndex_lookup E partitioningTimes time ceilingFunction = idx
    at hint ⊢
  by_cases hneg : idx < 0
  · simp [hneg]
  · have h0 : 0 ≤ idx := by omega
    have hiff := toSize_eq_sizeMinusOne idx partitioningTimes.length hlen h0 hint.2
    by_cases hlast : idx = (partitioningTimes.length : Int) - 1
    · rw [if_neg hneg, if_pos (hiff.mpr hlast)]
      exact ⟨fun _ => Or.inr hlast, fun _ => ⟨_, rfl⟩⟩
    · have hne : ¬ toSize idx = sizeMinusOne partitioningTimes.length :=
        fun h => hlast (hiff.mp h)
      rw [if_neg hneg, if_neg hne]
      constructor
      · rintro ⟨e, he⟩
        cases he
      · rintro (h | h)
        · exact absurd h hneg
        · exact absurd h hlast

theorem run_partitions_times {n m : Nat} (st st1 : SolverState α n m)
    (partitioningTimes : List α) (h : run_partitions st partitioningTimes = .ok st1) :
    st1.partitioningTimes_ = partitioningTimes := by
  unfold run_partitions at h
  obtain ⟨s, -, h⟩ := bind_eq_ok _ _ _ h
  have h := Except.ok.inj h
  rw [← h]

theorem run_controllers_times {n m : Nat} (st st1 : SolverState α n m)
    (controllersStock : List (Controller α n m))
    (h : run_controllers st controllersStock = .ok st1) :
    st1.partitioningTimes_ = st.partitioningTimes_ ∧ st1.numPartitions_ = st.numPartitions_ := by
  unfold run_controllers at h
  split at h
  · split at h
    · cases h
    · have h := Except.ok.inj h
      rw [← h]
      exact ⟨rfl, rfl⟩
  · split at h
    · cases h
    · have h := Except.ok.inj h
      rw [← h]
      exact ⟨rfl, rfl⟩

theorem run_truncate_outside {n m : Nat} (R : RunModel α n m) (st : SolverState α n m)
    (initTime finalTime : α)
    (h : (∃ e, findActivePartitionIndex R.toTimeTriggeredModel st.partitioningTimes_ initTime
          true = .error e) ∨
        (∃ e, findActivePartitionIndex R.toTimeTriggeredModel st.partitioningTimes_ finalTime
          true = .error e)) :
    ∃ e, run_truncate R st initTime finalTime = .error e := by
  unfold run_truncate
  rcases h with h | h
  · apply bind_error_left
    unfold truncateConterller
    exact bind_error_left _ _ h
  · apply bind_error_right
    intro t
    exact bind_error_left _ _ h

theorem run_setup_outside {n m : Nat} (R : RunModel α n m) (st : SolverState α n m)
    (initTime finalTime : α) (partitioningTimes : List α)
    (controllersStock : List (Controller α n m))
    (h : (∃ e, findActivePartitionIndex R.toTimeTriggeredModel partitioningTimes initTime
          true = .error e) ∨
        (∃ e, findActivePartitionIndex R.toTimeTriggeredModel partitioningTimes finalTime
          true = .error e)) :
    ∃ e, run_setup R st initTime finalTime partitioningTimes controllersStock = .error e := by
  unfold run_setup
  cases hp : run_partitions st partitioningTimes with
  | error e => exact ⟨e, rfl⟩
  | ok st1 =>
    show ∃ e, (run_controllers st1 controllersStock).bind
      (fun st2 => run_truncate R st2 initTime finalTime) = .error e
    cases hc : run_controllers st1 controllersStock with
    | error e => exact ⟨e, rfl⟩
    | ok st2 =>
      show ∃ e, run_truncate R st2 initTime finalTime = .error e
      have ht : st2.partitioningTimes_ = partitioningTimes := by
        rw [(run_controllers_times st1 st2 controllersStock hc).1]
        exact run_partitions_times st st1 partitioningTimes hp
      apply run_truncate_outside
      rw [ht]
      exact h

theorem rolloutTrajectory_outside {n m : Nat} (E : TimeTriggeredModel α n m)
    (initActivePartition_ finalActivePartition_ : Nat) (blockwiseMovingHorizon_ : Bool)
    (initTime : α) (initState : Fin n → α) (finalTime : α)
    (partitioningTimes : List α) (controllersStock : List (Controller α n m))
    (h : (∃ e, findActivePartitionIndex E partitioningTimes initTime true = .error e) ∨
        (∃ e, findActivePartitionIndex E partitioningTimes finalTime true = .error e)) :
    ∃ e, rolloutTrajectory E initActivePartition_ finalActivePartition_
      blockwiseMovingHorizon_ initTime initState finalTime partitioningTimes controllersStock
      = .error e := by
  unfold rolloutTrajectory
  generalize sizeMinusOne partitioningTimes.length = N
  simp only
  split
  · exact ⟨_, rfl⟩
  · rcases h with h | h
    · exact bind_error_left _ _ h
    · apply bind_error_right
      intro ia
      exact bind_error_left _ _ h

/-- C20: `findActivePartitionIndex` throws exactly when the interval lookup returns a
negative index or the index `partitioningTimes.size() - 1`; otherwise it returns the index
of the lookup, which lies in `[0, size() - 1)` when the lookup never returns more than
`size() - 1`. Hence `rolloutTrajectory` and the beginning of `run`, with or without an
initial controller, throw whenever the lookup places the initial or the final time outside
the schedule. The index of the lookup is an `int` and the size of the schedule a
`size_t`. -/
theorem findActivePartitionIndex_throws_iff {n m : Nat} (R : RunModel α n m)
    (partitioningTimes : List α) (time : α) (ceilingFunction : Bool)
    (hlen : partitioningTimes.length < 2 ^ 64)
    (hint : -2 ^ 31 ≤ findActivePartitionIndex_lookup R.toTimeTriggeredModel partitioningTimes
        time ceilingFunction
      ∧ findActivePartitionIndex_lookup R.toTimeTriggeredModel partitioningTimes time
        ceilingFunction < 2 ^ 31)
    (hrange : findActivePartitionIndex_lookup R.toTimeTriggeredModel partitioningTimes time
      ceilingFunction ≤ (partitioningTimes.length : Int) - 1) :
    ((∃ e, findActivePartitionIndex R.toTimeTriggeredModel partitioningTimes time
        ceilingFunction = .error e) ↔
      (findActivePartitionIndex_lookup R.toTimeTriggeredModel partitioningTimes time
          ceilingFunction < 0 ∨
        findActivePartitionIndex_lookup R.toTimeTriggeredModel partitioningTimes time
          ceilingFunction = (partitioningTimes.length : Int) - 1)) ∧
    (¬ (findActivePartitionIndex_lookup R.toTimeTriggeredModel partitioningTimes time
          ceilingFunction < 0 ∨
        findActivePartitionIndex_lookup R.toTimeTriggeredModel partitioningTimes time
          ceilingFunction = (partitioningTimes.length : Int) - 1) →
      ∃ i, findActivePartitionIndex R.toTimeTriggeredModel partitioningTimes time
          ceilingFunction = .ok i ∧
        (i : Int) = findActivePartitionIndex_lookup R.toTimeTriggeredModel partitioningTimes
          time ceilingFunction ∧
        i + 1 < partitioningTimes.length) ∧
    (ceilingFunction = true →
      (findActivePartitionIndex_lookup R.toTimeTriggeredModel partitioningTimes time
          ceilingFunction < 0 ∨
        findActivePartitionIndex_lookup R.toTimeTriggeredModel partitioningTimes time
          ceilingFunction = (partitioningTimes.length : Int) - 1) →
      ∀ (initActivePartition_ finalActivePartition_ : Nat) (blockwiseMovingHorizon_ : Bool)
        (other : α) (initState : Fin n → α) (controllersStock : List (Controller α n m))
        (st : SolverState α n m),
        (∃ e, rolloutTrajectory R.toTimeTriggeredModel initActivePartition_
          finalActivePartition_ blockwiseMovingHorizon_ time initState other
          partitioningTimes controllersStock = .error e) ∧
        (∃ e, rolloutTrajectory R.toTimeTriggeredModel initActivePartition_
          finalActivePartition_ blockwiseMovingHorizon_ other initState time
          partitioningTimes controllersStock = .error e) ∧
        (∃ e, run_setup R st time other partitioningTimes controllersStock = .error e) ∧
        (∃ e, run_setup R st other time partitioningTimes controllersStock = .error e) ∧
        (∃ e, run_withoutController_setup R st time other partitioningTimes = .error e) ∧
        (∃ e, run_withoutController_setup R st other time partitioningTimes = .error e)) := by
  have hiff := findActivePartitionIndex_outside R.toTimeTriggeredModel partitioningTimes time
    ceilingFunction hlen hint
  refine ⟨hiff, ?_, ?_⟩
  · intro hin
    rw [findActivePartitionIndex_eq]
    generalize findActivePartitionIndex_lookup R.toTimeTriggeredModel partitioningTimes time
      ceilingFunction = idx at hint hrange hin ⊢
    have hneg : ¬ idx < 0 := fun h => hin (Or.inl h)
    have hlast : ¬ idx = (partitioningTimes.length : Int) - 1 := fun h => hin (Or.inr h)
    have h0 : 0 ≤ idx := by omega
    have hne : ¬ toSize idx = sizeMinusOne partitioningTimes.length := fun h =>
      hlast ((toSize_eq_sizeMinusOne idx partitioningTimes.length hlen h0 hint.2).mp h)
    rw [if_neg hneg, if_neg hne]
    have hcast := toSize_of_nonneg idx h0 hint.2
    refine ⟨_, rfl, hcast, ?_⟩
    omega
  · intro hc hout initActivePartition_ finalActivePartition_ blockwiseMovingHorizon_ other
      initState controllersStock st
    have hthrow := hiff.mpr hout
    rw [hc] at hthrow
    refine ⟨?_, ?_, ?_, ?_, ?_, ?_⟩
    · exact rolloutTrajectory_outside _ _ _ _ _ _ _ _ _ (Or.inl hthrow)
    · exact rolloutTrajectory_outside _ _ _ _ _ _ _ _ _ (Or.inr hthrow)
    · exact run_setup_outside _ _ _ _ _ _ (Or.inl hthrow)
    · exact run_setup_outside _ _ _ _ _ _ (Or.inr hthrow)
    · exact bind_error_right _ _ fun cs => run_setup_outside _ _ _ _ _ _ (Or.inl hthrow)
    · exact bind_error_right _ _ fun cs => run_setup_outside _ _ _ _ _ _ (Or.inr hthrow)

theorem holdRun_lookup_after :
    findActivePartitionIndex_lookup holdRun.toTimeTriggeredModel [0, 1, 2] 3 true = 2 := by
  have h0 : ¬ ((3 : ℚ) < 0) := by norm_num
  have h2 : decide ((2 : ℚ) < 3) = true := by norm_num
  simp [findActivePartitionIndex_lookup, holdRun, holdModel, List.filter, h0, h2]

theorem holdRun_lookup_inside :
    findActivePartitionIndex_lookup holdRun.toTimeTriggeredModel [0, 1, 2] (1 / 2) true = 0 := by
  simp [findActivePartitionIndex_lookup, holdRun, holdModel, List.filter]
  norm_num

theorem findActivePartitionIndex_throws_iff_witness :
    (∃ e, findActivePartitionIndex holdRun.toTimeTriggeredModel [0, 1, 2] 3 true = .error e) ∧
    (∃ e, run_setup holdRun warmState 0 3 [0, 1, 2] [] = .error e) ∧
    (∃ i, findActivePartitionIndex holdRun.toTimeTriggeredModel [0, 1, 2] (1 / 2) true = .ok i ∧
      i + 1 < 3) := by
  have hafter := findActivePartitionIndex_throws_iff holdRun [0, 1, 2] 3 true (by simp)
    (by rw [holdRun_lookup_after]; norm_num) (by rw [holdRun_lookup_after]; norm_num)
  have hinside := findActivePartitionIndex_throws_iff holdRun [0, 1, 2] (1 / 2) true (by simp)
    (by rw [holdRun_lookup_inside]; norm_num) (by rw [holdRun_lookup_inside]; norm_num)
  have hout : findActivePartitionIndex_lookup holdRun.toTimeTriggeredModel [0, 1, 2] 3 true < 0 ∨
      findActivePartitionIndex_lookup holdRun.toTimeTriggeredModel [0, 1, 2] 3 true
        = (([0, 1, 2] : List ℚ).length : Int) - 1 := by
    right; rw [holdRun_lookup_after]; norm_num
  refine ⟨hafter.1.mpr hout, ?_, ?_⟩
  · exact (hafter.2.2 rfl hout 0 0 false 0 (fun _ => 0) [] warmState).2.2.2.1
  · obtain ⟨i, h1, -, h3⟩ := hinside.2.1 (by rw [holdRun_lookup_inside]; norm_num)
    exact ⟨i, h1, h3⟩

/-! ## `run` without an initial controller -/

theorem sizeMinusOne_three : sizeMinusOne 3 = 2 := by
  unfold sizeMinusOne
  norm_num

theorem holdRun_lookup_begin :
    findActivePartitionIndex_lookup holdRun.toTimeTriggeredModel [0, 1, 2] 0 true = 0 := by
  have h1 : decide ((1 : ℚ) < 0) = false := by norm_num
  have h2 : decide ((2 : ℚ) < 0) = false := by norm_num
  simp [findActivePartitionIndex_lookup, holdRun, holdModel, List.filter, h1, h2]

theorem holdRun_lookup_end :
    findActivePartitionIndex_lookup holdRun.toTimeTriggeredModel [0, 1, 2] 2 true = 1 := by
  have h0 : ¬ ((2 : ℚ) < 0) := by norm_num
  have h1 : decide ((1 : ℚ) < 2) = true := by norm_num
  simp [findActivePartitionIndex_lookup, holdRun, holdModel, List.filter, h0, h1]

theorem holdRun_index_begin :
    findActivePartitionIndex holdRun.toTimeTriggeredModel [0, 1, 2] 0 true = .ok 0 := by
  rw [findActivePartitionIndex_eq, holdRun_lookup_begin]
  simp [sizeMinusOne_three, toSize]

theorem holdRun_index_end :
    findActivePartitionIndex holdRun.toTimeTriggeredModel [0, 1, 2] 2 true = .ok 1 := by
  rw [findActivePartitionIndex_eq, holdRun_lookup_end]
  simp [sizeMinusOne_three, toSize]

/-- C19: a solver that holds one controller per partition loses them when `run` is called
without an initial controller. Whatever the two internal controllers are, the controllers
selected for the schedule `[0, 1, 2]` are the two empty ones of `noInitialController`; for
the warm-started solver `warmState` the first rollout is therefore prepared with two empty
controllers although the first internal controller had three samples. -/
theorem run_withoutController_discards_internal (c1 c2 : Controller ℚ 1 1) :
    (∃ st, run_withoutController_selected
        { warmState with nominalControllersStock_ := [c1, c2] } [0, 1, 2] = .ok st ∧
      st.nominalControllersStock_ = [Controller.clear, Controller.clear]) ∧
    (∃ c, warmState.nominalControllersStock_[0]? = some c ∧ c.empty = false) ∧
    (∃ st, run_withoutController_setup holdRun warmState 0 2 [0, 1, 2] = .ok st ∧
      st.nominalControllersStock_ = [Controller.clear, Controller.clear]) := by
  refine ⟨⟨_, rfl, rfl⟩, ⟨_, rfl, rfl⟩, ?_⟩
  have hsel : run_partitions warmState [0, 1, 2] = .ok warmState := rfl
  have hcon : run_controllers warmState [Controller.clear, Controller.clear] =
      .ok { warmState with
            nominalControllersStock_ := [Controller.clear, Controller.clear] } := rfl
  have hlog : holdRun.updateLogicRules [0, 1, 2] [Controller.clear, Controller.clear] =
      [Controller.clear, Controller.clear] := rfl
  have htr : truncateConterller holdRun 2 [0, 1, 2] 0 [Controller.clear, Controller.clear] =
      .ok ⟨[Controller.clear, Controller.clear], 0, [Controller.clear, Controller.clear]⟩ := by
    unfold truncateConterller
    rw [holdRun_index_begin]
    rfl
  have hsetup : run_withoutController_setup holdRun warmState 0 2 [0, 1, 2] =
      .ok { warmState with
            nominalControllersStock_ := [Controller.clear, Controller.clear],
            deletedcontrollersStock_ := [Controller.clear, Controller.clear] } := by
    unfold run_withoutController_setup noInitialController run_setup
    simp only [List.length_cons, List.length_nil, sizeMinusOne_three, hsel, Except.bind]
    simp only [List.replicate, hcon]
    unfold run_truncate
    simp only [warmState, hlog, htr, holdRun_index_end, Except.bind]
    rfl
  exact ⟨_, hsetup, rfl⟩

/-! ## `truncateConterller` and `runExit` -/

/-- The loop `for (i = i0; i < i0 + count; i++) a[i].swap(b[i])` exchanges the entries
`i0 .. i0 + count - 1` of the two vectors and leaves the others. -/
theorem swapStocks_loop {β : Type} (count : Nat) :
    ∀ (i : Nat) (a b : List β), i + count ≤ a.length → i + count ≤ b.length →
      ∃ a1 b1, forRange swapStocks count i (a, b) = .ok (a1, b1) ∧
        a1.length = a.length ∧ b1.length = b.length ∧
        (∀ j, i ≤ j → j < i + count → a1[j]? = b[j]? ∧ b1[j]? = a[j]?) ∧
        (∀ j, (j < i ∨ i + count ≤ j) → a1[j]? = a[j]? ∧ b1[j]? = b[j]?) := by
  induction count with
  | zero =>
    intro i a b _ _
    exact ⟨a, b, rfl, rfl, rfl, fun j h1 h2 => by omega, fun j _ => ⟨rfl, rfl⟩⟩
  | succ count ih =>
    intro i a b ha hb
    have hia : i < a.length := by omega
    have hib : i < b.length := by omega
    have hstep : swapStocks i (a, b) = .ok (a.set i b[i], b.set i a[i]) := by
      simp only [swapStocks, List.getElem?_eq_getElem hia, List.getElem?_eq_getElem hib]
    obtain ⟨a1, b1, hloop, hla, hlb, hin, hout⟩ := ih (i + 1) (a.set i b[i]) (b.set i a[i])
      (by rw [List.length_set]; omega) (by rw [List.length_set]; omega)
    refine ⟨a1, b1, ?_, ?_, ?_, ?_, ?_⟩
    · show (swapStocks i (a, b)).bind (forRange swapStocks count (i + 1)) = _
      rw [hstep]
      exact hloop
    · rw [hla, List.length_set]
    · rw [hlb, List.length_set]
    · intro j h1 h2
      by_cases hj : j = i
      · subst hj
        obtain ⟨q1, q2⟩ := hout j (Or.inl (Nat.lt_succ_self j))
        rw [q1, q2]
        simp [hia, hib]
      · obtain ⟨q1, q2⟩ := hin j (by omega) (by omega)
        rw [q1, q2, List.getElem?_set_ne (Ne.symm hj), List.getElem?_set_ne (Ne.symm hj)]
        exact ⟨rfl, rfl⟩
    · intro j hj
      have hne : i ≠ j := by omega
      obtain ⟨q1, q2⟩ := hout j (by omega)
      rw [q1, q2, List.getElem?_set_ne hne, List.getElem?_set_ne hne]
      exact ⟨rfl, rfl⟩

theorem indexAt_of_getElem? {β : Type} (v : List β) (i : Nat) (b : β) (h : v[i]? = some b) :
    indexAt v i = .ok b := by
  unfold indexAt
  rw [h]

/-- Erasing the first `j` entries and overwriting the new first entry. -/
theorem drop_set_zero {β : Type} (l : List β) (j : Nat) (x : β) (h : j < l.length) :
    (l.drop j).set 0 x = x :: l.drop (j + 1) := by
  rw [List.drop_eq_getElem_cons h]
  rfl

theorem getElem?_replicate_lt {β : Type} (k i : Nat) (d : β) (h : i < k) :
    (List.replicate k d)[i]? = some d := by
  rw [List.getElem?_eq_getElem (by rw [List.length_replicate]; exact h)]
  simp

theorem bind_ok {ε β γ : Type} (b : β) (f : β → Except ε γ) :
    (Except.ok b : Except ε β).bind f = f b := rfl

theorem lt_length_of_getElem? {β : Type} (v : List β) (i : Nat) (b : β) (h : v[i]? = some b) :
    i < v.length := by
  by_contra hn
  rw [List.getElem?_eq_none (by omega)] at h
  cases h

theorem getElem?_set_self_of_lt {β : Type} (v : List β) (i : Nat) (b : β) (h : i < v.length) :
    (v.set i b)[i]? = some b := by
  simp [h]

/-- What `truncateConterller` returns when `initTime` lies in partition `p`. -/
theorem truncateConterller_result {n m : Nat} (R : RunModel α n m) (numPartitions_ : Nat)
    (partitioningTimes : List α) (initTime : α) (controllersStock : List (Controller α n m))
    (p : Nat) (c : Controller α n m)
    (hp : findActivePartitionIndex R.toTimeTriggeredModel partitioningTimes initTime true
      = .ok p)
    (hnum : p < numPartitions_)
    (hc : controllersStock[p]? = some c)
    (hj : c.time_ ≠ [] →
      (R.interpolateInput c.time_ c.uff_ initTime).2 < c.time_.length ∧
      (R.interpolateInput c.time_ c.uff_ initTime).2 < c.uff_.length ∧
      (R.interpolateInput c.time_ c.uff_ initTime).2 < c.k_.length) :
    ∃ t, truncateConterller R numPartitions_ partitioningTimes initTime controllersStock
        = .ok t ∧
      t.initActivePartition = p ∧
      t.deletedcontrollersStock.length = numPartitions_ ∧
      (∀ i, i < p → t.deletedcontrollersStock[i]? = controllersStock[i]? ∧
        t.controllersStock[i]? = some Controller.clear) ∧
      (∀ i, p < i → t.controllersStock[i]? = controllersStock[i]?) ∧
      (c.time_ = [] → t.controllersStock[p]? = some c ∧
        t.deletedcontrollersStock[p]? = some Controller.clear) ∧
      (c.time_ ≠ [] →
        t.controllersStock[p]? = some
          { time_ := initTime ::
              c.time_.drop ((R.interpolateInput c.time_ c.uff_ initTime).2 + 1),
            uff_ := (R.interpolateInput c.time_ c.uff_ initTime).1 ::
              c.uff_.drop ((R.interpolateInput c.time_ c.uff_ initTime).2 + 1),
            k_ := R.interpolateGain c.time_ c.k_ initTime
                (R.interpolateInput c.time_ c.uff_ initTime).2 ::
              c.k_.drop ((R.interpolateInput c.time_ c.uff_ initTime).2 + 1),
            deltaUff_ := c.deltaUff_ } ∧
        (0 < (R.interpolateInput c.time_ c.uff_ initTime).2 →
          t.deletedcontrollersStock[p]? = some
            { time_ := c.time_.take ((R.interpolateInput c.time_ c.uff_ initTime).2 + 1),
              uff_ := c.uff_.take ((R.interpolateInput c.time_ c.uff_ initTime).2 + 1),
              k_ := c.k_.take ((R.interpolateInput c.time_ c.uff_ initTime).2 + 1),
              deltaUff_ := [] }) ∧
        ((R.interpolateInput c.time_ c.uff_ initTime).2 = 0 →
          t.deletedcontrollersStock[p]? = some Controller.clear)) := by
  have hlt : p < controllersStock.length := lt_length_of_getElem? _ _ _ hc
  obtain ⟨a1, b1, hloop, hla, hlb, hin0, hout⟩ := swapStocks_loop p 0
    (List.replicate numPartitions_ (Controller.clear : Controller α n m)) controllersStock
    (by rw [List.length_replicate]; omega) (by omega)
  have hin : ∀ j, j < p → a1[j]? = controllersStock[j]? ∧ b1[j]? = some Controller.clear := by
    intro j hjp
    obtain ⟨q1, q2⟩ := hin0 j (Nat.zero_le j) (by omega)
    rw [q1, q2]
    exact ⟨rfl, getElem?_replicate_lt _ _ _ (by omega)⟩
  rw [List.length_replicate] at hla
  have hbp : b1[p]? = some c := by rw [(hout p (Or.inr (by omega))).2]; exact hc
  have hap : a1[p]? = some Controller.clear := by
    rw [(hout p (Or.inr (by omega))).1]
    exact getElem?_replicate_lt _ _ _ hnum
  unfold truncateConterller
  simp only []
  rw [hp, bind_ok, hloop, bind_ok, indexAt_of_getElem? _ _ _ hbp, bind_ok]
  by_cases hempty : c.time_ = []
  · have he : c.time_.isEmpty = true := by rw [hempty]; rfl
    rw [if_pos he]
    refine ⟨_, rfl, rfl, hla, fun i hi => hin i hi, fun i hi => ?_, fun _ => ⟨hbp, hap⟩,
      fun h => absurd hempty h⟩
    rw [(hout i (Or.inr (by omega))).2]
  · have he : ¬ c.time_.isEmpty = true := by
      intro h
      exact hempty (List.isEmpty_iff.mp h)
    rw [if_neg he]
    obtain ⟨j1, j2, j3⟩ := hj hempty
    generalize (R.interpolateInput c.time_ c.uff_ initTime).2 = j at j1 j2 j3 ⊢
    generalize (R.interpolateInput c.time_ c.uff_ initTime).1 = uffInit
    generalize R.interpolateGain c.time_ c.k_ initTime j = kInit
    by_cases hpos : j > 0
    · rw [if_pos hpos, indexAt_of_getElem? _ _ _ hap, bind_ok]
      unfold truncateConterller_erase
      rw [if_pos ⟨j1, j2, j3⟩, bind_ok, bind_ok]
      unfold truncateConterller_first
      rw [if_pos ⟨by simp only [List.length_drop]; omega, by simp only [List.length_drop]; omega,
        by simp only [List.length_drop]; omega⟩, bind_ok]
      simp only [drop_set_zero _ _ _ j1, drop_set_zero _ _ _ j2, drop_set_zero _ _ _ j3]
      refine ⟨_, rfl, rfl, ?_, fun i hi => ?_, fun i hi => ?_, fun h => absurd h hempty,
        fun _ => ⟨?_, fun _ => ?_, fun h0 => by omega⟩⟩
      · simp only [List.length_set]
        exact hla
      · simp only []
        rw [List.getElem?_set_ne (by omega), List.getElem?_set_ne (by omega)]
        exact hin i hi
      · simp only []
        rw [List.getElem?_set_ne (by omega), (hout i (Or.inr (by omega))).2]
      · exact getElem?_set_self_of_lt _ _ _ (by omega)
      · simp only []
        rw [getElem?_set_self_of_lt _ _ _ (by omega)]
        rfl
    · have hj0 : j = 0 := by omega
      subst hj0
      rw [if_neg hpos, bind_ok]
      unfold truncateConterller_first
      rw [if_pos ⟨j1, j2, j3⟩, bind_ok]
      have d1 := drop_set_zero c.time_ 0 initTime j1
      have d2 := drop_set_zero c.uff_ 0 uffInit j2
      have d3 := drop_set_zero c.k_ 0 kInit j3
      rw [List.drop_zero] at d1 d2 d3
      simp only [d1, d2, d3]
      refine ⟨_, rfl, rfl, hla, fun i hi => ?_, fun i hi => ?_, fun h => absurd h hempty,
        fun _ => ⟨?_, fun h => absurd h (Nat.lt_irrefl 0), fun _ => hap⟩⟩
      · simp only []
        rw [List.getElem?_set_ne (by omega)]
        exact hin i hi
      · simp only []
        rw [List.getElem?_set_ne (by omega), (hout i (Or.inr (by omega))).2]
      · exact getElem?_set_self_of_lt _ _ _ (by omega)

/-- C17: when `initTime` lies in partition `p` of the schedule, `truncateConterller`
returns with `initActivePartition = p`; every controller before `p` is moved unchanged into
the deleted stock and its place is left empty; the controllers after `p` are unchanged; an
empty controller of partition `p` is left as it is; a non-empty one loses its first `j` time
stamps, inputs and gains, where `j` is the index reported by the interpolation, and starts
with `initTime` and the interpolated input and gain, followed by the original samples
`j + 1, j + 2, ...`, while its increments `deltaUff_` are not touched; for `j > 0` the
samples `0 .. j` are stored in the deleted stock of partition `p`. -/
theorem truncateConterller_spec {n m : Nat} (R : RunModel α n m) (numPartitions_ : Nat)
    (partitioningTimes : List α) (initTime : α) (controllersStock : List (Controller α n m))
    (p : Nat) (c : Controller α n m)
    (hp : findActivePartitionIndex R.toTimeTriggeredModel partitioningTimes initTime true
      = .ok p)
    (hnum : p < numPartitions_)
    (hc : controllersStock[p]? = some c)
    (hj : c.time_ ≠ [] →
      (R.interpolateInput c.time_ c.uff_ initTime).2 < c.time_.length ∧
      (R.interpolateInput c.time_ c.uff_ initTime).2 < c.uff_.length ∧
      (R.interpolateInput c.time_ c.uff_ initTime).2 < c.k_.length) :
    ∃ t, truncateConterller R numPartitions_ partitioningTimes initTime controllersStock
        = .ok t ∧
      t.initActivePartition = p ∧
      (∀ i, i < p → t.deletedcontrollersStock[i]? = controllersStock[i]? ∧
        t.controllersStock[i]? = some Controller.clear) ∧
      (∀ i, p < i → t.controllersStock[i]? = controllersStock[i]?) ∧
      (c.time_ = [] → t.controllersStock[p]? = some c) ∧
      (c.time_ ≠ [] →
        t.controllersStock[p]? = some
          { time_ := initTime ::
              c.time_.drop ((R.interpolateInput c.time_ c.uff_ initTime).2 + 1),
            uff_ := (R.interpolateInput c.time_ c.uff_ initTime).1 ::
              c.uff_.drop ((R.interpolateInput c.time_ c.uff_ initTime).2 + 1),
            k_ := R.interpolateGain c.time_ c.k_ initTime
                (R.interpolateInput c.time_ c.uff_ initTime).2 ::
              c.k_.drop ((R.interpolateInput c.time_ c.uff_ initTime).2 + 1),
            deltaUff_ := c.deltaUff_ } ∧
        (0 < (R.interpolateInput c.time_ c.uff_ initTime).2 →
          t.deletedcontrollersStock[p]? = some
            { time_ := c.time_.take ((R.interpolateInput c.time_ c.uff_ initTime).2 + 1),
              uff_ := c.uff_.take ((R.interpolateInput c.time_ c.uff_ initTime).2 + 1),
              k_ := c.k_.take ((R.interpolateInput c.time_ c.uff_ initTime).2 + 1),
              deltaUff_ := [] })) := by
  obtain ⟨t, h1, h2, -, h3, h4, h5, h6⟩ := truncateConterller_result R numPartitions_
    partitioningTimes initTime controllersStock p c hp hnum hc hj
  exact ⟨t, h1, h2, h3, h4, fun h => (h5 h).1, fun h => ⟨(h6 h).1, (h6 h).2.1⟩⟩

theorem holdRun_lookup_late :
    findActivePartitionIndex_lookup holdRun.toTimeTriggeredModel [0, 1, 2] (7 / 4) true
      = 1 := by
  have h0 : ¬ ((7 / 4 : ℚ) < 0) := by norm_num
  have h1 : decide ((0 : ℚ) < 7 / 4) = true := by norm_num
  have h2 : decide ((1 : ℚ) < 7 / 4) = true := by norm_num
  have h3 : decide ((2 : ℚ) < 7 / 4) = false := by norm_num
  simp [findActivePartitionIndex_lookup, holdRun, holdModel, List.filter, h0, h1, h2, h3]

theorem holdRun_index_late :
    findActivePartitionIndex holdRun.toTimeTriggeredModel [0, 1, 2] (7 / 4) true = .ok 1 := by
  rw [findActivePartitionIndex_eq, holdRun_lookup_late]
  simp [sizeMinusOne_three, toSize]

theorem holdRun_interpolate_late :
    (holdRun.interpolateInput lateController.time_ lateController.uff_ (7 / 4)).2 = 1 := by
  have h1 : decide ((1 : ℚ) ≤ 7 / 4) = true := by norm_num
  have h2 : decide ((3 / 2 : ℚ) ≤ 7 / 4) = true := by norm_num
  have h3 : decide ((2 : ℚ) ≤ 7 / 4) = false := by norm_num
  simp [holdRun, lateController, List.filter, h1, h2, h3]

theorem truncateConterller_spec_witness :
    ∃ t, truncateConterller holdRun 2 [0, 1, 2] (7 / 4) [earlyController, lateController]
        = .ok t ∧
      t.initActivePartition = 1 ∧
      t.deletedcontrollersStock[0]? = some earlyController ∧
      t.controllersStock[0]? = some Controller.clear ∧
      (∃ c1, t.controllersStock[1]? = some c1 ∧ c1.time_ = [7 / 4, 2]) ∧
      (∃ d1, t.deletedcontrollersStock[1]? = some d1 ∧ d1.time_ = [1, 3 / 2]) := by
  obtain ⟨t, h1, h2, h3, -, -, h6⟩ := truncateConterller_spec holdRun 2 [0, 1, 2] (7 / 4)
    [earlyController, lateController] 1 lateController holdRun_index_late (by norm_num) rfl
    (fun _ => by
      rw [holdRun_interpolate_late]
      exact ⟨by decide, by decide, by decide⟩)
  have hne : lateController.time_ ≠ [] := by simp [lateController]
  obtain ⟨q1, q2⟩ := h6 hne
  rw [holdRun_interpolate_late] at q1 q2
  refine ⟨t, h1, h2, (h3 0 (by norm_num)).1, (h3 0 (by norm_num)).2, ⟨_, q1, ?_⟩,
    ⟨_, q2 (by norm_num), ?_⟩⟩
  · simp [lateController]
  · simp [lateController]

/-- What `runExit` returns after a truncation at `initTime` in partition `p`: the partitions
before `p` get back what the truncation removed, the partitions after `p` keep the
optimised controller, and partition `p` holds the removed samples followed by the optimised
ones in `time_`, `uff_` and `k_`, while its `deltaUff_` is the empty one of the removed
part. -/
theorem runExit_result {n m : Nat} (R : RunModel α n m) (numPartitions_ : Nat)
    (partitioningTimes : List α) (initTime : α) (controllersStock : List (Controller α n m))
    (p : Nat) (c : Controller α n m)
    (hp : findActivePartitionIndex R.toTimeTriggeredModel partitioningTimes initTime true
      = .ok p)
    (hnum : p < numPartitions_)
    (hc : controllersStock[p]? = some c)
    (hj : c.time_ ≠ [] →
      (R.interpolateInput c.time_ c.uff_ initTime).2 < c.time_.length ∧
      (R.interpolateInput c.time_ c.uff_ initTime).2 < c.uff_.length ∧
      (R.interpolateInput c.time_ c.uff_ initTime).2 < c.k_.length) :
    ∃ t, truncateConterller R numPartitions_ partitioningTimes initTime controllersStock
        = .ok t ∧
      ∀ (optimized : List (Controller α n m)) (o : Controller α n m),
        optimized[p]? = some o → o.uff_.length = o.time_.length →
        o.k_.length = o.time_.length →
        ∃ r, runExit t.initActivePartition optimized t.deletedcontrollersStock = .ok r ∧
          (∀ i, i < p → r.1[i]? = controllersStock[i]?) ∧
          (c.time_ ≠ [] → 0 < (R.interpolateInput c.time_ c.uff_ initTime).2 →
            ∃ f, r.1[p]? = some f ∧
              f.time_ = c.time_.take ((R.interpolateInput c.time_ c.uff_ initTime).2 + 1)
                ++ o.time_ ∧
              f.uff_ = c.uff_.take ((R.interpolateInput c.time_ c.uff_ initTime).2 + 1)
                ++ o.uff_ ∧
              f.k_ = c.k_.take ((R.interpolateInput c.time_ c.uff_ initTime).2 + 1)
                ++ o.k_ ∧
              f.deltaUff_ = []) ∧
          ((c.time_ = [] ∨ (R.interpolateInput c.time_ c.uff_ initTime).2 = 0) →
            r.1[p]? = some o) ∧
          (∀ i, p < i → r.1[i]? = optimized[i]?) := by
  obtain ⟨t, h1, h2, hlen, h3, -, h5, h6⟩ := truncateConterller_result R numPartitions_
    partitioningTimes initTime controllersStock p c hp hnum hc hj
  refine ⟨t, h1, ?_⟩
  intro optimized o ho hu hk
  have hlt : p < optimized.length := lt_length_of_getElem? _ _ _ ho
  obtain ⟨a1, b1, hloop, hla, hlb, hin, hout⟩ := swapStocks_loop p 0 optimized
    t.deletedcontrollersStock (by omega) (by omega)
  have hap : a1[p]? = some o := by rw [(hout p (Or.inr (by omega))).1]; exact ho
  have hbp : b1[p]? = t.deletedcontrollersStock[p]? := (hout p (Or.inr (by omega))).2
  have hbefore : ∀ i, i < p → a1[i]? = controllersStock[i]? := by
    intro i hi
    rw [(hin i (Nat.zero_le i) (by omega)).1]
    exact (h3 i hi).1
  unfold runExit
  rw [h2, hloop, bind_ok]
  by_cases hremoved : c.time_ ≠ [] ∧ 0 < (R.interpolateInput c.time_ c.uff_ initTime).2
  · obtain ⟨hne, hpos⟩ := hremoved
    obtain ⟨j1, j2, j3⟩ := hj hne
    have hd := (h6 hne).2.1 hpos
    generalize (R.interpolateInput c.time_ c.uff_ initTime).2 = j at j1 j2 j3 hpos hd ⊢
    rw [← hbp] at hd
    rw [indexAt_of_getElem? _ _ _ hd, bind_ok]
    have hnonempty : ¬ (c.time_.take (j + 1)).isEmpty = true := by
      intro h
      have h0 := congrArg List.length (List.isEmpty_iff.mp h)
      rw [List.length_take] at h0
      simp only [List.length_nil] at h0
      omega
    have hfalse : (c.time_.take (j + 1)).isEmpty = false := by
      cases hx : (c.time_.take (j + 1)).isEmpty with
      | true => exact absurd hx hnonempty
      | false => rfl
    rw [if_pos hfalse, indexAt_of_getElem? _ _ _ hap, bind_ok]
    unfold runExit_append
    rw [if_pos ⟨by omega, by omega⟩, bind_ok]
    have hset : ((a1, b1).1.set p
        ({ ({ time_ := c.time_.take (j + 1), uff_ := c.uff_.take (j + 1),
              k_ := c.k_.take (j + 1), deltaUff_ := [] } : Controller α n m) with
            time_ := c.time_.take (j + 1) ++ o.time_,
            uff_ := c.uff_.take (j + 1) ++ o.uff_.take o.time_.length,
            k_ := c.k_.take (j + 1) ++ o.k_.take o.time_.length } : Controller α n m))[p]?
        = some { time_ := c.time_.take (j + 1) ++ o.time_,
                 uff_ := c.uff_.take (j + 1) ++ o.uff_,
                 k_ := c.k_.take (j + 1) ++ o.k_,
                 deltaUff_ := [] } := by
      rw [getElem?_set_self_of_lt _ _ _ (by show p < a1.length; omega)]
      have e1 : o.uff_.take o.time_.length = o.uff_ := by rw [← hu, List.take_length]
      have e2 : o.k_.take o.time_.length = o.k_ := by rw [← hk, List.take_length]
      rw [e1, e2]
    refine ⟨_, rfl, fun i hi => ?_, fun _ _ => ⟨_, hset, rfl, rfl, rfl, rfl⟩, fun h => ?_,
      fun i hi => ?_⟩
    · simp only []
      rw [List.getElem?_set_ne (by omega)]
      exact hbefore i hi
    · rcases h with h | h
      · exact absurd h hne
      · omega
    · simp only []
      rw [List.getElem?_set_ne (by omega)]
      exact (hout i (Or.inr (by omega))).1
  · have hd : t.deletedcontrollersStock[p]? = some Controller.clear := by
      by_cases hne : c.time_ = []
      · exact (h5 hne).2
      · have h0 : (R.interpolateInput c.time_ c.uff_ initTime).2 = 0 := by
          by_contra hx
          exact hremoved ⟨hne, Nat.pos_of_ne_zero hx⟩
        exact (h6 hne).2.2 h0
    rw [← hbp] at hd
    rw [indexAt_of_getElem? _ _ _ hd, bind_ok]
    have hfalse : ¬ (Controller.clear : Controller α n m).time_.isEmpty = false := by
      simp [Controller.clear]
    rw [if_neg hfalse]
    refine ⟨_, rfl, fun i hi => hbefore i hi, fun hne hpos => absurd ⟨hne, hpos⟩ hremoved,
      fun _ => hap, fun i hi => (hout i (Or.inr (by omega))).1⟩

/-- C18: after a truncation at `initTime` in partition `p`, `runExit` applied to any
optimised controllers stock (with a controller for partition `p` whose inputs and gains are
as many as its time stamps) returns; every partition before `p` gets back the controller
that the truncation removed from it; when a non-empty prefix (the samples `0 .. j`, `j > 0`)
was removed from partition `p`, the final time stamps, inputs and gains of that partition
are the removed prefix followed by those of the optimised controller; when nothing was
removed, the optimised controller of partition `p` is kept. -/
theorem runExit_restores {n m : Nat} (R : RunModel α n m) (numPartitions_ : Nat)
    (partitioningTimes : List α) (initTime : α) (controllersStock : List (Controller α n m))
    (p : Nat) (c : Controller α n m)
    (hp : findActivePartitionIndex R.toTimeTriggeredModel partitioningTimes initTime true
      = .ok p)
    (hnum : p < numPartitions_)
    (hc : controllersStock[p]? = some c)
    (hj : c.time_ ≠ [] →
      (R.interpolateInput c.time_ c.uff_ initTime).2 < c.time_.length ∧
      (R.interpolateInput c.time_ c.uff_ initTime).2 < c.uff_.length ∧
      (R.interpolateInput c.time_ c.uff_ initTime).2 < c.k_.length) :
    ∃ t, truncateConterller R numPartitions_ partitioningTimes initTime controllersStock
        = .ok t ∧
      ∀ (optimized : List (Controller α n m)) (o : Controller α n m),
        optimized[p]? = some o → o.uff_.length = o.time_.length →
        o.k_.length = o.time_.length →
        ∃ r, runExit t.initActivePartition optimized t.deletedcontrollersStock = .ok r ∧
          (∀ i, i < p → r.1[i]? = controllersStock[i]?) ∧
          (c.time_ ≠ [] → 0 < (R.interpolateInput c.time_ c.uff_ initTime).2 →
            ∃ f, r.1[p]? = some f ∧
              f.time_ = c.time_.take ((R.interpolateInput c.time_ c.uff_ initTime).2 + 1)
                ++ o.time_ ∧
              f.uff_ = c.uff_.take ((R.interpolateInput c.time_ c.uff_ initTime).2 + 1)
                ++ o.uff_ ∧
              f.k_ = c.k_.take ((R.interpolateInput c.time_ c.uff_ initTime).2 + 1)
                ++ o.k_) ∧
          ((c.time_ = [] ∨ (R.interpolateInput c.time_ c.uff_ initTime).2 = 0) →
            r.1[p]? = some o) := by
  obtain ⟨t, h1, h2⟩ := runExit_result R numPartitions_ partitioningTimes initTime
    controllersStock p c hp hnum hc hj
  refine ⟨t, h1, fun optimized o ho hu hk => ?_⟩
  obtain ⟨r, q1, q2, q3, q4, -⟩ := h2 optimized o ho hu hk
  refine ⟨r, q1, q2, fun hne hpos => ?_, q4⟩
  obtain ⟨f, f1, f2, f3, f4, -⟩ := q3 hne hpos
  exact ⟨f, f1, f2, f3, f4⟩

theorem runExit_restores_witness :
    ∃ t, truncateConterller holdRun 2 [0, 1, 2] (7 / 4) [earlyController, lateController]
        = .ok t ∧
      ∃ r, runExit t.initActivePartition [Controller.clear, optimizedController]
          t.deletedcontrollersStock = .ok r ∧
        r.1[0]? = some earlyController ∧
        ∃ f, r.1[1]? = some f ∧ f.time_ = [1, 3 / 2, 7 / 4, 2] := by
  obtain ⟨t, h1, h2⟩ := runExit_restores holdRun 2 [0, 1, 2] (7 / 4)
    [earlyController, lateController] 1 lateController holdRun_index_late (by norm_num) rfl
    (fun _ => by
      rw [holdRun_interpolate_late]
      exact ⟨by decide, by decide, by decide⟩)
  obtain ⟨r, q1, q2, q3, -⟩ := h2 [Controller.clear, optimizedController] optimizedController
    rfl rfl rfl
  have hne : lateController.time_ ≠ [] := by simp [lateController]
  obtain ⟨f, f1, f2, -, -⟩ := q3 hne (by rw [holdRun_interpolate_late]; norm_num)
  rw [holdRun_interpolate_late] at f2
  refine ⟨t, h1, r, q1, q2 0 (by norm_num), f, f1, ?_⟩
  rw [f2]
  simp [lateController, optimizedController]

/-! ## Loops with an invariant -/

/-- A loop whose body returns and keeps the invariant returns with the invariant. -/
theorem forRange_invariant {σ : Type} (body : Nat → σ → Except String σ)
    (P : Nat → σ → Prop) (count : Nat) :
    ∀ (i : Nat) (st : σ), P i st →
      (∀ j s, i ≤ j → j < i + count → P j s → ∃ s1, body j s = .ok s1 ∧ P (j + 1) s1) →
      ∃ s1, forRange body count i st = .ok s1 ∧ P (i + count) s1 := by
  induction count with
  | zero =>
    intro i st h0 _
    exact ⟨st, rfl, h0⟩
  | succ count ih =>
    intro i st h0 hstep
    obtain ⟨s1, hb, hP⟩ := hstep i st (Nat.le_refl i) (by omega) h0
    obtain ⟨s2, hl, hQ⟩ := ih (i + 1) s1 hP
      (fun j s hj1 hj2 hPj => hstep j s (by omega) (by omega) hPj)
    refine ⟨s2, ?_, ?_⟩
    · show (body i st).bind (forRange body count (i + 1)) = _
      rw [hb]
      exact hl
    · have he : i + (count + 1) = i + 1 + count := by omega
      rw [he]
      exact hQ

theorem bind_pure_ok {ε β : Type} (x : Except ε β) : x.bind Except.ok = x := by
  cases x <;> rfl

/-- The last pass of a loop can be split off. -/
theorem forRange_succ {σ : Type} (body : Nat → σ → Except String σ) (count : Nat) :
    ∀ (i : Nat) (st : σ),
      forRange body (count + 1) i st = (forRange body count i st).bind (body (i + count)) := by
  induction count with
  | zero =>
    intro i st
    show (body i st).bind (forRange body 0 (i + 1)) = body i st
    exact bind_pure_ok _
  | succ count ih =>
    intro i st
    show (body i st).bind (forRange body (count + 1) (i + 1)) =
      ((body i st).bind (forRange body count (i + 1))).bind (body (i + (count + 1)))
    cases body i st with
    | error e => rfl
    | ok s =>
      show forRange body (count + 1) (i + 1) s = _
      rw [ih (i + 1) s]
      have he : i + 1 + count = i + (count + 1) := by omega
      rw [he]
      rfl

theorem updateAt_ok {β : Type} (v : List β) (i : Nat) (y : β) (h : i < v.length) :
    updateAt v i (fun _ => .ok y) = .ok (v.set i y) := by
  unfold updateAt
  rw [List.getElem?_eq_getElem h]
  rfl

/-! ## The design flags of `run` and `calculateController` -/

theorem run_markDesign_spec {n m : Nat} (st : SolverState α n m)
    (hn : st.numPartitions_ ≤ st.nominalControllersStock_.length)
    (hf : st.numPartitions_ ≤ st.initialControllerDesignStock_.length) :
    ∃ fl, run_markDesign st = .ok { st with initialControllerDesignStock_ := fl } ∧
      fl.length = st.initialControllerDesignStock_.length ∧
      ∀ i c, i < st.numPartitions_ → st.nominalControllersStock_[i]? = some c →
        fl[i]? = some c.empty := by
  obtain ⟨s1, hrun, fl, rfl, hlen, hfl⟩ := forRange_invariant
    (fun i (s : SolverState α n m) =>
      (indexAt s.nominalControllersStock_ i).bind fun c =>
      (updateAt s.initialControllerDesignStock_ i fun _ =>
        .ok (if c.empty = true then true else false)).bind fun flags =>
      .ok { s with initialControllerDesignStock_ := flags })
    (fun j s => ∃ fl, s = { st with initialControllerDesignStock_ := fl } ∧
      fl.length = st.initialControllerDesignStock_.length ∧
      ∀ i c, i < j → st.nominalControllersStock_[i]? = some c → fl[i]? = some c.empty)
    st.numPartitions_ 0 st
    ⟨st.initialControllerDesignStock_, rfl, rfl, fun i c hi => absurd hi (Nat.not_lt_zero i)⟩
    (by
      rintro j s - hj ⟨fl, rfl, hlen, hfl⟩
      have hjn : j < st.nominalControllersStock_.length := by omega
      have hjf : j < fl.length := by omega
      obtain ⟨cj, hcj⟩ : ∃ cj, st.nominalControllersStock_[j]? = some cj :=
        ⟨_, List.getElem?_eq_getElem hjn⟩
      refine ⟨{ st with initialControllerDesignStock_ := fl.set j cj.empty }, ?_, _, rfl,
        ?_, ?_⟩
      · show (indexAt st.nominalControllersStock_ j).bind _ = _
        rw [indexAt_of_getElem? _ _ _ hcj, bind_ok, updateAt_ok _ _ _ hjf, bind_ok]
        cases cj.empty <;> rfl
      · rw [List.length_set]
        exact hlen
      · intro i c hi hc
        by_cases hij : i = j
        · subst hij
          rw [hcj] at hc
          rw [getElem?_set_self_of_lt _ _ _ hjf, Option.some.inj hc]
        · rw [List.getElem?_set_ne (Ne.symm hij)]
          exact hfl i c (by omega) hc)
  rw [Nat.zero_add] at hfl
  exact ⟨fl, hrun, hlen, hfl⟩

theorem run_clearDesign_spec {n m : Nat} (st : SolverState α n m)
    (hf : st.numPartitions_ ≤ st.initialControllerDesignStock_.length) :
    ∃ fl, run_clearDesign st = .ok { st with initialControllerDesignStock_ := fl } ∧
      fl.length = st.initialControllerDesignStock_.length ∧
      ∀ i, i < st.numPartitions_ → fl[i]? = some false := by
  obtain ⟨s1, hrun, fl, rfl, hlen, hfl⟩ := forRange_invariant
    (fun i (s : SolverState α n m) =>
      (updateAt s.initialControllerDesignStock_ i fun _ => .ok false).bind fun flags =>
      .ok { s with initialControllerDesignStock_ := flags })
    (fun j s => ∃ fl, s = { st with initialControllerDesignStock_ := fl } ∧
      fl.length = st.initialControllerDesignStock_.length ∧
      ∀ i, i < j → fl[i]? = some false)
    st.numPartitions_ 0 st
    ⟨st.initialControllerDesignStock_, rfl, rfl, fun i hi => absurd hi (Nat.not_lt_zero i)⟩
    (by
      rintro j s - hj ⟨fl, rfl, hlen, hfl⟩
      have hjf : j < fl.length := by omega
      refine ⟨{ st with initialControllerDesignStock_ := fl.set j false }, ?_, _, rfl, ?_, ?_⟩
      · show (updateAt fl j fun _ => .ok false).bind _ = _
        rw [updateAt_ok _ _ _ hjf, bind_ok]
      · rw [List.length_set]
        exact hlen
      · intro i hi
        by_cases hij : i = j
        · subst hij
          exact getElem?_set_self_of_lt _ _ _ hjf
        · rw [List.getElem?_set_ne (Ne.symm hij)]
          exact hfl i (by omega))
  rw [Nat.zero_add] at hfl
  exact ⟨fl, hrun, hlen, hfl⟩

/-- The controllers that `calculateController` leaves: the step size handed to the design
of an active partition with a Riccati solution is 0 when the partition is marked and the
configured one otherwise; the marks and the active range are not changed. -/
theorem calculateController_spec {n m : Nat} (settings : SLQ_Settings α)
    (calculatePartitionController : α → Nat → Controller α n m → Controller α n m)
    (SsTimeTrajectoryStock_ : List (List α)) (st : SolverState α n m)
    (hn : st.numPartitions_ ≤ st.nominalControllersStock_.length)
    (hf : st.numPartitions_ ≤ st.initialControllerDesignStock_.length)
    (hs : st.numPartitions_ ≤ SsTimeTrajectoryStock_.length) :
    ∃ stock step, calculateController settings calculatePartitionController
        SsTimeTrajectoryStock_ st
        = .ok { st with nominalControllersStock_ := stock, constraintStepSize_ := step } ∧
      stock.length = st.nominalControllersStock_.length ∧
      ∀ i SsTime c b, i < st.numPartitions_ → st.initActivePartition_ ≤ i →
        i ≤ st.finalActivePartition_ → SsTimeTrajectoryStock_[i]? = some SsTime →
        SsTime ≠ [] → st.nominalControllersStock_[i]? = some c →
        st.initialControllerDesignStock_[i]? = some b →
        stock[i]? = some (calculatePartitionController
          (if b = true then 0 else settings.constraintStepSize_) i
          (calculateController_resized SsTime c)) := by
  obtain ⟨s1, hrun, stock, step, rfl, hlen, -, hdone⟩ := forRange_invariant
    (calculateController_pass settings calculatePartitionController SsTimeTrajectoryStock_)
    (fun j s => ∃ stock step,
      s = { st with nominalControllersStock_ := stock, constraintStepSize_ := step } ∧
      stock.length = st.nominalControllersStock_.length ∧
      (∀ i, j ≤ i → stock[i]? = st.nominalControllersStock_[i]?) ∧
      ∀ i SsTime c b, i < j → st.initActivePartition_ ≤ i →
        i ≤ st.finalActivePartition_ → SsTimeTrajectoryStock_[i]? = some SsTime →
        SsTime ≠ [] → st.nominalControllersStock_[i]? = some c →
        st.initialControllerDesignStock_[i]? = some b →
        stock[i]? = some (calculatePartitionController
          (if b = true then 0 else settings.constraintStepSize_) i
          (calculateController_resized SsTime c)))
    st.numPartitions_ 0 st
    ⟨st.nominalControllersStock_, st.constraintStepSize_, rfl, rfl, fun _ _ => rfl,
      fun i _ _ _ hi => absurd hi (Nat.not_lt_zero i)⟩
    (by
      rintro j s - hj ⟨stock, step, rfl, hlen, hrest, hdone⟩
      have hjn : j < stock.length := by omega
      obtain ⟨cj, hcj⟩ : ∃ cj, stock[j]? = some cj := ⟨_, List.getElem?_eq_getElem hjn⟩
      obtain ⟨Sj, hSj⟩ : ∃ Sj, SsTimeTrajectoryStock_[j]? = some Sj :=
        ⟨_, List.getElem?_eq_getElem (by omega)⟩
      obtain ⟨bj, hbj⟩ : ∃ bj, st.initialControllerDesignStock_[j]? = some bj :=
        ⟨_, List.getElem?_eq_getElem (by omega)⟩
      have hcj0 : st.nominalControllersStock_[j]? = some cj := by
        rw [← hrest j (Nat.le_refl j)]
        exact hcj
      -- what the pass leaves in entry `j`, whatever the branch
      have hkeep : ∀ (x : Controller α n m) (i : Nat), j + 1 ≤ i →
          (stock.set j x)[i]? = st.nominalControllersStock_[i]? := by
        intro x i hi
        rw [List.getElem?_set_ne (by omega)]
        exact hrest i (by omega)
      have hold : ∀ (x : Controller α n m) (i : Nat) (y : Controller α n m), i < j →
          stock[i]? = some y → (stock.set j x)[i]? = some y := by
        intro x i y hi hy
        rw [List.getElem?_set_ne (by omega)]
        exact hy
      unfold calculateController_pass
      by_cases hact : j < st.initActivePartition_ ∨ j > st.finalActivePartition_
      · refine ⟨{ st with nominalControllersStock_ := stock.set j Controller.clear,
                          constraintStepSize_ := step }, ?_, _, _, rfl, ?_, hkeep _, ?_⟩
        · simp only []
          rw [if_pos hact, updateAt_ok _ _ _ hjn, bind_ok]
        · rw [List.length_set]
          exact hlen
        · intro i SsTime c b hi h1 h2 h3 h4 h5 h6
          by_cases hij : i = j
          · subst hij
            omega
          · exact hold _ i _ (by omega) (hdone i SsTime c b (by omega) h1 h2 h3 h4 h5 h6)
      · simp only []
        rw [if_neg hact, indexAt_of_getElem? _ _ _ hSj, bind_ok,
          indexAt_of_getElem? _ _ _ hcj, bind_ok]
        by_cases hzero : Sj.length = 0
        · rw [if_pos hzero]
          refine ⟨_, rfl, _, _, rfl, ?_, hkeep _, ?_⟩
          · rw [List.length_set]
            exact hlen
          · intro i SsTime c b hi h1 h2 h3 h4 h5 h6
            by_cases hij : i = j
            · subst hij
              rw [hSj] at h3
              rw [← Option.some.inj h3] at h4
              exact absurd (List.length_eq_zero.mp hzero) h4
            · exact hold _ i _ (by omega) (hdone i SsTime c b (by omega) h1 h2 h3 h4 h5 h6)
        · rw [if_neg hzero, indexAt_of_getElem? _ _ _ hbj, bind_ok]
          refine ⟨_, rfl, _, _, rfl, ?_, hkeep _, ?_⟩
          · rw [List.length_set]
            exact hlen
          · intro i SsTime c b hi h1 h2 h3 h4 h5 h6
            by_cases hij : i = j
            · subst hij
              rw [hSj] at h3
              rw [hcj0] at h5
              rw [hbj] at h6
              rw [← Option.some.inj h3, ← Option.some.inj h5, ← Option.some.inj h6]
              exact getElem?_set_self_of_lt _ _ _ hjn
            · exact hold _ i _ (by omega) (hdone i SsTime c b (by omega) h1 h2 h3 h4 h5 h6))
  rw [Nat.zero_add] at hdone
  exact ⟨stock, step, hrun, hlen, hdone⟩

theorem runInit_design_eq {n m : Nat} (settings : SLQ_Settings α)
    (calculatePartitionController : α → Nat → Controller α n m → Controller α n m)
    (SsTimeTrajectoryStock_ : List (List α)) (st : SolverState α n m)
    (hR : settings.useRiccatiSolver_ = true) :
    runInit_design settings calculatePartitionController SsTimeTrajectoryStock_ st =
      calculateController settings calculatePartitionController SsTimeTrajectoryStock_ st := by
  unfold runInit_design
  rw [if_pos hR]

/-- C16: with the Riccati solver in use and stocks of `numPartitions_` entries, the
controller designs of `run` return, and the design of `runInit` hands to
`calculatePartitionController` of every active partition with a Riccati solution the
step size 0 when the controller of the partition was empty when the designs began (after
the truncation) and `settings_.constraintStepSize_` when it was not; the design of every
later pass of the main loop hands `settings_.constraintStepSize_` to every such
partition. -/
theorem run_design_stepSize {n m : Nat} (settings : SLQ_Settings α)
    (calculatePartitionController : α → Nat → Controller α n m → Controller α n m)
    (SsTimeTrajectoryStock : Nat → List (List α))
    (lineSearch : Nat → List (Controller α n m) → List (Controller α n m))
    (st : SolverState α n m)
    (hR : settings.useRiccatiSolver_ = true)
    (hn : st.nominalControllersStock_.length = st.numPartitions_)
    (hf : st.initialControllerDesignStock_.length = st.numPartitions_)
    (hs : ∀ j, (SsTimeTrajectoryStock j).length = st.numPartitions_)
    (hl : ∀ j stock, (lineSearch j stock).length = stock.length) :
    (∃ first, run_design settings calculatePartitionController SsTimeTrajectoryStock
        lineSearch 0 st = .ok first ∧
      ∀ i SsTime c, i < st.numPartitions_ → st.initActivePartition_ ≤ i →
        i ≤ st.finalActivePartition_ → (SsTimeTrajectoryStock 0)[i]? = some SsTime →
        SsTime ≠ [] → st.nominalControllersStock_[i]? = some c →
        first.nominalControllersStock_[i]? = some (calculatePartitionController
          (if c.empty = true then 0 else settings.constraintStepSize_) i
          (calculateController_resized SsTime c))) ∧
    (∀ k, ∃ prev later,
      run_design settings calculatePartitionController SsTimeTrajectoryStock
        lineSearch k st = .ok prev ∧
      run_design settings calculatePartitionController SsTimeTrajectoryStock
        lineSearch (k + 1) st = .ok later ∧
      ∀ i SsTime c, i < st.numPartitions_ → st.initActivePartition_ ≤ i →
        i ≤ st.finalActivePartition_ → (SsTimeTrajectoryStock (k + 1))[i]? = some SsTime →
        SsTime ≠ [] →
        (lineSearch (k + 1) prev.nominalControllersStock_)[i]? = some c →
        later.nominalControllersStock_[i]? = some (calculatePartitionController
          settings.constraintStepSize_ i (calculateController_resized SsTime c))) := by
  obtain ⟨fl1, hmark, hfl1len, hfl1⟩ := run_markDesign_spec st (by omega) (by omega)
  obtain ⟨stock2, step2, hcalc, hlen2, hdes2⟩ := calculateController_spec settings
    calculatePartitionController (SsTimeTrajectoryStock 0)
    { st with initialControllerDesignStock_ := fl1 }
    (by show st.numPartitions_ ≤ st.nominalControllersStock_.length; omega)
    (by show st.numPartitions_ ≤ fl1.length; omega)
    (by show st.numPartitions_ ≤ (SsTimeTrajectoryStock 0).length; rw [hs 0])
  obtain ⟨fl3, hclear, hfl3len, hfl3⟩ := run_clearDesign_spec
    { st with initialControllerDesignStock_ := fl1, nominalControllersStock_ := stock2,
              constraintStepSize_ := step2 }
    (by show st.numPartitions_ ≤ fl1.length; omega)
  have hdesign : ∀ passes, run_design settings calculatePartitionController
      SsTimeTrajectoryStock lineSearch passes st =
      forRange (fun j (s : SolverState α n m) =>
        runInit_design settings calculatePartitionController (SsTimeTrajectoryStock j)
          { s with nominalControllersStock_ := lineSearch j s.nominalControllersStock_ })
        passes 1
        { st with initialControllerDesignStock_ := fl3, nominalControllersStock_ := stock2,
                  constraintStepSize_ := step2 } := by
    intro passes
    unfold run_design
    rw [hmark, bind_ok, runInit_design_eq _ _ _ _ hR, hcalc, bind_ok, hclear, bind_ok]
  have hloop : ∀ k, ∃ prev, forRange (fun j (s : SolverState α n m) =>
        runInit_design settings calculatePartitionController (SsTimeTrajectoryStock j)
          { s with nominalControllersStock_ := lineSearch j s.nominalControllersStock_ })
        k 1
        { st with initialControllerDesignStock_ := fl3, nominalControllersStock_ := stock2,
                  constraintStepSize_ := step2 } = .ok prev ∧
      prev.numPartitions_ = st.numPartitions_ ∧
      prev.initActivePartition_ = st.initActivePartition_ ∧
      prev.finalActivePartition_ = st.finalActivePartition_ ∧
      prev.nominalControllersStock_.length = st.numPartitions_ ∧
      prev.initialControllerDesignStock_ = fl3 := by
    intro k
    obtain ⟨prev, h1, h2⟩ := forRange_invariant
      (fun j (s : SolverState α n m) =>
        runInit_design settings calculatePartitionController (SsTimeTrajectoryStock j)
          { s with nominalControllersStock_ := lineSearch j s.nominalControllersStock_ })
      (fun _ s => s.numPartitions_ = st.numPartitions_ ∧
        s.initActivePartition_ = st.initActivePartition_ ∧
        s.finalActivePartition_ = st.finalActivePartition_ ∧
        s.nominalControllersStock_.length = st.numPartitions_ ∧
        s.initialControllerDesignStock_ = fl3)
      k 1
      { st with initialControllerDesignStock_ := fl3, nominalControllersStock_ := stock2,
                constraintStepSize_ := step2 }
      ⟨rfl, rfl, rfl, by show stock2.length = _; rw [hlen2]; exact hn, rfl⟩
      (by
        rintro j s - - ⟨q1, q2, q3, q4, q5⟩
        obtain ⟨stock, step, hc, hlen, -⟩ := calculateController_spec settings
          calculatePartitionController (SsTimeTrajectoryStock j)
          { s with nominalControllersStock_ := lineSearch j s.nominalControllersStock_ }
          (by show s.numPartitions_ ≤ (lineSearch j s.nominalControllersStock_).length
              rw [hl, q4, q1])
          (by show s.numPartitions_ ≤ s.initialControllerDesignStock_.length
              rw [q5, hfl3len, q1]; show st.numPartitions_ ≤ fl1.length; omega)
          (by show s.numPartitions_ ≤ (SsTimeTrajectoryStock j).length; rw [hs j, q1])
        rw [← runInit_design_eq _ _ _ _ hR] at hc
        have hlen1 : stock.length = st.numPartitions_ := by
          rw [hlen]
          show (lineSearch j s.nominalControllersStock_).length = _
          rw [hl, q4]
        exact ⟨_, hc, q1, q2, q3, hlen1, q5⟩)
    exact ⟨prev, h1, h2⟩
  refine ⟨?_, ?_⟩
  · refine ⟨_, hdesign 0, ?_⟩
    intro i SsTime c hi h1 h2 h3 h4 h5
    exact hdes2 i SsTime c c.empty hi h1 h2 h3 h4 h5 (hfl1 i c hi h5)
  · intro k
    obtain ⟨prev, hprev, q1, q2, q3, q4, q5⟩ := hloop k
    obtain ⟨stock, step, hc, hlen, hdes⟩ := calculateController_spec settings
      calculatePartitionController (SsTimeTrajectoryStock (k + 1))
      { prev with
        nominalControllersStock_ := lineSearch (k + 1) prev.nominalControllersStock_ }
      (by show prev.numPartitions_ ≤ (lineSearch (k + 1) prev.nominalControllersStock_).length
          rw [hl, q4, q1])
      (by show prev.numPartitions_ ≤ prev.initialControllerDesignStock_.length
          rw [q5, hfl3len, q1]; show st.numPartitions_ ≤ fl1.length; omega)
      (by show prev.numPartitions_ ≤ (SsTimeTrajectoryStock (k + 1)).length
          rw [hs (k + 1), q1])
    have hlater : run_design settings calculatePartitionController SsTimeTrajectoryStock
        lineSearch (k + 1) st = .ok
          { prev with nominalControllersStock_ := stock, constraintStepSize_ := step } := by
      rw [hdesign (k + 1), forRange_succ, hprev, bind_ok, Nat.add_comm 1 k,
        runInit_design_eq _ _ _ _ hR]
      exact hc
    refine ⟨prev, _, ?_, hlater, ?_⟩
    · rw [hdesign k]
      exact hprev
    · intro i SsTime c hi h1 h2 h3 h4 h5
      have hb : prev.initialControllerDesignStock_[i]? = some false := by
        rw [q5]
        exact hfl3 i hi
      have hd := hdes i SsTime c false (by show i < prev.numPartitions_; rw [q1]; exact hi)
        (by show prev.initActivePartition_ ≤ i; rw [q2]; exact h1)
        (by show i ≤ prev.finalActivePartition_; rw [q3]; exact h2) h3 h4 h5 hb
      rw [hd]
      simp

theorem run_design_stepSize_witness :
    ∃ first, run_design psdSettings stepDesign twoPartitionTimes (fun _ stock => stock) 0
        warmState = .ok first ∧
      (∃ c0, first.nominalControllersStock_[0]? = some c0 ∧
        c0.uff_ = [fun _ => 1, fun _ => 1]) ∧
      (∃ c1, first.nominalControllersStock_[1]? = some c1 ∧
        c1.uff_ = [fun _ => 0, fun _ => 0]) := by
  obtain ⟨⟨first, h1, h2⟩, -⟩ := run_design_stepSize psdSettings stepDesign twoPartitionTimes
    (fun _ stock => stock) warmState rfl rfl rfl (fun _ => rfl) (fun _ _ => rfl)
  have e0 := h2 0 [0, 1] earlyController (by decide) (by decide) (by decide) rfl (by simp) rfl
  have e1 := h2 1 [1, 2] Controller.clear (by decide) (by decide) (by decide) rfl (by simp)
    rfl
  refine ⟨first, h1, ⟨_, e0, ?_⟩, ⟨_, e1, ?_⟩⟩
  · simp [stepDesign, calculateController_resized, Controller.empty, psdSettings,
      earlyController]
  · simp [stepDesign, calculateController_resized, Controller.empty, Controller.clear]

/-! ## The checks of the active-constraint counts -/

/-- A loop that returns keeps an invariant that its body keeps. -/
theorem forRange_keeps {σ : Type} (body : Nat → σ → Except String σ)
    (P : Nat → σ → Prop) (count : Nat) :
    ∀ (i : Nat) (st s1 : σ), P i st →
      (∀ j s s2, i ≤ j → j < i + count → P j s → body j s = .ok s2 → P (j + 1) s2) →
      forRange body count i st = .ok s1 → P (i + count) s1 := by
  induction count with
  | zero =>
    intro i st s1 h0 _ hrun
    have h := Except.ok.inj hrun
    rw [← h]
    exact h0
  | succ count ih =>
    intro i st s1 h0 hstep hrun
    obtain ⟨s2, hb, hrest⟩ := bind_eq_ok _ _ _ hrun
    have hP := hstep i st s2 (Nat.le_refl i) (by omega) h0 hb
    have hQ := ih (i + 1) s2 s1 hP
      (fun j s s3 hj1 hj2 hPj hbj => hstep j s s3 (by omega) (by omega) hPj hbj) hrest
    have he : i + (count + 1) = i + 1 + count := by omega
    rw [he]
    exact hQ

/-- A loop can be split at any pass. -/
theorem forRange_add {σ : Type} (body : Nat → σ → Except String σ) (a b : Nat) :
    ∀ (i : Nat) (st : σ),
      forRange body (a + b) i st = (forRange body a i st).bind (forRange body b (i + a)) := by
  induction a with
  | zero =>
    intro i st
    rw [Nat.zero_add]
    rfl
  | succ a ih =>
    intro i st
    have he : a + 1 + b = (a + b) + 1 := by omega
    rw [he]
    show (body i st).bind (forRange body (a + b) (i + 1)) =
      ((body i st).bind (forRange body a (i + 1))).bind (forRange body b (i + (a + 1)))
    cases body i st with
    | error e => rfl
    | ok s =>
      show forRange body (a + b) (i + 1) s = _
      rw [ih (i + 1) s]
      have he2 : i + 1 + a = i + (a + 1) := by omega
      rw [he2]
      rfl

/-- In a strictly increasing list of markers, the markers after `k` begin with `k + 1` when
it is a marker. -/
theorem filter_marker_mem (l : List Nat) (k : Nat) (hs : l.Pairwise (fun a b => a < b))
    (hk : k + 1 ∈ l) :
    l.filter (fun e => decide (k < e)) = (k + 1) :: l.filter (fun e => decide (k + 1 < e)) := by
  induction l with
  | nil => cases hk
  | cons a l ih =>
    obtain ⟨ha, hl⟩ := List.pairwise_cons.mp hs
    by_cases hak : a = k + 1
    · subst hak
      have h1 : decide (k < k + 1) = true := by simp
      have h2 : decide (k + 1 < k + 1) = false := by simp
      simp only [List.filter_cons, h1, h2, if_true, Bool.false_eq_true, if_false]
      congr 1
      apply List.filter_congr
      intro e he
      have := ha e he
      simp only [decide_eq_decide]
      omega
    · have hmem : k + 1 ∈ l := by
        rcases List.mem_cons.mp hk with h | h
        · exact absurd h.symm hak
        · exact h
      have hlt := ha (k + 1) hmem
      have h1 : decide (k < a) = false := by simp; omega
      have h2 : decide (k + 1 < a) = false := by simp; omega
      simp only [List.filter_cons, h1, h2, Bool.false_eq_true, if_false]
      exact ih hl hmem

theorem filter_marker_not_mem (l : List Nat) (k : Nat) (hk : ¬ k + 1 ∈ l) :
    l.filter (fun e => decide (k < e)) = l.filter (fun e => decide (k + 1 < e)) := by
  apply List.filter_congr
  intro e he
  have hne : e ≠ k + 1 := fun h => hk (h ▸ he)
  simp only [decide_eq_decide]
  omega

theorem getElem?_set_le {l : List Nat} {k j v v0 b : Nat} (hv0 : v0 ≤ b)
    (hold : ∀ j v, j < k → l[j]? = some v → v ≤ b) (hj : j < k + 1)
    (h : (l.set k v0)[j]? = some v) : v ≤ b := by
  by_cases hjk : j = k
  · subst hjk
    by_cases hlen : j < l.length
    · rw [getElem?_set_self_of_lt _ _ _ hlen] at h
      rw [← Option.some.inj h]
      exact hv0
    · rw [List.getElem?_eq_none (by rw [List.length_set]; omega)] at h
      cases h
  · rw [List.getElem?_set_ne (Ne.symm hjk)] at h
    exact hold j v (by omega) h

/-- One pass of the loop of `calculateConstraintsWorker` throws when the sample is
over-constrained, and otherwise returns and keeps the invariant. -/
theorem calculateConstraintsWorker_pass_spec {n m : Nat}
    (systemConstraints : α → (Fin n → α) → (Fin m → α) → ModelEvaluation α n m)
    (timeTrajectory : List α) (stateTrajectory : List (Fin n → α))
    (inputTrajectory : List (Fin m → α)) (events : List Nat)
    (hs : events.Pairwise (fun a b => a < b)) (k : Nat) (st : ConstraintsRun α m)
    (t : α) (x : Fin n → α) (u : Fin m → α)
    (ht : timeTrajectory[k]? = some t) (hx : stateTrajectory[k]? = some x)
    (hu : inputTrajectory[k]? = some u)
    (hP : constraintsInvariant timeTrajectory.length events k st) :
    (spec_overConstrained (systemConstraints t x u) (k + 1 ∈ events) →
      ∃ e, calculateConstraintsWorker_pass systemConstraints timeTrajectory stateTrajectory
        inputTrajectory k st = .error e) ∧
    (¬ spec_overConstrained (systemConstraints t x u) (k + 1 ∈ events) →
      ∃ st1, calculateConstraintsWorker_pass systemConstraints timeTrajectory stateTrajectory
        inputTrajectory k st = .ok st1 ∧
        constraintsInvariant timeTrajectory.length events (k + 1) st1) := by
  obtain ⟨out, itr⟩ := st
  obtain ⟨hitr, hl1, hl2, hn1, hn2, hnf⟩ := hP
  simp only at hitr hl1 hl2 hn1 hn2 hnf
  subst hitr
  unfold calculateConstraintsWorker_pass spec_overConstrained
  rw [indexAt_of_getElem? _ _ _ ht, bind_ok, indexAt_of_getElem? _ _ _ hx, bind_ok,
    indexAt_of_getElem? _ _ _ hu, bind_ok]
  simp only []
  generalize systemConstraints t x u = d
  by_cases h1 : d.numStateInputConstraint > m
  · rw [if_pos h1]
    exact ⟨fun _ => ⟨_, rfl⟩, fun h => absurd (Or.inl h1) h⟩
  rw [if_neg h1]
  by_cases h2 : d.numStateOnlyConstraint > m
  · rw [if_pos h2]
    exact ⟨fun _ => ⟨_, rfl⟩, fun h => absurd (Or.inr (Or.inl h2)) h⟩
  rw [if_neg h2]
  have hk1 : ∀ j v, j < k + 1 →
      (out.nc1Trajectory.set k d.numStateInputConstraint)[j]? = some v → v ≤ m :=
    fun j v hj h => getElem?_set_le (Nat.le_of_not_gt h1) hn1 hj h
  have hk2 : ∀ j v, j < k + 1 →
      (out.nc2Trajectory.set k d.numStateOnlyConstraint)[j]? = some v → v ≤ m :=
    fun j v hj h => getElem?_set_le (Nat.le_of_not_gt h2) hn2 hj h
  by_cases hmem : k + 1 ∈ events
  · rw [filter_marker_mem events k hs hmem]
    simp only [if_true]
    by_cases h3 : d.numStateOnlyFinalConstraint > m
    · rw [if_pos h3]
      exact ⟨fun _ => ⟨_, rfl⟩, fun h => absurd (Or.inr (Or.inr ⟨hmem, h3⟩)) h⟩
    · rw [if_neg h3]
      refine ⟨fun h => ?_, fun _ => ⟨_, rfl, rfl, ?_, ?_, hk1, hk2, ?_⟩⟩
      · rcases h with h | h | h
        · exact absurd h h1
        · exact absurd h h2
        · exact absurd h.2 h3
      · simp only [List.length_set]
        exact hl1
      · simp only [List.length_set]
        exact hl2
      · intro v hv
        simp only [List.mem_append, List.mem_singleton] at hv
        rcases hv with hv | hv
        · exact hnf v hv
        · rw [hv]
          exact Nat.le_of_not_gt h3
  · rw [filter_marker_not_mem events k hmem]
    have hover : ¬ (d.numStateInputConstraint > m ∨ d.numStateOnlyConstraint > m ∨
        (k + 1 ∈ events ∧ d.numStateOnlyFinalConstraint > m)) := by
      rintro (h | h | h)
      · exact h1 h
      · exact h2 h
      · exact hmem h.1
    refine ⟨fun h => absurd h hover, fun _ => ?_⟩
    cases hrest : events.filter (fun e => decide (k + 1 < e)) with
    | nil =>
      refine ⟨_, rfl, ?_, ?_, ?_, hk1, hk2, hnf⟩
      · exact hrest.symm
      · simp only [List.length_set]
        exact hl1
      · simp only [List.length_set]
        exact hl2
    | cons e rest =>
      have he : e ∈ events.filter (fun e => decide (k + 1 < e)) := by
        rw [hrest]
        exact List.mem_cons_self e rest
      have hlt : k + 1 < e := by
        have := (List.mem_filter.mp he).2
        exact of_decide_eq_true this
      have hne : ¬ k + 1 = e := by omega
      simp only [if_neg hne]
      refine ⟨_, rfl, ?_, ?_, ?_, hk1, hk2, hnf⟩
      · exact hrest.symm
      · simp only [List.length_set]
        exact hl1
      · simp only [List.length_set]
        exact hl2

theorem approximateLQWorker_projection_counts {n m : Nat} (settings : SLQ_Settings α)
    (s : LQSample α n m) :
    (approximateLQWorker_projection settings s).nc1 = s.nc1 ∧
    (approximateLQWorker_projection settings s).nc2 = s.nc2 := by
  unfold approximateLQWorker_projection
  simp only
  split <;> split <;> exact ⟨rfl, rfl⟩

theorem approximateLQWorker_penalty_nc2 {n m : Nat} (settings : SLQ_Settings α)
    (iteration_ : Nat) (s : LQSample α n m) :
    (approximateLQWorker_penalty settings iteration_ s).nc2 = s.nc2 := by
  unfold approximateLQWorker_penalty
  simp only
  split <;> rfl

/-- The counts that `approximateLQWorker` stores at the sample are the counts of the
model. -/
theorem approximateLQWorker_counts {n m : Nat} (eig : (n : Nat) → SelfAdjointEigenSolver α n)
    (settings : SLQ_Settings α) (iteration_ : Nat) (events : List Nat) (k : Nat)
    (d : ModelEvaluation α n m) (s : LQSample α n m) (fs : List (LQFinal α n m))
    (r : LQSample α n m × List (LQFinal α n m))
    (h : approximateLQWorker eig settings iteration_ events k d s fs = .ok r) :
    r.1.nc1 = d.numStateInputConstraint ∧ r.1.nc2 = d.numStateOnlyConstraint := by
  obtain ⟨-, -, hrep, -⟩ := approximateLQWorker_sample eig settings iteration_ events k d s fs
    r h
  rw [approximateLQWorker_repair_eq] at hrep
  have hrep := Except.ok.inj hrep
  have hc := approximateLQWorker_projection_counts settings
    (approximateLQWorker_penalty settings iteration_ (approximateLQWorker_evaluate d s))
  have h1 := approximateLQWorker_penalty_nc1 settings iteration_
    (approximateLQWorker_evaluate d s)
  have h2 := approximateLQWorker_penalty_nc2 settings iteration_
    (approximateLQWorker_evaluate d s)
  rw [← hrep]
  split
  · exact ⟨by show (approximateLQWorker_projection _ _).nc1 = _; rw [hc.1, h1]; rfl,
      by show (approximateLQWorker_projection _ _).nc2 = _; rw [hc.2, h2]; rfl⟩
  · exact ⟨by rw [hc.1, h1]; rfl, by rw [hc.2, h2]; rfl⟩

theorem findIdx?_marker (events : List Nat) (k : Nat) :
    (∃ ke, events.findIdx? (fun e => e == k + 1) = some ke) ↔ k + 1 ∈ events := by
  constructor
  · rintro ⟨ke, hke⟩
    by_contra hn
    have hnone : events.findIdx? (fun e => e == k + 1) = none := by
      rw [List.findIdx?_eq_none_iff]
      intro x hx
      have hne : x ≠ k + 1 := fun h => hn (h ▸ hx)
      simp [hne]
    rw [hnone] at hke
    cases hke
  · intro hmem
    cases hf : events.findIdx? (fun e => e == k + 1) with
    | some ke => exact ⟨ke, rfl⟩
    | none =>
      rw [List.findIdx?_eq_none_iff] at hf
      have := hf (k + 1) hmem
      simp at this

/-- `approximateLQWorker` throws exactly at an over-constrained sample. -/
theorem approximateLQWorker_throws {n m : Nat} (eig : (n : Nat) → SelfAdjointEigenSolver α n)
    (settings : SLQ_Settings α) (iteration_ : Nat) (events : List Nat) (k : Nat)
    (d : ModelEvaluation α n m) (s : LQSample α n m) (fs : List (LQFinal α n m))
    (hfs : events.length ≤ fs.length) :
    (∃ e, approximateLQWorker eig settings iteration_ events k d s fs = .error e) ↔
      spec_overConstrained d (k + 1 ∈ events) := by
  unfold spec_overConstrained approximateLQWorker
  by_cases h1 : d.numStateInputConstraint > m
  · rw [if_pos h1]
    exact ⟨fun _ => Or.inl h1, fun _ => ⟨_, rfl⟩⟩
  rw [if_neg h1]
  by_cases h2 : d.numStateOnlyConstraint > m
  · rw [if_pos h2]
    exact ⟨fun _ => Or.inr (Or.inl h2), fun _ => ⟨_, rfl⟩⟩
  rw [if_neg h2]
  simp only [approximateLQWorker_repair_eq, bind_ok]
  unfold approximateLQWorker_events
  cases hf : events.findIdx? (fun e => e == k + 1) with
  | none =>
    have hmem : ¬ k + 1 ∈ events := by
      intro hm
      obtain ⟨ke, hke⟩ := (findIdx?_marker events k).mpr hm
      rw [hf] at hke
      cases hke
    simp only [bind_ok]
    constructor
    · rintro ⟨e, he⟩
      cases he
    · rintro (h | h | h)
      · exact absurd h h1
      · exact absurd h h2
      · exact absurd h.1 hmem
  | some ke =>
    have hmem : k + 1 ∈ events := (findIdx?_marker events k).mp ⟨ke, hf⟩
    have hlt : ke < fs.length := by
      have := (List.findIdx?_eq_some_iff_findIdx_eq.mp hf).1
      omega
    simp only [List.getElem?_eq_getElem hlt]
    by_cases h3 : d.numStateOnlyFinalConstraint > m
    · rw [if_pos h3]
      exact ⟨fun _ => Or.inr (Or.inr ⟨hmem, h3⟩), fun _ => ⟨_, rfl⟩⟩
    · rw [if_neg h3]
      simp only [makePSD_square]
      constructor
      · intro ⟨e, he⟩
        exfalso
        by_cases hp : settings.useMakePSD_ = true
        · rw [if_pos hp] at he
          cases he
        · rw [if_neg hp] at he
          cases he
      · rintro (h | h | h)
        · exact absurd h h1
        · exact absurd h h2
        · exact absurd h.2 h3

theorem resize_length {β : Type} (v : List β) (k : Nat) (d : β) : (resize v k d).length = k := by
  unfold resize
  rw [List.length_append, List.length_take, List.length_replicate]
  omega

theorem getElem?_of_lt {β : Type} (v : List β) (i : Nat) (h : i < v.length) :
    ∃ b, v[i]? = some b :=
  ⟨_, List.getElem?_eq_getElem h⟩

/-- `calculateConstraintsWorker` throws exactly when a sample is over-constrained, and the
counts it returns are at most `m`. -/
theorem calculateConstraintsWorker_spec {n m : Nat}
    (systemConstraints : α → (Fin n → α) → (Fin m → α) → ModelEvaluation α n m)
    (timeTrajectory : List α) (events : List Nat) (stateTrajectory : List (Fin n → α))
    (inputTrajectory : List (Fin m → α)) (out : ConstraintTrajectory α m)
    (hx : timeTrajectory.length ≤ stateTrajectory.length)
    (hu : timeTrajectory.length ≤ inputTrajectory.length)
    (hs : events.Pairwise (fun a b => a < b)) (hpos : ∀ e, e ∈ events → 0 < e) :
    ((∃ e, calculateConstraintsWorker systemConstraints timeTrajectory events stateTrajectory
        inputTrajectory out = .error e) ↔
      ∃ k t x u, timeTrajectory[k]? = some t ∧ stateTrajectory[k]? = some x ∧
        inputTrajectory[k]? = some u ∧
        spec_overConstrained (systemConstraints t x u) (k + 1 ∈ events)) ∧
    (∀ r, calculateConstraintsWorker systemConstraints timeTrajectory events stateTrajectory
        inputTrajectory out = .ok r →
      r.nc1Trajectory.length = timeTrajectory.length ∧
      r.nc2Trajectory.length = timeTrajectory.length ∧
      (∀ v, v ∈ r.nc1Trajectory → v ≤ m) ∧ (∀ v, v ∈ r.nc2Trajectory → v ≤ m) ∧
      (∀ v, v ∈ r.nc2Finals → v ≤ m)) := by
  have h0 : constraintsInvariant timeTrajectory.length events 0
      (⟨{ nc1Trajectory := resize out.nc1Trajectory timeTrajectory.length 0,
          EvTrajectory := resize out.EvTrajectory timeTrajectory.length 0,
          nc2Trajectory := resize out.nc2Trajectory timeTrajectory.length 0,
          HvTrajectory := resize out.HvTrajectory timeTrajectory.length 0,
          nc2Finals := [], HvFinals := [] }, events⟩ : ConstraintsRun α m) := by
    refine ⟨?_, resize_length _ _ _, resize_length _ _ _,
      fun j v hj => absurd hj (Nat.not_lt_zero j),
      fun j v hj => absurd hj (Nat.not_lt_zero j), fun v hv => ?_⟩
    · symm
      apply List.filter_eq_self.mpr
      intro e he
      exact decide_eq_true (hpos e he)
    · cases hv
  have hsample : ∀ j, j < timeTrajectory.length → ∃ t x u, timeTrajectory[j]? = some t ∧
      stateTrajectory[j]? = some x ∧ inputTrajectory[j]? = some u := by
    intro j hj
    obtain ⟨t, ht⟩ := getElem?_of_lt timeTrajectory j hj
    obtain ⟨x, hx1⟩ := getElem?_of_lt stateTrajectory j (by omega)
    obtain ⟨u, hu1⟩ := getElem?_of_lt inputTrajectory j (by omega)
    exact ⟨t, x, u, ht, hx1, hu1⟩
  have hkeep : ∀ j s s2, j < timeTrajectory.length →
      constraintsInvariant timeTrajectory.length events j s →
      calculateConstraintsWorker_pass systemConstraints timeTrajectory stateTrajectory
        inputTrajectory j s = .ok s2 →
      constraintsInvariant timeTrajectory.length events (j + 1) s2 := by
    intro j s s2 hj hP hb
    obtain ⟨t, x, u, ht, hx1, hu1⟩ := hsample j hj
    obtain ⟨q1, q2⟩ := calculateConstraintsWorker_pass_spec systemConstraints timeTrajectory
      stateTrajectory inputTrajectory events hs j s t x u ht hx1 hu1 hP
    by_cases hover : spec_overConstrained (systemConstraints t x u) (j + 1 ∈ events)
    · obtain ⟨e, he⟩ := q1 hover
      rw [he] at hb
      cases hb
    · obtain ⟨s3, h3, hP3⟩ := q2 hover
      rw [h3] at hb
      rw [← Except.ok.inj hb]
      exact hP3
  refine ⟨⟨fun hthrow => ?_, fun hover => ?_⟩, fun r hr => ?_⟩
  · -- a throw comes from an over-constrained sample
    by_contra hnone
    obtain ⟨s1, hrun, -⟩ := forRange_invariant
      (calculateConstraintsWorker_pass systemConstraints timeTrajectory stateTrajectory
        inputTrajectory)
      (fun j s => constraintsInvariant timeTrajectory.length events j s)
      timeTrajectory.length 0 _ h0
      (by
        intro j s _ hj hP
        obtain ⟨t, x, u, ht, hx1, hu1⟩ := hsample j (by omega)
        exact (calculateConstraintsWorker_pass_spec systemConstraints timeTrajectory
          stateTrajectory inputTrajectory events hs j s t x u ht hx1 hu1 hP).2
          (fun hover => hnone ⟨j, t, x, u, ht, hx1, hu1, hover⟩))
    obtain ⟨e, he⟩ := hthrow
    unfold calculateConstraintsWorker at he
    simp only [] at he
    rw [hrun, bind_ok] at he
    cases he
  · -- an over-constrained sample makes the loop throw
    obtain ⟨k0, t, x, u, ht, hx1, hu1, hbad⟩ := hover
    have hk0 : k0 < timeTrajectory.length := lt_length_of_getElem? _ _ _ ht
    unfold calculateConstraintsWorker
    simp only []
    apply bind_error_left
    have hsplit : timeTrajectory.length = k0 + ((timeTrajectory.length - k0 - 1) + 1) := by
      omega
    rw [hsplit, forRange_add]
    rw [← hsplit]
    cases hpre : forRange (calculateConstraintsWorker_pass systemConstraints timeTrajectory
        stateTrajectory inputTrajectory) k0 0
        (⟨{ nc1Trajectory := resize out.nc1Trajectory timeTrajectory.length 0,
            EvTrajectory := resize out.EvTrajectory timeTrajectory.length 0,
            nc2Trajectory := resize out.nc2Trajectory timeTrajectory.length 0,
            HvTrajectory := resize out.HvTrajectory timeTrajectory.length 0,
            nc2Finals := [], HvFinals := [] }, events⟩ : ConstraintsRun α m) with
    | error e => exact ⟨e, rfl⟩
    | ok s =>
      have hP := forRange_keeps _
        (fun j s => constraintsInvariant timeTrajectory.length events j s) k0 0 _ s h0
        (fun j s s2 _ hj hPj hb => hkeep j s s2 (by omega) hPj hb) hpre
      rw [Nat.zero_add] at hP
      rw [bind_ok, Nat.zero_add]
      show ∃ e, (calculateConstraintsWorker_pass systemConstraints timeTrajectory
        stateTrajectory inputTrajectory k0 s).bind _ = .error e
      apply bind_error_left
      exact (calculateConstraintsWorker_pass_spec systemConstraints timeTrajectory
        stateTrajectory inputTrajectory events hs k0 s t x u ht hx1 hu1 hP).1 hbad
  · -- the counts of a returned trajectory
    unfold calculateConstraintsWorker at hr
    simp only [] at hr
    obtain ⟨s1, hrun, hr⟩ := bind_eq_ok _ _ _ hr
    have hr := Except.ok.inj hr
    have hP := forRange_keeps _
      (fun j s => constraintsInvariant timeTrajectory.length events j s)
      timeTrajectory.length 0 _ s1 h0
      (fun j s s2 _ hj hPj hb => hkeep j s s2 (by omega) hPj hb) hrun
    rw [Nat.zero_add] at hP
    obtain ⟨-, hl1, hl2, hn1, hn2, hnf⟩ := hP
    rw [← hr]
    refine ⟨hl1, hl2, fun v hv => ?_, fun v hv => ?_, hnf⟩
    · obtain ⟨j, hj⟩ := List.mem_iff_getElem?.mp hv
      exact hn1 j v (by rw [← hl1]; exact lt_length_of_getElem? _ _ _ hj) hj
    · obtain ⟨j, hj⟩ := List.mem_iff_getElem?.mp hv
      exact hn2 j v (by rw [← hl2]; exact lt_length_of_getElem? _ _ _ hj) hj

theorem approximateLQWorker_event_count {n m : Nat} (settings : SLQ_Settings α)
    (iteration_ : Nat) (d : ModelEvaluation α n m) (f : LQFinal α n m) :
    (approximateLQWorker_event settings iteration_ d f).nc2Final
      = d.numStateOnlyFinalConstraint := by
  unfold approximateLQWorker_event
  simp only
  split <;> rfl

/-- C11: `approximateLQWorker` (with a per-event stock that has an entry for every event
marker) and `calculateConstraintsWorker` (on trajectories with a state and an input for
every time stamp and strictly increasing positive event markers) throw if and only if, at a
processed sample, the number of active type-1 constraints, the number of active type-2
constraints or, at an event marker, the number of active final type-2 constraints exceeds
`INPUT_DIM = m`; a count equal to `m` is accepted, and after a return every stored `nc1`,
`nc2` and `nc2Final` is at most `m`. -/
theorem constraint_counts_checked {n m : Nat} (eig : (n : Nat) → SelfAdjointEigenSolver α n)
    (settings : SLQ_Settings α) (iteration_ : Nat) (events : List Nat) (k : Nat)
    (d : ModelEvaluation α n m) (s : LQSample α n m) (fs : List (LQFinal α n m))
    (systemConstraints : α → (Fin n → α) → (Fin m → α) → ModelEvaluation α n m)
    (timeTrajectory : List α) (stateTrajectory : List (Fin n → α))
    (inputTrajectory : List (Fin m → α)) (out : ConstraintTrajectory α m)
    (hfs : events.length ≤ fs.length)
    (hx : timeTrajectory.length ≤ stateTrajectory.length)
    (hu : timeTrajectory.length ≤ inputTrajectory.length)
    (hs : events.Pairwise (fun a b => a < b)) (hpos : ∀ e, e ∈ events → 0 < e) :
    ((∃ e, approximateLQWorker eig settings iteration_ events k d s fs = .error e) ↔
      spec_overConstrained d (k + 1 ∈ events)) ∧
    (∀ r, approximateLQWorker eig settings iteration_ events k d s fs = .ok r →
      r.1.nc1 ≤ m ∧ r.1.nc2 ≤ m ∧
      ∀ ke, events.findIdx? (fun e => e == k + 1) = some ke →
        ∃ f, r.2[ke]? = some f ∧ f.nc2Final ≤ m) ∧
    ((∃ e, calculateConstraintsWorker systemConstraints timeTrajectory events stateTrajectory
        inputTrajectory out = .error e) ↔
      ∃ j t x u, timeTrajectory[j]? = some t ∧ stateTrajectory[j]? = some x ∧
        inputTrajectory[j]? = some u ∧
        spec_overConstrained (systemConstraints t x u) (j + 1 ∈ events)) ∧
    (∀ r, calculateConstraintsWorker systemConstraints timeTrajectory events stateTrajectory
        inputTrajectory out = .ok r →
      r.nc1Trajectory.length = timeTrajectory.length ∧
      r.nc2Trajectory.length = timeTrajectory.length ∧
      (∀ v, v ∈ r.nc1Trajectory → v ≤ m) ∧ (∀ v, v ∈ r.nc2Trajectory → v ≤ m) ∧
      (∀ v, v ∈ r.nc2Finals → v ≤ m)) ∧
    (d.numStateInputConstraint = m → d.numStateOnlyConstraint = m →
      d.numStateOnlyFinalConstraint = m →
      ∃ r, approximateLQWorker eig settings iteration_ events k d s fs = .ok r) := by
  have hw := calculateConstraintsWorker_spec systemConstraints timeTrajectory events
    stateTrajectory inputTrajectory out hx hu hs hpos
  have hthrow := approximateLQWorker_throws eig settings iteration_ events k d s fs hfs
  refine ⟨hthrow, fun r hr => ?_, hw.1, hw.2, fun e1 e2 e3 => ?_⟩
  · obtain ⟨c1, c2⟩ := approximateLQWorker_counts eig settings iteration_ events k d s fs r hr
    obtain ⟨b1, b2, -, hev⟩ := approximateLQWorker_sample eig settings iteration_ events k d s
      fs r hr
    refine ⟨by rw [c1]; exact b1, by rw [c2]; exact b2, fun ke hke => ?_⟩
    obtain ⟨b3, f, -, hf⟩ := approximateLQWorker_events_entry eig settings iteration_ events k
      d fs r.2 ke hev hke
    have hcount := approximateLQWorker_event_count settings iteration_ d f
    refine ⟨_, hf, ?_⟩
    split
    · show (approximateLQWorker_event settings iteration_ d f).nc2Final ≤ m
      rw [hcount]
      exact b3
    · rw [hcount]
      exact b3
  · cases hres : approximateLQWorker eig settings iteration_ events k d s fs with
    | ok r => exact ⟨r, rfl⟩
    | error e =>
      exfalso
      rcases hthrow.mp ⟨e, hres⟩ with h | h | h
      · omega
      · omega
      · omega

theorem constraint_counts_checked_witness :
    (∃ e, approximateLQWorker diagonalEigenSolver psdSettings 0 [1] 0 overConstrainedModel
        (zeroSample ℚ 1 1) [zeroFinal ℚ 1 1] = .error e) ∧
    (∃ e, calculateConstraintsWorker (fun _ _ _ => overConstrainedModel) [(0 : ℚ)] [1]
        [fun _ => 0] [fun _ => 0] ⟨[], [], [], [], [], []⟩ = .error e) := by
  have h := constraint_counts_checked diagonalEigenSolver psdSettings 0 [1] 0
    overConstrainedModel (zeroSample ℚ 1 1) [zeroFinal ℚ 1 1]
    (fun _ _ _ => overConstrainedModel) [(0 : ℚ)] [fun _ => 0] [fun _ => 0]
    ⟨[], [], [], [], [], []⟩ (by simp) (by simp) (by simp) (by simp) (by simp)
  have hover : spec_overConstrained overConstrainedModel (0 + 1 ∈ [1]) :=
    Or.inl (by simp [overConstrainedModel])
  exact ⟨h.1.mpr hover, h.2.2.1.mpr ⟨0, 0, fun _ => 0, fun _ => 0, rfl, rfl, rfl, hover⟩⟩

/-! ## `lineSearchWorker` -/

/-- A loop `for (j = i; j < i + count; j++) v[j] = f(j, v[j])` whose assignments return
returns, relates every assigned entry to the old one, and leaves the other entries. -/
theorem forRange_updateAt {β : Type} (f : Nat → β → Except String β)
    (Q : Nat → β → β → Prop) (count i : Nat) (l : List β) (hlen : i + count ≤ l.length)
    (hf : ∀ j x, i ≤ j → j < i + count → l[j]? = some x → ∃ y, f j x = .ok y ∧ Q j x y) :
    ∃ l1, forRange (fun j s => updateAt s j (f j)) count i l = .ok l1 ∧
      l1.length = l.length ∧
      (∀ j x, i ≤ j → j < i + count → l[j]? = some x → ∃ y, l1[j]? = some y ∧ Q j x y) ∧
      (∀ j, (j < i ∨ i + count ≤ j) → l1[j]? = l[j]?) := by
  obtain ⟨l1, hrun, h1, h2, h3⟩ := forRange_invariant (fun j s => updateAt s j (f j))
    (fun k s => s.length = l.length ∧
      (∀ j x, i ≤ j → j < k → l[j]? = some x → ∃ y, s[j]? = some y ∧ Q j x y) ∧
      (∀ j, (j < i ∨ k ≤ j) → s[j]? = l[j]?))
    count i l ⟨rfl, fun j x h1 h2 => by omega, fun _ _ => rfl⟩
    (by
      rintro k s hk1 hk2 ⟨q1, q2, q3⟩
      have hkl : k < l.length := by omega
      obtain ⟨x, hx⟩ := getElem?_of_lt l k hkl
      have hsx : s[k]? = some x := by rw [q3 k (Or.inr (Nat.le_refl k))]; exact hx
      obtain ⟨y, hy, hQ⟩ := hf k x hk1 hk2 hx
      refine ⟨s.set k y, ?_, ?_, ?_, ?_⟩
      · show updateAt s k (f k) = _
        unfold updateAt
        rw [hsx]
        show (f k x).bind _ = _
        rw [hy, bind_ok]
      · rw [List.length_set]
        exact q1
      · intro j x1 hj1 hj2 hx1
        by_cases hjk : j = k
        · subst hjk
          rw [hx] at hx1
          rw [← Option.some.inj hx1]
          exact ⟨y, getElem?_set_self_of_lt _ _ _ (by omega), hQ⟩
        · rw [List.getElem?_set_ne (Ne.symm hjk)]
          exact q2 j x1 hj1 (by omega) hx1
      · intro j hj
        rw [List.getElem?_set_ne (by omega)]
        exact q3 j (by omega))
  exact ⟨l1, hrun, h1, h2, h3⟩

/-- The increment of one controller whose inputs and increments are at least as many as
its time stamps. -/
theorem lineSearchWorker_increment_spec {n m : Nat} (learningRate : α) (c : Controller α n m)
    (hu : c.time_.length ≤ c.uff_.length) (hd : c.time_.length ≤ c.deltaUff_.length) :
    ∃ c1, lineSearchWorker_increment learningRate c = .ok c1 ∧
      spec_incremented learningRate c c1 := by
  obtain ⟨uff, hrun, h1, h2, h3⟩ := forRange_updateAt
    (fun k (u : Fin m → α) =>
      (indexAt c.deltaUff_ k).bind fun deltaUff => .ok (u + learningRate • deltaUff))
    (fun k u y => ∀ deltaUff, c.deltaUff_[k]? = some deltaUff →
      y = u + learningRate • deltaUff)
    c.time_.length 0 c.uff_ (by omega)
    (by
      intro k u _ hk _
      obtain ⟨deltaUff, hdelta⟩ := getElem?_of_lt c.deltaUff_ k (by omega)
      refine ⟨u + learningRate • deltaUff, ?_, ?_⟩
      · show (indexAt c.deltaUff_ k).bind _ = _
        rw [indexAt_of_getElem? _ _ _ hdelta, bind_ok]
      · intro d2 hd2
        rw [hdelta] at hd2
        rw [Option.some.inj hd2])
  refine ⟨{ c with uff_ := uff }, ?_, rfl, rfl, rfl, h1, ?_, ?_⟩
  · unfold lineSearchWorker_increment
    rw [hrun, bind_ok]
  · intro k u deltaUff hk hu1 hd1
    obtain ⟨y, hy, hQ⟩ := h2 k u (Nat.zero_le k) (by omega) hu1
    rw [hQ deltaUff hd1] at hy
    exact hy
  · intro k hk
    exact h3 k (Or.inr (by omega))

/-- A zero learning rate leaves a well-formed controller as it is. -/
theorem spec_incremented_zero {n m : Nat} (c c1 : Controller α n m)
    (hu : c.time_.length ≤ c.uff_.length) (hd : c.time_.length ≤ c.deltaUff_.length)
    (h : spec_incremented 0 c c1) : c1 = c := by
  obtain ⟨h1, h2, h3, h4, h5, h6⟩ := h
  have huff : c1.uff_ = c.uff_ := by
    apply List.ext_getElem?
    intro k
    by_cases hk : k < c.time_.length
    · obtain ⟨u, hu1⟩ := getElem?_of_lt c.uff_ k (by omega)
      obtain ⟨deltaUff, hd1⟩ := getElem?_of_lt c.deltaUff_ k (by omega)
      rw [h5 k u deltaUff hk hu1 hd1, hu1, zero_smul, add_zero]
    · exact h6 k (by omega)
  cases c
  cases c1
  simp only [Controller.mk.injEq]
  exact ⟨h1, h2, huff, h3⟩

/-- The increments of `lineSearchWorker` on a stock of well-formed controllers. -/
theorem lineSearchWorker_controllers_spec {n m : Nat} (learningRate : α)
    (numPartitions_ : Nat) (stock : List (Controller α n m))
    (hlen : numPartitions_ ≤ stock.length)
    (hwf : ∀ i c, i < numPartitions_ → stock[i]? = some c →
      c.time_.length ≤ c.uff_.length ∧ c.time_.length ≤ c.deltaUff_.length) :
    ∃ stock1, lineSearchWorker_controllers learningRate numPartitions_ stock = .ok stock1 ∧
      stock1.length = stock.length ∧
      (∀ i c, i < numPartitions_ → stock[i]? = some c →
        ∃ c1, stock1[i]? = some c1 ∧ spec_incremented learningRate c c1) ∧
      (∀ i, numPartitions_ ≤ i → stock1[i]? = stock[i]?) := by
  obtain ⟨stock1, hrun, h1, h2, h3⟩ := forRange_updateAt
    (fun _ (c : Controller α n m) => lineSearchWorker_increment learningRate c)
    (fun _ c c1 => spec_incremented learningRate c c1)
    numPartitions_ 0 stock (by omega)
    (by
      intro i c _ hi hc
      obtain ⟨q1, q2⟩ := hwf i c (by omega) hc
      exact lineSearchWorker_increment_spec learningRate c q1 q2)
  refine ⟨stock1, hrun, h1, fun i c hi hc => h2 i c (Nat.zero_le i) (by omega) hc,
    fun i hi => h3 i (Or.inr (by omega))⟩

theorem lineSearchWorker_constraints_controllers {n m : Nat} (L : LineSearchModel α n m)
    (M : LineSearchMembers α n) (trajectories : List (PartitionTrajectory α n m))
    (out : LineSearchOutput α n m)
    (oc : LineSearchOutput α n m × List (ConstraintTrajectory α m))
    (h : lineSearchWorker_constraints L M trajectories out = .ok oc) :
    oc.1.lsControllersStock = out.lsControllersStock := by
  unfold lineSearchWorker_constraints at h
  simp only [] at h
  split at h
  · obtain ⟨cs, -, h⟩ := bind_eq_ok _ _ _ h
    rw [← Except.ok.inj h]
  · rw [← Except.ok.inj h]

/-- After the increment of the controllers, `lineSearchWorker` returns: with the outputs
of the `try` block when it does not throw, and with `lsTotalCost` equal to
`std::numeric_limits<scalar_t>::max()` when it throws; the controllers are those after the
increment in both cases. -/
theorem lineSearchWorker_returns {n m : Nat} (L : LineSearchModel α n m)
    (settings : SLQ_Settings α) (M : LineSearchMembers α n) (learningRate : α)
    (ls : LineSearchOutput α n m) (stock : List (Controller α n m))
    (hstock : lineSearchWorker_controllers learningRate M.numPartitions_
      ls.lsControllersStock = .ok stock) :
    ∃ out, lineSearchWorker L settings M learningRate ls = .ok out ∧
      out.lsControllersStock = stock ∧
      ((∃ e, lineSearchWorker_try L settings M { ls with lsControllersStock := stock }
          = .error e) → out.lsTotalCost = L.scalarMax) ∧
      (∀ o, lineSearchWorker_try L settings M { ls with lsControllersStock := stock }
          = .ok o → out = o) := by
  unfold lineSearchWorker lineSearchWorker_try
  rw [hstock, bind_ok]
  simp only []
  cases hroll : rolloutTrajectory L.toTimeTriggeredModel M.initActivePartition_
      M.finalActivePartition_ M.blockwiseMovingHorizon_ M.initTime_ M.initState_ M.finalTime_
      M.partitioningTimes_ stock with
  | error e =>
    refine ⟨_, rfl, rfl, fun _ => rfl, fun o ho => ?_⟩
    cases ho
  | ok r =>
    simp only [bind_ok]
    cases hcons : lineSearchWorker_constraints L M r.2
        { ls with lsControllersStock := stock, lsTrajectoriesStock := some r.2 } with
    | error e =>
      refine ⟨_, rfl, rfl, fun _ => rfl, fun o ho => ?_⟩
      cases ho
    | ok oc =>
      have hkeep := lineSearchWorker_constraints_controllers L M r.2 _ oc hcons
      simp only [bind_ok]
      cases hcost : lineSearchWorker_cost L settings M r.2 oc.1 oc.2 with
      | error e =>
        refine ⟨_, rfl, hkeep, fun _ => rfl, fun o ho => ?_⟩
        cases ho
      | ok cost =>
        refine ⟨_, rfl, hkeep, fun h => ?_, fun o ho => ?_⟩
        · obtain ⟨e, he⟩ := h
          cases he
        · exact Except.ok.inj ho

/-- C13: on a controllers stock with a controller for every partition, each with at least
as many inputs and increments as time stamps, `lineSearchWorker` returns, whether its
rollout and evaluations throw or not, and the controllers it leaves are the incoming ones
after `uff[k] <- uff[k] + learningRate * deltaUff[k]` at every time index of every
partition: time stamps, gains and increments are unchanged, controllers past
`numPartitions_` are untouched, and a zero learning rate leaves the stock as it was. -/
theorem lineSearchWorker_controllers_only {n m : Nat} (L : LineSearchModel α n m)
    (settings : SLQ_Settings α) (M : LineSearchMembers α n) (learningRate : α)
    (ls : LineSearchOutput α n m)
    (hlen : M.numPartitions_ ≤ ls.lsControllersStock.length)
    (hwf : ∀ i c, i < M.numPartitions_ → ls.lsControllersStock[i]? = some c →
      c.time_.length ≤ c.uff_.length ∧ c.time_.length ≤ c.deltaUff_.length) :
    ∃ out, lineSearchWorker L settings M learningRate ls = .ok out ∧
      out.lsControllersStock.length = ls.lsControllersStock.length ∧
      (∀ i c, i < M.numPartitions_ → ls.lsControllersStock[i]? = some c →
        ∃ c1, out.lsControllersStock[i]? = some c1 ∧ spec_incremented learningRate c c1) ∧
      (∀ i, M.numPartitions_ ≤ i →
        out.lsControllersStock[i]? = ls.lsControllersStock[i]?) ∧
      (learningRate = 0 → out.lsControllersStock = ls.lsControllersStock) := by
  obtain ⟨stock, hstock, h1, h2, h3⟩ := lineSearchWorker_controllers_spec learningRate
    M.numPartitions_ ls.lsControllersStock hlen hwf
  obtain ⟨out, hout, hcontrollers, -, -⟩ := lineSearchWorker_returns L settings M learningRate
    ls stock hstock
  refine ⟨out, hout, ?_, ?_, ?_, ?_⟩
  · rw [hcontrollers]
    exact h1
  · rw [hcontrollers]
    exact h2
  · rw [hcontrollers]
    exact h3
  · intro hzero
    rw [hcontrollers]
    apply List.ext_getElem?
    intro i
    by_cases hi : i < M.numPartitions_
    · obtain ⟨c, hc⟩ := getElem?_of_lt ls.lsControllersStock i (by omega)
      obtain ⟨c1, hc1, hspec⟩ := h2 i c hi hc
      rw [hzero] at hspec
      obtain ⟨q1, q2⟩ := hwf i c hi hc
      rw [hc1, hc, spec_incremented_zero c c1 q1 q2 hspec]
    · exact h3 i (by omega)

/-! ## A line search in which one candidate diverges and another overflows -/

theorem divergingModel_controllers (learningRate : ℚ) :
    lineSearchWorker_controllers learningRate searchMembers.numPartitions_
        searchArguments.lsControllersStock
      = .ok [⟨[0], [0], [fun _ => learningRate * 2], [fun _ => 2]⟩] := by
  have hsum : ((fun _ => 0 : Fin 1 → ℚ) + learningRate • (fun _ => 2 : Fin 1 → ℚ))
      = fun _ => learningRate * 2 := by
    funext j
    simp
  simp [lineSearchWorker_controllers, searchMembers, searchArguments, forRange, updateAt,
    lineSearchWorker_increment, indexAt, Except.bind, hsum]

theorem sizeMinusOne_two : sizeMinusOne 2 = 1 := by
  unfold sizeMinusOne
  norm_num

theorem divergingModel_index (t : ℚ) (h0 : 0 ≤ t) (h1 : t ≤ 1) :
    findActivePartitionIndex divergingModel.toTimeTriggeredModel [0, 1] t true = .ok 0 := by
  have hlook : findActivePartitionIndex_lookup divergingModel.toTimeTriggeredModel [0, 1] t
      true = 0 := by
    have h2 : ¬ t < 0 := not_lt.mpr h0
    have h3 : decide ((1 : ℚ) < t) = false := by simp [h1]
    simp [findActivePartitionIndex_lookup, divergingModel, holdModel, List.filter, h2, h3]
    split <;> simp
  rw [findActivePartitionIndex_eq, hlook]
  simp [sizeMinusOne_two, toSize]

theorem divergingModel_worker_ok (x : Fin 1 → ℚ) :
    rolloutTimeTriggeredWorker divergingModel.toTimeTriggeredModel 0 0 0 0 x 1
        ⟨[0], [0], [fun _ => 1], [fun _ => 2]⟩
      = .ok (x, ⟨[0, 1], [], [x, x], [0, 0]⟩) := by
  have hs1 : sizeMinusOne 1 = 0 := by decide
  have ht0 : toSize 0 = 0 := by decide
  have h10 : ¬ ((1 : ℚ) < 0) := by norm_num
  have hd10 : decide ((1 : ℚ) < 0) = false := by norm_num
  have hd01 : decide ((0 : ℚ) < 1) = true := by norm_num
  simp [h10, hd10, hd01, rolloutTimeTriggeredWorker, rolloutTimeTriggeredWorker_loop,
    rolloutTimeTriggeredWorker_pass, rolloutTimeTriggeredWorker_simulate,
    rolloutTimeTriggeredWorker_jump, divergingModel, holdModel, hs1, ht0, Controller.empty,
    Except.bind, Except.map, List.filter]

theorem divergingModel_worker_throws (x : Fin 1 → ℚ) :
    ∃ e, rolloutTimeTriggeredWorker divergingModel.toTimeTriggeredModel 0 0 0 0 x 1
        ⟨[0], [0], [fun _ => 2], [fun _ => 2]⟩ = .error e := by
  have hs1 : sizeMinusOne 1 = 0 := by decide
  have ht0 : toSize 0 = 0 := by decide
  have h10 : ¬ ((1 : ℚ) < 0) := by norm_num
  have hd10 : decide ((1 : ℚ) < 0) = false := by norm_num
  have hd01 : decide ((0 : ℚ) < 1) = true := by norm_num
  simp [h10, hd10, hd01, rolloutTimeTriggeredWorker, rolloutTimeTriggeredWorker_loop,
    rolloutTimeTriggeredWorker_pass, rolloutTimeTriggeredWorker_simulate,
    rolloutTimeTriggeredWorker_jump, divergingModel, holdModel, hs1, ht0, Controller.empty,
    Except.bind, Except.map, List.filter]

theorem divergingModel_rollout_ok :
    rolloutTrajectory divergingModel.toTimeTriggeredModel 0 0 false 0 (fun _ => 0) 1 [0, 1]
        [⟨[0], [0], [fun _ => 1], [fun _ => 2]⟩]
      = .ok (1 / 2, [⟨[0, 1], [], [fun _ => 0, fun _ => 0], [0, 0]⟩]) := by
  have hi0 := divergingModel_index 0 (le_refl 0) zero_le_one
  have hi1 := divergingModel_index 1 zero_le_one (le_refl 1)
  have hp : rolloutTrajectory_pass divergingModel.toTimeTriggeredModel 0 0 false 1 [0, 1]
      [⟨[0], [0], [fun _ => 1], [fun _ => 2]⟩] 0 0 ⟨0, fun _ => 0, 0, []⟩ 0
      = .ok ⟨1, fun _ => 0, 2, [⟨[0, 1], [], [fun _ => 0, fun _ => 0], [0, 0]⟩]⟩ := by
    simp [rolloutTrajectory_pass, indexAt, divergingModel_worker_ok, Except.bind]
  unfold rolloutTrajectory
  simp only [List.length_cons, List.length_nil, sizeMinusOne_two, hi0, hi1, Except.bind,
    rolloutTrajectory_loop, hp]
  norm_num [sizeMinusOne_two]

theorem divergingModel_rollout_throws :
    ∃ e, rolloutTrajectory divergingModel.toTimeTriggeredModel 0 0 false 0 (fun _ => 0) 1
        [0, 1] [⟨[0], [0], [fun _ => 2], [fun _ => 2]⟩] = .error e := by
  have hi0 := divergingModel_index 0 (le_refl 0) zero_le_one
  have hi1 := divergingModel_index 1 zero_le_one (le_refl 1)
  obtain ⟨e, he⟩ := divergingModel_worker_throws (fun _ => 0)
  have hp : rolloutTrajectory_pass divergingModel.toTimeTriggeredModel 0 0 false 1 [0, 1]
      [⟨[0], [0], [fun _ => 2], [fun _ => 2]⟩] 0 0 ⟨0, fun _ => 0, 0, []⟩ 0
      = .error e := by
    simp [rolloutTrajectory_pass, indexAt, he, Except.bind]
  unfold rolloutTrajectory
  simp only [List.length_cons, List.length_nil, sizeMinusOne_two, hi0, hi1, Except.bind,
    rolloutTrajectory_loop, hp]
  norm_num [sizeMinusOne_two]

theorem divergingModel_cost (out : LineSearchOutput ℚ 1 1) (h : out.lsConstraint2ISE = 0) :
    lineSearchWorker_cost divergingModel psdSettings searchMembers
        [⟨[0, 1], [], [fun _ => 0, fun _ => 0], [0, 0]⟩] out [⟨[], [], [], [], [], []⟩]
      = .ok overflowCost := by
  simp [lineSearchWorker_cost, calculateRolloutCost_constrained, calculateRolloutCost,
    calculateCostWorker, calculateCostWorker_pass, forRange, indexAt, Except.bind,
    divergingModel, searchMembers, psdSettings, zeroModel, stateConstraintPenalty, h]

theorem divergingModel_try_ok :
    lineSearchWorker_try divergingModel psdSettings searchMembers
        { searchArguments with
          lsControllersStock := [⟨[0], [0], [fun _ => 1], [fun _ => 2]⟩] }
      = .ok { searchArguments with
              lsControllersStock := [⟨[0], [0], [fun _ => 1], [fun _ => 2]⟩],
              lsTrajectoriesStock := some [⟨[0, 1], [], [fun _ => 0, fun _ => 0], [0, 0]⟩],
              lsTotalCost := overflowCost } := by
  unfold lineSearchWorker_try
  have hr : rolloutTrajectory divergingModel.toTimeTriggeredModel
      searchMembers.initActivePartition_ searchMembers.finalActivePartition_
      searchMembers.blockwiseMovingHorizon_ searchMembers.initTime_ searchMembers.initState_
      searchMembers.finalTime_ searchMembers.partitioningTimes_
      [⟨[0], [0], [fun _ => 1], [fun _ => 2]⟩]
      = .ok (1 / 2, [⟨[0, 1], [], [fun _ => 0, fun _ => 0], [0, 0]⟩]) :=
    divergingModel_rollout_ok
  simp only []
  rw [hr, bind_ok]
  have hISE : searchMembers.lsComputeISEs_ = false := rfl
  have hN : searchMembers.numPartitions_ = 1 := rfl
  simp only [lineSearchWorker_constraints, hISE, hN, Bool.false_eq_true, if_false,
    bind_ok, List.replicate]
  rw [divergingModel_cost _ rfl, bind_ok]
  rfl

theorem divergingModel_try_throws :
    ∃ e, lineSearchWorker_try divergingModel psdSettings searchMembers
        { searchArguments with
          lsControllersStock := [⟨[0], [0], [fun _ => 2], [fun _ => 2]⟩] }
      = .error e := by
  unfold lineSearchWorker_try
  apply bind_error_left
  exact divergingModel_rollout_throws

/-- C12 (as amended): on a controllers stock with a controller for every partition, each
with at least as many inputs and increments as time stamps, `lineSearchWorker` never
propagates an exception of its `try` block (rollout, constraints, cost): it returns, with
the outputs of the `try` block when nothing throws and otherwise with `lsTotalCost` equal
to `std::numeric_limits<scalar_t>::max()`, the largest finite scalar. -/
theorem lineSearchWorker_catches {n m : Nat} (L : LineSearchModel α n m)
    (settings : SLQ_Settings α) (M : LineSearchMembers α n) (learningRate : α)
    (ls : LineSearchOutput α n m)
    (hlen : M.numPartitions_ ≤ ls.lsControllersStock.length)
    (hwf : ∀ i c, i < M.numPartitions_ → ls.lsControllersStock[i]? = some c →
      c.time_.length ≤ c.uff_.length ∧ c.time_.length ≤ c.deltaUff_.length) :
    ∃ stock out,
      lineSearchWorker_controllers learningRate M.numPartitions_ ls.lsControllersStock
        = .ok stock ∧
      lineSearchWorker L settings M learningRate ls = .ok out ∧
      ((∃ e, lineSearchWorker_try L settings M { ls with lsControllersStock := stock }
          = .error e) → out.lsTotalCost = L.scalarMax) ∧
      (∀ o, lineSearchWorker_try L settings M { ls with lsControllersStock := stock }
          = .ok o → out = o) := by
  obtain ⟨stock, hstock, -, -, -⟩ := lineSearchWorker_controllers_spec learningRate
    M.numPartitions_ ls.lsControllersStock hlen hwf
  obtain ⟨out, hout, -, hthrow, hreturn⟩ := lineSearchWorker_returns L settings M learningRate
    ls stock hstock
  exact ⟨stock, out, hstock, hout, hthrow, hreturn⟩

theorem searchArguments_wellFormed :
    searchMembers.numPartitions_ ≤ searchArguments.lsControllersStock.length ∧
    ∀ i c, i < searchMembers.numPartitions_ → searchArguments.lsControllersStock[i]? = some c →
      c.time_.length ≤ c.uff_.length ∧ c.time_.length ≤ c.deltaUff_.length := by
  refine ⟨Nat.le_refl 1, ?_⟩
  intro i c hi hc
  have hi0 : i = 0 := by
    have : i < 1 := hi
    omega
  subst hi0
  have hc0 : c = ⟨[0], [0], [fun _ => 0], [fun _ => 2]⟩ := (Option.some.inj hc).symm
  rw [hc0]
  exact ⟨Nat.le_refl 1, Nat.le_refl 1⟩

theorem lineSearchWorker_catches_witness :
    ∃ out, lineSearchWorker divergingModel psdSettings searchMembers 1 searchArguments
        = .ok out ∧ out.lsTotalCost = doubleMax := by
  obtain ⟨stock, out, hstock, hout, hthrow, -⟩ := lineSearchWorker_catches divergingModel
    psdSettings searchMembers 1 searchArguments searchArguments_wellFormed.1
    searchArguments_wellFormed.2
  refine ⟨out, hout, hthrow ?_⟩
  rw [divergingModel_controllers 1] at hstock
  rw [← Except.ok.inj hstock]
  norm_num
  exact divergingModel_try_throws

/-- C12 (as stated) fails: the score of a candidate whose rollout throws is the largest
finite scalar, not `+infinity`. In the line search of `divergingModel` the candidate with
learning rate 1 throws in its rollout and gets `doubleMax`, while the candidate with
learning rate 1/2 returns from the `try` block and reports the cost `2^1024`, which is
greater (and is `+infinity` in floating point). -/
theorem lineSearchWorker_catches_counterexample :
    ∃ failed passed,
      lineSearchWorker divergingModel psdSettings searchMembers 1 searchArguments
        = .ok failed ∧
      (∃ e, lineSearchWorker_try divergingModel psdSettings searchMembers
        { searchArguments with
          lsControllersStock := [⟨[0], [0], [fun _ => 2], [fun _ => 2]⟩] } = .error e) ∧
      lineSearchWorker divergingModel psdSettings searchMembers (1 / 2) searchArguments
        = .ok passed ∧
      lineSearchWorker_try divergingModel psdSettings searchMembers
        { searchArguments with
          lsControllersStock := [⟨[0], [0], [fun _ => 1], [fun _ => 2]⟩] } = .ok passed ∧
      failed.lsTotalCost = doubleMax ∧ passed.lsTotalCost = overflowCost ∧
      failed.lsTotalCost < passed.lsTotalCost := by
  have hs1 : lineSearchWorker_controllers 1 searchMembers.numPartitions_
      searchArguments.lsControllersStock
      = .ok [⟨[0], [0], [fun _ => 2], [fun _ => 2]⟩] := by
    rw [divergingModel_controllers 1]
    norm_num
  have hs2 : lineSearchWorker_controllers (1 / 2) searchMembers.numPartitions_
      searchArguments.lsControllersStock
      = .ok [⟨[0], [0], [fun _ => 1], [fun _ => 2]⟩] := by
    rw [divergingModel_controllers (1 / 2)]
    norm_num
  obtain ⟨failed, hf, -, hthrow, -⟩ := lineSearchWorker_returns divergingModel psdSettings
    searchMembers 1 searchArguments _ hs1
  obtain ⟨passed, hp, -, -, hreturn⟩ := lineSearchWorker_returns divergingModel psdSettings
    searchMembers (1 / 2) searchArguments _ hs2
  have hfailed : failed.lsTotalCost = doubleMax := hthrow divergingModel_try_throws
  have hpassed := hreturn _ divergingModel_try_ok
  have hcost : passed.lsTotalCost = overflowCost := by rw [hpassed]
  refine ⟨failed, passed, hf, divergingModel_try_throws, hp, ?_, hfailed, hcost, ?_⟩
  · rw [hpassed]
    exact divergingModel_try_ok
  · rw [hfailed, hcost]
    unfold doubleMax overflowCost
    have h : (0 : ℚ) < 2 ^ 971 := by positivity
    linarith

theorem lineSearchWorker_controllers_only_witness :
    ∃ out, lineSearchWorker divergingModel psdSettings searchMembers (1 / 2) searchArguments
        = .ok out ∧
      ∃ c1, out.lsControllersStock[0]? = some c1 ∧
        c1.uff_[0]? = some ((fun _ => 0 : Fin 1 → ℚ) + (1 / 2 : ℚ) • (fun _ => 2 : Fin 1 → ℚ))
        ∧ c1.time_ = [0] := by
  obtain ⟨out, hout, -, hinc, -, -⟩ := lineSearchWorker_controllers_only divergingModel
    psdSettings searchMembers (1 / 2) searchArguments searchArguments_wellFormed.1
    searchArguments_wellFormed.2
  obtain ⟨c1, hc1, h1, -, -, -, h5, -⟩ := hinc 0 ⟨[0], [0], [fun _ => 0], [fun _ => 2]⟩
    (by decide) rfl
  exact ⟨out, hout, c1, hc1, h5 0 (fun _ => 0) (fun _ => 2) (by decide) rfl rfl, h1⟩

/-! ## `takeStep` -/

/-- What a call of the loop of `takeStep` that is entered with the step size
`alpha_decay ^ i` returns: either the outcome of the first accepted trial `k >= i`, every
step size tried after the first being at least `alpha_min`, or the zero step after the
trial whose successor falls below `alpha_min`. -/
theorem takeStep_loop_returns (sqrt : α → α)
    (computePerformance : List (List α) → List (List α) → PerformanceIndex α)
    (settings : MultipleShootingSettings α) (baseline : PerformanceIndex α)
    (subproblemSolution : OcpSubproblemSolution α) (x u : List (List α)) (fuel : Nat) :
    ∀ (i : Nat) (r : StepOutcome α),
      takeStep_loop sqrt computePerformance settings baseline subproblemSolution x u fuel
        (settings.alpha_decay ^ i) = some r →
      ∃ k, i ≤ k ∧ k < i + fuel ∧
        (∀ j, i ≤ j → j < k → (takeStep_trial sqrt computePerformance settings baseline
          subproblemSolution x u (settings.alpha_decay ^ j)).stepAccepted = false) ∧
        (∀ j, i < j → j ≤ k → settings.alpha_decay ^ j ≥ settings.alpha_min) ∧
        (((takeStep_trial sqrt computePerformance settings baseline subproblemSolution x u
            (settings.alpha_decay ^ k)).stepAccepted = true ∧
          r = takeStep_accepted sqrt subproblemSolution
            (takeStep_trial sqrt computePerformance settings baseline subproblemSolution x u
              (settings.alpha_decay ^ k)) (settings.alpha_decay ^ k)) ∨
         ((takeStep_trial sqrt computePerformance settings baseline subproblemSolution x u
            (settings.alpha_decay ^ k)).stepAccepted = false ∧
          settings.alpha_decay ^ (k + 1) < settings.alpha_min ∧
          r = takeStep_zero sqrt baseline x u)) := by
  induction fuel with
  | zero =>
    intro i r h
    cases h
  | succ fuel ih =>
    intro i r h
    unfold takeStep_loop at h
    by_cases hacc : (takeStep_trial sqrt computePerformance settings baseline
        subproblemSolution x u (settings.alpha_decay ^ i)).stepAccepted = true
    · rw [if_pos hacc] at h
      refine ⟨i, Nat.le_refl i, by omega, fun j h1 h2 => by omega, fun j h1 h2 => by omega,
        Or.inl ⟨hacc, (Option.some.inj h).symm⟩⟩
    · rw [if_neg hacc] at h
      have hrej : (takeStep_trial sqrt computePerformance settings baseline
          subproblemSolution x u (settings.alpha_decay ^ i)).stepAccepted = false := by
        cases hx : (takeStep_trial sqrt computePerformance settings baseline
          subproblemSolution x u (settings.alpha_decay ^ i)).stepAccepted with
        | true => exact absurd hx hacc
        | false => rfl
      rw [← pow_succ] at h
      by_cases hmin : settings.alpha_decay ^ (i + 1) ≥ settings.alpha_min
      · rw [if_pos hmin] at h
        obtain ⟨k, hk1, hk2, hrejs, hmins, hres⟩ := ih (i + 1) r h
        refine ⟨k, by omega, by omega, fun j h1 h2 => ?_, fun j h1 h2 => ?_, hres⟩
        · by_cases hji : j = i
          · rw [hji]
            exact hrej
          · exact hrejs j (by omega) h2
        · by_cases hji : j = i + 1
          · rw [hji]
            exact hmin
          · exact hmins j (by omega) h2
      · rw [if_neg hmin] at h
        refine ⟨i, Nat.le_refl i, by omega, fun j h1 h2 => by omega, fun j h1 h2 => by omega,
          Or.inr ⟨hrej, lt_of_not_ge hmin, (Option.some.inj h).symm⟩⟩

/-- With a decay factor below 1 and a positive `alpha_min` the loop of `takeStep` returns
when it is given enough passes. -/
theorem takeStep_loop_terminates (sqrt : α → α)
    (computePerformance : List (List α) → List (List α) → PerformanceIndex α)
    (settings : MultipleShootingSettings α) (baseline : PerformanceIndex α)
    (subproblemSolution : OcpSubproblemSolution α) (x u : List (List α))
    (h0 : 0 ≤ settings.alpha_decay) (h1 : settings.alpha_decay ≤ 1) (n : Nat) :
    ∀ i, settings.alpha_decay ^ (i + n) < settings.alpha_min →
      ∃ r, takeStep_loop sqrt computePerformance settings baseline subproblemSolution x u
        (n + 1) (settings.alpha_decay ^ i) = some r := by
  induction n with
  | zero =>
    intro i hlt
    unfold takeStep_loop
    split
    · exact ⟨_, rfl⟩
    · rw [← pow_succ]
      have hle : settings.alpha_decay ^ (i + 1) ≤ settings.alpha_decay ^ i :=
        pow_le_pow_of_le_one h0 h1 (Nat.le_succ i)
      have hnot : ¬ settings.alpha_decay ^ (i + 1) ≥ settings.alpha_min := by
        rw [Nat.add_zero] at hlt
        exact not_le.mpr (lt_of_le_of_lt hle hlt)
      rw [if_neg hnot]
      exact ⟨_, rfl⟩
  | succ n ih =>
    intro i hlt
    unfold takeStep_loop
    split
    · exact ⟨_, rfl⟩
    · rw [← pow_succ]
      split
      · exact ih (i + 1) (by
          have he : i + 1 + n = i + (n + 1) := by omega
          rw [he]
          exact hlt)
      · exact ⟨_, rfl⟩

/-- An accepted trial with a positive step size has a smaller merit or a smaller constraint
violation than the baseline, and is not of type `CONSTRAINT` when the baseline violation is
zero. -/
theorem takeStep_accept_improves (settings : MultipleShootingSettings α)
    (baseline performanceNew : PerformanceIndex α)
    (baselineConstraintViolation armijoDescentMetric alpha newConstraintViolation : α)
    (halpha : 0 < alpha) (hfactor : 0 < settings.armijoFactor) (hgamma : 0 ≤ settings.gamma_c)
    (hbase : 0 ≤ baselineConstraintViolation) (hnew : 0 ≤ newConstraintViolation)
    (hacc : (takeStep_accept settings baseline baselineConstraintViolation
      armijoDescentMetric alpha performanceNew newConstraintViolation).2 = true) :
    (performanceNew.merit < baseline.merit ∨
      newConstraintViolation < baselineConstraintViolation) ∧
    (baselineConstraintViolation = 0 →
      (takeStep_accept settings baseline baselineConstraintViolation armijoDescentMetric
        alpha performanceNew newConstraintViolation).1 ≠ StepType.CONSTRAINT) := by
  have hmix : (1 - settings.gamma_c) * baselineConstraintViolation
      ≤ baselineConstraintViolation := by
    have := mul_nonneg hgamma hbase
    linarith
  unfold takeStep_accept at hacc ⊢
  split at hacc
  · have hlt := of_decide_eq_true hacc
    rename_i hhigh
    rw [if_pos hhigh]
    refine ⟨Or.inr (lt_of_lt_of_le hlt hmix), fun h0 => ?_⟩
    rw [h0, mul_zero] at hlt
    exact absurd hlt (not_lt.mpr hnew)
  · rename_i hhigh
    rw [if_neg hhigh]
    split at hacc
    · have hlt := of_decide_eq_true hacc
      rename_i hlow
      rw [if_pos hlow]
      refine ⟨Or.inl ?_, fun _ h => by cases h⟩
      have hneg : settings.armijoFactor * alpha * armijoDescentMetric < 0 :=
        mul_neg_of_pos_of_neg (mul_pos hfactor halpha) hlow.2.2
      linarith
    · rename_i hlow
      rw [if_neg hlow]
      refine ⟨?_, fun _ h => by cases h⟩
      rcases (Bool.or_eq_true _ _).mp hacc with h | h
      · have hlt := of_decide_eq_true h
        have := mul_nonneg hgamma hbase
        exact Or.inl (by linarith)
      · exact Or.inr (lt_of_lt_of_le (of_decide_eq_true h) hmix)

/-- C15: with a positive Armijo factor, `0 <= gamma_c <= 1` and a square root that is never
negative, every step that `takeStep` accepts (returned step size positive) reports a merit
strictly below the baseline merit or a total constraint violation strictly below the
baseline violation; and no step of type `CONSTRAINT` is accepted when the baseline
violation is zero. -/
theorem takeStep_accepted_improves (sqrt : α → α)
    (computePerformance : List (List α) → List (List α) → PerformanceIndex α)
    (settings : MultipleShootingSettings α) (baseline : PerformanceIndex α)
    (subproblemSolution : OcpSubproblemSolution α) (x u : List (List α)) (fuel : Nat)
    (r : StepOutcome α)
    (hsqrt : ∀ v, 0 ≤ sqrt v) (hfactor : 0 < settings.armijoFactor)
    (hgamma0 : 0 ≤ settings.gamma_c) (_hgamma1 : settings.gamma_c ≤ 1)
    (hrun : takeStep sqrt computePerformance settings baseline subproblemSolution x u fuel
      = some r)
    (hpos : 0 < r.stepInfo.stepSize) :
    (r.stepInfo.performanceAfterStep.merit < baseline.merit ∨
      totalConstraintViolation sqrt r.stepInfo.performanceAfterStep
        < totalConstraintViolation sqrt baseline) ∧
    (totalConstraintViolation sqrt baseline = 0 →
      r.stepInfo.stepType ≠ StepType.CONSTRAINT) := by
  unfold takeStep at hrun
  rw [← pow_zero settings.alpha_decay] at hrun
  obtain ⟨k, -, -, -, -, hres⟩ := takeStep_loop_returns sqrt computePerformance settings
    baseline subproblemSolution x u fuel 0 r hrun
  rcases hres with ⟨hacc, hr⟩ | ⟨-, -, hr⟩
  · rw [hr] at hpos ⊢
    exact takeStep_accept_improves settings baseline _ _ _ _ _ hpos hfactor hgamma0
      (hsqrt _) (hsqrt _) hacc
  · rw [hr] at hpos
    exact absurd hpos (lt_irrefl 0)

/-- C14 (as amended): in the Armijo branch of `takeStep` (negative descent metric, baseline
and full-step constraint violation below `g_min <= g_max`) the full step is accepted exactly
when its merit is below `baseline.merit + armijoFactor * armijoDescentMetric`; when it is,
`takeStep` returns the full step: step size 1, type `COST`, and the performance of the full
step. -/
theorem takeStep_full_step (sqrt : α → α)
    (computePerformance : List (List α) → List (List α) → PerformanceIndex α)
    (settings : MultipleShootingSettings α) (baseline : PerformanceIndex α)
    (subproblemSolution : OcpSubproblemSolution α) (x u : List (List α))
    (hmetric : subproblemSolution.armijoDescentMetric < 0)
    (hbase : totalConstraintViolation sqrt baseline < settings.g_min)
    (hnew : (takeStep_trial sqrt computePerformance settings baseline subproblemSolution
      x u 1).newConstraintViolation < settings.g_min)
    (hg : settings.g_min ≤ settings.g_max) :
    ((takeStep_trial sqrt computePerformance settings baseline subproblemSolution
        x u 1).stepAccepted = true ↔
      (takeStep_trial sqrt computePerformance settings baseline subproblemSolution
        x u 1).performanceNew.merit
        < baseline.merit + settings.armijoFactor * subproblemSolution.armijoDescentMetric) ∧
    ((takeStep_trial sqrt computePerformance settings baseline subproblemSolution
        x u 1).performanceNew.merit
        < baseline.merit + settings.armijoFactor * subproblemSolution.armijoDescentMetric →
      ∀ fuel, ∃ r, takeStep sqrt computePerformance settings baseline subproblemSolution x u
          (fuel + 1) = some r ∧
        r.stepInfo.stepSize = 1 ∧ r.stepInfo.stepType = StepType.COST ∧
        r.stepInfo.performanceAfterStep = (takeStep_trial sqrt computePerformance settings
          baseline subproblemSolution x u 1).performanceNew) := by
  have hhigh : ¬ (takeStep_trial sqrt computePerformance settings baseline
      subproblemSolution x u 1).newConstraintViolation > settings.g_max :=
    not_lt.mpr (le_trans (le_of_lt hnew) hg)
  have hbranch : takeStep_accept settings baseline (totalConstraintViolation sqrt baseline)
      subproblemSolution.armijoDescentMetric 1
      (takeStep_trial sqrt computePerformance settings baseline subproblemSolution
        x u 1).performanceNew
      (takeStep_trial sqrt computePerformance settings baseline subproblemSolution
        x u 1).newConstraintViolation
      = (StepType.COST, decide ((takeStep_trial sqrt computePerformance settings baseline
          subproblemSolution x u 1).performanceNew.merit
        < baseline.merit + settings.armijoFactor * 1
          * subproblemSolution.armijoDescentMetric)) := by
    unfold takeStep_accept
    rw [if_neg hhigh, if_pos ⟨hnew, hbase, hmetric⟩]
  have hacc : (takeStep_trial sqrt computePerformance settings baseline subproblemSolution
      x u 1).stepAccepted = decide ((takeStep_trial sqrt computePerformance settings baseline
          subproblemSolution x u 1).performanceNew.merit
        < baseline.merit + settings.armijoFactor * 1
          * subproblemSolution.armijoDescentMetric) :=
    congrArg Prod.snd hbranch
  have htype : (takeStep_trial sqrt computePerformance settings baseline subproblemSolution
      x u 1).stepType = StepType.COST :=
    congrArg Prod.fst hbranch
  rw [mul_one] at hacc
  refine ⟨?_, fun harmijo fuel => ?_⟩
  · rw [hacc, decide_eq_true_iff]
  · have htrue : (takeStep_trial sqrt computePerformance settings baseline
        subproblemSolution x u 1).stepAccepted = true := by
      rw [hacc]
      exact decide_eq_true harmijo
    have hrun : takeStep sqrt computePerformance settings baseline subproblemSolution x u
        (fuel + 1) = some (takeStep_accepted sqrt subproblemSolution
          (takeStep_trial sqrt computePerformance settings baseline subproblemSolution
            x u 1) 1) := by
      unfold takeStep takeStep_loop
      rw [if_pos htrue]
    exact ⟨_, hrun, rfl, htype, rfl⟩

theorem plainSqrt_nonneg (v : ℚ) : 0 ≤ plainSqrt v := le_max_right v 0

/-- The line search on the flat problem: the steps 1, 1/2 and 1/4 fail the Armijo test and
the step 1/8 passes it. -/
theorem flatPerformance_takeStep :
    takeStep plainSqrt flatPerformance armijoSettings armijoBaseline armijoSolution
        [[0]] [[0]] 4
      = some ⟨{ stepType := StepType.COST, stepSize := 1 / 8, dx_norm := 1 / 8,
                du_norm := 1 / 8, performanceAfterStep := ⟨99 / 10, 0, 0, 0⟩,
                totalConstraintViolationAfterStep := 0 }, [[1 / 8]], [[1 / 8]]⟩ := by
  simp [takeStep, takeStep_loop, takeStep_trial, takeStep_accept, takeStep_accepted,
    totalConstraintViolation, trajectoryNorm, plainSqrt, flatPerformance, armijoSettings,
    armijoBaseline, armijoSolution, addScaled]
  norm_num

/-- C14 (as stated) fails: on the flat problem the descent metric is negative, the baseline
and the full step have no constraint violation, and the full step has the merit 99/10,
strictly below the baseline merit 10; but it misses the Armijo bound
`10 + 1/2 * 1 * (-1)`, and `takeStep` returns the step size 1/8. -/
theorem takeStep_full_step_counterexample :
    armijoSolution.armijoDescentMetric < 0 ∧
    totalConstraintViolation plainSqrt armijoBaseline < armijoSettings.g_min ∧
    (takeStep_trial plainSqrt flatPerformance armijoSettings armijoBaseline armijoSolution
      [[0]] [[0]] 1).newConstraintViolation < armijoSettings.g_min ∧
    (takeStep_trial plainSqrt flatPerformance armijoSettings armijoBaseline armijoSolution
      [[0]] [[0]] 1).performanceNew.merit < armijoBaseline.merit ∧
    (takeStep_trial plainSqrt flatPerformance armijoSettings armijoBaseline armijoSolution
      [[0]] [[0]] 1).stepAccepted = false ∧
    ∃ r, takeStep plainSqrt flatPerformance armijoSettings armijoBaseline armijoSolution
        [[0]] [[0]] 4 = some r ∧ r.stepInfo.stepSize = 1 / 8 := by
  refine ⟨?_, ?_, ?_, ?_, ?_, _, flatPerformance_takeStep, rfl⟩
  · simp [armijoSolution]
  · simp [totalConstraintViolation, plainSqrt, armijoBaseline, armijoSettings]
  · simp [takeStep_trial, totalConstraintViolation, plainSqrt, flatPerformance,
      armijoSettings]
  · simp [takeStep_trial, flatPerformance, armijoBaseline]
    norm_num
  · simp [takeStep_trial, takeStep_accept, totalConstraintViolation, plainSqrt,
      flatPerformance, armijoSettings, armijoBaseline, armijoSolution]
    norm_num

theorem takeStep_full_step_witness :
    ∃ r, takeStep plainSqrt descentPerformance armijoSettings armijoBaseline armijoSolution
        [[0]] [[0]] 1 = some r ∧
      r.stepInfo.stepSize = 1 ∧ r.stepInfo.stepType = StepType.COST := by
  have h := takeStep_full_step plainSqrt descentPerformance armijoSettings armijoBaseline
    armijoSolution [[0]] [[0]] (by simp [armijoSolution])
    (by simp [totalConstraintViolation, plainSqrt, armijoBaseline, armijoSettings])
    (by simp [takeStep_trial, totalConstraintViolation, plainSqrt, descentPerformance,
      armijoSettings])
    (by simp [armijoSettings])
  obtain ⟨r, h1, h2, h3, -⟩ := h.2 (by
    simp [takeStep_trial, descentPerformance, armijoBaseline, armijoSettings,
      armijoSolution]
    norm_num) 0
  exact ⟨r, h1, h2, h3⟩

theorem takeStep_accepted_improves_witness :
    ∃ r, takeStep plainSqrt flatPerformance armijoSettings armijoBaseline armijoSolution
        [[0]] [[0]] 4 = some r ∧ 0 < r.stepInfo.stepSize ∧
      (r.stepInfo.performanceAfterStep.merit < armijoBaseline.merit ∨
        totalConstraintViolation plainSqrt r.stepInfo.performanceAfterStep
          < totalConstraintViolation plainSqrt armijoBaseline) := by
  have hpos : (0 : ℚ) < 1 / 8 := by norm_num
  exact ⟨_, flatPerformance_takeStep, hpos,
    (takeStep_accepted_improves plainSqrt flatPerformance armijoSettings armijoBaseline
      armijoSolution [[0]] [[0]] 4 _ plainSqrt_nonneg (by simp [armijoSettings])
      (by simp [armijoSettings]) (by simp [armijoSettings]; norm_num)
      flatPerformance_takeStep hpos).1⟩

/-- C24: `takeStep` tries the step sizes `1, d, d^2, ...` (`d = alpha_decay`) in this
order, the first always and each later one only when it is at least `alpha_min`. When it
returns, it has either accepted trial `k`, every earlier trial having been rejected, and
returns the step size `d^k` with `x` replaced by `x + d^k * dx`, every `u[i]` with a
non-empty `du[i]` replaced by `u[i] + d^k * du[i]` (an `u[i]` whose `du[i]` is empty is
replaced by the empty vector) and the performance of the trial; or it has rejected every
trial up to one whose successor is below `alpha_min`, and returns the step size 0 of type
`ZERO` with `x` and `u` unchanged and the baseline performance. For `0 <= d < 1` and
`alpha_min > 0` (scalars being Archimedean) it returns after finitely many trials. -/
theorem takeStep_first_accepted [Archimedean α] (sqrt : α → α)
    (computePerformance : List (List α) → List (List α) → PerformanceIndex α)
    (settings : MultipleShootingSettings α) (baseline : PerformanceIndex α)
    (subproblemSolution : OcpSubproblemSolution α) (x u : List (List α)) :
    (∀ fuel r, takeStep sqrt computePerformance settings baseline subproblemSolution x u fuel
        = some r →
      ∃ k, k < fuel ∧
        (∀ j, j < k → (takeStep_trial sqrt computePerformance settings baseline
          subproblemSolution x u (settings.alpha_decay ^ j)).stepAccepted = false) ∧
        (∀ j, 0 < j → j ≤ k → settings.alpha_decay ^ j ≥ settings.alpha_min) ∧
        (((takeStep_trial sqrt computePerformance settings baseline subproblemSolution x u
            (settings.alpha_decay ^ k)).stepAccepted = true ∧
          r.stepInfo.stepSize = settings.alpha_decay ^ k ∧
          r.x = List.zipWith (fun xi dxi => addScaled xi (settings.alpha_decay ^ k) dxi) x
            subproblemSolution.deltaXSol ∧
          r.u = List.zipWith (fun ui dui =>
              if dui.length > 0 then addScaled ui (settings.alpha_decay ^ k) dui else [])
            u subproblemSolution.deltaUSol ∧
          r.stepInfo.performanceAfterStep = computePerformance r.x r.u) ∨
         ((takeStep_trial sqrt computePerformance settings baseline subproblemSolution x u
            (settings.alpha_decay ^ k)).stepAccepted = false ∧
          settings.alpha_decay ^ (k + 1) < settings.alpha_min ∧
          r.stepInfo.stepSize = 0 ∧ r.stepInfo.stepType = StepType.ZERO ∧
          r.x = x ∧ r.u = u ∧ r.stepInfo.performanceAfterStep = baseline))) ∧
    (0 ≤ settings.alpha_decay → settings.alpha_decay < 1 → 0 < settings.alpha_min →
      ∃ fuel r, takeStep sqrt computePerformance settings baseline subproblemSolution x u fuel
        = some r) := by
  refine ⟨fun fuel r hrun => ?_, fun h0 h1 hmin => ?_⟩
  · unfold takeStep at hrun
    rw [← pow_zero settings.alpha_decay] at hrun
    obtain ⟨k, -, hk, hrej, hmins, hres⟩ := takeStep_loop_returns sqrt computePerformance
      settings baseline subproblemSolution x u fuel 0 r hrun
    refine ⟨k, by omega, fun j hj => hrej j (Nat.zero_le j) hj, hmins, ?_⟩
    rcases hres with ⟨hacc, hr⟩ | ⟨hrejk, hlt, hr⟩
    · left
      rw [hr]
      exact ⟨hacc, rfl, rfl, rfl, rfl⟩
    · right
      rw [hr]
      exact ⟨hrejk, hlt, rfl, rfl, rfl, rfl, rfl⟩
  · obtain ⟨n, hn⟩ := exists_pow_lt_of_lt_one hmin h1
    obtain ⟨r, hr⟩ := takeStep_loop_terminates sqrt computePerformance settings baseline
      subproblemSolution x u h0 (le_of_lt h1) n 0 (by rw [Nat.zero_add]; exact hn)
    rw [pow_zero] at hr
    exact ⟨n + 1, r, hr⟩

theorem takeStep_first_accepted_witness :
    ∃ r k, takeStep plainSqrt flatPerformance armijoSettings armijoBaseline armijoSolution
        [[0]] [[0]] 4 = some r ∧ k < 4 ∧
      (∀ j, j < k → (takeStep_trial plainSqrt flatPerformance armijoSettings armijoBaseline
        armijoSolution [[0]] [[0]] (armijoSettings.alpha_decay ^ j)).stepAccepted = false) ∧
      r.stepInfo.stepSize = 1 / 8 := by
  obtain ⟨k, hk, hrej, -, -⟩ := (takeStep_first_accepted plainSqrt flatPerformance
    armijoSettings armijoBaseline armijoSolution [[0]] [[0]]).1 4 _ flatPerformance_takeStep
  exact ⟨_, k, flatPerformance_takeStep, hk, hrej, rfl⟩

/-! ## Composition of rewinds and the rewind counter (C28, C29) -/

theorem foldl_length_of_step {β : Type} (step : List β → Nat → List β)
    (hlen : ∀ l i, (step l i).length = l.length) (is : List Nat) (l : List β) :
    (is.foldl step l).length = l.length := by
  induction is generalizing l with
  | nil => rfl
  | cons i is ih => rw [List.foldl_cons, ih, hlen]

/-- A list that holds `l[i + k]` below `l.length - k` and `z` from there on is `l` with its
first `k` entries dropped and `k` copies of `z` appended. -/
theorem eq_drop_append_replicate {β : Type} (r l : List β) (k : Nat) (z : β)
    (hk : k ≤ l.length) (hlen : r.length = l.length)
    (h1 : ∀ i, i < l.length - k → r[i]? = l[i + k]?)
    (h2 : ∀ i, l.length - k ≤ i → i < l.length → r[i]? = some z) :
    r = l.drop k ++ List.replicate k z := by
  apply List.ext_getElem?
  intro i
  by_cases hi : i < l.length - k
  · rw [h1 i hi, List.getElem?_append_left (by rw [List.length_drop]; exact hi),
      List.getElem?_drop, Nat.add_comm]
  · by_cases hil : i < l.length
    · rw [h2 i (by omega) hil, List.getElem?_append_right (by rw [List.length_drop]; omega),
        List.length_drop]
      exact (getElem?_replicate_lt k _ z (by omega)).symm
    · rw [List.getElem?_eq_none (by omega), List.getElem?_eq_none]
      rw [List.length_append, List.length_drop, List.length_replicate]
      omega

theorem assign_loop_eq {β : Type} (k : Nat) (z : β) (hk : 0 < k) (l : List β)
    (hkl : k ≤ l.length) :
    (List.range l.length).foldl
      (fun acc i => if i < l.length - k then assignAt acc i (k + i) else acc.set i z) l
      = l.drop k ++ List.replicate k z := by
  have h := assign_loop k (l.length - k) z hk l (by omega)
  refine eq_drop_append_replicate _ l k z hkl ?_ h.1 h.2
  apply foldl_length_of_step
  intro v i
  split <;> simp [assignAt_length]

theorem swap_loop_eq {β : Type} (k : Nat) (z : β) (hk : 0 < k) (l : List β)
    (hkl : k ≤ l.length) :
    (List.range l.length).foldl
      (fun acc i => if i < l.length - k then swapAt acc i (k + i) else acc.set i z) l
      = l.drop k ++ List.replicate k z := by
  have h := swap_loop k (l.length - k) z hk l (by omega)
  refine eq_drop_append_replicate _ l k z hkl ?_ h.1 h.2
  apply foldl_length_of_step
  intro v i
  split <;> simp [swapAt_length]

/-- A successful rewind by `k > 0` drops the first `k` entries of every stock, appends `k`
cleared ones and adds `k` to the counter. -/
theorem rewindOptimizer_eq {n m : Nat} (st : RewindState α n m) (k : Nat)
    (hC : st.nominalControllersStock_.length = st.numPartitions_)
    (hSm : st.SmFinalStock_.length = st.numPartitions_)
    (hSv : st.SvFinalStock_.length = st.numPartitions_)
    (hSve : st.SveFinalStock_.length = st.numPartitions_)
    (hs : st.sFinalStock_.length = st.numPartitions_)
    (hx : st.xFinalStock_.length = st.numPartitions_)
    (hk0 : 0 < k) (hkn : k ≤ st.numPartitions_) :
    rewindOptimizer k st = .ok
      { numPartitions_ := st.numPartitions_,
        rewindCounter_ := (st.rewindCounter_ + k) % 2 ^ 64,
        nominalControllersStock_ :=
          st.nominalControllersStock_.drop k ++ List.replicate k Controller.clear,
        SmFinalStock_ := st.SmFinalStock_.drop k ++ List.replicate k 0,
        SvFinalStock_ := st.SvFinalStock_.drop k ++ List.replicate k 0,
        SveFinalStock_ := st.SveFinalStock_.drop k ++ List.replicate k 0,
        sFinalStock_ := st.sFinalStock_.drop k ++ List.replicate k 0,
        xFinalStock_ := st.xFinalStock_.drop k ++ List.replicate k 0 } := by
  unfold rewindOptimizer
  rw [if_neg (by omega)]
  simp only
  rw [if_neg (by omega)]
  obtain ⟨p1, p2, p3, p4, p5, p6, p7, p8⟩ := rewindOptimizer_loop k (st.numPartitions_ - k)
    (List.range st.numPartitions_)
    { st with rewindCounter_ := (st.rewindCounter_ + k) % 2 ^ 64 }
  simp only at p1 p2 p3 p4 p5 p6 p7 p8
  have q1 := swap_loop_eq k Controller.clear hk0 st.nominalControllersStock_ (by omega)
  have q2 := assign_loop_eq k 0 hk0 st.SmFinalStock_ (by omega)
  have q3 := assign_loop_eq k 0 hk0 st.SvFinalStock_ (by omega)
  have q4 := assign_loop_eq k 0 hk0 st.SveFinalStock_ (by omega)
  have q5 := assign_loop_eq k 0 hk0 st.sFinalStock_ (by omega)
  have q6 := assign_loop_eq k 0 hk0 st.xFinalStock_ (by omega)
  rw [hC] at q1; rw [hSm] at q2; rw [hSv] at q3; rw [hSve] at q4; rw [hs] at q5; rw [hx] at q6
  rw [← q1, ← q2, ← q3, ← q4, ← q5, ← q6, ← p1, ← p2, ← p3, ← p4, ← p5, ← p6]
  congr 1
  generalize (List.range st.numPartitions_).foldl
    (rewindOptimizer_step k (st.numPartitions_ - k))
    { st with rewindCounter_ := (st.rewindCounter_ + k) % 2 ^ 64 } = r at p7 p8 ⊢
  cases r
  simp only at p7 p8
  subst p7 p8
  rfl

theorem drop_append_replicate_twice {β : Type} (l : List β) (a b : Nat) (z : β)
    (hab : a + b ≤ l.length) :
    (l.drop a ++ List.replicate a z).drop b ++ List.replicate b z
      = l.drop (a + b) ++ List.replicate (a + b) z := by
  rw [List.drop_append_of_le_length (by rw [List.length_drop]; omega), List.drop_drop,
    List.append_assoc, List.append_replicate_replicate]

theorem length_drop_append_replicate {β : Type} (l : List β) (a : Nat) (z : β)
    (ha : a ≤ l.length) : (l.drop a ++ List.replicate a z).length = l.length := by
  rw [List.length_append, List.length_drop, List.length_replicate]
  omega

/-- The counter after a rewind that returns. -/
theorem rewindOptimizer_counter {n m : Nat} (st s : RewindState α n m) (k : Nat)
    (h : rewindOptimizer k st = .ok s) :
    s.rewindCounter_ = (if k = 0 then st.rewindCounter_ else (st.rewindCounter_ + k) % 2 ^ 64) ∧
    s.numPartitions_ = st.numPartitions_ := by
  unfold rewindOptimizer at h
  by_cases hk : k = 0
  · rw [if_pos hk] at h
    cases h
    rw [if_pos hk]
    exact ⟨rfl, rfl⟩
  · rw [if_neg hk] at h
    simp only at h
    rw [if_neg hk]
    split at h
    · cases h
    · cases h
      obtain ⟨-, -, -, -, -, -, p7, p8⟩ := rewindOptimizer_loop k (st.numPartitions_ - k)
        (List.range st.numPartitions_)
        { st with rewindCounter_ := (st.rewindCounter_ + k) % 2 ^ 64 }
      exact ⟨p8, p7⟩

/-- The counter after a sequence of rewinds that all return. -/
theorem rewindOptimizer_sequence_counter {n m : Nat} (ks : List Nat)
    (st s : RewindState α n m) (h : rewindOptimizer_sequence ks st = .ok s)
    (hsum : st.rewindCounter_ + ks.sum < 2 ^ 64) :
    s.rewindCounter_ = st.rewindCounter_ + ks.sum := by
  induction ks generalizing st with
  | nil =>
    cases h
    simp
  | cons k ks ih =>
    unfold rewindOptimizer_sequence at h
    obtain ⟨s1, h1, h2⟩ := bind_eq_ok _ _ _ h
    obtain ⟨c1, -⟩ := rewindOptimizer_counter st s1 k h1
    rw [List.sum_cons] at hsum
    have hc : s1.rewindCounter_ = st.rewindCounter_ + k := by
      rw [c1]
      split
      · omega
      · exact Nat.mod_eq_of_lt (by omega)
    rw [ih s1 h2 (by omega), hc, List.sum_cons]
    omega

/-- The members at the end of a rewind that returns are the returned members, and at the
end of a rewind that throws they are the old ones with the counter increased. -/
theorem rewindOptimizer_members_eq {n m : Nat} (st : RewindState α n m) (k : Nat) :
    (∀ s, rewindOptimizer k st = .ok s → rewindOptimizer_members k st = s) ∧
    (k > st.numPartitions_ → rewindOptimizer_members k st
      = { st with rewindCounter_ := (st.rewindCounter_ + k) % 2 ^ 64 }) := by
  unfold rewindOptimizer rewindOptimizer_members
  by_cases hk : k = 0
  · rw [if_pos hk, if_pos hk]
    exact ⟨fun s h => (by cases h; rfl), fun h => (by omega)⟩
  · rw [if_neg hk, if_neg hk]
    simp only
    by_cases hn : k > st.numPartitions_
    · rw [if_pos hn, if_pos hn]
      exact ⟨fun s h => (by cases h), fun _ => rfl⟩
    · rw [if_neg hn, if_neg hn]
      exact ⟨fun s h => (by cases h; rfl), fun h => absurd h hn⟩

theorem rewindOptimizer_error_iff {n m : Nat} (st : RewindState α n m) (k : Nat) :
    (∃ e, rewindOptimizer k st = .error e) ↔ k > st.numPartitions_ := by
  unfold rewindOptimizer
  by_cases hk : k = 0
  · rw [if_pos hk]
    constructor
    · rintro ⟨e, h⟩; cases h
    · intro h; omega
  · rw [if_neg hk]
    simp only
    by_cases hn : k > st.numPartitions_
    · rw [if_pos hn]
      exact ⟨fun _ => hn, fun _ => ⟨_, rfl⟩⟩
    · rw [if_neg hn]
      constructor
      · rintro ⟨e, h⟩; cases h
      · intro h; exact absurd h hn

/-- C28. With every stock of length `n = numPartitions_` and `a + b <= n`,
`rewindOptimizer(a)` followed by `rewindOptimizer(b)` returns, and returns exactly the members
(controllers, `SmFinal`, `SvFinal`, `SveFinal`, `sFinal`, `xFinal`, rewind counter) that the
single call `rewindOptimizer(a + b)` returns; and after any sequence of rewinds that all
return, `getRewindCounter()` is the counter before the sequence plus the sum of the arguments
(as long as that sum fits the 64-bit counter). -/
theorem rewindOptimizer_compose {n m : Nat} (st : RewindState α n m) (a b : Nat)
    (hC : st.nominalControllersStock_.length = st.numPartitions_)
    (hSm : st.SmFinalStock_.length = st.numPartitions_)
    (hSv : st.SvFinalStock_.length = st.numPartitions_)
    (hSve : st.SveFinalStock_.length = st.numPartitions_)
    (hs : st.sFinalStock_.length = st.numPartitions_)
    (hx : st.xFinalStock_.length = st.numPartitions_)
    (hab : a + b ≤ st.numPartitions_) :
    (∃ s, rewindOptimizer (a + b) st = .ok s ∧
      (rewindOptimizer a st).bind (rewindOptimizer b) = .ok s) ∧
    (∀ ks s, rewindOptimizer_sequence ks st = .ok s →
      st.rewindCounter_ + ks.sum < 2 ^ 64 →
      getRewindCounter s = getRewindCounter st + ks.sum) := by
  refine ⟨?_, fun ks s h hsum => rewindOptimizer_sequence_counter ks st s h hsum⟩
  by_cases ha : a = 0
  · subst ha
    rw [Nat.zero_add]
    have h0 : rewindOptimizer 0 st = .ok st := rfl
    rw [h0, bind_ok]
    by_cases hb : b = 0
    · subst hb
      exact ⟨st, rfl, rfl⟩
    · exact ⟨_, rewindOptimizer_eq st b hC hSm hSv hSve hs hx (by omega) (by omega), 
        rewindOptimizer_eq st b hC hSm hSv hSve hs hx (by omega) (by omega)⟩
  · have h1 := rewindOptimizer_eq st a hC hSm hSv hSve hs hx (by omega) (by omega)
    by_cases hb : b = 0
    · subst hb
      rw [Nat.add_zero, h1, bind_ok]
      exact ⟨_, rfl, rfl⟩
    · have h2 := rewindOptimizer_eq st (a + b) hC hSm hSv hSve hs hx (by omega) hab
      rw [h1, bind_ok, h2]
      refine ⟨_, rfl, ?_⟩
      rw [rewindOptimizer_eq _ b
        (by simp only; rw [length_drop_append_replicate _ _ _ (by omega)]; exact hC)
        (by simp only; rw [length_drop_append_replicate _ _ _ (by omega)]; exact hSm)
        (by simp only; rw [length_drop_append_replicate _ _ _ (by omega)]; exact hSv)
        (by simp only; rw [length_drop_append_replicate _ _ _ (by omega)]; exact hSve)
        (by simp only; rw [length_drop_append_replicate _ _ _ (by omega)]; exact hs)
        (by simp only; rw [length_drop_append_replicate _ _ _ (by omega)]; exact hx)
        (by omega) (by simp only; omega)]
      simp only
      rw [drop_append_replicate_twice _ a b _ (by omega),
        drop_append_replicate_twice _ a b _ (by omega),
        drop_append_replicate_twice _ a b _ (by omega),
        drop_append_replicate_twice _ a b _ (by omega),
        drop_append_replicate_twice _ a b _ (by omega),
        drop_append_replicate_twice _ a b _ (by omega),
        Nat.mod_add_mod, Nat.add_assoc]

theorem rewindOptimizer_compose_witness :
    ∃ s, rewindOptimizer 2 rewindExample = .ok s ∧
      (rewindOptimizer 1 rewindExample).bind (rewindOptimizer 1) = .ok s ∧
      getRewindCounter s = 2 := by
  obtain ⟨⟨s, h1, h2⟩, h3⟩ := rewindOptimizer_compose rewindExample 1 1 rfl rfl rfl rfl rfl rfl
    (by decide)
  refine ⟨s, h1, h2, ?_⟩
  have hseq : rewindOptimizer_sequence [2] rewindExample = .ok s := by
    show (rewindOptimizer 2 rewindExample).bind (rewindOptimizer_sequence []) = .ok s
    rw [h1]
    rfl
  exact h3 [2] s hseq (by decide)

/-- C29. The call `rewindOptimizer(k)` throws exactly when `k > numPartitions_`. When it
throws, the controllers and the cached final-boundary values are as before, but the counter
that `getRewindCounter()` reports has already been increased by `k` (modulo `2^64`), so for a
64-bit `k` it differs from the counter before the call. -/
theorem rewindOptimizer_throws_iff {n m : Nat} (st : RewindState α n m) (k : Nat) :
    ((∃ e, rewindOptimizer k st = .error e) ↔ k > st.numPartitions_) ∧
    (∀ s, rewindOptimizer k st = .ok s → rewindOptimizer_members k st = s) ∧
    (k > st.numPartitions_ →
      rewindOptimizer_members k st
        = { st with rewindCounter_ := (st.rewindCounter_ + k) % 2 ^ 64 } ∧
      (st.rewindCounter_ < 2 ^ 64 → k < 2 ^ 64 →
        getRewindCounter (rewindOptimizer_members k st) ≠ getRewindCounter st)) := by
  refine ⟨rewindOptimizer_error_iff st k, (rewindOptimizer_members_eq st k).1, fun hk => ?_⟩
  have hm := (rewindOptimizer_members_eq st k).2 hk
  refine ⟨hm, fun hc hk64 => ?_⟩
  rw [hm]
  show (st.rewindCounter_ + k) % 2 ^ 64 ≠ st.rewindCounter_
  intro h
  by_cases hlt : st.rewindCounter_ + k < 2 ^ 64
  · rw [Nat.mod_eq_of_lt hlt] at h
    omega
  · have h2 : (st.rewindCounter_ + k) % 2 ^ 64 = st.rewindCounter_ + k - 2 ^ 64 := by
      rw [Nat.mod_eq_sub_mod (by omega), Nat.mod_eq_of_lt (by omega)]
    omega

theorem rewindOptimizer_throws_iff_witness :
    (∃ e, rewindOptimizer 4 rewindExample = .error e) ∧
    rewindOptimizer_members 4 rewindExample = { rewindExample with rewindCounter_ := 4 } :=
  ⟨(rewindOptimizer_throws_iff rewindExample 4).1.mpr (by decide),
   ((rewindOptimizer_throws_iff rewindExample 4).2.2 (by decide)).1⟩

/-- C29, as stated, fails: rewinding three partitions by four throws, and the counter, zero
before the call, is four afterwards. -/
theorem rewindOptimizer_throws_iff_counterexample :
    rewindExample.numPartitions_ = 3 ∧
    (∃ e, rewindOptimizer 4 rewindExample = .error e) ∧
    getRewindCounter rewindExample = 0 ∧
    getRewindCounter (rewindOptimizer_members 4 rewindExample) = 4 := by
  refine ⟨rfl, ⟨_, rfl⟩, rfl, ?_⟩
  rfl

/-! ## Alignment of the controller arrays (C30) -/

theorem spec_aligned_clear {n m : Nat} : spec_aligned (Controller.clear : Controller α n m) :=
  ⟨rfl, rfl, rfl⟩

theorem spec_alignedInputs_of_aligned {n m : Nat} (c : Controller α n m)
    (h : spec_aligned c) : spec_alignedInputs c := ⟨h.1, h.2.1⟩

/-- After `calculateController` every controller of the stock is aligned, the partitions
outside the active range are cleared and the active ones carry the time stamps of the
Riccati solution, for a partition design that writes entries only. -/
theorem calculateController_aligned {n m : Nat} (settings : SLQ_Settings α)
    (calculatePartitionController : α → Nat → Controller α n m → Controller α n m)
    (SsTimeTrajectoryStock_ : List (List α)) (st : SolverState α n m)
    (hn : st.numPartitions_ ≤ st.nominalControllersStock_.length)
    (hf : st.numPartitions_ ≤ st.initialControllerDesignStock_.length)
    (hs : st.numPartitions_ ≤ SsTimeTrajectoryStock_.length)
    (hP : ∀ step i c, (calculatePartitionController step i c).time_ = c.time_ ∧
      (calculatePartitionController step i c).k_.length = c.k_.length ∧
      (calculatePartitionController step i c).uff_.length = c.uff_.length ∧
      (calculatePartitionController step i c).deltaUff_.length = c.deltaUff_.length) :
    ∃ st1, calculateController settings calculatePartitionController
        SsTimeTrajectoryStock_ st = .ok st1 ∧
      ∀ i, i < st.numPartitions_ → ∃ c1, st1.nominalControllersStock_[i]? = some c1 ∧
        spec_aligned c1 ∧
        ((i < st.initActivePartition_ ∨ i > st.finalActivePartition_) →
          c1 = Controller.clear) ∧
        (st.initActivePartition_ ≤ i → i ≤ st.finalActivePartition_ →
          ∀ SsTime, SsTimeTrajectoryStock_[i]? = some SsTime → c1.time_ = SsTime) := by
  obtain ⟨s1, hrun, stock, step, rfl, hlen, -, hdone⟩ := forRange_invariant
    (calculateController_pass settings calculatePartitionController SsTimeTrajectoryStock_)
    (fun j s => ∃ stock step,
      s = { st with nominalControllersStock_ := stock, constraintStepSize_ := step } ∧
      stock.length = st.nominalControllersStock_.length ∧
      (∀ i, j ≤ i → stock[i]? = st.nominalControllersStock_[i]?) ∧
      ∀ i, i < j → ∃ c1, stock[i]? = some c1 ∧
        spec_aligned c1 ∧
        ((i < st.initActivePartition_ ∨ i > st.finalActivePartition_) →
          c1 = Controller.clear) ∧
        (st.initActivePartition_ ≤ i → i ≤ st.finalActivePartition_ →
          ∀ SsTime, SsTimeTrajectoryStock_[i]? = some SsTime → c1.time_ = SsTime))
    st.numPartitions_ 0 st
    ⟨st.nominalControllersStock_, st.constraintStepSize_, rfl, rfl, fun _ _ => rfl,
      fun i hi => absurd hi (Nat.not_lt_zero i)⟩
    (by
      rintro j s - hj ⟨stock, step, rfl, hlen, hrest, hdone⟩
      have hjn : j < stock.length := by omega
      obtain ⟨cj, hcj⟩ : ∃ cj, stock[j]? = some cj := ⟨_, List.getElem?_eq_getElem hjn⟩
      obtain ⟨Sj, hSj⟩ : ∃ Sj, SsTimeTrajectoryStock_[j]? = some Sj :=
        ⟨_, List.getElem?_eq_getElem (by omega)⟩
      obtain ⟨bj, hbj⟩ : ∃ bj, st.initialControllerDesignStock_[j]? = some bj :=
        ⟨_, List.getElem?_eq_getElem (by omega)⟩
      have hkeep : ∀ (x : Controller α n m) (i : Nat), j + 1 ≤ i →
          (stock.set j x)[i]? = st.nominalControllersStock_[i]? := by
        intro x i hi
        rw [List.getElem?_set_ne (by omega)]
        exact hrest i (by omega)
      -- the invariant after entry `j` has been set to a controller `x` with the property
      have hnext : ∀ (x : Controller α n m), spec_aligned x →
          ((j < st.initActivePartition_ ∨ j > st.finalActivePartition_) →
            x = Controller.clear) →
          (st.initActivePartition_ ≤ j → j ≤ st.finalActivePartition_ →
            ∀ SsTime, SsTimeTrajectoryStock_[j]? = some SsTime → x.time_ = SsTime) →
          ∀ i, i < j + 1 → ∃ c1, (stock.set j x)[i]? = some c1 ∧
            spec_aligned c1 ∧
            ((i < st.initActivePartition_ ∨ i > st.finalActivePartition_) →
              c1 = Controller.clear) ∧
            (st.initActivePartition_ ≤ i → i ≤ st.finalActivePartition_ →
              ∀ SsTime, SsTimeTrajectoryStock_[i]? = some SsTime → c1.time_ = SsTime) := by
        intro x hx1 hx2 hx3 i hi
        by_cases hij : i = j
        · subst hij
          exact ⟨x, getElem?_set_self_of_lt _ _ _ hjn, hx1, hx2, hx3⟩
        · rw [List.getElem?_set_ne (Ne.symm hij)]
          exact hdone i (by omega)
      unfold calculateController_pass
      by_cases hact : j < st.initActivePartition_ ∨ j > st.finalActivePartition_
      · refine ⟨{ st with nominalControllersStock_ := stock.set j Controller.clear,
                          constraintStepSize_ := step }, ?_, _, _, rfl, ?_, hkeep _, ?_⟩
        · simp only []
          rw [if_pos hact, updateAt_ok _ _ _ hjn, bind_ok]
        · rw [List.length_set]
          exact hlen
        · exact hnext _ spec_aligned_clear (fun _ => rfl)
            (fun h1 h2 => absurd hact (by omega))
      · have hres : spec_aligned (calculateController_resized Sj cj) :=
          ⟨resize_length _ _ _, resize_length _ _ _, resize_length _ _ _⟩
        simp only []
        rw [if_neg hact, indexAt_of_getElem? _ _ _ hSj, bind_ok,
          indexAt_of_getElem? _ _ _ hcj, bind_ok]
        by_cases hzero : Sj.length = 0
        · rw [if_pos hzero]
          refine ⟨_, rfl, _, _, rfl, ?_, hkeep _, ?_⟩
          · rw [List.length_set]
            exact hlen
          · refine hnext _ hres (fun h => absurd h hact) (fun _ _ SsTime hT => ?_)
            rw [hSj] at hT
            exact Option.some.inj hT
        · rw [if_neg hzero, indexAt_of_getElem? _ _ _ hbj, bind_ok]
          refine ⟨_, rfl, _, _, rfl, ?_, hkeep _, ?_⟩
          · rw [List.length_set]
            exact hlen
          · obtain ⟨p1, p2, p3, p4⟩ := hP (if bj = true then 0 else settings.constraintStepSize_)
              j (calculateController_resized Sj cj)
            refine hnext _ ⟨?_, ?_, ?_⟩ (fun h => absurd h hact) (fun _ _ SsTime hT => ?_)
            · rw [p2, p1]; exact hres.1
            · rw [p3, p1]; exact hres.2.1
            · rw [p4, p1]; exact hres.2.2
            · rw [hSj] at hT
              rw [p1]
              exact Option.some.inj hT)
  rw [Nat.zero_add] at hdone
  exact ⟨_, hrun, hdone⟩

/-- The controllers that `lineSearchWorker` leaves are aligned when the incoming ones are. -/
theorem lineSearchWorker_aligned {n m : Nat} (L : LineSearchModel α n m)
    (settings : SLQ_Settings α) (M : LineSearchMembers α n) (learningRate : α)
    (ls : LineSearchOutput α n m)
    (hlen : M.numPartitions_ ≤ ls.lsControllersStock.length)
    (hall : ∀ (i : Nat) (c : Controller α n m),
      ls.lsControllersStock[i]? = some c → spec_aligned c) :
    ∃ out, lineSearchWorker L settings M learningRate ls = .ok out ∧
      ∀ (i : Nat) (c1 : Controller α n m),
        out.lsControllersStock[i]? = some c1 → spec_aligned c1 := by
  obtain ⟨stock, hstock, h1, h2, h3⟩ := lineSearchWorker_controllers_spec learningRate
    M.numPartitions_ ls.lsControllersStock hlen
    (fun i c _ hc => ⟨Nat.le_of_eq (hall i c hc).2.1.symm, Nat.le_of_eq (hall i c hc).2.2.symm⟩)
  obtain ⟨out, hout, hcontrollers, -, -⟩ := lineSearchWorker_returns L settings M learningRate
    ls stock hstock
  refine ⟨out, hout, fun i c1 hc1 => ?_⟩
  rw [hcontrollers] at hc1
  by_cases hi : i < M.numPartitions_
  · obtain ⟨c, hc⟩ := getElem?_of_lt ls.lsControllersStock i (by omega)
    obtain ⟨c2, hc2, e1, e2, e3, e4, -, -⟩ := h2 i c hi hc
    rw [hc1] at hc2
    cases hc2
    obtain ⟨a1, a2, a3⟩ := hall i c hc
    exact ⟨by rw [e2, e1]; exact a1, by rw [e4, e1]; exact a2, by rw [e3, e1]; exact a3⟩
  · rw [h3 i (by omega)] at hc1
    exact hall i c1 hc1

/-- After `truncateConterller` the time stamps, gains and inputs of every controller are
aligned; the increments of the truncated partition keep their old length. -/
theorem truncateConterller_aligned {n m : Nat} (R : RunModel α n m) (numPartitions_ : Nat)
    (partitioningTimes : List α) (initTime : α) (controllersStock : List (Controller α n m))
    (p : Nat) (c : Controller α n m)
    (hp : findActivePartitionIndex R.toTimeTriggeredModel partitioningTimes initTime true
      = .ok p)
    (hnum : p < numPartitions_)
    (hc : controllersStock[p]? = some c)
    (hj : c.time_ ≠ [] → (R.interpolateInput c.time_ c.uff_ initTime).2 < c.time_.length)
    (hall : ∀ (i : Nat) (x : Controller α n m), controllersStock[i]? = some x →
      spec_aligned x) :
    ∃ t, truncateConterller R numPartitions_ partitioningTimes initTime controllersStock
        = .ok t ∧
      (∀ (i : Nat) (c1 : Controller α n m), t.controllersStock[i]? = some c1 →
        spec_alignedInputs c1) ∧
      (c.time_ ≠ [] → ∃ c1, t.controllersStock[p]? = some c1 ∧
        c1.time_.length + (R.interpolateInput c.time_ c.uff_ initTime).2 = c.time_.length ∧
        c1.deltaUff_.length = c.time_.length) := by
  obtain ⟨a1, a2, a3⟩ := hall p c hc
  obtain ⟨t, h1, -, -, h3, h4, h5, h6⟩ := truncateConterller_result R numPartitions_
    partitioningTimes initTime controllersStock p c hp hnum hc
    (fun hne => ⟨hj hne, by rw [a2]; exact hj hne, by rw [a1]; exact hj hne⟩)
  refine ⟨t, h1, fun i c1 hc1 => ?_, fun hne => ?_⟩
  · rcases Nat.lt_trichotomy i p with hi | hi | hi
    · rw [(h3 i hi).2] at hc1
      cases hc1
      exact ⟨rfl, rfl⟩
    · subst hi
      by_cases hne : c.time_ = []
      · rw [(h5 hne).1] at hc1
        cases hc1
        exact ⟨a1, a2⟩
      · have hlt := hj hne
        rw [(h6 hne).1] at hc1
        cases hc1
        constructor
        · show (_ :: c.k_.drop _).length = (_ :: c.time_.drop _).length
          rw [List.length_cons, List.length_cons, List.length_drop, List.length_drop, a1]
        · show (_ :: c.uff_.drop _).length = (_ :: c.time_.drop _).length
          rw [List.length_cons, List.length_cons, List.length_drop, List.length_drop, a2]
    · rw [h4 i hi] at hc1
      exact spec_alignedInputs_of_aligned _ (hall i c1 hc1)
  · have hlt := hj hne
    refine ⟨_, (h6 hne).1, ?_, a3⟩
    show (_ :: c.time_.drop _).length + _ = _
    rw [List.length_cons, List.length_drop]
    omega

/-- After `runExit` the time stamps, gains and inputs of every controller are aligned; the
increments of a partition that gets removed samples back are empty. -/
theorem runExit_aligned {n m : Nat} (R : RunModel α n m) (numPartitions_ : Nat)
    (partitioningTimes : List α) (initTime : α) (controllersStock : List (Controller α n m))
    (p : Nat) (c : Controller α n m) (optimized : List (Controller α n m))
    (o : Controller α n m)
    (hp : findActivePartitionIndex R.toTimeTriggeredModel partitioningTimes initTime true
      = .ok p)
    (hnum : p < numPartitions_)
    (hc : controllersStock[p]? = some c)
    (hj : c.time_ ≠ [] → (R.interpolateInput c.time_ c.uff_ initTime).2 < c.time_.length)
    (hall : ∀ (i : Nat) (x : Controller α n m), controllersStock[i]? = some x →
      spec_aligned x)
    (ho : optimized[p]? = some o)
    (hopt : ∀ (i : Nat) (x : Controller α n m), optimized[i]? = some x → spec_aligned x) :
    ∃ t, truncateConterller R numPartitions_ partitioningTimes initTime controllersStock
        = .ok t ∧
      ∃ r, runExit t.initActivePartition optimized t.deletedcontrollersStock = .ok r ∧
        (∀ (i : Nat) (f : Controller α n m), r.1[i]? = some f → spec_alignedInputs f) ∧
        (c.time_ ≠ [] → 0 < (R.interpolateInput c.time_ c.uff_ initTime).2 →
          ∃ f, r.1[p]? = some f ∧
            f.time_.length
              = (R.interpolateInput c.time_ c.uff_ initTime).2 + 1 + o.time_.length ∧
            f.deltaUff_ = []) := by
  obtain ⟨a1, a2, a3⟩ := hall p c hc
  obtain ⟨b1, b2, b3⟩ := hopt p o ho
  obtain ⟨t, h1, h2⟩ := runExit_result R numPartitions_ partitioningTimes initTime
    controllersStock p c hp hnum hc
    (fun hne => ⟨hj hne, by rw [a2]; exact hj hne, by rw [a1]; exact hj hne⟩)
  obtain ⟨r, q1, q2, q3, q4, q5⟩ := h2 optimized o ho b2 b1
  refine ⟨t, h1, r, q1, fun i f hf => ?_, fun hne hpos => ?_⟩
  · rcases Nat.lt_trichotomy i p with hi | hi | hi
    · rw [q2 i hi] at hf
      exact spec_alignedInputs_of_aligned _ (hall i f hf)
    · subst hi
      by_cases hremoved : c.time_ ≠ [] ∧ 0 < (R.interpolateInput c.time_ c.uff_ initTime).2
      · obtain ⟨g, g0, g1, g2, g3, -⟩ := q3 hremoved.1 hremoved.2
        have hlt := hj hremoved.1
        rw [hf] at g0
        cases g0
        constructor
        · rw [g3, g1, List.length_append, List.length_append, List.length_take,
            List.length_take, a1, b1]
        · rw [g2, g1, List.length_append, List.length_append, List.length_take,
            List.length_take, a2, b2]
      · have h0 : c.time_ = [] ∨ (R.interpolateInput c.time_ c.uff_ initTime).2 = 0 := by
          by_cases hne : c.time_ = []
          · exact Or.inl hne
          · right
            by_contra hx
            exact hremoved ⟨hne, Nat.pos_of_ne_zero hx⟩
        rw [q4 h0] at hf
        cases hf
        exact ⟨b1, b2⟩
    · rw [q5 i hi] at hf
      exact spec_alignedInputs_of_aligned _ (hopt i f hf)
  · obtain ⟨g, g0, g1, -, -, g4⟩ := q3 hne hpos
    have hlt := hj hne
    refine ⟨g, g0, ?_, g4⟩
    rw [g1, List.length_append, List.length_take]
    omega

theorem warmStock_aligned (i : Nat) (x : Controller ℚ 1 1)
    (h : [earlyController, lateController][i]? = some x) : spec_aligned x := by
  match i, h with
  | 0, h => cases h; exact ⟨rfl, rfl, rfl⟩
  | 1, h => cases h; exact ⟨rfl, rfl, rfl⟩
  | i + 2, h => simp at h

theorem optimizedStock_aligned (i : Nat) (x : Controller ℚ 1 1)
    (h : [Controller.clear, optimizedController][i]? = some x) : spec_aligned x := by
  match i, h with
  | 0, h => cases h; exact ⟨rfl, rfl, rfl⟩
  | 1, h => cases h; exact ⟨rfl, rfl, rfl⟩
  | i + 2, h => simp at h

theorem holdRun_interpolate_late_lt (_ : lateController.time_ ≠ []) :
    (holdRun.interpolateInput lateController.time_ lateController.uff_ (7 / 4)).2
      < lateController.time_.length := by
  rw [holdRun_interpolate_late]
  decide

/-- C30. Given controllers whose four arrays `time_`, `k_`, `uff_`, `deltaUff_` have the
same length: after `calculateController` (with a partition design that only writes entries)
every controller of the stock has four aligned arrays, every partition outside
`[initActivePartition_, finalActivePartition_]` has the cleared controller and the `time_` of
every active partition is the Riccati time-stamp array of that partition; after
`lineSearchWorker` the four arrays are aligned; after `truncateConterller` and after `runExit`
the arrays `time_`, `k_` and `uff_` of every controller are aligned, but `deltaUff_` is not:
the truncation erases the first `j` samples of `time_`, `k_`, `uff_` of the initial active
partition and leaves its `deltaUff_` at the old length, and `runExit` gives a partition that
gets `j + 1 > 1` removed samples back an empty `deltaUff_`. -/
theorem controllers_aligned {n m : Nat} (R : RunModel α n m) (numPartitions_ : Nat)
    (partitioningTimes : List α) (initTime : α) (controllersStock : List (Controller α n m))
    (p : Nat) (c : Controller α n m) (optimized : List (Controller α n m))
    (o : Controller α n m)
    (hp : findActivePartitionIndex R.toTimeTriggeredModel partitioningTimes initTime true
      = .ok p)
    (hnum : p < numPartitions_)
    (hc : controllersStock[p]? = some c)
    (hj : c.time_ ≠ [] → (R.interpolateInput c.time_ c.uff_ initTime).2 < c.time_.length)
    (hall : ∀ (i : Nat) (x : Controller α n m), controllersStock[i]? = some x →
      spec_aligned x)
    (ho : optimized[p]? = some o)
    (hopt : ∀ (i : Nat) (x : Controller α n m), optimized[i]? = some x → spec_aligned x) :
    (∀ (settings : SLQ_Settings α)
        (calculatePartitionController : α → Nat → Controller α n m → Controller α n m)
        (SsTimeTrajectoryStock_ : List (List α)) (st : SolverState α n m),
      st.numPartitions_ ≤ st.nominalControllersStock_.length →
      st.numPartitions_ ≤ st.initialControllerDesignStock_.length →
      st.numPartitions_ ≤ SsTimeTrajectoryStock_.length →
      (∀ step i x, (calculatePartitionController step i x).time_ = x.time_ ∧
        (calculatePartitionController step i x).k_.length = x.k_.length ∧
        (calculatePartitionController step i x).uff_.length = x.uff_.length ∧
        (calculatePartitionController step i x).deltaUff_.length = x.deltaUff_.length) →
      ∃ st1, calculateController settings calculatePartitionController
          SsTimeTrajectoryStock_ st = .ok st1 ∧
        ∀ i, i < st.numPartitions_ → ∃ c1, st1.nominalControllersStock_[i]? = some c1 ∧
          spec_aligned c1 ∧
          ((i < st.initActivePartition_ ∨ i > st.finalActivePartition_) →
            c1 = Controller.clear) ∧
          (st.initActivePartition_ ≤ i → i ≤ st.finalActivePartition_ →
            ∀ SsTime, SsTimeTrajectoryStock_[i]? = some SsTime → c1.time_ = SsTime)) ∧
    (∀ (L : LineSearchModel α n m) (settings : SLQ_Settings α) (M : LineSearchMembers α n)
        (learningRate : α) (ls : LineSearchOutput α n m),
      M.numPartitions_ ≤ ls.lsControllersStock.length →
      (∀ (i : Nat) (x : Controller α n m), ls.lsControllersStock[i]? = some x →
        spec_aligned x) →
      ∃ out, lineSearchWorker L settings M learningRate ls = .ok out ∧
        ∀ (i : Nat) (c1 : Controller α n m),
          out.lsControllersStock[i]? = some c1 → spec_aligned c1) ∧
    (∃ t, truncateConterller R numPartitions_ partitioningTimes initTime controllersStock
        = .ok t ∧
      (∀ (i : Nat) (c1 : Controller α n m), t.controllersStock[i]? = some c1 →
        spec_alignedInputs c1) ∧
      (c.time_ ≠ [] → ∃ c1, t.controllersStock[p]? = some c1 ∧
        c1.time_.length + (R.interpolateInput c.time_ c.uff_ initTime).2 = c.time_.length ∧
        c1.deltaUff_.length = c.time_.length) ∧
      ∃ r, runExit t.initActivePartition optimized t.deletedcontrollersStock = .ok r ∧
        (∀ (i : Nat) (f : Controller α n m), r.1[i]? = some f → spec_alignedInputs f) ∧
        (c.time_ ≠ [] → 0 < (R.interpolateInput c.time_ c.uff_ initTime).2 →
          ∃ f, r.1[p]? = some f ∧
            f.time_.length
              = (R.interpolateInput c.time_ c.uff_ initTime).2 + 1 + o.time_.length ∧
            f.deltaUff_ = [])) := by
  refine ⟨fun settings design Ss st hn hf hs hP =>
      calculateController_aligned settings design Ss st hn hf hs hP,
    fun L settings M learningRate ls hlen hls =>
      lineSearchWorker_aligned L settings M learningRate ls hlen hls, ?_⟩
  obtain ⟨t, h1, h2, h3⟩ := truncateConterller_aligned R numPartitions_ partitioningTimes
    initTime controllersStock p c hp hnum hc hj hall
  obtain ⟨t1, g1, r, g2, g3, g4⟩ := runExit_aligned R numPartitions_ partitioningTimes initTime
    controllersStock p c optimized o hp hnum hc hj hall ho hopt
  rw [h1] at g1
  cases g1
  exact ⟨t, h1, h2, h3, r, g2, g3, g4⟩

theorem controllers_aligned_witness :
    ∃ t, truncateConterller holdRun 2 [0, 1, 2] (7 / 4) [earlyController, lateController]
        = .ok t ∧
      (∃ c1, t.controllersStock[1]? = some c1 ∧ spec_alignedInputs c1 ∧
        c1.time_.length + 1 = 3 ∧ c1.deltaUff_.length = 3) ∧
      ∃ r, runExit t.initActivePartition [Controller.clear, optimizedController]
          t.deletedcontrollersStock = .ok r ∧
        ∃ f, r.1[1]? = some f ∧ spec_alignedInputs f ∧ f.time_.length = 4 ∧
          f.deltaUff_ = [] := by
  obtain ⟨-, -, t, h1, h2, h3, r, g2, g3, g4⟩ := controllers_aligned holdRun 2 [0, 1, 2] (7 / 4)
    [earlyController, lateController] 1 lateController [Controller.clear, optimizedController]
    optimizedController holdRun_index_late (by norm_num) rfl holdRun_interpolate_late_lt
    warmStock_aligned rfl optimizedStock_aligned
  have hne : lateController.time_ ≠ [] := by simp [lateController]
  obtain ⟨c1, e1, e2, e3⟩ := h3 hne
  obtain ⟨f, f1, f2, f3⟩ := g4 hne (by rw [holdRun_interpolate_late]; norm_num)
  rw [holdRun_interpolate_late] at e2 f2
  exact ⟨t, h1, ⟨c1, e1, h2 1 c1 e1, e2, e3⟩, r, g2, f, f1, g3 1 f f1, f2, f3⟩

/-- C30, as stated, fails for `truncateConterller`: two controllers with four aligned arrays
of three samples each, truncated at `7/4`, leave in partition 1 a controller with two time
stamps and three increments. -/
theorem controllers_aligned_counterexample :
    spec_aligned earlyController ∧ spec_aligned lateController ∧
    ∃ t, truncateConterller holdRun 2 [0, 1, 2] (7 / 4) [earlyController, lateController]
        = .ok t ∧
      ∃ c1, t.controllersStock[1]? = some c1 ∧ c1.time_.length = 2 ∧
        c1.deltaUff_.length = 3 ∧ ¬ spec_aligned c1 := by
  refine ⟨⟨rfl, rfl, rfl⟩, ⟨rfl, rfl, rfl⟩, ?_⟩
  obtain ⟨t, h1, -, h3⟩ := truncateConterller_aligned holdRun 2 [0, 1, 2] (7 / 4)
    [earlyController, lateController] 1 lateController holdRun_index_late (by norm_num) rfl
    holdRun_interpolate_late_lt warmStock_aligned
  have hne : lateController.time_ ≠ [] := by simp [lateController]
  obtain ⟨c1, e1, e2, e3⟩ := h3 hne
  rw [holdRun_interpolate_late] at e2
  have e4 : lateController.time_.length = 3 := rfl
  rw [e4] at e2 e3
  refine ⟨t, h1, c1, e1, by omega, e3, fun h => ?_⟩
  have := h.2.2
  omega

/-! ## `calculateCostWorker` (C27) -/

theorem getD_of_getElem? {β : Type} (v : List β) (k : Nat) (b d : β) (h : v[k]? = some b) :
    v.getD k d = b := by
  rw [List.getD_eq_getElem?_getD, h]
  rfl

theorem spec_trapezoid_succ {n m : Nat}
    (costFunctions : α → (Fin n → α) → (Fin m → α) → ModelEvaluation α n m)
    (timeTrajectory : List α) (stateTrajectory : List (Fin n → α))
    (inputTrajectory : List (Fin m → α)) (k : Nat) :
    spec_trapezoid costFunctions timeTrajectory stateTrajectory inputTrajectory (k + 2)
      = spec_trapezoid costFunctions timeTrajectory stateTrajectory inputTrajectory (k + 1)
        + 1 / 2 * (spec_intermediateCost costFunctions timeTrajectory stateTrajectory
              inputTrajectory k
            + spec_intermediateCost costFunctions timeTrajectory stateTrajectory
              inputTrajectory (k + 1))
          * (timeTrajectory.getD (k + 1) 0 - timeTrajectory.getD k 0) := by
  unfold spec_trapezoid
  show (Finset.range (k + 1)).sum _ = (Finset.range k).sum _ + _
  rw [Finset.sum_range_succ]

/-- One pass of the loop of `calculateCostWorker` returns and keeps the invariant. -/
theorem calculateCostWorker_pass_spec {n m : Nat}
    (costFunctions : α → (Fin n → α) → (Fin m → α) → ModelEvaluation α n m)
    (timeTrajectory : List α) (stateTrajectory : List (Fin n → α))
    (inputTrajectory : List (Fin m → α)) (events : List Nat)
    (hs : events.Pairwise (fun a b => a < b)) (k : Nat) (st : CostRun α)
    (hk : k < timeTrajectory.length) (hx : k < stateTrajectory.length)
    (hu : k < inputTrajectory.length)
    (hP : costInvariant costFunctions timeTrajectory stateTrajectory inputTrajectory events
      k st) :
    ∃ st1, calculateCostWorker_pass costFunctions timeTrajectory stateTrajectory
        inputTrajectory k st = .ok st1 ∧
      costInvariant costFunctions timeTrajectory stateTrajectory inputTrajectory events
        (k + 1) st1 := by
  obtain ⟨total, prev, curr, itr⟩ := st
  obtain ⟨hitr, htotal, hcurr⟩ := hP
  simp only at hitr htotal hcurr
  obtain ⟨t, ht⟩ := getElem?_of_lt timeTrajectory k hk
  obtain ⟨x, hx1⟩ := getElem?_of_lt stateTrajectory k hx
  obtain ⟨u, hu1⟩ := getElem?_of_lt inputTrajectory k hu
  have hc : spec_intermediateCost costFunctions timeTrajectory stateTrajectory
      inputTrajectory k = (costFunctions t x u).intermediateCost := by
    unfold spec_intermediateCost
    rw [getD_of_getElem? _ _ _ _ ht, getD_of_getElem? _ _ _ _ hx1,
      getD_of_getElem? _ _ _ _ hu1]
  have hf : spec_terminalCost costFunctions timeTrajectory stateTrajectory
      inputTrajectory k = (costFunctions t x u).terminalCost := by
    unfold spec_terminalCost
    rw [getD_of_getElem? _ _ _ _ ht, getD_of_getElem? _ _ _ _ hx1,
      getD_of_getElem? _ _ _ _ hu1]
  -- the cost after the trapezoid of this pass
  obtain ⟨total1, hstep, htotal1⟩ : ∃ total1,
      (if k > 0 then
        (indexAt timeTrajectory (k - 1)).bind fun tPrev =>
          (Except.ok (total + 1 / 2 * ((if k > 0 then curr else prev)
            + (costFunctions t x u).intermediateCost) * (t - tPrev)) : Except String α)
       else .ok total) = .ok total1 ∧
      total1 + spec_terminalSum costFunctions timeTrajectory stateTrajectory inputTrajectory itr
        = spec_trapezoid costFunctions timeTrajectory stateTrajectory inputTrajectory (k + 1)
          + spec_terminalSum costFunctions timeTrajectory stateTrajectory inputTrajectory
            events := by
    by_cases hk0 : k > 0
    · obtain ⟨j, rfl⟩ : ∃ j, k = j + 1 := ⟨k - 1, by omega⟩
      obtain ⟨tPrev, htPrev⟩ := getElem?_of_lt timeTrajectory j (by omega)
      rw [if_pos hk0, if_pos hk0]
      have hj : j + 1 - 1 = j := rfl
      rw [hj, indexAt_of_getElem? _ _ _ htPrev, bind_ok]
      refine ⟨_, rfl, ?_⟩
      have hcj : curr = spec_intermediateCost costFunctions timeTrajectory stateTrajectory
          inputTrajectory j := hcurr hk0
      rw [spec_trapezoid_succ, hc, getD_of_getElem? _ _ _ _ ht,
        getD_of_getElem? _ _ _ _ htPrev, ← hcj]
      linear_combination htotal
    · have h0 : k = 0 := by omega
      subst h0
      rw [if_neg hk0]
      exact ⟨_, rfl, htotal⟩
  unfold calculateCostWorker_pass
  rw [indexAt_of_getElem? _ _ _ ht, bind_ok, indexAt_of_getElem? _ _ _ hx1, bind_ok,
    indexAt_of_getElem? _ _ _ hu1, bind_ok]
  simp only []
  rw [hstep, bind_ok]
  have hcurr1 : 0 < k + 1 → (costFunctions t x u).intermediateCost
      = spec_intermediateCost costFunctions timeTrajectory stateTrajectory inputTrajectory
        (k + 1 - 1) := fun _ => hc.symm
  by_cases hmem : k + 1 ∈ events
  · have hfilter := filter_marker_mem events k hs hmem
    rw [hfilter] at hitr
    subst hitr
    simp only [if_true]
    refine ⟨_, rfl, rfl, ?_, hcurr1⟩
    simp only
    have hsum : spec_terminalSum costFunctions timeTrajectory stateTrajectory inputTrajectory
        ((k + 1) :: events.filter (fun e => decide (k + 1 < e)))
        = (costFunctions t x u).terminalCost
          + spec_terminalSum costFunctions timeTrajectory stateTrajectory inputTrajectory
            (events.filter (fun e => decide (k + 1 < e))) := by
      unfold spec_terminalSum
      rw [List.map_cons, List.sum_cons]
      have hk1 : k + 1 - 1 = k := rfl
      rw [hk1, hf]
    rw [hsum] at htotal1
    linear_combination htotal1
  · have hfilter := filter_marker_not_mem events k hmem
    cases hcase : itr with
    | nil =>
      subst hcase
      simp only
      refine ⟨_, rfl, ?_, htotal1, hcurr1⟩
      simp only
      rw [← hfilter, ← hitr]
    | cons e rest =>
      subst hcase
      have he : e ∈ events := by
        have : e ∈ events.filter (fun e => decide (k < e)) := by
          rw [← hitr]
          exact List.mem_cons_self e rest
        exact (List.mem_filter.mp this).1
      have hne : ¬ k + 1 = e := fun h => hmem (h ▸ he)
      simp only [hne, if_false]
      refine ⟨_, rfl, ?_, htotal1, hcurr1⟩
      simp only
      rw [← hfilter, ← hitr]

/-- C27. For a partition with `N` time stamps, at least `N` states and inputs, and event
markers that are strictly increasing and between 1 and `N`, `calculateCostWorker` returns
the trapezoidal integral `sum_{k=1}^{N-1} 1/2 * (c[k-1] + c[k]) * (t[k] - t[k-1])` of the
intermediate cost plus one terminal cost for every event marker `e`, evaluated at sample
`e - 1`: the terminal-cost terms are as many as the markers. -/
theorem calculateCostWorker_spec {n m : Nat}
    (costFunctions : α → (Fin n → α) → (Fin m → α) → ModelEvaluation α n m)
    (timeTrajectory : List α) (eventsPastTheEndIndeces : List Nat)
    (stateTrajectory : List (Fin n → α)) (inputTrajectory : List (Fin m → α))
    (hs : eventsPastTheEndIndeces.Pairwise (fun a b => a < b))
    (hrange : ∀ e, e ∈ eventsPastTheEndIndeces → 1 ≤ e ∧ e ≤ timeTrajectory.length)
    (hx : timeTrajectory.length ≤ stateTrajectory.length)
    (hu : timeTrajectory.length ≤ inputTrajectory.length) :
    calculateCostWorker costFunctions timeTrajectory eventsPastTheEndIndeces stateTrajectory
        inputTrajectory
      = .ok (spec_trapezoid costFunctions timeTrajectory stateTrajectory inputTrajectory
            timeTrajectory.length
          + spec_terminalSum costFunctions timeTrajectory stateTrajectory inputTrajectory
            eventsPastTheEndIndeces) ∧
    (eventsPastTheEndIndeces.map fun e => spec_terminalCost costFunctions timeTrajectory
      stateTrajectory inputTrajectory (e - 1)).length = eventsPastTheEndIndeces.length := by
  refine ⟨?_, List.length_map _ _⟩
  obtain ⟨s1, hrun, hitr, htotal, -⟩ := forRange_invariant
    (calculateCostWorker_pass costFunctions timeTrajectory stateTrajectory inputTrajectory)
    (fun j s => costInvariant costFunctions timeTrajectory stateTrajectory inputTrajectory
      eventsPastTheEndIndeces j s)
    timeTrajectory.length 0 ⟨0, 0, 0, eventsPastTheEndIndeces⟩
    (by
      refine ⟨?_, ?_, fun h => absurd h (Nat.lt_irrefl 0)⟩
      · show eventsPastTheEndIndeces = _
        symm
        rw [List.filter_eq_self]
        intro e he
        have := (hrange e he).1
        simp only [decide_eq_true_eq]
        omega
      · show (0 : α) + _ = spec_trapezoid _ _ _ _ 0 + _
        unfold spec_trapezoid
        simp)
    (by
      intro j s _ hj hP
      exact calculateCostWorker_pass_spec costFunctions timeTrajectory stateTrajectory
        inputTrajectory eventsPastTheEndIndeces hs j s (by omega) (by omega) (by omega) hP)
  unfold calculateCostWorker
  rw [hrun, bind_ok]
  have hnil : s1.eventsPastTheEndItr = [] := by
    rw [hitr, List.filter_eq_nil_iff]
    intro e he
    have := (hrange e he).2
    simp only [decide_eq_true_eq]
    omega
  rw [hnil] at htotal
  rw [Nat.zero_add] at htotal
  have h0 : spec_terminalSum costFunctions timeTrajectory stateTrajectory inputTrajectory []
      = 0 := rfl
  rw [h0, add_zero] at htotal
  rw [htotal]

theorem calculateCostWorker_spec_witness :
    calculateCostWorker rampCost [0, 1, 2] [1, 3] [0, 0, 0] [0, 0, 0] = .ok 4 := by
  have h := (calculateCostWorker_spec rampCost [0, 1, 2] [1, 3] [0, 0, 0] [0, 0, 0]
    (by decide) (by decide) (by decide) (by decide)).1
  rw [h]
  congr 1
  simp [spec_trapezoid, spec_terminalSum, spec_intermediateCost, spec_terminalCost, rampCost,
    Finset.sum_range_succ]
  norm_num

/-- C27, as stated, fails for a marker that occurs twice: with two samples, the
non-decreasing markers `1, 1` and terminal cost 1 at every sample, `calculateCostWorker`
returns one terminal cost, not two. -/
theorem calculateCostWorker_spec_counterexample :
    List.Pairwise (fun a b => a ≤ b) [1, 1] ∧
    (∀ e, e ∈ [1, 1] → 1 ≤ e ∧ e ≤ [(0 : ℚ), 1].length) ∧
    calculateCostWorker unitTerminalCost [0, 1] [1, 1] [0, 0] [0, 0] = .ok 1 ∧
    spec_trapezoid unitTerminalCost [0, 1] [0, 0] [0, 0] 2
      + spec_terminalSum unitTerminalCost [0, 1] [0, 0] [0, 0] [1, 1] = 2 := by
  refine ⟨by decide, by decide, ?_, ?_⟩
  · simp [calculateCostWorker, forRange, calculateCostWorker_pass, indexAt, bind_ok,
      unitTerminalCost, zeroModel]
  · simp [spec_trapezoid, spec_terminalSum, spec_intermediateCost, spec_terminalCost,
      unitTerminalCost, zeroModel, Finset.sum_range_succ]
    norm_num

/-! ## The event markers of `rolloutTimeTriggeredWorker` (C26) -/

theorem rolloutTimeTriggeredWorker_unfold {n m : Nat} (E : TimeTriggeredModel α n m)
    (initActivePartition_ finalActivePartition_ : Nat)
    (partitionIndex : Nat) (initTime : α) (initState : Fin n → α) (finalTime : α)
    (controller : Controller α n m) :
    rolloutTimeTriggeredWorker E initActivePartition_ finalActivePartition_ partitionIndex
        initTime initState finalTime controller
      = if initTime > finalTime then
          .error "Initial time should be less-equal to final time."
        else
          (rolloutTimeTriggeredWorker_loop E partitionIndex controller
            (E.getSwitchingTimes partitionIndex)
            (rolloutTimeTriggeredWorker_beginItr E initActivePartition_ partitionIndex initTime)
            (rolloutTimeTriggeredWorker_finalItr E finalActivePartition_ partitionIndex
              finalTime)
            initTime finalTime
            (rolloutTimeTriggeredWorker_finalItr E finalActivePartition_ partitionIndex finalTime
              + 1
              - rolloutTimeTriggeredWorker_beginItr E initActivePartition_ partitionIndex
                initTime)
            (rolloutTimeTriggeredWorker_beginItr E initActivePartition_ partitionIndex initTime)
            ⟨initState, 0, ⟨[], [], [], []⟩⟩).bind fun st =>
          if rolloutTimeTriggeredWorker_eventAtFinalTime E partitionIndex
              (rolloutTimeTriggeredWorker_finalItr E finalActivePartition_ partitionIndex
                finalTime) finalTime = true then
            match st.trajectory.timeTrajectory.getLast?,
              st.trajectory.stateTrajectory.getLast? with
            | some tBack, some xBack =>
              .ok (E.computeJumpMap partitionIndex tBack xBack,
                { st.trajectory with
                  eventsPastTheEndIndeces := st.trajectory.eventsPastTheEndIndeces
                    ++ [st.trajectory.stateTrajectory.length] })
            | _, _ => .error "back() of an empty trajectory"
          else
            match st.trajectory.stateTrajectory.getLast? with
            | some xBack => .ok (xBack, st.trajectory)
            | none => .error "back() of an empty trajectory" := rfl

theorem rolloutTimeTriggeredWorker_simulate_appends {n m : Nat}
    (E : TimeTriggeredModel α n m) (hE : spec_appendsSample E)
    (partitionIndex : Nat) (controller : Controller α n m) (st st1 : TimeTriggeredRun α n m)
    (beginTime endTime : α)
    (h : rolloutTimeTriggeredWorker_simulate E partitionIndex controller st beginTime endTime
      = .ok st1) :
    st1.trajectory.eventsPastTheEndIndeces = st.trajectory.eventsPastTheEndIndeces ∧
    st.trajectory.stateTrajectory.length < st1.trajectory.stateTrajectory.length := by
  unfold rolloutTimeTriggeredWorker_simulate at h
  by_cases hc : controller.empty = false
  · rw [if_pos hc] at h
    cases hr : E.integrate partitionIndex controller st.beginState beginTime endTime with
    | error e => rw [hr] at h; cases h
    | ok r =>
      rw [hr] at h
      obtain ⟨xs, ts⟩ := r
      have hne := hE.1 _ _ _ _ _ _ _ hr
      have h := Except.ok.inj h
      subst h
      refine ⟨rfl, ?_⟩
      simp only [List.length_append]
      have := List.length_pos.mpr hne
      omega
  · rw [if_neg hc] at h
    cases hr : E.getSystemOperatingTrajectories partitionIndex st.beginState beginTime
        endTime with
    | error e => rw [hr] at h; cases h
    | ok r =>
      rw [hr] at h
      obtain ⟨ts, xs, us⟩ := r
      have hne := hE.2 _ _ _ _ _ _ _ hr
      have h := Except.ok.inj h
      subst h
      refine ⟨rfl, ?_⟩
      simp only [List.length_append]
      have := List.length_pos.mpr hne
      omega

theorem rolloutTimeTriggeredWorker_jump_marker {n m : Nat} (E : TimeTriggeredModel α n m)
    (partitionIndex : Nat) (finalItr : Nat) (st st1 : TimeTriggeredRun α n m) (i : Nat)
    (h : rolloutTimeTriggeredWorker_jump E partitionIndex finalItr st i = .ok st1) :
    st1.trajectory.stateTrajectory = st.trajectory.stateTrajectory ∧
    (i < finalItr → st1.trajectory.eventsPastTheEndIndeces
      = st.trajectory.eventsPastTheEndIndeces ++ [st.trajectory.stateTrajectory.length]) ∧
    (¬ i < finalItr → st1.trajectory.eventsPastTheEndIndeces
      = st.trajectory.eventsPastTheEndIndeces) := by
  unfold rolloutTimeTriggeredWorker_jump at h
  split at h
  · rename_i hlt
    split at h
    · have h := Except.ok.inj h
      subst h
      exact ⟨rfl, fun _ => rfl, fun hn => absurd hlt hn⟩
    · cases h
  · rename_i hlt
    have h := Except.ok.inj h
    subst h
    exact ⟨rfl, fun hn => absurd hn hlt, fun _ => rfl⟩

theorem rolloutTimeTriggeredWorker_pass_markers {n m : Nat} (E : TimeTriggeredModel α n m)
    (hE : spec_appendsSample E)
    (partitionIndex : Nat) (controller : Controller α n m) (switchingTimes : List α)
    (beginItr finalItr : Nat) (initTime finalTime : α) (st st1 : TimeTriggeredRun α n m)
    (i : Nat) (hif : i ≤ finalItr)
    (hinv : markersInvariant beginItr i st)
    (h : rolloutTimeTriggeredWorker_pass E partitionIndex controller switchingTimes beginItr
      finalItr initTime finalTime st i = .ok st1) :
    (i = finalItr → markersFinal beginItr finalItr st1) ∧
    (i ≠ finalItr → markersInvariant beginItr (i + 1) st1) := by
  obtain ⟨hp, hr, hl⟩ := hinv
  unfold rolloutTimeTriggeredWorker_pass at h
  obtain ⟨beginTime, -, h⟩ := bind_eq_ok _ _ _ h
  obtain ⟨endTime, -, h⟩ := bind_eq_ok _ _ _ h
  obtain ⟨st2, hsim, h⟩ := bind_eq_ok _ _ _ h
  obtain ⟨s1, s2⟩ := rolloutTimeTriggeredWorker_simulate_appends E hE partitionIndex controller
    st st2 beginTime endTime hsim
  obtain ⟨j1, j2, j3⟩ := rolloutTimeTriggeredWorker_jump_marker E partitionIndex finalItr
    st2 st1 i h
  constructor
  · intro hi
    have hev := j3 (by omega)
    rw [s1] at hev
    refine ⟨by rw [hev]; exact hp, fun e he => ?_, by rw [hev, ← hi]; exact hl⟩
    rw [hev] at he
    have := hr e he
    rw [j1]
    omega
  · intro hi
    have hev := j2 (by omega)
    rw [s1] at hev
    refine ⟨?_, fun e he => ?_, ?_⟩
    · rw [hev, List.pairwise_append]
      refine ⟨hp, List.pairwise_singleton _ _, fun a ha b hb => ?_⟩
      rw [List.mem_singleton] at hb
      have := hr a ha
      omega
    · rw [hev, List.mem_append, List.mem_singleton] at he
      rw [j1]
      rcases he with he | he
      · have := hr e he
        omega
      · omega
    · rw [hev, List.length_append, List.length_singleton]
      omega

theorem rolloutTimeTriggeredWorker_loop_markers {n m : Nat} (E : TimeTriggeredModel α n m)
    (hE : spec_appendsSample E)
    (partitionIndex : Nat) (controller : Controller α n m) (switchingTimes : List α)
    (beginItr finalItr : Nat) (initTime finalTime : α) (count : Nat) :
    ∀ (i : Nat) (st st1 : TimeTriggeredRun α n m), i + count = finalItr →
      markersInvariant beginItr i st →
      rolloutTimeTriggeredWorker_loop E partitionIndex controller switchingTimes beginItr
        finalItr initTime finalTime (count + 1) i st = .ok st1 →
      markersFinal beginItr finalItr st1 := by
  induction count with
  | zero =>
    intro i st st1 hcnt hinv h
    rw [rolloutTimeTriggeredWorker_loop] at h
    obtain ⟨st2, hp, h⟩ := bind_eq_ok _ _ _ h
    rw [rolloutTimeTriggeredWorker_loop] at h
    rw [← Except.ok.inj h]
    exact (rolloutTimeTriggeredWorker_pass_markers E hE partitionIndex controller
      switchingTimes beginItr finalItr initTime finalTime st st2 i (by omega) hinv hp).1
      (by omega)
  | succ count ih =>
    intro i st st1 hcnt hinv h
    rw [rolloutTimeTriggeredWorker_loop] at h
    obtain ⟨st2, hp, h⟩ := bind_eq_ok _ _ _ h
    have hinv2 := (rolloutTimeTriggeredWorker_pass_markers E hE partitionIndex controller
      switchingTimes beginItr finalItr initTime finalTime st st2 i (by omega) hinv hp).2
      (by omega)
    exact ih (i + 1) st2 st1 (by omega) hinv2 h

/-- C26. For every call of `rolloutTimeTriggeredWorker` that returns, in an environment whose
integration and operating-trajectory calls append at least one state each, the returned
`eventsPastTheEndIndeces` are strictly increasing, each is at least 1 and at most the number
`N` of stored states, and their number is `finalItr - beginItr` (with `beginItr <= finalItr`),
plus one if `eventAtFinalTime` holds. Without an event at the final time every marker is
below `N`; with one, the last marker is `N`, every other marker is below `N`, the returned
state is the jump map of the last stored sample, and that sample stays the last one of the
trajectory. -/
theorem rolloutTimeTriggeredWorker_markers {n m : Nat} (E : TimeTriggeredModel α n m)
    (hE : spec_appendsSample E)
    (initActivePartition_ finalActivePartition_ : Nat)
    (partitionIndex : Nat) (initTime : α) (initState : Fin n → α) (finalTime : α)
    (controller : Controller α n m) (r : (Fin n → α) × PartitionTrajectory α n m)
    (h : rolloutTimeTriggeredWorker E initActivePartition_ finalActivePartition_
      partitionIndex initTime initState finalTime controller = .ok r) :
    r.2.eventsPastTheEndIndeces.Pairwise (fun a b => a < b) ∧
    (∀ e, e ∈ r.2.eventsPastTheEndIndeces → 1 ≤ e ∧ e ≤ r.2.stateTrajectory.length) ∧
    rolloutTimeTriggeredWorker_beginItr E initActivePartition_ partitionIndex initTime
      ≤ rolloutTimeTriggeredWorker_finalItr E finalActivePartition_ partitionIndex finalTime ∧
    r.2.eventsPastTheEndIndeces.length
      = rolloutTimeTriggeredWorker_finalItr E finalActivePartition_ partitionIndex finalTime
        - rolloutTimeTriggeredWorker_beginItr E initActivePartition_ partitionIndex initTime
        + (if rolloutTimeTriggeredWorker_eventAtFinalTime E partitionIndex
            (rolloutTimeTriggeredWorker_finalItr E finalActivePartition_ partitionIndex
              finalTime) finalTime = true then 1 else 0) ∧
    (rolloutTimeTriggeredWorker_eventAtFinalTime E partitionIndex
        (rolloutTimeTriggeredWorker_finalItr E finalActivePartition_ partitionIndex finalTime)
        finalTime = false →
      ∀ e, e ∈ r.2.eventsPastTheEndIndeces → e < r.2.stateTrajectory.length) ∧
    (rolloutTimeTriggeredWorker_eventAtFinalTime E partitionIndex
        (rolloutTimeTriggeredWorker_finalItr E finalActivePartition_ partitionIndex finalTime)
        finalTime = true →
      r.2.eventsPastTheEndIndeces.getLast? = some r.2.stateTrajectory.length ∧
      (∀ e, e ∈ r.2.eventsPastTheEndIndeces.dropLast → e < r.2.stateTrajectory.length) ∧
      ∃ tBack xBack, r.2.timeTrajectory.getLast? = some tBack ∧
        r.2.stateTrajectory.getLast? = some xBack ∧
        r.1 = E.computeJumpMap partitionIndex tBack xBack) := by
  rw [rolloutTimeTriggeredWorker_unfold] at h
  generalize rolloutTimeTriggeredWorker_beginItr E initActivePartition_ partitionIndex
    initTime = beginItr at h ⊢
  generalize rolloutTimeTriggeredWorker_finalItr E finalActivePartition_ partitionIndex
    finalTime = finalItr at h ⊢
  generalize rolloutTimeTriggeredWorker_eventAtFinalTime E partitionIndex finalItr finalTime
    = eventAtFinalTime at h ⊢
  split at h
  · cases h
  obtain ⟨st, hloop, h⟩ := bind_eq_ok _ _ _ h
  simp only at h
  cases hcount : finalItr + 1 - beginItr with
  | zero =>
    rw [hcount, rolloutTimeTriggeredWorker_loop] at hloop
    have hst := Except.ok.inj hloop
    rw [← hst] at h
    simp only [List.getLast?_nil] at h
    split at h <;> cases h
  | succ c =>
    rw [hcount] at hloop
    obtain ⟨f1, f2, f3⟩ := rolloutTimeTriggeredWorker_loop_markers E hE partitionIndex
      controller (E.getSwitchingTimes partitionIndex) beginItr finalItr initTime finalTime c
      beginItr _ st (by omega)
      ⟨List.Pairwise.nil, fun e he => absurd he (List.not_mem_nil e), by simp⟩ hloop
    have hle : beginItr ≤ finalItr := by omega
    by_cases hev : eventAtFinalTime = true
    · rw [if_pos hev] at h
      split at h
      · rename_i tBack xBack htBack hxBack
        have h := Except.ok.inj h
        subst h
        refine ⟨?_, fun e he => ?_, hle, ?_, fun hfalse => ?_, fun _ => ⟨?_, fun e he => ?_,
          tBack, xBack, htBack, hxBack, rfl⟩⟩
        · show (st.trajectory.eventsPastTheEndIndeces
            ++ [st.trajectory.stateTrajectory.length]).Pairwise _
          rw [List.pairwise_append]
          refine ⟨f1, List.pairwise_singleton _ _, fun a ha b hb => ?_⟩
          rw [List.mem_singleton] at hb
          have := f2 a ha
          omega
        · have he : e ∈ st.trajectory.eventsPastTheEndIndeces
              ++ [st.trajectory.stateTrajectory.length] := he
          rw [List.mem_append, List.mem_singleton] at he
          show 1 ≤ e ∧ e ≤ st.trajectory.stateTrajectory.length
          rcases he with he | he
          · have := f2 e he
            omega
          · have hne : st.trajectory.stateTrajectory ≠ [] := by
              intro hnil
              rw [hnil] at hxBack
              cases hxBack
            have := List.length_pos.mpr hne
            omega
        · show (st.trajectory.eventsPastTheEndIndeces
            ++ [st.trajectory.stateTrajectory.length]).length = _
          rw [List.length_append, List.length_singleton, if_pos hev]
          omega
        · rw [hev] at hfalse
          cases hfalse
        · show (st.trajectory.eventsPastTheEndIndeces
            ++ [st.trajectory.stateTrajectory.length]).getLast? = _
          rw [List.getLast?_append, List.getLast?_singleton]
          rfl
        · have he : e ∈ (st.trajectory.eventsPastTheEndIndeces
              ++ [st.trajectory.stateTrajectory.length]).dropLast := he
          rw [List.dropLast_concat] at he
          exact (f2 e he).2
      · cases h
    · rw [if_neg hev] at h
      split at h
      · have h := Except.ok.inj h
        subst h
        refine ⟨f1, fun e he => ?_, hle, ?_, fun _ e he => (f2 e he).2,
          fun htrue => absurd htrue hev⟩
        · exact ⟨(f2 e he).1, Nat.le_of_lt (f2 e he).2⟩
        · rw [if_neg hev]
          show st.trajectory.eventsPastTheEndIndeces.length = _
          omega
      · cases h

theorem eventModel_appends : spec_appendsSample eventModel := by
  constructor
  · intro p c x a b xs ts h
    simp only [eventModel, holdModel] at h
    split at h
    · have h := Except.ok.inj h
      simp only [Prod.mk.injEq] at h
      obtain ⟨rfl, -⟩ := h
      simp
    · cases h
  · intro p x a b ts xs us h
    simp only [eventModel, holdModel] at h
    split at h
    · have h := Except.ok.inj h
      simp only [Prod.mk.injEq] at h
      obtain ⟨-, rfl, -⟩ := h
      simp
    · cases h

/-- The rollout of partition 0 of `eventModel` from time 0 to time 2, without a controller:
four samples, the marker 2 of the event at time 1 and the marker 4 of the event at the final
time. -/
theorem eventModel_worker (x : Fin 1 → ℚ) :
    rolloutTimeTriggeredWorker eventModel 0 0 0 0 x 2 Controller.clear
      = .ok (x + 1 + 1, ⟨[0, 1, 1, 2], [2, 4], [x, x, x + 1, x + 1], [0, 0, 0, 0]⟩) := by
  have hs2 : sizeMinusOne 2 = 1 := by decide
  have ht0 : toSize 0 = 0 := by decide
  have ht1 : toSize 1 = 1 := by decide
  have hd1 : decide ((0 : ℚ) < 2) = true := by norm_num
  have hd2 : decide ((1 : ℚ) < 2) = true := by norm_num
  have hd3 : decide ((2 : ℚ) < 2) = false := by norm_num
  have hd4 : decide ((2 : ℚ) < 2 + 1 / 1000000) = true := by norm_num
  have hn : ¬ ((0 : ℚ) > 2) := by norm_num
  simp [rolloutTimeTriggeredWorker, rolloutTimeTriggeredWorker_loop,
    rolloutTimeTriggeredWorker_pass, rolloutTimeTriggeredWorker_simulate,
    rolloutTimeTriggeredWorker_jump, eventModel, holdModel, hs2, ht0, ht1, Controller.clear,
    Controller.empty, Except.bind, Except.map, List.filter, indexAt, hd1, hd2, hd3, hd4]
  norm_num [ht0, ht1, rolloutTimeTriggeredWorker_loop,
    rolloutTimeTriggeredWorker_pass, rolloutTimeTriggeredWorker_simulate,
    rolloutTimeTriggeredWorker_jump, Except.bind, Except.map, Controller.empty, indexAt,
    hd1, hd2, hd3, hd4]

theorem rolloutTimeTriggeredWorker_markers_witness :
    spec_appendsSample eventModel ∧
    ∃ r, rolloutTimeTriggeredWorker eventModel 0 0 0 0 (fun _ => 5) 2 Controller.clear = .ok r ∧
      r.2.eventsPastTheEndIndeces = [2, 4] ∧ r.2.stateTrajectory.length = 4 ∧
      r.2.eventsPastTheEndIndeces.Pairwise (fun a b => a < b) ∧
      ∀ e, e ∈ r.2.eventsPastTheEndIndeces → 1 ≤ e ∧ e ≤ r.2.stateTrajectory.length := by
  have h := rolloutTimeTriggeredWorker_markers eventModel eventModel_appends 0 0 0 0
    (fun _ => 5) 2 Controller.clear _ (eventModel_worker (fun _ => 5))
  exact ⟨eventModel_appends, _, eventModel_worker (fun _ => 5), rfl, rfl, h.1, h.2.1⟩

/-! ## The first check of the rollout workers (C21) -/

theorem mapError_bind {ε ε1 β γ : Type} (x : Except ε β) (f : β → Except ε γ) (g : ε → ε1) :
    (x.bind f).mapError g = (x.mapError g).bind fun b => (f b).mapError g := by
  cases x <;> rfl

theorem mapError_mapError {ε ε1 ε2 β : Type} (x : Except ε β) (f : ε → ε1) (g : ε1 → ε2) :
    (x.mapError f).mapError g = x.mapError fun e => g (f e) := by
  cases x <;> rfl

theorem mapError_id {ε β : Type} (x : Except ε β) : (x.mapError fun e => e) = x := by
  cases x <;> rfl

/-- Dropping the variables from the exception of a pass gives the pass. -/
theorem rolloutTimeTriggeredWorker_pass_call_eq {n m : Nat} (E : TimeTriggeredModel α n m)
    (partitionIndex : Nat) (controller : Controller α n m) (switchingTimes : List α)
    (beginItr finalItr : Nat) (initTime finalTime : α) (st : TimeTriggeredRun α n m)
    (i : Nat) :
    (rolloutTimeTriggeredWorker_pass_call E partitionIndex controller switchingTimes beginItr
      finalItr initTime finalTime st i).mapError Prod.fst
      = rolloutTimeTriggeredWorker_pass E partitionIndex controller switchingTimes beginItr
        finalItr initTime finalTime st i := by
  unfold rolloutTimeTriggeredWorker_pass_call rolloutTimeTriggeredWorker_pass
  rw [mapError_bind, mapError_mapError, mapError_id]
  congr 1
  funext beginTime
  rw [mapError_bind, mapError_mapError, mapError_id]
  congr 1
  funext endTime
  rw [mapError_bind, mapError_mapError, mapError_id]
  congr 1
  funext st1
  rw [mapError_mapError, mapError_id]

theorem rolloutTimeTriggeredWorker_loop_call_eq {n m : Nat} (E : TimeTriggeredModel α n m)
    (partitionIndex : Nat) (controller : Controller α n m) (switchingTimes : List α)
    (beginItr finalItr : Nat) (initTime finalTime : α) (count : Nat) :
    ∀ (i : Nat) (st : TimeTriggeredRun α n m),
      (rolloutTimeTriggeredWorker_loop_call E partitionIndex controller switchingTimes beginItr
        finalItr initTime finalTime count i st).mapError Prod.fst
        = rolloutTimeTriggeredWorker_loop E partitionIndex controller switchingTimes beginItr
          finalItr initTime finalTime count i st := by
  induction count with
  | zero => intro i st; rfl
  | succ count ih =>
    intro i st
    rw [rolloutTimeTriggeredWorker_loop_call, rolloutTimeTriggeredWorker_loop, mapError_bind,
      rolloutTimeTriggeredWorker_pass_call_eq]
    congr 1
    funext s
    exact ih (i + 1) s

/-- Dropping the reference arguments from the exception of the call gives
`rolloutTimeTriggeredWorker`. -/
theorem rolloutTimeTriggeredWorker_call_eq {n m : Nat} (E : TimeTriggeredModel α n m)
    (initActivePartition_ finalActivePartition_ : Nat)
    (partitionIndex : Nat) (initTime : α) (initState : Fin n → α) (finalTime : α)
    (controller : Controller α n m) (out : PartitionTrajectory α n m) :
    (rolloutTimeTriggeredWorker_call E initActivePartition_ finalActivePartition_
      partitionIndex initTime initState finalTime controller out).mapError Prod.fst
      = rolloutTimeTriggeredWorker E initActivePartition_ finalActivePartition_
        partitionIndex initTime initState finalTime controller := by
  rw [rolloutTimeTriggeredWorker_unfold]
  unfold rolloutTimeTriggeredWorker_call rolloutTimeTriggeredWorker_rollout
  by_cases hgt : initTime > finalTime
  · rw [if_pos hgt, if_pos hgt]
    rfl
  · rw [if_neg hgt, if_neg hgt]
    simp only []
    rw [mapError_bind, mapError_mapError, ← rolloutTimeTriggeredWorker_loop_call_eq]
    congr 1
    funext st
    split
    · split <;> rfl
    · split <;> rfl

theorem map_bind {ε β γ δ : Type} (x : Except ε β) (f : β → Except ε γ) (g : γ → δ) :
    (x.bind f).map g = x.bind fun b => (f b).map g := by
  cases x <;> rfl

theorem rolloutStateTriggeredWorker_pass_call_eq {X U σ : Type}
    (M : StateTriggeredModel α X U σ) (partitionIndex : Nat) (finalTime : α)
    (st : StateTriggeredRun α X U σ) :
    (rolloutStateTriggeredWorker_pass_call M partitionIndex finalTime st).mapError Prod.fst
      = rolloutStateTriggeredWorker_pass M partitionIndex finalTime st := by
  unfold rolloutStateTriggeredWorker_pass_call rolloutStateTriggeredWorker_pass
  simp only []
  split
  · split <;> rfl
  · rfl

theorem rolloutStateTriggeredWorker_while_call_eq {X U σ : Type}
    (M : StateTriggeredModel α X U σ) (partitionIndex : Nat) (finalTime : α) (fuel : Nat) :
    ∀ (st : StateTriggeredRun α X U σ),
      (rolloutStateTriggeredWorker_while_call M partitionIndex finalTime fuel st).mapError
        Prod.fst
        = rolloutStateTriggeredWorker_while M partitionIndex finalTime fuel st := by
  induction fuel with
  | zero =>
    intro st
    rw [rolloutStateTriggeredWorker_while_call, rolloutStateTriggeredWorker_while]
    split <;> rfl
  | succ fuel ih =>
    intro st
    rw [rolloutStateTriggeredWorker_while_call, rolloutStateTriggeredWorker_while]
    split
    · rw [mapError_bind, rolloutStateTriggeredWorker_pass_call_eq]
      congr 1
      funext s
      exact ih s
    · rfl

/-- Dropping the reference arguments from the exception of the call gives
`rolloutStateTriggeredWorker`, and the arguments that the call returns are those among the
variables that `rolloutStateTriggeredWorker` returns. -/
theorem rolloutStateTriggeredWorker_call_eq {X U σ : Type} (M : StateTriggeredModel α X U σ)
    (fuel : Nat) (sigma : σ) (partitionIndex : Nat) (initTime : α) (initState : X)
    (finalTime : α) (controllerEmpty : Bool) (args : StateTriggeredArguments α X U) :
    (rolloutStateTriggeredWorker_call M fuel sigma partitionIndex initTime initState finalTime
      controllerEmpty args).mapError Prod.fst
      = (rolloutStateTriggeredWorker M fuel sigma partitionIndex initTime initState finalTime
          controllerEmpty args.eventTimes args.subsystemID args.guardSurfacesValues
          args.hybridLlogicRulesMachine).map fun r => (r.1, r.2.arguments) := by
  unfold rolloutStateTriggeredWorker_call rolloutStateTriggeredWorker_rollout
    rolloutStateTriggeredWorker
  by_cases hgt : initTime > finalTime
  · rw [if_pos hgt, if_pos hgt]
    rfl
  · rw [if_neg hgt, if_neg hgt]
    by_cases hev : args.eventTimes.isEmpty = false ∧ args.guardSurfacesValues.isEmpty = true
    · rw [if_pos hev, if_pos hev]
      rfl
    · rw [if_neg hev, if_neg hev]
      simp only []
      rw [mapError_bind, mapError_mapError, map_bind,
        ← rolloutStateTriggeredWorker_while_call_eq]
      congr 1
      funext st
      split <;> rfl

/-- C21. When `initTime > finalTime`, `rolloutTimeTriggeredWorker` and
`rolloutStateTriggeredWorker` throw "Initial time should be less-equal to final time.", and
the exception leaves with every reference argument (the output trajectories, the event
markers, and for the state-triggered worker the event times, subsystem ids, guard-surface
values and logic machine) exactly as the caller passed it. When `initTime = finalTime` the
check does not throw: the call is the part of the function after the check. -/
theorem rolloutWorkers_check {n m : Nat} {X U σ : Type} (E : TimeTriggeredModel α n m)
    (M : StateTriggeredModel α X U σ)
    (initActivePartition_ finalActivePartition_ partitionIndex : Nat) (initTime : α)
    (initState : Fin n → α) (finalTime : α) (controller : Controller α n m)
    (out : PartitionTrajectory α n m)
    (fuel : Nat) (sigma : σ) (initStateX : X) (controllerEmpty : Bool)
    (args : StateTriggeredArguments α X U) :
    (initTime > finalTime →
      rolloutTimeTriggeredWorker_call E initActivePartition_ finalActivePartition_
          partitionIndex initTime initState finalTime controller out
        = .error ("Initial time should be less-equal to final time.", out) ∧
      rolloutStateTriggeredWorker_call M fuel sigma partitionIndex initTime initStateX
          finalTime controllerEmpty args
        = .error ("Initial time should be less-equal to final time.", args) ∧
      rolloutTimeTriggeredWorker E initActivePartition_ finalActivePartition_
          partitionIndex initTime initState finalTime controller
        = .error "Initial time should be less-equal to final time." ∧
      rolloutStateTriggeredWorker M fuel sigma partitionIndex initTime initStateX finalTime
          controllerEmpty args.eventTimes args.subsystemID args.guardSurfacesValues
          args.hybridLlogicRulesMachine
        = .error "Initial time should be less-equal to final time.") ∧
    (initTime = finalTime →
      rolloutTimeTriggeredWorker_call E initActivePartition_ finalActivePartition_
          partitionIndex initTime initState finalTime controller out
        = rolloutTimeTriggeredWorker_rollout E initActivePartition_ finalActivePartition_
          partitionIndex initTime initState finalTime controller ∧
      rolloutStateTriggeredWorker_call M fuel sigma partitionIndex initTime initStateX
          finalTime controllerEmpty args
        = rolloutStateTriggeredWorker_rollout M fuel sigma partitionIndex initTime initStateX
          finalTime controllerEmpty args) := by
  constructor
  · intro hgt
    refine ⟨?_, ?_, ?_, ?_⟩
    · unfold rolloutTimeTriggeredWorker_call
      rw [if_pos hgt]
    · unfold rolloutStateTriggeredWorker_call
      rw [if_pos hgt]
    · unfold rolloutTimeTriggeredWorker
      rw [if_pos hgt]
    · unfold rolloutStateTriggeredWorker
      rw [if_pos hgt]
  · intro heq
    have hn : ¬ initTime > finalTime := by
      rw [heq]
      exact lt_irrefl finalTime
    constructor
    · unfold rolloutTimeTriggeredWorker_call
      rw [if_neg hn]
    · unfold rolloutStateTriggeredWorker_call
      rw [if_neg hn]

theorem rolloutWorkers_check_witness :
    rolloutTimeTriggeredWorker_call holdModel 0 1 0 2 (fun _ => 5) 1 Controller.clear
        ⟨[9], [1], [fun _ => 7], [fun _ => 8]⟩
      = .error ("Initial time should be less-equal to final time.",
          ⟨[9], [1], [fun _ => 7], [fun _ => 8]⟩) ∧
    rolloutStateTriggeredWorker_call crossingModel 2 0 0 2 0 1 false
        ⟨[9], [1], [7], [8], [3], [4], [5], [(0, 3, 4)]⟩
      = .error ("Initial time should be less-equal to final time.",
          ⟨[9], [1], [7], [8], [3], [4], [5], [(0, 3, 4)]⟩) ∧
    rolloutTimeTriggeredWorker_call holdModel 0 0 0 1 (fun _ => 5) 1 Controller.clear
        ⟨[9], [1], [fun _ => 7], [fun _ => 8]⟩
      = .ok (fun _ => 5, ⟨[1, 1], [], [fun _ => 5, fun _ => 5], [0, 0]⟩) := by
  have h1 := (rolloutWorkers_check holdModel crossingModel 0 1 0 2 (fun _ => 5) 1
    Controller.clear ⟨[9], [1], [fun _ => 7], [fun _ => 8]⟩ 2 0 0 false
    ⟨[9], [1], [7], [8], [3], [4], [5], [(0, 3, 4)]⟩).1 (by norm_num)
  have h2 := (rolloutWorkers_check holdModel crossingModel 0 0 0 1 (fun _ => 5) 1
    Controller.clear ⟨[9], [1], [fun _ => 7], [fun _ => 8]⟩ 2 0 0 false
    ⟨[9], [1], [7], [8], [3], [4], [5], [(0, 3, 4)]⟩).2 rfl
  refine ⟨h1.1, h1.2.1, ?_⟩
  rw [h2.1]
  have hs1 : sizeMinusOne 1 = 0 := by decide
  have ht0 : toSize 0 = 0 := by decide
  have hd1 : decide ((0 : ℚ) < 1) = true := by norm_num
  have hd2 : decide ((1 : ℚ) < 1) = false := by norm_num
  simp [rolloutTimeTriggeredWorker_rollout, rolloutTimeTriggeredWorker_beginItr,
    rolloutTimeTriggeredWorker_finalItr, rolloutTimeTriggeredWorker_eventAtFinalTime,
    rolloutTimeTriggeredWorker_loop_call, rolloutTimeTriggeredWorker_pass_call,
    rolloutTimeTriggeredWorker_simulate, rolloutTimeTriggeredWorker_jump, holdModel, hs1, ht0,
    Controller.clear, Controller.empty, Except.bind, Except.map, Except.mapError, List.filter,
    hd1, hd2]

/-! ## Time normalization of the Riccati workers (C25) -/

/-- A loop that writes `f (src[k])` to entry `N - 1 - k` for every `k < N` leaves the
reversed list of the values. -/
theorem forRange_fill_reversed {β γ : Type} (f : β → γ) (src : List β) (dst : List γ)
    (hlen : dst.length = src.length) :
    forRange (fun k (acc : List γ) =>
      (indexAt src k).bind fun t => updateAt acc (src.length - 1 - k) fun _ => .ok (f t))
      src.length 0 dst = .ok (src.map f).reverse := by
  obtain ⟨r, hrun, hrl, hr⟩ := forRange_invariant
    (fun k (acc : List γ) =>
      (indexAt src k).bind fun t => updateAt acc (src.length - 1 - k) fun _ => .ok (f t))
    (fun k acc => acc.length = src.length ∧
      ∀ j b, j < k → src[j]? = some b → acc[src.length - 1 - j]? = some (f b))
    src.length 0 dst ⟨hlen, fun j b hj _ => absurd hj (Nat.not_lt_zero j)⟩
    (by
      rintro k acc - hk ⟨hal, hacc⟩
      obtain ⟨t, ht⟩ := getElem?_of_lt src k (by omega)
      refine ⟨acc.set (src.length - 1 - k) (f t), ?_, ?_, ?_⟩
      · simp only []
        rw [indexAt_of_getElem? _ _ _ ht, bind_ok, updateAt_ok _ _ _ (by omega)]
      · rw [List.length_set]
        exact hal
      · intro j b hj hb
        by_cases hjk : j = k
        · subst hjk
          rw [ht] at hb
          cases hb
          exact getElem?_set_self_of_lt _ _ _ (by omega)
        · rw [List.getElem?_set_ne (by omega)]
          exact hacc j b (by omega) hb)
  rw [Nat.zero_add] at hr
  rw [hrun]
  congr 1
  apply List.ext_getElem?
  intro j
  by_cases hj : j < src.length
  · obtain ⟨b, hb⟩ := getElem?_of_lt src (src.length - 1 - j) (by omega)
    have h1 := hr (src.length - 1 - j) b (by omega) hb
    have hidx : src.length - 1 - (src.length - 1 - j) = j := by omega
    rw [hidx] at h1
    rw [h1, List.getElem?_reverse (by rw [List.length_map]; exact hj), List.length_map,
      List.getElem?_map, hb]
    rfl
  · rw [List.getElem?_eq_none (by omega), List.getElem?_eq_none]
    rw [List.length_reverse, List.length_map]
    omega

/-- A loop that writes `f (src[N - 1 - k])` to entry `k` for every `k < N` leaves the
reversed list of the values. -/
theorem forRange_fill_from_reversed {β γ : Type} (f : β → γ) (src : List β) (dst : List γ)
    (hlen : dst.length = src.length) :
    forRange (fun k (acc : List γ) =>
      (indexAt src (src.length - 1 - k)).bind fun s => updateAt acc k fun _ => .ok (f s))
      src.length 0 dst = .ok (src.map f).reverse := by
  obtain ⟨r, hrun, hrl, hr⟩ := forRange_invariant
    (fun k (acc : List γ) =>
      (indexAt src (src.length - 1 - k)).bind fun s => updateAt acc k fun _ => .ok (f s))
    (fun k acc => acc.length = src.length ∧
      ∀ j b, j < k → src[src.length - 1 - j]? = some b → acc[j]? = some (f b))
    src.length 0 dst ⟨hlen, fun j b hj _ => absurd hj (Nat.not_lt_zero j)⟩
    (by
      rintro k acc - hk ⟨hal, hacc⟩
      obtain ⟨s, hs⟩ := getElem?_of_lt src (src.length - 1 - k) (by omega)
      refine ⟨acc.set k (f s), ?_, ?_, ?_⟩
      · simp only []
        rw [indexAt_of_getElem? _ _ _ hs, bind_ok, updateAt_ok _ _ _ (by omega)]
      · rw [List.length_set]
        exact hal
      · intro j b hj hb
        by_cases hjk : j = k
        · subst hjk
          rw [hs] at hb
          cases hb
          exact getElem?_set_self_of_lt _ _ _ (by omega)
        · rw [List.getElem?_set_ne (by omega)]
          exact hacc j b (by omega) hb)
  rw [Nat.zero_add] at hr
  rw [hrun]
  congr 1
  apply List.ext_getElem?
  intro j
  by_cases hj : j < src.length
  · obtain ⟨b, hb⟩ := getElem?_of_lt src (src.length - 1 - j) (by omega)
    rw [hr j b hj hb, List.getElem?_reverse (by rw [List.length_map]; exact hj),
      List.length_map, List.getElem?_map, hb]
    rfl
  · rw [List.getElem?_eq_none (by omega), List.getElem?_eq_none]
    rw [List.length_reverse, List.length_map]
    omega

theorem spec_normalize_antitone (ti tf : α) (h : ti < tf) (t1 t2 : α) (h12 : t1 ≤ t2) :
    spec_normalize ti tf t2 ≤ spec_normalize ti tf t1 := by
  unfold spec_normalize
  have hneg : ti - tf < 0 := by linarith
  exact div_le_div_of_nonpos_of_le (le_of_lt hneg) (by linarith)

theorem spec_denormalize_normalize (ti tf : α) (h : ti < tf) (t : α) :
    spec_denormalize ti tf (spec_normalize ti tf t) = t := by
  unfold spec_denormalize spec_normalize
  have hne : ti - tf ≠ 0 := by
    intro h0
    linarith
  field_simp

theorem spec_normalize_denormalize (ti tf : α) (h : ti < tf) (s : α) :
    spec_normalize ti tf (spec_denormalize ti tf s) = s := by
  unfold spec_denormalize spec_normalize
  have hne : ti - tf ≠ 0 := by
    intro h0
    linarith
  field_simp

theorem solveRiccatiEquationsForNominalTimeWorker_normalize_eq (partitioningTimes_ : List α)
    (partitionIndex : Nat) (ti tf : α)
    (hti : partitioningTimes_[partitionIndex]? = some ti)
    (htf : partitioningTimes_[partitionIndex + 1]? = some tf)
    (nominalTimeTrajectory SsNormalizedTime : List α) :
    solveRiccatiEquationsForNominalTimeWorker_normalize partitioningTimes_ partitionIndex
        nominalTimeTrajectory SsNormalizedTime
      = .ok (nominalTimeTrajectory.map (spec_normalize ti tf)).reverse := by
  unfold solveRiccatiEquationsForNominalTimeWorker_normalize
  rw [indexAt_of_getElem? _ _ _ hti, bind_ok, indexAt_of_getElem? _ _ _ htf, bind_ok]
  exact forRange_fill_reversed (spec_normalize ti tf) nominalTimeTrajectory _
    (resize_length _ _ _)

theorem solveRiccatiEquationsWorker_denormalize_eq (partitioningTimes_ : List α)
    (partitionIndex : Nat) (ti tf : α)
    (hti : partitioningTimes_[partitionIndex]? = some ti)
    (htf : partitioningTimes_[partitionIndex + 1]? = some tf)
    (SsNormalizedTime SsTime : List α) :
    solveRiccatiEquationsWorker_denormalize partitioningTimes_ partitionIndex
        SsNormalizedTime SsTime
      = .ok (SsNormalizedTime.map (spec_denormalize ti tf)).reverse := by
  unfold solveRiccatiEquationsWorker_denormalize
  rw [indexAt_of_getElem? _ _ _ hti, bind_ok, indexAt_of_getElem? _ _ _ htf, bind_ok]
  exact forRange_fill_from_reversed (spec_denormalize ti tf) SsNormalizedTime _
    (resize_length _ _ _)

/-- C25. For a partition `[ti, tf]` of the schedule with `ti < tf`, the normalization
`s(t) = (t - tf) / (ti - tf)` sends `tf` to 0 and `ti` to 1, maps the partition into `[0, 1]`,
reverses order, and the denormalization `t(s) = (ti - tf) * s + tf` is its inverse (both
ways). `solveRiccatiEquationsForNominalTimeWorker` builds the reversed array of the
normalized nominal time stamps, which is non-decreasing when the nominal time stamps are, and
the denormalization loop of `solveRiccatiEquationsWorker` builds the reversed array of the
denormalized stamps, so that it returns the nominal time stamps from their normalized array.
In `solveRiccatiEquationsWorker` the start normalized time is at most the final normalized
time when `initTime_ <= finalTime_`, the initial time is not after the end of the initial
active partition and the final time is not before the start of the final active partition. -/
theorem riccati_time_normalization (partitioningTimes_ : List α) (partitionIndex : Nat)
    (ti tf : α)
    (hti : partitioningTimes_[partitionIndex]? = some ti)
    (htf : partitioningTimes_[partitionIndex + 1]? = some tf)
    (h : ti < tf) :
    spec_normalize ti tf tf = 0 ∧ spec_normalize ti tf ti = 1 ∧
    (∀ t, ti ≤ t → t ≤ tf → 0 ≤ spec_normalize ti tf t ∧ spec_normalize ti tf t ≤ 1) ∧
    (∀ t1 t2, t1 ≤ t2 → spec_normalize ti tf t2 ≤ spec_normalize ti tf t1) ∧
    (∀ t, spec_denormalize ti tf (spec_normalize ti tf t) = t) ∧
    (∀ s, spec_normalize ti tf (spec_denormalize ti tf s) = s) ∧
    (∀ nominalTimeTrajectory SsNormalizedTime SsTime : List α,
      solveRiccatiEquationsForNominalTimeWorker_normalize partitioningTimes_ partitionIndex
          nominalTimeTrajectory SsNormalizedTime
        = .ok (nominalTimeTrajectory.map (spec_normalize ti tf)).reverse ∧
      (nominalTimeTrajectory.Pairwise (fun a b => a ≤ b) →
        (nominalTimeTrajectory.map (spec_normalize ti tf)).reverse.Pairwise
          (fun a b => a ≤ b)) ∧
      solveRiccatiEquationsWorker_denormalize partitioningTimes_ partitionIndex
          (nominalTimeTrajectory.map (spec_normalize ti tf)).reverse SsTime
        = .ok nominalTimeTrajectory) ∧
    (∀ SsNormalizedTime SsTime : List α,
      solveRiccatiEquationsWorker_denormalize partitioningTimes_ partitionIndex
          SsNormalizedTime SsTime
        = .ok (SsNormalizedTime.map (spec_denormalize ti tf)).reverse) ∧
    (∀ (initActivePartition_ finalActivePartition_ : Nat) (initTime_ finalTime_ : α),
      initTime_ ≤ finalTime_ →
      (partitionIndex = initActivePartition_ → initTime_ ≤ tf) →
      (partitionIndex = finalActivePartition_ → ti ≤ finalTime_) →
      ∃ startNormalizedTime finalNormalizedTime,
        solveRiccatiEquationsWorker_normalizedTimes partitioningTimes_ initActivePartition_
            finalActivePartition_ initTime_ finalTime_ partitionIndex
          = .ok (ti - tf, startNormalizedTime, finalNormalizedTime) ∧
        finalNormalizedTime
          = (if partitionIndex = initActivePartition_ then spec_normalize ti tf initTime_
             else 1) ∧
        startNormalizedTime
          = (if partitionIndex = finalActivePartition_ then spec_normalize ti tf finalTime_
             else 0) ∧
        startNormalizedTime ≤ finalNormalizedTime) := by
  have hne : ti - tf ≠ 0 := by
    intro h0
    linarith
  have h0 : spec_normalize ti tf tf = 0 := by
    unfold spec_normalize
    rw [sub_self, zero_div]
  have h1 : spec_normalize ti tf ti = 1 := by
    unfold spec_normalize
    exact div_self hne
  have hanti := spec_normalize_antitone ti tf h
  refine ⟨h0, h1, fun t hlo hhi => ?_, hanti, spec_denormalize_normalize ti tf h,
    spec_normalize_denormalize ti tf h, fun nominalTimeTrajectory SsNormalizedTime SsTime => ?_,
    fun SsNormalizedTime SsTime => solveRiccatiEquationsWorker_denormalize_eq partitioningTimes_
      partitionIndex ti tf hti htf SsNormalizedTime SsTime,
    fun initActivePartition_ finalActivePartition_ initTime_ finalTime_ hle hinit hfinal => ?_⟩
  · exact ⟨by rw [← h0]; exact hanti t tf hhi, by rw [← h1]; exact hanti ti t hlo⟩
  · refine ⟨solveRiccatiEquationsForNominalTimeWorker_normalize_eq partitioningTimes_
      partitionIndex ti tf hti htf nominalTimeTrajectory SsNormalizedTime, fun hsorted => ?_, ?_⟩
    · rw [List.pairwise_reverse, List.pairwise_map]
      exact hsorted.imp (fun hab => hanti _ _ hab)
    · rw [solveRiccatiEquationsWorker_denormalize_eq partitioningTimes_ partitionIndex ti tf
        hti htf, List.map_reverse, List.reverse_reverse, List.map_map]
      congr 1
      conv_rhs => rw [← List.map_id nominalTimeTrajectory]
      apply List.map_congr_left
      intro t _
      exact spec_denormalize_normalize ti tf h t
  · refine ⟨_, _, ?_, rfl, rfl, ?_⟩
    · unfold solveRiccatiEquationsWorker_normalizedTimes
      rw [indexAt_of_getElem? _ _ _ hti, bind_ok, indexAt_of_getElem? _ _ _ htf, bind_ok]
      rfl
    · by_cases hi : partitionIndex = initActivePartition_
      · by_cases hf : partitionIndex = finalActivePartition_
        · rw [if_pos hi, if_pos hf]
          exact hanti _ _ hle
        · rw [if_pos hi, if_neg hf, ← h0]
          exact hanti _ _ (hinit hi)
      · by_cases hf : partitionIndex = finalActivePartition_
        · rw [if_neg hi, if_pos hf, ← h1]
          exact hanti _ _ (hfinal hf)
        · rw [if_neg hi, if_neg hf]
          exact zero_le_one

theorem riccati_time_normalization_witness :
    spec_normalize (1 : ℚ) 3 3 = 0 ∧ spec_normalize (1 : ℚ) 3 1 = 1 ∧
    solveRiccatiEquationsForNominalTimeWorker_normalize [(0 : ℚ), 1, 3] 1 [1, 2, 3] []
      = .ok [0, 1 / 2, 1] ∧
    solveRiccatiEquationsWorker_denormalize [(0 : ℚ), 1, 3] 1 [0, 1 / 2, 1] [] = .ok [1, 2, 3] ∧
    solveRiccatiEquationsWorker_normalizedTimes [(0 : ℚ), 1, 3] 1 1 2 (5 / 2) 1
      = .ok (-2, 1 / 4, 1 / 2) := by
  obtain ⟨h0, h1, -, -, -, -, h7, h8, h9⟩ := riccati_time_normalization [(0 : ℚ), 1, 3] 1 1 3
    rfl rfl (by norm_num)
  obtain ⟨s, f, hrun, hf, hs, -⟩ := h9 1 1 2 (5 / 2) (by norm_num) (fun _ => by norm_num)
    (fun _ => by norm_num)
  refine ⟨h0, h1, ?_, ?_, ?_⟩
  · rw [(h7 [1, 2, 3] [] []).1]
    norm_num [spec_normalize]
  · rw [h8 [0, 1 / 2, 1] []]
    norm_num [spec_denormalize]
  · rw [hrun, hf, hs]
    norm_num [spec_normalize]

/-! ## Events in `fullRiccatiBackwardSweepWorker` (C23) -/

/-- Whether the pass for sample `k` of the backward sweep detects an event. -/
theorem fullRiccatiBackwardSweepWorker_detects (events : List Nat) (r k : Nat)
    (hr : r ≤ events.length) :
    ∃ b : Bool,
      (if r > 0 then
        (indexAt events (r - 1)).bind fun e => (Except.ok (decide (k + 1 = e)) : Except String Bool)
       else .ok false) = .ok b ∧
      (b = true ↔ (0 < r ∧ events[r - 1]? = some (k + 1))) := by
  by_cases h0 : r > 0
  · obtain ⟨e, he⟩ := getElem?_of_lt events (r - 1) (by omega)
    refine ⟨decide (k + 1 = e), ?_, ?_⟩
    · rw [if_pos h0, indexAt_of_getElem? _ _ _ he, bind_ok]
    · rw [decide_eq_true_eq, he]
      constructor
      · intro h
        exact ⟨h0, by rw [h]⟩
      · intro h
        exact (Option.some.inj h.2).symm
  · refine ⟨false, by rw [if_neg h0], ?_⟩
    constructor
    · intro h
      cases h
    · intro h
      exact absurd h.1 h0

theorem pairwise_getElem?_lt (l : List Nat) (hs : l.Pairwise (fun a b => a < b))
    (i j a b : Nat) (hij : i < j) (ha : l[i]? = some a) (hb : l[j]? = some b) : a < b := by
  have hi : i < l.length := lt_length_of_getElem? l i a ha
  have hj : j < l.length := lt_length_of_getElem? l j b hb
  rw [List.getElem?_eq_getElem hi] at ha
  rw [List.getElem?_eq_getElem hj] at hb
  rw [← Option.some.inj ha, ← Option.some.inj hb]
  exact (List.pairwise_iff_getElem.mp hs) i j hi hj hij

/-- A pass of the backward sweep that is not an event pass is not at a marker. -/
theorem fullRiccatiBackwardSweepWorker_not_marker (events : List Nat)
    (hs : events.Pairwise (fun a b => a < b)) (r k : Nat) (hr : r ≤ events.length)
    (hlow : ∀ i e, i < r → events[i]? = some e → e ≤ k + 1)
    (hhigh : ∀ i e, r ≤ i → events[i]? = some e → k + 1 < e)
    (hnot : ¬ (0 < r ∧ events[r - 1]? = some (k + 1))) : ¬ k + 1 ∈ events := by
  intro hmem
  obtain ⟨i, hi⟩ := List.mem_iff_getElem?.mp hmem
  by_cases hir : r ≤ i
  · have := hhigh i (k + 1) hir hi
    omega
  · have hr0 : 0 < r := by omega
    by_cases hlast : i = r - 1
    · rw [hlast] at hi
      exact hnot ⟨hr0, hi⟩
    · have hlen : i < events.length := lt_length_of_getElem? events i _ hi
      obtain ⟨e, he⟩ := getElem?_of_lt events (r - 1) (by omega)
      have h1 := pairwise_getElem?_lt events hs i (r - 1) (k + 1) e (by omega) hi he
      have h2 := hlow (r - 1) e (by omega) he
      omega

/-- One pass of the loop of `fullRiccatiBackwardSweepWorker` returns and keeps the
invariant. -/
theorem fullRiccatiBackwardSweepWorker_pass_spec {n : Nat} (P : SweepModel α n) (sFinal : α)
    (hs : P.nominalEventsPastTheEndIndeces.Pairwise (fun a b => a < b))
    (hq : P.nominalTimeTrajectory.length ≤ P.qTrajectory.length)
    (hqF : P.nominalEventsPastTheEndIndeces.length ≤ P.qFinalStock.length)
    (hQv : P.nominalEventsPastTheEndIndeces.length ≤ P.QvFinalStock.length)
    (hQm : P.nominalEventsPastTheEndIndeces.length ≤ P.QmFinalStock.length)
    (j : Nat) (hj : j + 1 < P.nominalTimeTrajectory.length) (st : SweepRun α n)
    (hP : sweepInvariant P sFinal j st) :
    ∃ st1, fullRiccatiBackwardSweepWorker_pass P P.nominalTimeTrajectory.length j st
        = .ok st1 ∧
      sweepInvariant P sFinal (j + 1) st1 := by
  obtain ⟨Sm, Sv, Sve, s, r⟩ := st
  obtain ⟨l1, l2, l3, l4, hr, hlow, hhigh, hval⟩ := hP
  simp only at l1 l2 l3 l4 hr hlow hhigh hval
  obtain ⟨k, hk⟩ : ∃ k, P.nominalTimeTrajectory.length - 2 - j = k := ⟨_, rfl⟩
  have hK : P.nominalTimeTrajectory.length - 1 - j = k + 1 := by omega
  have hK1 : P.nominalTimeTrajectory.length - 1 - (j + 1) = k := by omega
  have hkN : k + 1 < P.nominalTimeTrajectory.length := by omega
  have hkN1 : k < P.nominalTimeTrajectory.length - 1 := by omega
  rw [hK] at hlow hhigh hval
  obtain ⟨b, hdet, hb⟩ := fullRiccatiBackwardSweepWorker_detects
    P.nominalEventsPastTheEndIndeces r k hr
  obtain ⟨tk, htk⟩ := getElem?_of_lt P.nominalTimeTrajectory k (by omega)
  obtain ⟨tk1, htk1⟩ := getElem?_of_lt P.nominalTimeTrajectory (k + 1) hkN
  obtain ⟨Sm1, hSm1⟩ := getElem?_of_lt Sm (k + 1) (by omega)
  obtain ⟨Sv1, hSv1⟩ := getElem?_of_lt Sv (k + 1) (by omega)
  obtain ⟨Sve1, hSve1⟩ := getElem?_of_lt Sve (k + 1) (by omega)
  obtain ⟨q, hqk⟩ := getElem?_of_lt P.qTrajectory k (by omega)
  unfold fullRiccatiBackwardSweepWorker_pass
  simp only []
  rw [hk, hdet, bind_ok, indexAt_of_getElem? _ _ _ htk, bind_ok,
    indexAt_of_getElem? _ _ _ htk1, bind_ok, indexAt_of_getElem? _ _ _ hSm1, bind_ok,
    indexAt_of_getElem? _ _ _ hSv1, bind_ok, indexAt_of_getElem? _ _ _ hSve1, bind_ok,
    indexAt_of_getElem? _ _ _ hval, bind_ok]
  have hsplit := Finset.sum_eq_sum_Ico_succ_bot hkN1 (fun k =>
    if k + 1 ∈ P.nominalEventsPastTheEndIndeces then (0 : α)
    else (P.nominalTimeTrajectory.getD (k + 1) 0 - P.nominalTimeTrajectory.getD k 0)
      * P.qTrajectory.getD k 0)
  cases b with
  | true =>
    obtain ⟨hr0, her⟩ := hb.mp rfl
    obtain ⟨QmFinal, hQmF⟩ := getElem?_of_lt P.QmFinalStock (r - 1) (by omega)
    obtain ⟨QvFinal, hQvF⟩ := getElem?_of_lt P.QvFinalStock (r - 1) (by omega)
    obtain ⟨qFinal, hqFk⟩ := getElem?_of_lt P.qFinalStock (r - 1) (by omega)
    simp only [if_true]
    rw [indexAt_of_getElem? _ _ _ hQmF, bind_ok, indexAt_of_getElem? _ _ _ hQvF, bind_ok,
      indexAt_of_getElem? _ _ _ hqFk, bind_ok, updateAt_ok _ _ _ (by omega), bind_ok,
      updateAt_ok _ _ _ (by omega), bind_ok, updateAt_ok _ _ _ (by omega), bind_ok,
      updateAt_ok _ _ _ (by omega), bind_ok]
    refine ⟨_, rfl, ?_⟩
    refine ⟨by simp only [List.length_set]; exact l1, by simp only [List.length_set]; exact l2,
      by simp only [List.length_set]; exact l3, by simp only [List.length_set]; exact l4,
      by simp only; omega, ?_, ?_, ?_⟩
    · intro i e hi he
      rw [hK1]
      have := pairwise_getElem?_lt P.nominalEventsPastTheEndIndeces hs i (r - 1) e (k + 1)
        (by simpa using hi) he her
      omega
    · intro i e hi he
      rw [hK1]
      by_cases hir : i = r - 1
      · rw [hir, her] at he
        have := Option.some.inj he
        omega
      · have := hhigh i e (by simp only at hi; omega) he
        omega
    · rw [hK1]
      simp only
      rw [getElem?_set_self_of_lt _ _ _ (by omega)]
      congr 1
      have hmem : k + 1 ∈ P.nominalEventsPastTheEndIndeces :=
        List.mem_iff_getElem?.mpr ⟨r - 1, her⟩
      have hterm := Finset.sum_eq_sum_Ico_succ_bot
        (show r - 1 < P.nominalEventsPastTheEndIndeces.length by omega)
        (fun i => P.qFinalStock.getD i 0)
      have hr1 : r - 1 + 1 = r := by omega
      rw [hsplit, hterm, hr1, if_pos hmem, getD_of_getElem? _ _ _ _ hqFk]
      ring
  | false =>
    have hnot : ¬ (0 < r ∧ P.nominalEventsPastTheEndIndeces[r - 1]? = some (k + 1)) := by
      intro h
      have := hb.mpr h
      cases this
    have hmem := fullRiccatiBackwardSweepWorker_not_marker P.nominalEventsPastTheEndIndeces
      hs r k hr hlow hhigh hnot
    simp only [Bool.false_eq_true, if_false]
    rw [indexAt_of_getElem? _ _ _ hqk, bind_ok, updateAt_ok _ _ _ (by omega), bind_ok,
      updateAt_ok _ _ _ (by omega), bind_ok, updateAt_ok _ _ _ (by omega), bind_ok,
      updateAt_ok _ _ _ (by omega), bind_ok]
    refine ⟨_, rfl, ?_⟩
    refine ⟨by simp only [List.length_set]; exact l1, by simp only [List.length_set]; exact l2,
      by simp only [List.length_set]; exact l3, by simp only [List.length_set]; exact l4,
      hr, ?_, ?_, ?_⟩
    · intro i e hi he
      rw [hK1]
      have h1 := hlow i e hi he
      have h2 : e ≠ k + 1 := by
        intro h
        rw [h] at he
        exact hmem (List.mem_iff_getElem?.mpr ⟨i, he⟩)
      omega
    · intro i e hi he
      rw [hK1]
      have := hhigh i e hi he
      omega
    · rw [hK1]
      simp only
      rw [getElem?_set_self_of_lt _ _ _ (by omega)]
      congr 1
      rw [hsplit, if_neg hmem, getD_of_getElem? _ _ _ _ htk1, getD_of_getElem? _ _ _ _ htk,
        getD_of_getElem? _ _ _ _ hqk]
      ring

/-- On a partition with `N >= 1` samples and strictly increasing event markers between 1 and
`N - 1` (no event at the final time), `fullRiccatiBackwardSweepWorker` returns, finds every
marker, and applies every event's terminal cost once: the value scalar at sample 0 is
`sFinal`, plus `(t[k+1] - t[k]) * q[k]` for every step `k` with `k + 1` not a marker, plus
`qFinal[j]` for every marker. -/
theorem fullRiccatiBackwardSweepWorker_value {n : Nat} (P : SweepModel α n)
    (SmFinal : Matrix (Fin n) (Fin n) α) (SvFinal SveFinal : Fin n → α) (sFinal : α)
    (stocks : SweepRun α n)
    (hN : 1 ≤ P.nominalTimeTrajectory.length)
    (hs : P.nominalEventsPastTheEndIndeces.Pairwise (fun a b => a < b))
    (hrange : ∀ e, e ∈ P.nominalEventsPastTheEndIndeces →
      1 ≤ e ∧ e < P.nominalTimeTrajectory.length)
    (hq : P.nominalTimeTrajectory.length ≤ P.qTrajectory.length)
    (hqF : P.nominalEventsPastTheEndIndeces.length ≤ P.qFinalStock.length)
    (hQv : P.nominalEventsPastTheEndIndeces.length ≤ P.QvFinalStock.length)
    (hQm : P.nominalEventsPastTheEndIndeces.length ≤ P.QmFinalStock.length) :
    ∃ r, fullRiccatiBackwardSweepWorker P SmFinal SvFinal SveFinal sFinal stocks = .ok r ∧
      r.sTrajectory[0]? = some (spec_sweepValue P sFinal) ∧ r.remainingEvents = 0 := by
  unfold fullRiccatiBackwardSweepWorker
  simp only []
  rw [updateAt_ok _ _ _ (by rw [resize_length]; omega), bind_ok,
    updateAt_ok _ _ _ (by rw [resize_length]; omega), bind_ok,
    updateAt_ok _ _ _ (by rw [resize_length]; omega), bind_ok,
    updateAt_ok _ _ _ (by rw [resize_length]; omega), bind_ok]
  obtain ⟨r, hrun, -, -, -, -, hr, hlow, -, hval⟩ := forRange_invariant
    (fullRiccatiBackwardSweepWorker_pass P P.nominalTimeTrajectory.length)
    (fun j st => sweepInvariant P sFinal j st)
    (P.nominalTimeTrajectory.length - 1) 0
    ⟨(resize stocks.SmTrajectory P.nominalTimeTrajectory.length 0).set
        (P.nominalTimeTrajectory.length - 1) SmFinal,
      (resize stocks.SvTrajectory P.nominalTimeTrajectory.length 0).set
        (P.nominalTimeTrajectory.length - 1) SvFinal,
      (resize stocks.SveTrajectory P.nominalTimeTrajectory.length 0).set
        (P.nominalTimeTrajectory.length - 1) SveFinal,
      (resize stocks.sTrajectory P.nominalTimeTrajectory.length 0).set
        (P.nominalTimeTrajectory.length - 1) sFinal,
      P.nominalEventsPastTheEndIndeces.length⟩
    (by
      refine ⟨by simp only [List.length_set]; exact resize_length _ _ _,
        by simp only [List.length_set]; exact resize_length _ _ _,
        by simp only [List.length_set]; exact resize_length _ _ _,
        by simp only [List.length_set]; exact resize_length _ _ _,
        Nat.le_refl _, fun i e _ he => ?_, fun i e hi he => ?_, ?_⟩
      · have := (hrange e (List.mem_iff_getElem?.mpr ⟨i, he⟩)).2
        omega
      · have := lt_length_of_getElem? _ _ _ he
        simp only at hi
        omega
      · simp only [Nat.sub_zero, Finset.Ico_self, Finset.sum_empty, add_zero]
        exact getElem?_set_self_of_lt _ _ _ (by rw [resize_length]; omega))
    (by
      intro j st _ hj hP
      exact fullRiccatiBackwardSweepWorker_pass_spec P sFinal hs hq hqF hQv hQm j (by omega)
        st hP)
  have hzero : P.nominalTimeTrajectory.length - 1 - (0 + (P.nominalTimeTrajectory.length - 1))
      = 0 := by omega
  rw [hzero] at hlow hval
  have hr0 : r.remainingEvents = 0 := by
    by_contra hne
    obtain ⟨e, he⟩ := getElem?_of_lt P.nominalEventsPastTheEndIndeces 0 (by omega)
    have h1 := hlow 0 e (by omega) he
    have h2 := (hrange e (List.mem_iff_getElem?.mpr ⟨0, he⟩)).1
    omega
  refine ⟨r, hrun, ?_, hr0⟩
  rw [hval, hr0]
  unfold spec_sweepValue
  simp only [Finset.range_eq_Ico]

/-- C23 fails on a partition with an event at the final time. With three samples, the markers
`1, 3` and the terminal costs `10, 100`, the sweep never finds `k + 1` equal to the last
marker 3, so its event counter stays at 2 and the marker 1 is not found either: the value
scalar at sample 0 is `sFinal` plus the two flow steps, 2, and `Sv` gets no `QvFinal`, while
applying every terminal cost once gives 111. Without the marker at the final time the marker 1
is found and its terminal cost 10 is added. -/
theorem fullRiccatiBackwardSweepWorker_skips_events :
    (∃ r, fullRiccatiBackwardSweepWorker finalEventSweep 0 0 0 0 ⟨[], [], [], [], 0⟩ = .ok r ∧
      r.sTrajectory = [2, 1, 0] ∧ r.remainingEvents = 2 ∧ r.SvTrajectory = [0, 0, 0]) ∧
    spec_sweepValue finalEventSweep 0 = 111 ∧
    (∃ r, fullRiccatiBackwardSweepWorker
        { finalEventSweep with nominalEventsPastTheEndIndeces := [1] } 0 0 0 0
        ⟨[], [], [], [], 0⟩ = .ok r ∧
      r.sTrajectory = [11, 1, 0] ∧ r.remainingEvents = 0) := by
  have h1 : fullRiccatiBackwardSweepWorker finalEventSweep 0 0 0 0 ⟨[], [], [], [], 0⟩
      = .ok ⟨[0, 0, 0], [0, 0, 0], [0, 0, 0], [2, 1, 0], 2⟩ := by
    simp [fullRiccatiBackwardSweepWorker, fullRiccatiBackwardSweepWorker_pass, forRange,
      finalEventSweep, resize, updateAt, indexAt, bind_ok]
    norm_num
  have h2 : fullRiccatiBackwardSweepWorker
      { finalEventSweep with nominalEventsPastTheEndIndeces := [1] } 0 0 0 0
      ⟨[], [], [], [], 0⟩
      = .ok ⟨[fun _ _ => 10, 0, 0], [fun _ => 10, 0, 0], [0, 0, 0], [11, 1, 0], 0⟩ := by
    simp [fullRiccatiBackwardSweepWorker, fullRiccatiBackwardSweepWorker_pass, forRange,
      finalEventSweep, resize, updateAt, indexAt, bind_ok]
    norm_num
  refine ⟨⟨_, h1, rfl, rfl, rfl⟩, ?_, ⟨_, h2, rfl, rfl⟩⟩
  simp [spec_sweepValue, finalEventSweep, Finset.sum_range_succ]
  norm_num

/-! ## The type-1 projection keeps the linearised constraint (C22) -/

theorem inverse_eq_inv {n : Nat} (A : Matrix (Fin n) (Fin n) α) : inverse A = A⁻¹ := by
  unfold inverse
  rw [Matrix.inv_def, Ring.inverse_eq_inv']

theorem det_ne_zero_of_kernel {n : Nat} (A : Matrix (Fin n) (Fin n) α)
    (h : ∀ x : Fin n → α, Matrix.mulVec A x = 0 → x = 0) : A.det ≠ 0 := by
  intro hdet
  obtain ⟨v, hv, hAv⟩ := Matrix.exists_mulVec_eq_zero_iff.mpr hdet
  exact hv (h v hAv)

theorem det_ne_zero_of_positiveDefinite {m : Nat} (M : Matrix (Fin m) (Fin m) α)
    (h : spec_positiveDefinite M) : M.det ≠ 0 := by
  apply det_ne_zero_of_kernel
  intro x hx
  by_contra hne
  have := h.2 x hne
  rw [hx, Matrix.dotProduct_zero] at this
  exact lt_irrefl _ this

/-- The matrix `D * Rm⁻¹ * Dᵀ` of a full-row-rank `D` and a positive definite `Rm` is
invertible. -/
theorem gram_det_ne_zero {k m : Nat} (Rm : Matrix (Fin m) (Fin m) α)
    (D : Matrix (Fin k) (Fin m) α) (hR : spec_positiveDefinite Rm) (hD : spec_fullRowRank D) :
    (D * inverse Rm * Dᵀ).det ≠ 0 := by
  have hdet := det_ne_zero_of_positiveDefinite Rm hR
  have hunit : IsUnit Rm.det := isUnit_iff_ne_zero.mpr hdet
  apply det_ne_zero_of_kernel
  intro y hy
  apply hD y
  set z := Matrix.mulVec Dᵀ y with hz
  set u := Matrix.mulVec Rm⁻¹ z with hu
  have hzu : z = Matrix.mulVec Rm u := by
    rw [hu, Matrix.mulVec_mulVec, Matrix.mul_nonsing_inv Rm hunit, Matrix.one_mulVec]
  have h0 : Matrix.dotProduct y (Matrix.mulVec (D * inverse Rm * Dᵀ) y) = 0 := by
    rw [hy, Matrix.dotProduct_zero]
  have h1 : Matrix.dotProduct y (Matrix.mulVec (D * inverse Rm * Dᵀ) y)
      = Matrix.dotProduct u (Matrix.mulVec Rm u) := by
    rw [inverse_eq_inv, ← Matrix.mulVec_mulVec, ← Matrix.mulVec_mulVec, ← hz, ← hu,
      Matrix.dotProduct_mulVec, ← Matrix.mulVec_transpose, ← hz, hzu, Matrix.dotProduct_comm]
  rw [h1] at h0
  have hu0 : u = 0 := by
    by_contra hne
    have := hR.2 u hne
    rw [h0] at this
    exact lt_irrefl _ this
  rw [hzu, hu0, Matrix.mulVec_zero]

/-- `D * DmDager = I` for `DmDager = Rm⁻¹ * Dᵀ * (D * Rm⁻¹ * Dᵀ)⁻¹`. -/
theorem mul_DmDager {k m : Nat} (Rm : Matrix (Fin m) (Fin m) α)
    (D : Matrix (Fin k) (Fin m) α) (hR : spec_positiveDefinite Rm) (hD : spec_fullRowRank D) :
    D * (inverse Rm * Dᵀ * inverse (D * inverse Rm * Dᵀ)) = 1 := by
  have hG := gram_det_ne_zero Rm D hR hD
  have hunit : IsUnit (D * inverse Rm * Dᵀ).det := isUnit_iff_ne_zero.mpr hG
  rw [← Matrix.mul_assoc, ← Matrix.mul_assoc, inverse_eq_inv (D * inverse Rm * Dᵀ),
    Matrix.mul_nonsing_inv _ hunit]

theorem leftCols_setLeftCols {m : Nat} (k : Nat) (hk : k ≤ m) (A : Matrix (Fin m) (Fin m) α)
    (B : Matrix (Fin m) (Fin k) α) : leftCols k (setLeftCols k A B) = B := by
  funext r c
  have hc : c.val < m := Nat.lt_of_lt_of_le c.isLt hk
  simp [leftCols, setLeftCols, hc]

/-- The projected stocks that the type-1 projection writes when constraints are active. -/
theorem approximateLQWorker_projection_active {n m : Nat} (settings : SLQ_Settings α)
    (s : LQSample α n m) (hnc : s.nc1 ≠ 0) :
    (approximateLQWorker_projection settings s).DmDager
      = setLeftCols s.nc1 s.DmDager (s.RmInverse * (topRows s.nc1 s.Dm)ᵀ
          * inverse (topRows s.nc1 s.Dm * s.RmInverse * (topRows s.nc1 s.Dm)ᵀ)) ∧
    (approximateLQWorker_projection settings s).EvProjected
      = Matrix.mulVec (s.RmInverse * (topRows s.nc1 s.Dm)ᵀ
          * inverse (topRows s.nc1 s.Dm * s.RmInverse * (topRows s.nc1 s.Dm)ᵀ))
          (head s.nc1 s.Ev) ∧
    (approximateLQWorker_projection settings s).CmProjected
      = s.RmInverse * (topRows s.nc1 s.Dm)ᵀ
          * inverse (topRows s.nc1 s.Dm * s.RmInverse * (topRows s.nc1 s.Dm)ᵀ)
          * topRows s.nc1 s.Cm ∧
    (approximateLQWorker_projection settings s).DmProjected
      = s.RmInverse * (topRows s.nc1 s.Dm)ᵀ
          * inverse (topRows s.nc1 s.Dm * s.RmInverse * (topRows s.nc1 s.Dm)ᵀ)
          * topRows s.nc1 s.Dm := by
  unfold approximateLQWorker_projection
  simp only
  rw [if_neg hnc]
  split <;> exact ⟨rfl, rfl, rfl, rfl⟩

/-- `D` annihilates the null-space projection `I - DmProjected` once `D * DmProjected = D`. -/
theorem mul_nullProjection {k m : Nat} (D : Matrix (Fin k) (Fin m) α)
    (P : Matrix (Fin m) (Fin m) α) (hP : D * P = D) : D * (-(1 - P)) = 0 := by
  rw [Matrix.mul_neg, Matrix.mul_sub, Matrix.mul_one, hP, sub_self, neg_zero]

/-- The gain and the increment of `calculateControllerWorker` keep the linearised type-1
constraint when `D * DmProjected = D` and `D * CmProjected = C`. -/
theorem calculateControllerWorker_constraint {k n m : Nat} (D : Matrix (Fin k) (Fin m) α)
    (C : Matrix (Fin k) (Fin n) α) (constraintStepSize_ : α) (d : ControllerSample α n m)
    (hP : D * d.DmProjected = D) (hC : D * d.CmProjected = C) :
    C + D * (calculateControllerWorker constraintStepSize_ d).1 = 0 ∧
    Matrix.mulVec D (calculateControllerWorker constraintStepSize_ d).2.2 = 0 := by
  have h0 := mul_nullProjection D d.DmProjected hP
  unfold calculateControllerWorker
  simp only
  constructor
  · rw [Matrix.mul_sub, ← Matrix.mul_assoc, h0, Matrix.zero_mul, hC, zero_sub, add_neg_cancel]
  · rw [Matrix.mulVec_mulVec, h0, Matrix.zero_mulVec]

/-- C22. For a sample with `nc1 > 0` active type-1 constraints (`nc1 <= INPUT_DIM`), input-cost
Hessian `Rm` symmetric positive definite and active constraint Jacobian `D` (the first `nc1`
rows of `Dm`) of full row rank, `approximateLQWorker` returns (given the range conditions on
the other counts and on the event stock), and the stocks it stores satisfy
`D * DmDager = I`, `D * DmProjected = D`, `D * CmProjected = C`, `D * EvProjected = Ev`
and `DmProjected * DmProjected = DmProjected`; the gain `K` and the increment `deltaUff` that
`calculateControllerWorker` computes from these stocks satisfy `C + D * K = 0` and
`D * deltaUff = 0`, whatever the other interpolated values (hence `Lm`, `Lv`) are. -/
theorem approximateLQWorker_projection_identities {n m : Nat}
    (eig : (n : Nat) → SelfAdjointEigenSolver α n)
    (settings : SLQ_Settings α) (iteration_ : Nat) (events : List Nat) (k : Nat)
    (d : ModelEvaluation α n m) (s : LQSample α n m) (fs : List (LQFinal α n m))
    (hnc : 0 < d.numStateInputConstraint)
    (h1 : d.numStateInputConstraint ≤ m) (h2 : d.numStateOnlyConstraint ≤ m)
    (h3 : d.numStateOnlyFinalConstraint ≤ m)
    (hev : ∀ ke, events.findIdx? (fun e => e == k + 1) = some ke → ke < fs.length)
    (hR : spec_positiveDefinite d.intermediateCostSecondDerivativeInput)
    (hD : spec_fullRowRank
      (topRows d.numStateInputConstraint d.constraint1DerivativesControl)) :
    ∃ r, approximateLQWorker eig settings iteration_ events k d s fs = .ok r ∧
      topRows d.numStateInputConstraint d.constraint1DerivativesControl
        * leftCols d.numStateInputConstraint r.1.DmDager = 1 ∧
      topRows d.numStateInputConstraint d.constraint1DerivativesControl * r.1.DmProjected
        = topRows d.numStateInputConstraint d.constraint1DerivativesControl ∧
      topRows d.numStateInputConstraint d.constraint1DerivativesControl * r.1.CmProjected
        = topRows d.numStateInputConstraint d.constraint1DerivativesState ∧
      Matrix.mulVec (topRows d.numStateInputConstraint d.constraint1DerivativesControl)
          r.1.EvProjected
        = head d.numStateInputConstraint d.constraint1 ∧
      r.1.DmProjected * r.1.DmProjected = r.1.DmProjected ∧
      ∀ (constraintStepSize_ : α) (c : ControllerSample α n m),
        c.CmProjected = r.1.CmProjected → c.DmProjected = r.1.DmProjected →
        topRows d.numStateInputConstraint d.constraint1DerivativesState
            + topRows d.numStateInputConstraint d.constraint1DerivativesControl
              * (calculateControllerWorker constraintStepSize_ c).1 = 0 ∧
        Matrix.mulVec (topRows d.numStateInputConstraint d.constraint1DerivativesControl)
            (calculateControllerWorker constraintStepSize_ c).2.2 = 0 := by
  obtain ⟨r, hr⟩ := approximateLQWorker_returns eig settings iteration_ events k d s fs h1 h2
    h3 hev
  obtain ⟨-, -, hrep, -⟩ := approximateLQWorker_sample eig settings iteration_ events k d s fs
    r hr
  rw [approximateLQWorker_repair_eq] at hrep
  have hrep := Except.ok.inj hrep
  -- the sample before the projection
  generalize hs0 : approximateLQWorker_penalty settings iteration_
    (approximateLQWorker_evaluate d s) = s0 at hrep
  have hpos : d.numStateInputConstraint > 0 := hnc
  have e0 : s0.nc1 = d.numStateInputConstraint ∧ s0.Dm = d.constraint1DerivativesControl ∧
      s0.Cm = d.constraint1DerivativesState ∧ s0.Ev = d.constraint1 ∧
      s0.RmInverse = inverse d.intermediateCostSecondDerivativeInput := by
    rw [← hs0]
    unfold approximateLQWorker_penalty approximateLQWorker_evaluate
    simp only [hpos, if_true]
    split <;> exact ⟨rfl, rfl, rfl, rfl, rfl⟩
  obtain ⟨e1, e2, e3, e4, e5⟩ := e0
  obtain ⟨p1, p2, p3, p4⟩ := approximateLQWorker_projection_active settings s0
    (by rw [e1]; exact Nat.pos_iff_ne_zero.mp hnc)
  rw [e1, e2, e5] at p1 p4
  rw [e1, e2, e4, e5] at p2
  rw [e1, e2, e3, e5] at p3
  -- the repair leaves the projected stocks
  have q : r.1.DmDager = (approximateLQWorker_projection settings s0).DmDager ∧
      r.1.EvProjected = (approximateLQWorker_projection settings s0).EvProjected ∧
      r.1.CmProjected = (approximateLQWorker_projection settings s0).CmProjected ∧
      r.1.DmProjected = (approximateLQWorker_projection settings s0).DmProjected := by
    rw [← hrep]
    split <;> exact ⟨rfl, rfl, rfl, rfl⟩
  obtain ⟨q1, q2, q3, q4⟩ := q
  rw [p1] at q1
  rw [p2] at q2
  rw [p3] at q3
  rw [p4] at q4
  have hI := mul_DmDager d.intermediateCostSecondDerivativeInput
    (topRows d.numStateInputConstraint d.constraint1DerivativesControl) hR hD
  generalize topRows d.numStateInputConstraint d.constraint1DerivativesControl = D at *
  generalize topRows d.numStateInputConstraint d.constraint1DerivativesState = C at *
  generalize inverse d.intermediateCostSecondDerivativeInput * Dᵀ
    * inverse (D * inverse d.intermediateCostSecondDerivativeInput * Dᵀ) = Dd at *
  have hDP : D * r.1.DmProjected = D := by
    rw [q4, ← Matrix.mul_assoc, hI, Matrix.one_mul]
  have hDC : D * r.1.CmProjected = C := by
    rw [q3, ← Matrix.mul_assoc, hI, Matrix.one_mul]
  refine ⟨r, hr, ?_, hDP, hDC, ?_, ?_, fun step c hc hp => ?_⟩
  · rw [q1, leftCols_setLeftCols _ h1]
    exact hI
  · rw [q2, Matrix.mulVec_mulVec, hI, Matrix.one_mulVec]
  · rw [q4, Matrix.mul_assoc, ← Matrix.mul_assoc D, hI, Matrix.one_mul]
  · exact calculateControllerWorker_constraint D C step c (by rw [hp]; exact hDP)
      (by rw [hc]; exact hDC)

theorem spec_positiveDefinite_one {m : Nat} :
    spec_positiveDefinite (1 : Matrix (Fin m) (Fin m) α) := by
  refine ⟨Matrix.transpose_one, fun x hx => ?_⟩
  rw [Matrix.one_mulVec]
  have hnonneg : 0 ≤ Matrix.dotProduct x x :=
    Finset.sum_nonneg (fun i _ => mul_self_nonneg (x i))
  have hne : Matrix.dotProduct x x ≠ 0 := fun h => hx (Matrix.dotProduct_self_eq_zero.mp h)
  exact lt_of_le_of_ne hnonneg (Ne.symm hne)

theorem constrainedModel_fullRowRank :
    spec_fullRowRank (topRows 1 constrainedModel.constraint1DerivativesControl) := by
  intro y hy
  have h0 := congrFun hy 0
  funext j
  have hj : j = 0 := Subsingleton.elim j 0
  rw [hj]
  simpa [Matrix.mulVec, Matrix.dotProduct, topRows, constrainedModel] using h0

theorem approximateLQWorker_projection_identities_witness :
    ∃ r, approximateLQWorker diagonalEigenSolver psdSettings 0 [] 0 constrainedModel
        (zeroSample ℚ 1 2) [] = .ok r ∧
      topRows 1 constrainedModel.constraint1DerivativesControl * r.1.DmProjected
        = topRows 1 constrainedModel.constraint1DerivativesControl ∧
      topRows 1 constrainedModel.constraint1DerivativesControl * r.1.CmProjected
        = topRows 1 constrainedModel.constraint1DerivativesState ∧
      r.1.DmProjected * r.1.DmProjected = r.1.DmProjected := by
  obtain ⟨r, hr, -, h2, h3, -, h5, -⟩ := approximateLQWorker_projection_identities
    diagonalEigenSolver psdSettings 0 [] 0 constrainedModel (zeroSample ℚ 1 2) []
    (by decide) (by decide) (by decide) (by decide) (fun ke h => by simp at h)
    spec_positiveDefinite_one constrainedModel_fullRowRank
  exact ⟨r, hr, h2, h3, h5⟩

end SLQ
